import Mathlib

/-!
# Sidetree core: operation replay engine (`pkg/processor/processor.go`)

A shallow embedding of the resolver of `sidetree-core-go` and theorems about it.

Modelling conventions

* Go slices of `*operation.AnchoredOperation` are Lean lists of values; every `append`
  is taken to produce a fresh slice, so the in-place sort of the combined list
  (`processor.go` line 89) does not write through to `publishedOps`.
* `uint64` transaction coordinates are natural numbers; they are only compared.
* A Go `error` is its message (`String`); a `(value, error)` result is an `Except`,
  except for the two stores, whose `Get` result is kept as the Go pair because
  `Resolve` goes on using the value when the error is "not found".
* Go maps keyed by commitment are modelled by their lookup function
  (`String → Option _`) or, for the set of processed commitments, by the list of
  keys in the order in which they were set.
* The collaborators (operation store, unpublished-operation store, protocol client,
  parser, applier, `commitment.GetCommitmentFromRevealValue`) are parameters.
* `applyOperations` contains a loop that does not terminate for every applier; it
  takes a fuel argument and reports `Fault.outOfFuel` when the fuel is used up.
* Logging is omitted.  The functions additionally return the list of operations
  that were handed to the applier, and `Resolve` the commitments marked as
  processed by each phase; these outputs are observations, not program state.
-/

/-- Modelled from the spec: the declaration of `operation.AnchoredOperation`
(package `pkg/api/operation`) is not among the sources; the fields are those of the
data model (section 3) that the code reads.  `OperationRequest` is a byte string. -/
structure AnchoredOperation where
  Type_ : String
  UniqueSuffix : String
  OperationRequest : List Nat
  TransactionTime : Nat
  TransactionNumber : Nat
  ProtocolVersion : Nat
  ProtocolGenesisTime : Nat
  CanonicalReference : String
  EquivalentReferences : List String
  AnchorOrigin : Option String
deriving DecidableEq, Repr

/-- Modelled from the spec: the operation type constants of `pkg/api/operation`
(Type ∈ {Create, Update, Recover, Deactivate}); `operation.Type` is a string type. -/
def TypeCreate : String := "create"

/-- Modelled from the spec: operation type constant, see `TypeCreate`. -/
def TypeUpdate : String := "update"

/-- Modelled from the spec: operation type constant, see `TypeCreate`. -/
def TypeRecover : String := "recover"

/-- Modelled from the spec: operation type constant, see `TypeCreate`. -/
def TypeDeactivate : String := "deactivate"

/-- Modelled from the spec: the declaration of `protocol.ResolutionModel`
(package `pkg/api/protocol`) is not among the sources; the fields are those of the
data model (section 3).  `Doc` and `AnchorOrigin` are opaque and may be nil. -/
structure ResolutionModel where
  Doc : Option String
  LastOperationTransactionTime : Nat
  LastOperationTransactionNumber : Nat
  UpdateCommitment : String
  RecoveryCommitment : String
  Deactivated : Bool
  AnchorOrigin : Option String
  VersionID : String
  PublishedOperations : List AnchoredOperation
  UnpublishedOperations : List AnchoredOperation
deriving DecidableEq, Repr

/-- The per-version protocol bundle as far as the resolver uses it: the operation
parser's `GetRevealValue` and `GetCommitment` and the operation applier's `Apply`. -/
structure Protocol where
  GetRevealValue : List Nat → Except String String
  GetCommitment : List Nat → Except String String
  Apply : AnchoredOperation → ResolutionModel → Except String ResolutionModel

deriving instance DecidableEq for Except

/-- Ways in which a run of the model ends without a Go return value. -/
inductive Fault where
  | outOfFuel
  | indexOutOfRange
deriving DecidableEq, Repr

/-- The Go function `strings.Contains`. -/
def stringsContains (s substr : String) : Bool :=
  decide (substr.toList <:+: s.toList)

namespace processor

/-- The struct `OperationProcessor` (lines 26-32).  `store` and
`unpublishedOperationStore` are the `Get` methods of the two store interfaces, `pc`
is `protocol.Client.Get`; `GetCommitmentFromRevealValue` is the function of package
`commitment`, which is not among the sources and is taken as a parameter. -/
structure OperationProcessor where
  name : String
  store : String → List AnchoredOperation × Option String
  pc : Nat → Except String Protocol
  unpublishedOperationStore : String → List AnchoredOperation × Option String
  GetCommitmentFromRevealValue : String → Except String String

/-- The method `noopUnpublishedOpsStore.Get` (lines 406-408). -/
def noopUnpublishedOpsStore (_ : String) : List AnchoredOperation × Option String :=
  ([], some "not found")

/-- The option `WithUnpublishedOperationStore` (lines 61-65). -/
def WithUnpublishedOperationStore
    (store : String → List AnchoredOperation × Option String) :
    OperationProcessor → OperationProcessor :=
  fun opts => { opts with unpublishedOperationStore := store }

/-- The constructor `New` (lines 46-55). -/
def New (name : String) (store : String → List AnchoredOperation × Option String)
    (pc : Nat → Except String Protocol)
    (GetCommitmentFromRevealValue : String → Except String String)
    (opts : List (OperationProcessor → OperationProcessor)) : OperationProcessor :=
  opts.foldl (fun op opt => opt op)
    { name := name, store := store, pc := pc,
      unpublishedOperationStore := noopUnpublishedOpsStore,
      GetCommitmentFromRevealValue := GetCommitmentFromRevealValue }

/-- An operation with the given type, coordinates and canonical reference, used in
examples. -/
def exampleOpAt (type : String) (time number : Nat) (ref : String) : AnchoredOperation :=
  { Type_ := type, UniqueSuffix := "s", OperationRequest := [], TransactionTime := time,
    TransactionNumber := number, ProtocolVersion := 0, ProtocolGenesisTime := 0,
    CanonicalReference := ref, EquivalentReferences := [], AnchorOrigin := none }

/-- The comparison function that `sortOperations` passes to `sort.Slice`
(lines 363-369). -/
def sortLess (a b : AnchoredOperation) : Bool :=
  if a.TransactionTime < b.TransactionTime then true
  else decide (a.TransactionNumber < b.TransactionNumber)

/-- One run of the inner loop of the insertion sort of Go's `sort` package
(`for j := i; j > a && less(j, j-1); j-- { swap(j, j-1) }`): the element `x` at
index `i` moves left past every element it is `less` than.  The already processed
prefix is given in reverse order (its last element first). -/
def insertLeft (less : AnchoredOperation → AnchoredOperation → Bool)
    (x : AnchoredOperation) : List AnchoredOperation → List AnchoredOperation
  | [] => [x]
  | y :: prefixRev => if less x y then y :: insertLeft less x prefixRev else x :: y :: prefixRev

/-- The function `sort.Slice` of the Go standard library, as it runs on slices of at
most 12 elements: the insertion sort `for i := a + 1; i < b; i++ { ... }` around the
inner loop `insertLeft`.  It keeps elements that the comparison does not order in
their input order (the stable sort the specification asks for). -/
def sortSlice (less : AnchoredOperation → AnchoredOperation → Bool)
    (ops : List AnchoredOperation) : List AnchoredOperation :=
  (ops.foldl (fun prefixRev x => insertLeft less x prefixRev) []).reverse

/-- The function `sortOperations` (lines 362-370). -/
def sortOperations (ops : List AnchoredOperation) : List AnchoredOperation :=
  sortSlice sortLess ops

/-- The function `getCanonicalMap` (lines 145-153); the map is its lookup function. -/
def getCanonicalMap (published : List AnchoredOperation) : String → Option Bool :=
  published.foldl
    (fun canonicalMap op => fun k => if k = op.CanonicalReference then some true else canonicalMap k)
    (fun _ => none)

/-- The loop of `addAdditionalOperations` (lines 131-137). -/
def addAdditionalLoop (canonicalIds : String → Option Bool) :
    List AnchoredOperation → List AnchoredOperation → List AnchoredOperation →
    List AnchoredOperation × List AnchoredOperation
  | published, unpublished, [] => (published, unpublished)
  | published, unpublished, op :: additional =>
    if op.CanonicalReference = "" then
      addAdditionalLoop canonicalIds published (unpublished ++ [op]) additional
    else if (canonicalIds op.CanonicalReference).isNone then
      addAdditionalLoop canonicalIds (published ++ [op]) unpublished additional
    else
      addAdditionalLoop canonicalIds published unpublished additional

/-- The function `addAdditionalOperations` (lines 128-143). -/
def addAdditionalOperations (published unpublished additional : List AnchoredOperation) :
    List AnchoredOperation × List AnchoredOperation :=
  let canonicalIds := getCanonicalMap published
  let r := addAdditionalLoop canonicalIds published unpublished additional
  (sortOperations r.1, sortOperations r.2)

/-- The function `splitOperations` (lines 179-194); the result is
`(createOps, updateOps, fullOps)`. -/
def splitOperations : List AnchoredOperation →
    List AnchoredOperation × List AnchoredOperation × List AnchoredOperation
  | [] => ([], [], [])
  | op :: ops =>
    let r := splitOperations ops
    if op.Type_ = TypeCreate then (op :: r.1, r.2.1, r.2.2)
    else if op.Type_ = TypeUpdate then (r.1, op :: r.2.1, r.2.2)
    else if op.Type_ = TypeRecover then (r.1, r.2.1, op :: r.2.2)
    else if op.Type_ = TypeDeactivate then (r.1, r.2.1, op :: r.2.2)
    else r

/-- The function `isOpWithTxnGreaterThanOrUnpublished` (lines 208-226). -/
def isOpWithTxnGreaterThanOrUnpublished (op : AnchoredOperation) (txnTime txnNumber : Nat) :
    Bool :=
  if op.CanonicalReference = "" then true
  else if op.TransactionTime < txnTime then false
  else if op.TransactionTime > txnTime then true
  else if op.TransactionNumber > txnNumber then true
  else false

/-- The function `getOpsWithTxnGreaterThanOrUnpublished` (lines 196-206). -/
def getOpsWithTxnGreaterThanOrUnpublished :
    List AnchoredOperation → Nat → Nat → List AnchoredOperation
  | [], _, _ => []
  | op :: ops, txnTime, txnNumber =>
    if isOpWithTxnGreaterThanOrUnpublished op txnTime txnNumber then
      op :: getOpsWithTxnGreaterThanOrUnpublished ops txnTime txnNumber
    else getOpsWithTxnGreaterThanOrUnpublished ops txnTime txnNumber

/-- The function `getUpdateCommitment` (lines 283-285). -/
def getUpdateCommitment (rm : ResolutionModel) : String := rm.UpdateCommitment

/-- The function `getRecoveryCommitment` (lines 287-289). -/
def getRecoveryCommitment (rm : ResolutionModel) : String := rm.RecoveryCommitment

/-- The method `getRevealValue` (lines 372-388). -/
def getRevealValue (s : OperationProcessor) (op : AnchoredOperation) : Except String String :=
  if op.Type_ = TypeCreate then .error "create operation doesn't have reveal value"
  else
    match s.pc op.ProtocolVersion with
    | .error e => .error ("get operation reveal value - retrieve protocol: " ++ e)
    | .ok p =>
      match p.GetRevealValue op.OperationRequest with
      | .error e => .error ("get operation reveal value from operation parser: " ++ e)
      | .ok rv => .ok rv

/-- The method `getCommitment` (lines 390-402). -/
def getCommitment (s : OperationProcessor) (op : AnchoredOperation) : Except String String :=
  match s.pc op.ProtocolVersion with
  | .error e => .error ("get next operation commitment: " ++ e)
  | .ok p =>
    match p.GetCommitment op.OperationRequest with
    | .error e => .error ("get commitment from operation parser: " ++ e)
    | .ok nextCommitment => .ok nextCommitment

/-- The method `applyOperation` (lines 353-360).  The second component lists the
operation when the applier's `Apply` was invoked on it. -/
def applyOperation (s : OperationProcessor) (op : AnchoredOperation) (rm : ResolutionModel) :
    Except String ResolutionModel × List AnchoredOperation :=
  match s.pc op.ProtocolVersion with
  | .error e => (.error ("apply '" ++ op.Type_ ++ "' operation: " ++ e), [])
  | .ok p => (p.Apply op rm, [op])

/-- The key under which `createOperationHashMap` files an operation (lines 159-171):
the commitment of its reveal value; an error when the operation is skipped. -/
def revealCommitment (s : OperationProcessor) (op : AnchoredOperation) : Except String String :=
  match getRevealValue s op with
  | .error e => .error e
  | .ok rv => s.GetCommitmentFromRevealValue rv

/-- The method `createOperationHashMap` (lines 155-177); the map is its lookup
function. -/
def createOperationHashMap (s : OperationProcessor) (ops : List AnchoredOperation) :
    String → Option (List AnchoredOperation) :=
  ops.foldl
    (fun opMap op =>
      match revealCommitment s op with
      | .error _ => opMap
      | .ok c => fun k => if k = c then some ((opMap c).getD [] ++ [op]) else opMap k)
    (fun _ => none)

/-- The method `applyFirstValidCreateOperation` (lines 291-308); `none` is the nil
result.  The second component lists the operations handed to the applier. -/
def applyFirstValidCreateOperation (s : OperationProcessor) :
    List AnchoredOperation → ResolutionModel → Option ResolutionModel × List AnchoredOperation
  | [], _ => (none, [])
  | op :: createOps, rm =>
    match applyOperation s op rm with
    | (.error _, applied) =>
      let r := applyFirstValidCreateOperation s createOps rm
      (r.1, applied ++ r.2)
    | (.ok state, applied) => (some state, applied)

/-- The method `applyFirstValidOperation` (lines 311-351); `none` is the nil result,
`processedCommitments` lists the keys of the Go map.  The second component lists the
operations handed to the applier. -/
def applyFirstValidOperation (s : OperationProcessor) :
    List AnchoredOperation → ResolutionModel → String → List String →
    Option ResolutionModel × List AnchoredOperation
  | [], _, _, _ => (none, [])
  | op :: ops, rm, currCommitment, processedCommitments =>
    match getCommitment s op with
    | .error _ => applyFirstValidOperation s ops rm currCommitment processedCommitments
    | .ok nextCommitment =>
      if currCommitment = nextCommitment then
        applyFirstValidOperation s ops rm currCommitment processedCommitments
      else if nextCommitment ≠ "" ∧ nextCommitment ∈ processedCommitments then
        applyFirstValidOperation s ops rm currCommitment processedCommitments
      else
        match applyOperation s op rm with
        | (.error _, applied) =>
          let r := applyFirstValidOperation s ops rm currCommitment processedCommitments
          (r.1, applied ++ r.2)
        | (.ok state, applied) => (some state, applied)

/-- What a run of `applyOperations` leaves: the returned state, the keys of
`commitmentMap` in the order in which they were set (line 256), and the operations
handed to the applier. -/
structure PhaseRun where
  state : ResolutionModel
  commitmentMap : List String
  applied : List AnchoredOperation
deriving DecidableEq, Repr

/-- The loop `for ok { ... }` of `applyOperations` (lines 243-272), entered with
`ok = true`; one unit of fuel per iteration. -/
def applyOperationsLoop (s : OperationProcessor)
    (opMap : String → Option (List AnchoredOperation))
    (commitmentFnc : ResolutionModel → String) :
    Nat → ResolutionModel → String → List AnchoredOperation → List String →
    List AnchoredOperation → Except Fault PhaseRun
  | 0, _, _, _, _, _ => .error Fault.outOfFuel
  | fuel + 1, state, c, commitmentOps, commitmentMap, applied =>
    match applyFirstValidOperation s commitmentOps state c commitmentMap with
    | (none, a) => .ok ⟨state, commitmentMap, applied ++ a⟩
    | (some newState, a) =>
      if commitmentFnc newState = "" then
        .ok ⟨newState, commitmentMap ++ [c], applied ++ a⟩
      else
        match opMap (commitmentFnc newState) with
        | none => .ok ⟨newState, commitmentMap ++ [c], applied ++ a⟩
        | some commitmentOps' =>
          applyOperationsLoop s opMap commitmentFnc fuel newState (commitmentFnc newState)
            commitmentOps' (commitmentMap ++ [c]) (applied ++ a)

/-- The method `applyOperations` (lines 228-279).  Reading `ops[0]` (line 230) fails
on an empty list. -/
def applyOperations (s : OperationProcessor) (fuel : Nat) (ops : List AnchoredOperation)
    (rm : ResolutionModel) (commitmentFnc : ResolutionModel → String) :
    Except Fault PhaseRun :=
  match ops with
  | [] => .error Fault.indexOutOfRange
  | _ :: _ =>
    match createOperationHashMap s ops (commitmentFnc rm) with
    | none => .ok ⟨rm, [], []⟩
    | some commitmentOps =>
      applyOperationsLoop s (createOperationHashMap s ops) commitmentFnc fuel rm
        (commitmentFnc rm) commitmentOps [] []

/-- What a run of `Resolve` leaves: the Go result `(rm, err)`, whether the
unpublished-operation store was read, the operations handed to the applier (in call
order), and the commitments marked as processed by the full-operation phase and by
the update phase. -/
structure ResolveRun where
  result : Except String ResolutionModel
  unpublishedStoreRead : Bool
  applied : List AnchoredOperation
  consumedFull : List String
  consumedUpdate : List String
deriving DecidableEq, Repr

/-- The unpublished operations of `Resolve` before the additional ones are added
(lines 76-83): the store's list when its `Get` returns no error, else empty. -/
def storedUnpublished (s : OperationProcessor) (uniqueSuffix : String) :
    List AnchoredOperation :=
  if (s.unpublishedOperationStore uniqueSuffix).2 = none then
    (s.unpublishedOperationStore uniqueSuffix).1
  else []

/-- The lists `publishedOps` and `unpublishedOps` of `Resolve` after line 85. -/
def gatheredOperations (s : OperationProcessor) (uniqueSuffix : String)
    (additionalOps : List AnchoredOperation) :
    List AnchoredOperation × List AnchoredOperation :=
  addAdditionalOperations (s.store uniqueSuffix).1 (storedUnpublished s uniqueSuffix)
    additionalOps

/-- The list `ops` of `Resolve` after line 89: the combined list that is split and
replayed. -/
def combinedOperations (publishedOps unpublishedOps : List AnchoredOperation) :
    List AnchoredOperation :=
  sortOperations (publishedOps ++ unpublishedOps)

/-- The resolution model that `Resolve` builds at line 93. -/
def initialModel (publishedOps unpublishedOps : List AnchoredOperation) : ResolutionModel :=
  { Doc := none, LastOperationTransactionTime := 0, LastOperationTransactionNumber := 0,
    UpdateCommitment := "", RecoveryCommitment := "", Deactivated := false,
    AnchorOrigin := none, VersionID := "",
    PublishedOperations := publishedOps, UnpublishedOperations := unpublishedOps }

/-- Lines 118-125 of `Resolve`: the update phase, entered with the state `rm`, the
operations `applied` so far and the commitments `consumedFull` of the full phase. -/
def resolveUpdates (s : OperationProcessor) (fuel : Nat) (updateOps : List AnchoredOperation)
    (rm : ResolutionModel) (applied : List AnchoredOperation) (consumedFull : List String) :
    Except Fault ResolveRun :=
  let filteredUpdateOps := getOpsWithTxnGreaterThanOrUnpublished updateOps
    rm.LastOperationTransactionTime rm.LastOperationTransactionNumber
  if filteredUpdateOps.length > 0 then
    match applyOperations s fuel filteredUpdateOps rm getUpdateCommitment with
    | .error f => .error f
    | .ok run => .ok ⟨.ok run.state, true, applied ++ run.applied, consumedFull, run.commitmentMap⟩
  else .ok ⟨.ok rm, true, applied, consumedFull, []⟩

/-- Lines 107-125 of `Resolve`: the full-operation phase, the early return on a
deactivated document, and the update phase. -/
def resolveFull (s : OperationProcessor) (fuel : Nat) (updateOps fullOps : List AnchoredOperation)
    (rm : ResolutionModel) (applied : List AnchoredOperation) : Except Fault ResolveRun :=
  if fullOps.length > 0 then
    match applyOperations s fuel fullOps rm getRecoveryCommitment with
    | .error f => .error f
    | .ok run =>
      if run.state.Deactivated then
        .ok ⟨.ok run.state, true, applied ++ run.applied, run.commitmentMap, []⟩
      else
        resolveUpdates s fuel updateOps run.state (applied ++ run.applied) run.commitmentMap
  else resolveUpdates s fuel updateOps rm applied []

/-- Lines 87-125 of `Resolve`: the replay of the gathered operations. -/
def resolveGathered (s : OperationProcessor) (fuel : Nat)
    (publishedOps unpublishedOps : List AnchoredOperation) : Except Fault ResolveRun :=
  let ops := combinedOperations publishedOps unpublishedOps
  let rm := initialModel publishedOps unpublishedOps
  let split := splitOperations ops
  if split.1.length = 0 then
    .ok ⟨.error "create operation not found", true, [], [], []⟩
  else
    match applyFirstValidCreateOperation s split.1 rm with
    | (none, applied) => .ok ⟨.error "valid create operation not found", true, applied, [], []⟩
    | (some rm', applied) => resolveFull s fuel split.2.1 split.2.2 rm' applied

/-- The method `Resolve` (lines 70-126). -/
def Resolve (s : OperationProcessor) (fuel : Nat) (uniqueSuffix : String)
    (additionalOps : List AnchoredOperation) : Except Fault ResolveRun :=
  match (s.store uniqueSuffix).2 with
  | some err =>
    if !stringsContains err "not found" then .ok ⟨.error err, false, [], [], []⟩
    else
      resolveGathered s fuel (gatheredOperations s uniqueSuffix additionalOps).1
        (gatheredOperations s uniqueSuffix additionalOps).2
  | none =>
    resolveGathered s fuel (gatheredOperations s uniqueSuffix additionalOps).1
      (gatheredOperations s uniqueSuffix additionalOps).2

end processor

namespace metadata

/-- The function `sortOperations` of package `metadata` (`metadata.go` lines 115-123);
its text is that of the resolver's function. -/
def sortOperations (ops : List AnchoredOperation) : List AnchoredOperation :=
  processor.sortSlice
    (fun a b =>
      if a.TransactionTime < b.TransactionTime then true
      else decide (a.TransactionNumber < b.TransactionNumber))
    ops

/-! ## Document metadata (`metadata.go`, lines 18-113 and 125-219)

Modelling conventions

* A Go map with string keys (`document.Metadata`, `protocol.TransformationInfo`) is its
  lookup function: `m k = none` when `m` has no entry for `k`.  A nil
  `TransformationInfo` and a nil `*ResolutionModel` are `none`.
* The values stored in these maps have type `interface{}`; `Value` lists the values
  that `CreateDocumentMetadata` stores in the method sub-map, `DocValue` those that it
  stores at the top level.
* The property names of package `document` are not among the sources and are taken as
  a parameter (`Properties`).
* `getPublishedOperations` and `getUnpublishedOperations` sort the slice they are given
  in place; the model returns their result only.
-/

/-- The property names that `CreateDocumentMetadata` takes from package `document`
(constants such as `document.PublishedProperty`). -/
structure Properties where
  PublishedProperty : String
  RecoveryCommitmentProperty : String
  UpdateCommitmentProperty : String
  AnchorOriginProperty : String
  UnpublishedOperationsProperty : String
  PublishedOperationsProperty : String
  MethodProperty : String
  DeactivatedProperty : String
  CanonicalIDProperty : String
  EquivalentIDProperty : String
  VersionIDProperty : String
deriving DecidableEq, Repr

/-- The struct `PublishedOperation` (lines 175-200). -/
structure PublishedOperation where
  Type_ : String
  OperationRequest : List Nat
  TransactionTime : Nat
  TransactionNumber : Nat
  ProtocolVersion : Nat
  CanonicalReference : String
  EquivalentReferences : List String
  AnchorOrigin : Option String
deriving DecidableEq, Repr

/-- The struct `UnpublishedOperation` (lines 203-219). -/
structure UnpublishedOperation where
  Type_ : String
  OperationRequest : List Nat
  TransactionTime : Nat
  ProtocolVersion : Nat
  AnchorOrigin : Option String
deriving DecidableEq, Repr

/-- A value of type `interface{}` in a transformation info or in the method sub-map:
`any` stands for a value that this package does not build (an entry of the
transformation info, an anchor origin). -/
inductive Value where
  | any (v : String)
  | string (s : String)
  | publishedOperations (ops : List PublishedOperation)
  | unpublishedOperations (ops : List UnpublishedOperation)
deriving DecidableEq, Repr

/-- A value stored at the top level of the document metadata: a value as above, the
boolean of `deactivated`, or the method sub-map. -/
inductive DocValue where
  | value (v : Value)
  | bool (b : Bool)
  | metadata (m : String → Option Value)

/-- The empty map, `make(document.Metadata)`. -/
def emptyMap {α : Type} : String → Option α :=
  fun _ => none

/-- The map assignment `m[key] = value`. -/
def mapSet {α : Type} (m : String → Option α) (key : String) (value : α) :
    String → Option α :=
  fun k => if k = key then some value else m k

/-- The struct `Metadata` (lines 19-22). -/
structure Metadata where
  includePublishedOperations : Bool
  includeUnpublishedOperations : Bool
deriving DecidableEq, Repr

/-- The constructor `New` (lines 28-37). -/
def New (opts : List (Metadata → Metadata)) : Metadata :=
  opts.foldl (fun md opt => opt md)
    { includePublishedOperations := false, includeUnpublishedOperations := false }

/-- The option `WithIncludePublishedOperations` (lines 40-44). -/
def WithIncludePublishedOperations (enabled : Bool) : Metadata → Metadata :=
  fun opts => { opts with includePublishedOperations := enabled }

/-- The option `WithIncludeUnpublishedOperations` (lines 47-51). -/
def WithIncludeUnpublishedOperations (enabled : Bool) : Metadata → Metadata :=
  fun opts => { opts with includeUnpublishedOperations := enabled }

/-- The loop of `getPublishedOperations` (lines 133-150); `uniqueOps` lists the keys of
the Go map. -/
def getPublishedOperationsLoop :
    List AnchoredOperation → List String → List PublishedOperation → List PublishedOperation
  | [], _, publishedOps => publishedOps
  | op :: ops, uniqueOps, publishedOps =>
    if op.CanonicalReference ∉ uniqueOps then
      getPublishedOperationsLoop ops (uniqueOps ++ [op.CanonicalReference])
        (publishedOps ++
          [{ Type_ := op.Type_, OperationRequest := op.OperationRequest,
             TransactionTime := op.TransactionTime,
             TransactionNumber := op.TransactionNumber,
             ProtocolVersion := op.ProtocolVersion,
             CanonicalReference := op.CanonicalReference,
             EquivalentReferences := op.EquivalentReferences,
             AnchorOrigin := op.AnchorOrigin }])
    else getPublishedOperationsLoop ops uniqueOps publishedOps

/-- The function `getPublishedOperations` (lines 126-153). -/
def getPublishedOperations (ops : List AnchoredOperation) : List PublishedOperation :=
  getPublishedOperationsLoop (sortOperations ops) [] []

/-- The function `getUnpublishedOperations` (lines 156-172). -/
def getUnpublishedOperations (ops : List AnchoredOperation) : List UnpublishedOperation :=
  (sortOperations ops).map
    (fun op =>
      { Type_ := op.Type_, OperationRequest := op.OperationRequest,
        TransactionTime := op.TransactionTime, ProtocolVersion := op.ProtocolVersion,
        AnchorOrigin := op.AnchorOrigin })

/-- The method sub-map that `CreateDocumentMetadata` builds in lines 68-89. -/
def methodMetadata (props : Properties) (t : Metadata) (rm : ResolutionModel)
    (published : Value) : String → Option Value :=
  let m₀ := mapSet emptyMap props.PublishedProperty published
  let m₁ :=
    if rm.RecoveryCommitment ≠ "" then
      mapSet m₀ props.RecoveryCommitmentProperty (Value.string rm.RecoveryCommitment)
    else m₀
  let m₂ :=
    if rm.UpdateCommitment ≠ "" then
      mapSet m₁ props.UpdateCommitmentProperty (Value.string rm.UpdateCommitment)
    else m₁
  let m₃ :=
    match rm.AnchorOrigin with
    | some anchorOrigin => mapSet m₂ props.AnchorOriginProperty (Value.any anchorOrigin)
    | none => m₂
  let m₄ :=
    if t.includeUnpublishedOperations = true ∧ rm.UnpublishedOperations.length > 0 then
      mapSet m₃ props.UnpublishedOperationsProperty
        (Value.unpublishedOperations (getUnpublishedOperations rm.UnpublishedOperations))
    else m₃
  if t.includePublishedOperations = true ∧ rm.PublishedOperations.length > 0 then
    mapSet m₄ props.PublishedOperationsProperty
      (Value.publishedOperations (getPublishedOperations rm.PublishedOperations))
  else m₄

/-- The method `CreateDocumentMetadata` (lines 54-113). -/
def CreateDocumentMetadata (props : Properties) (t : Metadata) (rm : Option ResolutionModel)
    (info : Option (String → Option Value)) : Except String (String → Option DocValue) :=
  match rm with
  | none => .error "resolution model is required for creating document metadata"
  | some rm =>
    if rm.Doc = none then
      .error "resolution model is required for creating document metadata"
    else
      match info with
      | none => .error "transformation info is required for creating document metadata"
      | some info =>
        match info props.PublishedProperty with
        | none => .error "published is required for creating document metadata"
        | some published =>
          let d₀ := mapSet emptyMap props.MethodProperty
            (DocValue.metadata (methodMetadata props t rm published))
          let d₁ :=
            if rm.Deactivated = true then
              mapSet d₀ props.DeactivatedProperty (DocValue.bool rm.Deactivated)
            else d₀
          let d₂ :=
            match info props.CanonicalIDProperty with
            | some canonicalID => mapSet d₁ props.CanonicalIDProperty (DocValue.value canonicalID)
            | none => d₁
          let d₃ :=
            match info props.EquivalentIDProperty with
            | some equivalentID =>
              mapSet d₂ props.EquivalentIDProperty (DocValue.value equivalentID)
            | none => d₂
          if rm.VersionID ≠ "" then
            .ok (mapSet d₃ props.VersionIDProperty (DocValue.value (Value.string rm.VersionID)))
          else .ok d₃

/-! ## Specification-side definitions for the document metadata -/

/-- The property names are pairwise distinct within the method sub-map and within the
top level of the document metadata. -/
def keysDistinct (props : Properties) : Prop :=
  [props.PublishedProperty, props.RecoveryCommitmentProperty, props.UpdateCommitmentProperty,
    props.AnchorOriginProperty, props.UnpublishedOperationsProperty,
    props.PublishedOperationsProperty].Nodup ∧
  [props.MethodProperty, props.DeactivatedProperty, props.CanonicalIDProperty,
    props.EquivalentIDProperty, props.VersionIDProperty].Nodup

/-- The entries of the document metadata `md` in the specification (section 4.5), for
the resolution model `r`, the transformation info `i` and its `published` entry: the
method sub-map under `method`; `deactivated` only if the model is deactivated;
`versionId` only if the version is non-empty; `canonicalId` and `equivalentId` as the
info has them; no other key at the top level; in the method sub-map the recovery and
update commitments when non-empty, and the lists of unpublished and published
operations only when the matching flag is set and the list of the model is non-empty. -/
def metadataEntries (props : Properties) (t : Metadata) (r : ResolutionModel)
    (i : String → Option Value) (published : Value) (md : String → Option DocValue) : Prop :=
  md props.MethodProperty = some (DocValue.metadata (methodMetadata props t r published)) ∧
  md props.DeactivatedProperty =
    (if r.Deactivated = true then some (DocValue.bool true) else none) ∧
  md props.VersionIDProperty =
    (if r.VersionID ≠ "" then some (DocValue.value (Value.string r.VersionID)) else none) ∧
  md props.CanonicalIDProperty = (i props.CanonicalIDProperty).map DocValue.value ∧
  md props.EquivalentIDProperty = (i props.EquivalentIDProperty).map DocValue.value ∧
  (∀ k, md k ≠ none →
    k ∈ [props.MethodProperty, props.DeactivatedProperty, props.CanonicalIDProperty,
      props.EquivalentIDProperty, props.VersionIDProperty]) ∧
  methodMetadata props t r published props.RecoveryCommitmentProperty =
    (if r.RecoveryCommitment ≠ "" then some (Value.string r.RecoveryCommitment) else none) ∧
  methodMetadata props t r published props.UpdateCommitmentProperty =
    (if r.UpdateCommitment ≠ "" then some (Value.string r.UpdateCommitment) else none) ∧
  methodMetadata props t r published props.UnpublishedOperationsProperty =
    (if t.includeUnpublishedOperations = true ∧ r.UnpublishedOperations.length > 0 then
      some (Value.unpublishedOperations (getUnpublishedOperations r.UnpublishedOperations))
    else none) ∧
  methodMetadata props t r published props.PublishedOperationsProperty =
    (if t.includePublishedOperations = true ∧ r.PublishedOperations.length > 0 then
      some (Value.publishedOperations (getPublishedOperations r.PublishedOperations))
    else none) ∧
  (t = New [] →
    methodMetadata props t r published props.UnpublishedOperationsProperty = none ∧
    methodMetadata props t r published props.PublishedOperationsProperty = none)

/-- The projection of an anchored operation onto a `PublishedOperation` (section 4.5):
the same type, request, transaction coordinates, protocol version, references and
anchor origin. -/
def publishedProjection (op : AnchoredOperation) : PublishedOperation :=
  { Type_ := op.Type_, OperationRequest := op.OperationRequest,
    TransactionTime := op.TransactionTime, TransactionNumber := op.TransactionNumber,
    ProtocolVersion := op.ProtocolVersion, CanonicalReference := op.CanonicalReference,
    EquivalentReferences := op.EquivalentReferences, AnchorOrigin := op.AnchorOrigin }

/-- The operations of a list without those whose canonical reference already occurred
earlier in the list (section 4.5, first occurrence wins): the first operation is kept,
and of the others those kept are the ones with another reference. -/
def firstByReference : List AnchoredOperation → List AnchoredOperation
  | [] => []
  | op :: ops =>
    op :: (firstByReference ops).filter
      (fun o => decide (o.CanonicalReference ≠ op.CanonicalReference))

/-! ## Concrete metadata inputs used in examples -/

/-- Three published operations, two of them with the canonical reference `x`, given
with the later transaction first. -/
def examplePublishedOps : List AnchoredOperation :=
  [processor.exampleOpAt TypeUpdate 2 0 "y", processor.exampleOpAt TypeCreate 1 0 "x",
    processor.exampleOpAt TypeUpdate 1 1 "x"]


/-- Modelled from the spec: the property names of the document metadata (section 4.5:
`published`, `method`, `deactivated`, `canonicalId`, `equivalentId`, `versionId`); the
names of the other entries of the method sub-map follow the fields they hold. -/
def exampleProperties : Properties :=
  { PublishedProperty := "published",
    RecoveryCommitmentProperty := "recoveryCommitment",
    UpdateCommitmentProperty := "updateCommitment",
    AnchorOriginProperty := "anchorOrigin",
    UnpublishedOperationsProperty := "unpublishedOperations",
    PublishedOperationsProperty := "publishedOperations",
    MethodProperty := "method",
    DeactivatedProperty := "deactivated",
    CanonicalIDProperty := "canonicalId",
    EquivalentIDProperty := "equivalentId",
    VersionIDProperty := "versionId" }

/-- A transformation info with the entries `published` and `canonicalId`. -/
def exampleInfo : String → Option Value :=
  mapSet (mapSet emptyMap "published" (Value.any "true")) "canonicalId" (Value.any "did:x:1")

/-- A resolution model with a document, both commitments and a version. -/
def exampleMetadataModel : ResolutionModel :=
  { Doc := some "doc", LastOperationTransactionTime := 1, LastOperationTransactionNumber := 0,
    UpdateCommitment := "u", RecoveryCommitment := "r", Deactivated := false,
    AnchorOrigin := none, VersionID := "v1", PublishedOperations := [],
    UnpublishedOperations := [] }

/-- The document metadata of the example model and the example info made by a
transformer built with the given options; the empty map if there is none. -/
def exampleMetadata (opts : List (Metadata → Metadata)) : String → Option DocValue :=
  match CreateDocumentMetadata exampleProperties (New opts) (some exampleMetadataModel)
      (some exampleInfo) with
  | .ok md => md
  | .error _ => emptyMap

end metadata

/-- Modelled from the spec: the declaration of `txn.SidetreeTxn` (package `pkg/api/txn`)
is not among the sources; the fields are those of the data model (section 3). -/
structure SidetreeTxn where
  Namespace : String
  AnchorString : String
  TransactionTime : Nat
  TransactionNumber : Nat
  ProtocolGenesisTime : Nat
deriving DecidableEq, Repr

namespace txnprovider

/-! # Batch files and their assembly (`pkg/versions/0_1/txnprovider/provider.go`)

Modelling conventions

* Pointers to structs that `provider.go` allocates itself are values.  The files
  `CoreProof` and `ProvisionalProof` of `batchFiles`, which `getBatchFiles` leaves nil
  when the URI is empty, are `Option`s; `SuffixData` and `Delta` are opaque and may be
  nil.
* A Go call that returns `(value, error)` and may also panic yields an `Outcome`.
* Functions that read from CAS also return the list of CAS reads and decompressions
  they performed, in order; this list is an observation, not program state.
* The collaborators (CAS, decompression provider, operation parser) and the functions
  of this repository that are not among the sources (`ParseAnchorData`, the file
  parsers of package `models`, `model.GetAnchoredOperation`) are parameters; so is
  `hashing.CalculateModelMultihash`, whose result depends on the hash primitives.
-/

/-- Modelled from the spec: `model.Operation` (package `pkg/versions/0_1/model`, not
among the sources), with the fields that `provider.go` sets. -/
structure Operation where
  Type_ : String
  UniqueSuffix : String
  SuffixData : Option String
  Delta : Option String
  SignedData : String
  RevealValue : String
deriving DecidableEq, Repr

/-- Modelled from the spec: a create entry of the core index file (package `models`,
not among the sources). -/
structure CreateReference where
  SuffixData : Option String
deriving DecidableEq, Repr

/-- Modelled from the spec: a recover, deactivate or update entry of an index file
(package `models`, not among the sources). -/
structure OperationReference where
  DidSuffix : String
  RevealValue : String
deriving DecidableEq, Repr

/-- Modelled from the spec: the operations of a core index file. -/
structure CoreOperations where
  Create : List CreateReference
  Recover : List OperationReference
  Deactivate : List OperationReference
deriving DecidableEq, Repr

/-- Modelled from the spec: `models.CoreIndexFile` (section 3). -/
structure CoreIndexFile where
  CoreProofFileURI : String
  ProvisionalIndexFileURI : String
  Operations : CoreOperations
deriving DecidableEq, Repr

/-- Modelled from the spec: a chunk entry of the provisional index file. -/
structure Chunk where
  ChunkFileURI : String
deriving DecidableEq, Repr

/-- Modelled from the spec: the operations of a provisional index file. -/
structure ProvisionalOperations where
  Update : List OperationReference
deriving DecidableEq, Repr

/-- Modelled from the spec: `models.ProvisionalIndexFile` (section 3). -/
structure ProvisionalIndexFile where
  ProvisionalProofFileURI : String
  Chunks : List Chunk
  Operations : ProvisionalOperations
deriving DecidableEq, Repr

/-- Modelled from the spec: the signed data of a core proof file. -/
structure CoreProofOperations where
  Recover : List String
  Deactivate : List String
deriving DecidableEq, Repr

/-- Modelled from the spec: `models.CoreProofFile` (section 3). -/
structure CoreProofFile where
  Operations : CoreProofOperations
deriving DecidableEq, Repr

/-- Modelled from the spec: the signed data of a provisional proof file. -/
structure ProvisionalProofOperations where
  Update : List String
deriving DecidableEq, Repr

/-- Modelled from the spec: `models.ProvisionalProofFile` (section 3). -/
structure ProvisionalProofFile where
  Operations : ProvisionalProofOperations
deriving DecidableEq, Repr

/-- Modelled from the spec: `models.ChunkFile` (section 3); a delta may be nil. -/
structure ChunkFile where
  Deltas : List (Option String)
deriving DecidableEq, Repr

/-- Modelled from the spec: the result of `ParseAnchorData` for the anchor string
`"<numOps>.<coreIndexURI>"`; `NumberOfOperations` is a Go `int`. -/
structure AnchorData where
  NumberOfOperations : Int
  AnchorAddress : String
deriving DecidableEq, Repr

/-- The ways in which a Go statement of `provider.go` can panic. -/
inductive Panic where
  | indexOutOfRange
  | nilDereference
deriving DecidableEq, Repr

/-- The outcome of a Go call: a value, an error, or a panic. -/
inductive Outcome (α : Type) where
  | ok (value : α)
  | error (err : String)
  | panic (p : Panic)
deriving DecidableEq, Repr

/-- What a run does to its collaborators: a CAS read, or a decompression. -/
inductive Event where
  | casRead (uri : String)
  | decompress (alg : String) (data : List Nat)
deriving DecidableEq, Repr

/-- The struct `OperationProvider` (lines 35-40) with what it uses of the embedded
`protocol.Protocol`, of `parser`, `cas` and `dp`, and the functions of this repository
that are taken as parameters.  A validation function returns its error, if any. -/
structure OperationProvider where
  MultihashAlgorithm : Nat
  CompressionAlgorithm : String
  MaxCoreIndexFileSize : Nat
  MaxProofFileSize : Nat
  MaxProvisionalIndexFileSize : Nat
  MaxChunkFileSize : Nat
  ValidateSuffixData : Option String → Option String
  ValidateDelta : Option String → Option String
  ParseSignedDataForUpdate : String → Option String
  ParseSignedDataForDeactivate : String → Option String
  ParseSignedDataForRecover : String → Option String
  casRead : String → Except String (List Nat)
  Decompress : String → List Nat → Except String (List Nat)
  ParseAnchorData : String → Except String AnchorData
  ParseCoreIndexFile : List Nat → Except String CoreIndexFile
  ParseCoreProofFile : List Nat → Except String CoreProofFile
  ParseProvisionalIndexFile : List Nat → Except String ProvisionalIndexFile
  ParseProvisionalProofFile : List Nat → Except String ProvisionalProofFile
  ParseChunkFile : List Nat → Except String ChunkFile
  CalculateModelMultihash : Option String → Nat → Except String String
  GetAnchoredOperation : Operation → Except String AnchoredOperation

/-- The struct `batchFiles` (lines 118-124) as `getBatchFiles` returns it. -/
structure batchFiles where
  CoreIndex : CoreIndexFile
  ProvisionalIndex : ProvisionalIndexFile
  ProvisionalProof : Option ProvisionalProofFile
  CoreProof : Option CoreProofFile
  Chunk : ChunkFile
deriving DecidableEq, Repr

/-- The struct `coreOperations` (lines 428-433). -/
structure coreOperations where
  Create : List Operation
  Recover : List Operation
  Deactivate : List Operation
  Suffixes : List String
deriving DecidableEq, Repr

/-- The struct `provisionalOperations` (lines 490-493). -/
structure provisionalOperations where
  Update : List Operation
  Suffixes : List String
deriving DecidableEq, Repr

/-- The Go conversion `int(maxSize)` of a `uint` (64 bits) to `int`. -/
def uintToInt (n : Nat) : Int :=
  if n % 2 ^ 64 < 2 ^ 63 then ((n % 2 ^ 64 : Nat) : Int)
  else ((n % 2 ^ 64 : Nat) : Int) - 2 ^ 64

/-- The method `readFromCAS` (lines 409-425). -/
def readFromCAS (h : OperationProvider) (uri alg : String) (maxSize : Nat) :
    Except String (List Nat) × List Event :=
  match h.casRead uri with
  | .error err =>
    (.error ("retrieve CAS content at uri[" ++ uri ++ "]: " ++ err), [Event.casRead uri])
  | .ok bytes =>
    if (bytes.length : Int) > uintToInt maxSize then
      (.error ("uri[" ++ uri ++ "]: content size " ++ toString bytes.length ++
        " exceeded maximum size " ++ toString maxSize), [Event.casRead uri])
    else
      match h.Decompress alg bytes with
      | .error err =>
        (.error ("decompress CAS uri[" ++ uri ++ "] using '" ++ alg ++ "': " ++ err),
          [Event.casRead uri, Event.decompress alg bytes])
      | .ok content => (.ok content, [Event.casRead uri, Event.decompress alg bytes])

/-- The loop of `validateCoreIndexFile` (lines 280-285), from index `i`. -/
def validateCoreIndexFileLoop (h : OperationProvider) :
    Nat → List CreateReference → Option String
  | _, [] => none
  | i, op :: ops =>
    match h.ValidateSuffixData op.SuffixData with
    | some err =>
      some ("failed to validate suffix data for create[" ++ toString i ++ "]: " ++ err)
    | none => validateCoreIndexFileLoop h (i + 1) ops

/-- The method `validateCoreIndexFile` (lines 279-288). -/
def validateCoreIndexFile (h : OperationProvider) (cif : CoreIndexFile) : Option String :=
  validateCoreIndexFileLoop h 0 cif.Operations.Create

/-- The method `getCoreIndexFile` (lines 260-277). -/
def getCoreIndexFile (h : OperationProvider) (uri : String) :
    Except String CoreIndexFile × List Event :=
  match readFromCAS h uri h.CompressionAlgorithm h.MaxCoreIndexFileSize with
  | (.error err, events) => (.error ("error reading core index file: " ++ err), events)
  | (.ok content, events) =>
    match h.ParseCoreIndexFile content with
    | .error err =>
      (.error ("failed to parse content for core index file[" ++ uri ++ "]: " ++ err), events)
    | .ok cif =>
      match validateCoreIndexFile h cif with
      | some err => (.error ("core index file[" ++ uri ++ "]: " ++ err), events)
      | none => (.ok cif, events)

/-- A validation loop over signed data (lines 313-318, 320-325, 353-358), from index
`i`; `kind` is the word used in the error message. -/
def validateSignedDataLoop (parse : String → Option String) (kind : String) :
    Nat → List String → Option String
  | _, [] => none
  | i, signedData :: rest =>
    match parse signedData with
    | some err =>
      some ("failed to validate signed data for " ++ kind ++ "[" ++ toString i ++ "]: " ++ err)
    | none => validateSignedDataLoop parse kind (i + 1) rest

/-- The method `validateCoreProofFile` (lines 312-328). -/
def validateCoreProofFile (h : OperationProvider) (cpf : CoreProofFile) : Option String :=
  match validateSignedDataLoop h.ParseSignedDataForRecover "recover" 0 cpf.Operations.Recover with
  | some err => some err
  | none =>
    validateSignedDataLoop h.ParseSignedDataForDeactivate "deactivate" 0
      cpf.Operations.Deactivate

/-- The method `getCoreProofFile` (lines 291-310). -/
def getCoreProofFile (h : OperationProvider) (uri : String) :
    Except String CoreProofFile × List Event :=
  match readFromCAS h uri h.CompressionAlgorithm h.MaxProofFileSize with
  | (.error err, events) => (.error ("error reading core proof file: " ++ err), events)
  | (.ok content, events) =>
    match h.ParseCoreProofFile content with
    | .error err =>
      (.error ("failed to parse content for core proof file[" ++ uri ++ "]: " ++ err), events)
    | .ok cpf =>
      match validateCoreProofFile h cpf with
      | some err => (.error ("core proof file[" ++ uri ++ "]: " ++ err), events)
      | none => (.ok cpf, events)

/-- The method `validateProvisionalProofFile` (lines 352-361). -/
def validateProvisionalProofFile (h : OperationProvider) (ppf : ProvisionalProofFile) :
    Option String :=
  validateSignedDataLoop h.ParseSignedDataForUpdate "update" 0 ppf.Operations.Update

/-- The method `getProvisionalProofFile` (lines 331-350). -/
def getProvisionalProofFile (h : OperationProvider) (uri : String) :
    Except String ProvisionalProofFile × List Event :=
  match readFromCAS h uri h.CompressionAlgorithm h.MaxProofFileSize with
  | (.error err, events) => (.error ("error reading provisional proof file: " ++ err), events)
  | (.ok content, events) =>
    match h.ParseProvisionalProofFile content with
    | .error err =>
      (.error ("failed to parse content for provisional proof file[" ++ uri ++ "]: " ++ err),
        events)
    | .ok ppf =>
      match validateProvisionalProofFile h ppf with
      | some err => (.error ("provisional proof file[" ++ uri ++ "]: " ++ err), events)
      | none => (.ok ppf, events)

/-- The method `getProvisionalIndexFile` (lines 364-376). -/
def getProvisionalIndexFile (h : OperationProvider) (uri : String) :
    Except String ProvisionalIndexFile × List Event :=
  match readFromCAS h uri h.CompressionAlgorithm h.MaxProvisionalIndexFileSize with
  | (.error err, events) => (.error ("error reading provisional index file: " ++ err), events)
  | (.ok content, events) =>
    match h.ParseProvisionalIndexFile content with
    | .error err =>
      (.error ("failed to parse content for provisional index file[" ++ uri ++ "]: " ++ err),
        events)
    | .ok pif => (.ok pif, events)

/-- The loop of `validateChunkFile` (lines 399-404), from index `i`. -/
def validateChunkFileLoop (h : OperationProvider) : Nat → List (Option String) → Option String
  | _, [] => none
  | i, delta :: deltas =>
    match h.ValidateDelta delta with
    | some err => some ("failed to validate delta[" ++ toString i ++ "]: " ++ err)
    | none => validateChunkFileLoop h (i + 1) deltas

/-- The method `validateChunkFile` (lines 398-407). -/
def validateChunkFile (h : OperationProvider) (cf : ChunkFile) : Option String :=
  validateChunkFileLoop h 0 cf.Deltas

/-- The method `getChunkFile` (lines 379-396). -/
def getChunkFile (h : OperationProvider) (uri : String) : Except String ChunkFile × List Event :=
  match readFromCAS h uri h.CompressionAlgorithm h.MaxChunkFileSize with
  | (.error err, events) => (.error ("error reading chunk file: " ++ err), events)
  | (.ok content, events) =>
    match h.ParseChunkFile content with
    | .error err =>
      (.error ("failed to parse content for chunk file[" ++ uri ++ "]: " ++ err), events)
    | .ok cf =>
      match validateChunkFile h cf with
      | some err => (.error ("chunk file[" ++ uri ++ "]: " ++ err), events)
      | none => (.ok cf, events)

/-- The method `getBatchFiles` (lines 127-168). -/
def getBatchFiles (h : OperationProvider) (cif : CoreIndexFile) :
    Except String batchFiles × List Event :=
  match (if cif.CoreProofFileURI ≠ "" then
      match getCoreProofFile h cif.CoreProofFileURI with
      | (.error err, events) => (Except.error err, events)
      | (.ok cpf, events) => (Except.ok (some cpf), events)
    else (Except.ok none, [])) with
  | (.error err, events) => (.error err, events)
  | (.ok coreProof, events) =>
    match getProvisionalIndexFile h cif.ProvisionalIndexFileURI with
    | (.error err, events₂) => (.error err, events ++ events₂)
    | (.ok pif, events₂) =>
      match (if pif.ProvisionalProofFileURI ≠ "" then
          match getProvisionalProofFile h pif.ProvisionalProofFileURI with
          | (.error err, events₃) => (Except.error err, events₃)
          | (.ok ppf, events₃) => (Except.ok (some ppf), events₃)
        else (Except.ok none, [])) with
      | (.error err, events₃) => (.error err, events ++ events₂ ++ events₃)
      | (.ok provisionalProof, events₃) =>
        match pif.Chunks with
        | [] =>
          (.error "provisional index file is missing chunk file URI",
            events ++ events₂ ++ events₃)
        | chunk :: _ =>
          match getChunkFile h chunk.ChunkFileURI with
          | (.error err, events₄) => (.error err, events ++ events₂ ++ events₃ ++ events₄)
          | (.ok cf, events₄) =>
            (.ok ⟨cif, pif, provisionalProof, coreProof, cf⟩,
              events ++ events₂ ++ events₃ ++ events₄)

/-- The function `createAnchoredOperations` (lines 170-181). -/
def createAnchoredOperations (h : OperationProvider) :
    List Operation → Except String (List AnchoredOperation)
  | [] => .ok []
  | op :: ops =>
    match h.GetAnchoredOperation op with
    | .error err => .error err
    | .ok anchoredOp =>
      match createAnchoredOperations h ops with
      | .error err => .error err
      | .ok anchoredOps => .ok (anchoredOp :: anchoredOps)

/-- The create loop of `parseCoreIndexOperations` (lines 441-455). -/
def parseCreateOperations (h : OperationProvider) :
    List CreateReference → Except String (List Operation)
  | [] => .ok []
  | op :: ops =>
    match h.CalculateModelMultihash op.SuffixData h.MultihashAlgorithm with
    | .error err => .error err
    | .ok suffix =>
      match parseCreateOperations h ops with
      | .error err => .error err
      | .ok createOps =>
        .ok ({ Type_ := TypeCreate, UniqueSuffix := suffix, SuffixData := op.SuffixData,
               Delta := none, SignedData := "", RevealValue := "" } :: createOps)

/-- The operation that `parseCoreIndexOperations` and `parseProvisionalIndexOperations`
make of a recover, deactivate or update entry (lines 459-463, 471-475, 500-504). -/
def referencedOperation (type : String) (op : OperationReference) : Operation :=
  { Type_ := type, UniqueSuffix := op.DidSuffix, SuffixData := none, Delta := none,
    SignedData := "", RevealValue := op.RevealValue }

/-- The method `parseCoreIndexOperations` (lines 435-487). -/
def parseCoreIndexOperations (h : OperationProvider) (cif : CoreIndexFile) (_ : SidetreeTxn) :
    Except String coreOperations :=
  match parseCreateOperations h cif.Operations.Create with
  | .error err => .error err
  | .ok createOps =>
    .ok { Create := createOps,
          Recover := cif.Operations.Recover.map (referencedOperation TypeRecover),
          Deactivate := cif.Operations.Deactivate.map (referencedOperation TypeDeactivate),
          Suffixes := createOps.map (fun op => op.UniqueSuffix) ++
            cif.Operations.Recover.map (fun op => op.DidSuffix) ++
            cif.Operations.Deactivate.map (fun op => op.DidSuffix) }

/-- The function `parseProvisionalIndexOperations` (lines 495-511). -/
def parseProvisionalIndexOperations (mf : ProvisionalIndexFile) : provisionalOperations :=
  { Update := mf.Operations.Update.map (referencedOperation TypeUpdate),
    Suffixes := mf.Operations.Update.map (fun op => op.DidSuffix) }

/-- The loop of `checkForDuplicates` (lines 244-250); `valuesMap` lists the keys of the
Go map. -/
def checkForDuplicatesLoop : List String → List String → List String → List String
  | [], _, duplicates => duplicates
  | val :: values, valuesMap, duplicates =>
    if val ∉ valuesMap then checkForDuplicatesLoop values (valuesMap ++ [val]) duplicates
    else checkForDuplicatesLoop values valuesMap (duplicates ++ [val])

/-- Go's `%v` of a slice of strings: the elements between brackets, separated by a
blank. -/
def formatStrings (values : List String) : String :=
  "[" ++ " ".intercalate values ++ "]"

/-- The function `checkForDuplicates` (lines 239-257); the result is the error, if
any. -/
def checkForDuplicates (values : List String) : Option String :=
  if (checkForDuplicatesLoop values [] []).length > 0 then
    some ("duplicate values found " ++ formatStrings (checkForDuplicatesLoop values [] []))
  else none

/-- The loops `for i := range ops { ops[i].SignedData = signed[i] }` (lines 207-209,
214-216, 231-233, 110-112): reading `signed[i]` beyond the end panics. -/
def attachSignedData : List Operation → List String → Outcome (List Operation)
  | [], _ => .ok []
  | _ :: _, [] => .panic Panic.indexOutOfRange
  | op :: ops, signedData :: signed =>
    match attachSignedData ops signed with
    | .ok rest => .ok ({ op with SignedData := signedData } :: rest)
    | .error err => .error err
    | .panic p => .panic p

/-- The same loops when the proof file is a pointer that may be nil (`signed = none`):
the first iteration dereferences it. -/
def attachProofData (ops : List Operation) (signed : Option (List String)) :
    Outcome (List Operation) :=
  match ops, signed with
  | [], _ => .ok []
  | _ :: _, none => .panic Panic.nilDereference
  | op :: ops, some signed => attachSignedData (op :: ops) signed

/-- The loop `for i, delta := range batchFiles.Chunk.Deltas { operations[i].Delta = delta }`
(lines 226-228). -/
def attachDeltas : List Operation → List (Option String) → Outcome (List Operation)
  | ops, [] => .ok ops
  | [], _ :: _ => .panic Panic.indexOutOfRange
  | op :: ops, delta :: deltas =>
    match attachDeltas ops deltas with
    | .ok rest => .ok ({ op with Delta := delta } :: rest)
    | .error err => .error err
    | .panic p => .panic p

/-- Lines 184-234 of `assembleAnchoredOperations`: the list `operations` that is handed
to `createAnchoredOperations`. -/
def assembleOperations (h : OperationProvider) (batchFiles : batchFiles) (txn : SidetreeTxn) :
    Outcome (List Operation) :=
  match parseCoreIndexOperations h batchFiles.CoreIndex txn with
  | .error err => .error ("parse anchor operations: " ++ err)
  | .ok cifOps =>
    match checkForDuplicates
        (cifOps.Suffixes ++ (parseProvisionalIndexOperations batchFiles.ProvisionalIndex).Suffixes) with
    | some err =>
      .error ("check for duplicate suffixes in core/provisional index files: " ++ err)
    | none =>
      match attachProofData cifOps.Recover
          (batchFiles.CoreProof.map (fun cpf => cpf.Operations.Recover)) with
      | .error err => .error err
      | .panic p => .panic p
      | .ok recoverOps =>
        match attachProofData (parseProvisionalIndexOperations batchFiles.ProvisionalIndex).Update
            (batchFiles.ProvisionalProof.map (fun ppf => ppf.Operations.Update)) with
        | .error err => .error err
        | .panic p => .panic p
        | .ok updateOps =>
          if (cifOps.Create ++ recoverOps ++ updateOps).length ≠ batchFiles.Chunk.Deltas.length then
            .error ("number of create+recover+update operations[" ++
              toString (cifOps.Create ++ recoverOps ++ updateOps).length ++
              "] doesn't match number of deltas[" ++
              toString batchFiles.Chunk.Deltas.length ++ "]")
          else
            match attachDeltas (cifOps.Create ++ recoverOps ++ updateOps)
                batchFiles.Chunk.Deltas with
            | .error err => .error err
            | .panic p => .panic p
            | .ok operations =>
              match attachProofData cifOps.Deactivate
                  (batchFiles.CoreProof.map (fun cpf => cpf.Operations.Deactivate)) with
              | .error err => .error err
              | .panic p => .panic p
              | .ok deactivateOps => .ok (operations ++ deactivateOps)

/-- The method `assembleAnchoredOperations` (lines 183-237). -/
def assembleAnchoredOperations (h : OperationProvider) (batchFiles : batchFiles)
    (txn : SidetreeTxn) : Outcome (List AnchoredOperation) :=
  match assembleOperations h batchFiles txn with
  | .error err => .error err
  | .panic p => .panic p
  | .ok operations =>
    match createAnchoredOperations h operations with
    | .error err => .error err
    | .ok anchoredOps => .ok anchoredOps

/-- The method `processDeactivateOnly` (lines 97-115). -/
def processDeactivateOnly (h : OperationProvider) (cif : CoreIndexFile) (txn : SidetreeTxn) :
    Outcome (List AnchoredOperation) × List Event :=
  match parseCoreIndexOperations h cif txn with
  | .error e => (.error ("parse anchor operations: " ++ e), [])
  | .ok cifOps =>
    match getCoreProofFile h cif.CoreProofFileURI with
    | (.error err, events) => (.error err, events)
    | (.ok cpf, events) =>
      match attachSignedData cifOps.Deactivate cpf.Operations.Deactivate with
      | .error err => (.error err, events)
      | .panic p => (.panic p, events)
      | .ok deactivateOps =>
        match createAnchoredOperations h deactivateOps with
        | .error err => (.error err, events)
        | .ok anchoredOps => (.ok anchoredOps, events)

/-- The method `GetTxnOperations` (lines 63-95). -/
def GetTxnOperations (h : OperationProvider) (txn : SidetreeTxn) :
    Outcome (List AnchoredOperation) × List Event :=
  match h.ParseAnchorData txn.AnchorString with
  | .error err => (.error err, [])
  | .ok anchorData =>
    match getCoreIndexFile h anchorData.AnchorAddress with
    | (.error err, events) => (.error err, events)
    | (.ok cif, events) =>
      if cif.ProvisionalIndexFileURI = "" then
        ((processDeactivateOnly h cif txn).1, events ++ (processDeactivateOnly h cif txn).2)
      else
        match getBatchFiles h cif with
        | (.error err, events₂) => (.error err, events ++ events₂)
        | (.ok batchFiles, events₂) =>
          match assembleAnchoredOperations h batchFiles txn with
          | .error err => (.error err, events ++ events₂)
          | .panic p => (.panic p, events ++ events₂)
          | .ok txnOps =>
            if (txnOps.length : Int) ≠ anchorData.NumberOfOperations then
              (.error ("number of txn ops[" ++ toString txnOps.length ++
                "] doesn't match anchor string num of ops[" ++
                toString anchorData.NumberOfOperations ++ "]"), events ++ events₂)
            else (.ok txnOps, events ++ events₂)

/-! ## Specification-side definitions for the assembly -/

/-- The assembly order of the specification (section 4.2, steps 1, 2, 3 and 5):
`operations` holds one operation per index entry, the create entries first, then the
recover entries, the update entries and the deactivate entries, each block in file
order with its type and its suffix; a recover, update or deactivate operation carries
the signed data found at its own index in the proof file; and `res` has one anchored
operation per index entry, made of the operation at the same index. -/
def assemblyOrder (h : OperationProvider) (bf : batchFiles) (operations : List Operation)
    (res : List AnchoredOperation) : Prop :=
  res.length =
    bf.CoreIndex.Operations.Create.length + bf.CoreIndex.Operations.Recover.length +
      bf.ProvisionalIndex.Operations.Update.length +
      bf.CoreIndex.Operations.Deactivate.length ∧
  (∀ (i : Nat) (ref : CreateReference), bf.CoreIndex.Operations.Create[i]? = some ref →
    ∃ op anchoredOp, operations[i]? = some op ∧ res[i]? = some anchoredOp ∧
      h.GetAnchoredOperation op = .ok anchoredOp ∧ op.Type_ = TypeCreate ∧
      h.CalculateModelMultihash ref.SuffixData h.MultihashAlgorithm = .ok op.UniqueSuffix ∧
      op.SuffixData = ref.SuffixData) ∧
  (∀ (i : Nat) (ref : OperationReference), bf.CoreIndex.Operations.Recover[i]? = some ref →
    ∃ op anchoredOp,
      operations[bf.CoreIndex.Operations.Create.length + i]? = some op ∧
      res[bf.CoreIndex.Operations.Create.length + i]? = some anchoredOp ∧
      h.GetAnchoredOperation op = .ok anchoredOp ∧ op.Type_ = TypeRecover ∧
      op.UniqueSuffix = ref.DidSuffix ∧ op.RevealValue = ref.RevealValue ∧
      bf.CoreProof.bind (fun cpf => cpf.Operations.Recover[i]?) = some op.SignedData) ∧
  (∀ (i : Nat) (ref : OperationReference),
    bf.ProvisionalIndex.Operations.Update[i]? = some ref →
    ∃ op anchoredOp,
      operations[bf.CoreIndex.Operations.Create.length +
        bf.CoreIndex.Operations.Recover.length + i]? = some op ∧
      res[bf.CoreIndex.Operations.Create.length +
        bf.CoreIndex.Operations.Recover.length + i]? = some anchoredOp ∧
      h.GetAnchoredOperation op = .ok anchoredOp ∧ op.Type_ = TypeUpdate ∧
      op.UniqueSuffix = ref.DidSuffix ∧ op.RevealValue = ref.RevealValue ∧
      bf.ProvisionalProof.bind (fun ppf => ppf.Operations.Update[i]?) = some op.SignedData) ∧
  (∀ (i : Nat) (ref : OperationReference),
    bf.CoreIndex.Operations.Deactivate[i]? = some ref →
    ∃ op anchoredOp,
      operations[bf.CoreIndex.Operations.Create.length +
        bf.CoreIndex.Operations.Recover.length +
        bf.ProvisionalIndex.Operations.Update.length + i]? = some op ∧
      res[bf.CoreIndex.Operations.Create.length +
        bf.CoreIndex.Operations.Recover.length +
        bf.ProvisionalIndex.Operations.Update.length + i]? = some anchoredOp ∧
      h.GetAnchoredOperation op = .ok anchoredOp ∧ op.Type_ = TypeDeactivate ∧
      op.UniqueSuffix = ref.DidSuffix ∧ op.RevealValue = ref.RevealValue ∧
      bf.CoreProof.bind (fun cpf => cpf.Operations.Deactivate[i]?) = some op.SignedData)

/-- The positional join of the deltas in the specification (section 4.2, steps 4 and
5): the chunk file has one delta per create, recover and update entry, the operation
at an index below their number carries the delta of that index, and the operations
after them, one per deactivate entry, are deactivate operations without delta. -/
def deltasAttached (bf : batchFiles) (operations : List Operation) : Prop :=
  bf.Chunk.Deltas.length =
    bf.CoreIndex.Operations.Create.length + bf.CoreIndex.Operations.Recover.length +
      bf.ProvisionalIndex.Operations.Update.length ∧
  (∀ (i : Nat), i < bf.CoreIndex.Operations.Create.length +
      bf.CoreIndex.Operations.Recover.length + bf.ProvisionalIndex.Operations.Update.length →
    ∃ op d, operations[i]? = some op ∧ bf.Chunk.Deltas[i]? = some d ∧ op.Delta = d) ∧
  (∀ (i : Nat), i < bf.CoreIndex.Operations.Deactivate.length →
    ∃ op, operations[bf.CoreIndex.Operations.Create.length +
        bf.CoreIndex.Operations.Recover.length +
        bf.ProvisionalIndex.Operations.Update.length + i]? = some op ∧
      op.Type_ = TypeDeactivate ∧ op.Delta = none)

/-! ## Concrete batches used in examples -/

/-- Modelled from the spec: a stand-in for `model.GetAnchoredOperation` (not among the
sources) that keeps the type and the suffix of the operation and leaves the ledger
coordinates empty (section 4.2); the request bytes are left out. -/
def exampleGetAnchoredOperation (op : Operation) : Except String AnchoredOperation :=
  .ok { Type_ := op.Type_, UniqueSuffix := op.UniqueSuffix, OperationRequest := [],
        TransactionTime := 0, TransactionNumber := 0, ProtocolVersion := 0,
        ProtocolGenesisTime := 0, CanonicalReference := "", EquivalentReferences := [],
        AnchorOrigin := none }

/-- Modelled from the spec: a stand-in for `ParseAnchorData` (not among the sources) on
the anchor strings of the examples, `"<numOps>.<coreIndexURI>"` (section 4.2). -/
def exampleParseAnchorData (anchorString : String) : Except String AnchorData :=
  if anchorString = "1.core" then .ok ⟨1, "core"⟩
  else if anchorString = "2.core" then .ok ⟨2, "core"⟩
  else if anchorString = "4.core" then .ok ⟨4, "core"⟩
  else if anchorString = "5.core" then .ok ⟨5, "core"⟩
  else .error "parse anchor data"

/-- A CAS that holds one byte under each of the five URIs of the examples. -/
def exampleCasRead (uri : String) : Except String (List Nat) :=
  if uri = "core" then .ok [1]
  else if uri = "proof" then .ok [2]
  else if uri = "pindex" then .ok [3]
  else if uri = "pproof" then .ok [4]
  else if uri = "chunk" then .ok [5]
  else .error "not found"

/-- A provider whose CAS holds the given five files under the URIs `core`, `proof`,
`pindex`, `pproof` and `chunk`; nothing is compressed, every validation passes, and the
suffix of a create entry is its suffix data behind the word `hash`. -/
def exampleProvider (cif : CoreIndexFile) (cpf : CoreProofFile) (pif : ProvisionalIndexFile)
    (ppf : ProvisionalProofFile) (cf : ChunkFile) : OperationProvider :=
  { MultihashAlgorithm := 18
    CompressionAlgorithm := "GZIP"
    MaxCoreIndexFileSize := 10
    MaxProofFileSize := 10
    MaxProvisionalIndexFileSize := 10
    MaxChunkFileSize := 10
    ValidateSuffixData := fun _ => none
    ValidateDelta := fun _ => none
    ParseSignedDataForUpdate := fun _ => none
    ParseSignedDataForDeactivate := fun _ => none
    ParseSignedDataForRecover := fun _ => none
    casRead := exampleCasRead
    Decompress := fun _ data => .ok data
    ParseAnchorData := exampleParseAnchorData
    ParseCoreIndexFile := fun _ => .ok cif
    ParseCoreProofFile := fun _ => .ok cpf
    ParseProvisionalIndexFile := fun _ => .ok pif
    ParseProvisionalProofFile := fun _ => .ok ppf
    ParseChunkFile := fun _ => .ok cf
    CalculateModelMultihash := fun suffixData _ => .ok ("hash" ++ suffixData.getD "")
    GetAnchoredOperation := exampleGetAnchoredOperation }

/-- A transaction with the given anchor string. -/
def exampleTxn (anchorString : String) : SidetreeTxn :=
  { Namespace := "did:sidetree", AnchorString := anchorString, TransactionTime := 7,
    TransactionNumber := 3, ProtocolGenesisTime := 0 }

/-- A core index file of a batch with one create, one recover and one deactivate. -/
def exampleCoreIndex : CoreIndexFile :=
  { CoreProofFileURI := "proof", ProvisionalIndexFileURI := "pindex",
    Operations := { Create := [⟨some "s"⟩], Recover := [⟨"r", "rr"⟩],
                    Deactivate := [⟨"d", "dr"⟩] } }

/-- The core proof file of that batch. -/
def exampleCoreProof : CoreProofFile :=
  { Operations := { Recover := ["jws-r"], Deactivate := ["jws-d"] } }

/-- The provisional index file of that batch, with one update. -/
def exampleProvisionalIndex : ProvisionalIndexFile :=
  { ProvisionalProofFileURI := "pproof", Chunks := [⟨"chunk"⟩],
    Operations := { Update := [⟨"u", "ur"⟩] } }

/-- The provisional proof file of that batch. -/
def exampleProvisionalProof : ProvisionalProofFile :=
  { Operations := { Update := ["jws-u"] } }

/-- The chunk file of that batch: one delta for each of create, recover, update. -/
def exampleChunk : ChunkFile :=
  { Deltas := [some "delta-c", some "delta-r", some "delta-u"] }

/-- The five files of that batch as `getBatchFiles` returns them. -/
def exampleBatch : batchFiles :=
  { CoreIndex := exampleCoreIndex, ProvisionalIndex := exampleProvisionalIndex,
    ProvisionalProof := some exampleProvisionalProof, CoreProof := some exampleCoreProof,
    Chunk := exampleChunk }

/-- The provider whose CAS holds that batch. -/
def exampleBatchProvider : OperationProvider :=
  exampleProvider exampleCoreIndex exampleCoreProof exampleProvisionalIndex
    exampleProvisionalProof exampleChunk

/-- A core index file without provisional index file, with the given deactivate
entries. -/
def deactivateOnlyIndex (entries : List OperationReference) : CoreIndexFile :=
  { CoreProofFileURI := "proof", ProvisionalIndexFileURI := "",
    Operations := { Create := [], Recover := [], Deactivate := entries } }

/-- A provider whose CAS holds a batch of deactivate entries and their signed data; the
other three files are empty and are not referenced. -/
def deactivateOnlyProvider (entries : List OperationReference) (signed : List String) :
    OperationProvider :=
  exampleProvider (deactivateOnlyIndex entries) ⟨⟨[], signed⟩⟩ ⟨"", [], ⟨[]⟩⟩ ⟨⟨[]⟩⟩ ⟨[]⟩

/-- A provider whose CAS holds a batch with one recover entry for the suffix `r`, the
given signed data for recover operations in its core proof file, no update, and one
delta. -/
def recoverOnlyProvider (signed : List String) : OperationProvider :=
  exampleProvider ⟨"proof", "pindex", ⟨[], [⟨"r", "rr"⟩], []⟩⟩ ⟨⟨signed, []⟩⟩
    ⟨"", [⟨"chunk"⟩], ⟨[]⟩⟩ ⟨⟨[]⟩⟩ ⟨[some "delta-r"]⟩

/-- The anchored operation that `exampleGetAnchoredOperation` makes of an operation
with the given type and suffix. -/
def exampleAnchored (type suffix : String) : AnchoredOperation :=
  { Type_ := type, UniqueSuffix := suffix, OperationRequest := [], TransactionTime := 0,
    TransactionNumber := 0, ProtocolVersion := 0, ProtocolGenesisTime := 0,
    CanonicalReference := "", EquivalentReferences := [], AnchorOrigin := none }

/-- The URIs read from CAS in a run, in order. -/
def casReads : List Event → List String
  | [] => []
  | Event.casRead uri :: events => uri :: casReads events
  | Event.decompress _ _ :: events => casReads events

/-- A provider whose CAS holds a core index file that names neither a core proof file
nor a provisional index file and has no entry. -/
def emptyBatchProvider : OperationProvider :=
  exampleProvider ⟨"", "", ⟨[], [], []⟩⟩ ⟨⟨[], []⟩⟩ ⟨"", [], ⟨[]⟩⟩ ⟨⟨[]⟩⟩ ⟨[]⟩

/-- The result of a batch without provisional index file in the specification (section
4.2, deactivate-only fast path): `operations` holds exactly one deactivate operation
per deactivate entry of the core index file, in order, with the signed data found at
the same index in the core proof file, and `res` holds the anchored operation made of
each. -/
def deactivateOnlyResult (h : OperationProvider) (cif : CoreIndexFile) (cpf : CoreProofFile)
    (operations : List Operation) (res : List AnchoredOperation) : Prop :=
  List.Forall₂ (fun op anchoredOp => h.GetAnchoredOperation op = .ok anchoredOp)
    operations res ∧
  res.length = cif.Operations.Deactivate.length ∧
  (∀ op ∈ operations, op.Type_ = TypeDeactivate) ∧
  ∀ (i : Nat) (ref : OperationReference), cif.Operations.Deactivate[i]? = some ref →
    ∃ sd, cpf.Operations.Deactivate[i]? = some sd ∧
      operations[i]? =
        some (Operation.mk TypeDeactivate ref.DidSuffix none none sd ref.RevealValue)

/-- A provider whose CAS holds a batch with one update entry and no core proof file. -/
def updateOnlyProvider : OperationProvider :=
  exampleProvider ⟨"", "pindex", ⟨[], [], []⟩⟩ ⟨⟨[], []⟩⟩
    ⟨"pproof", [⟨"chunk"⟩], ⟨[⟨"u", "ur"⟩]⟩⟩ ⟨⟨["jws-u"]⟩⟩ ⟨[some "delta-u"]⟩

/-- The provider of the example batch with a multihash computation that fails. -/
def failingHashProvider : OperationProvider :=
  { exampleBatchProvider with
    CalculateModelMultihash := fun _ _ =>
      .error "algorithm not supported, unable to compute hash" }

end txnprovider

namespace txnprocessor

/-! # The transaction processor (`pkg/versions/1_0/txnprocessor/txnprocessor.go`)

Modelling conventions

* The operation provider and the two stores are interfaces: each is the function that
  its one method computes in the run at hand (`GetTxnOperations`, `Put`, `DeleteAll`);
  a store method returns its error, if any.
* `Process` makes at most one call of each; besides its result it returns the list of
  the calls it made, in order, with their arguments.  This list is an observation.
* Operations are values: `updateAnchoredOperation` returns the operation with the three
  fields set (the Go function sets them through the pointer and returns the pointer).
-/

/-- A call that `Process` makes to one of its collaborators. -/
inductive Call where
  | getTxnOperations (sidetreeTxn : SidetreeTxn)
  | put (ops : List AnchoredOperation)
  | deleteAll (suffixes : List String)
deriving DecidableEq, Repr

/-- The struct `Providers` (lines 33-36): `OpStore` is `OperationStore.Put`,
`OperationProtocolProvider` is `protocol.OperationProvider.GetTxnOperations`. -/
structure Providers where
  OpStore : List AnchoredOperation → Option String
  OperationProtocolProvider : SidetreeTxn → Except String (List AnchoredOperation)

/-- The struct `TxnProcessor` (lines 39-44), which embeds `Providers`;
`unpublishedOperationStore` is the method `DeleteAll` of the interface. -/
structure TxnProcessor extends Providers where
  unpublishedOperationStore : List String → Option String
  unpublishedOperationTypes : List String

/-- The method `noopUnpublishedOpsStore.DeleteAll` (lines 150-152). -/
def noopUnpublishedOpsStore (_ : List String) : Option String :=
  none

/-- The option `WithUnpublishedOperationStore` (lines 67-72). -/
def WithUnpublishedOperationStore (store : List String → Option String)
    (opTypes : List String) : TxnProcessor → TxnProcessor :=
  fun opts =>
    { opts with unpublishedOperationStore := store, unpublishedOperationTypes := opTypes }

/-- The constructor `New` (lines 47-61). -/
def New (providers : Providers) (opts : List (TxnProcessor → TxnProcessor)) : TxnProcessor :=
  opts.foldl (fun tp opt => opt tp)
    { toProviders := providers,
      unpublishedOperationStore := noopUnpublishedOpsStore,
      unpublishedOperationTypes := [] }

/-- The function `updateAnchoredOperation` (lines 127-136). -/
def updateAnchoredOperation (op : AnchoredOperation) (sidetreeTxn : SidetreeTxn) :
    AnchoredOperation :=
  { op with
    TransactionTime := sidetreeTxn.TransactionTime,
    TransactionNumber := sidetreeTxn.TransactionNumber,
    ProtocolGenesisTime := sidetreeTxn.ProtocolGenesisTime }

/-- The function `containsOperationType` (lines 138-146). -/
def containsOperationType : List String → String → Bool
  | [], _ => false
  | v :: values, value => if v = value then true else containsOperationType values value

/-- The loop of `processTxnOperations` (lines 94-112), from the state `batchSuffixes`
(the keys of the Go map), `unpublishedOpsSuffixes`, `ops`; it returns the last two. -/
def processTxnOperationsLoop (p : TxnProcessor) (sidetreeTxn : SidetreeTxn) :
    List AnchoredOperation → List String → List String → List AnchoredOperation →
      List String × List AnchoredOperation
  | [], _, unpublishedOpsSuffixes, ops => (unpublishedOpsSuffixes, ops)
  | op :: txnOps, batchSuffixes, unpublishedOpsSuffixes, ops =>
    if op.UniqueSuffix ∈ batchSuffixes then
      processTxnOperationsLoop p sidetreeTxn txnOps batchSuffixes unpublishedOpsSuffixes ops
    else
      processTxnOperationsLoop p sidetreeTxn txnOps (batchSuffixes ++ [op.UniqueSuffix])
        (if containsOperationType p.unpublishedOperationTypes op.Type_ then
          unpublishedOpsSuffixes ++ [op.UniqueSuffix]
        else unpublishedOpsSuffixes)
        (ops ++ [updateAnchoredOperation op sidetreeTxn])

/-- The method `processTxnOperations` (lines 86-125): the error, if any, and the calls
made. -/
def processTxnOperations (p : TxnProcessor) (txnOps : List AnchoredOperation)
    (sidetreeTxn : SidetreeTxn) : Option String × List Call :=
  match p.OpStore (processTxnOperationsLoop p sidetreeTxn txnOps [] [] []).2 with
  | some err =>
    (some ("failed to store operation from anchor string[" ++ sidetreeTxn.AnchorString ++
        "]: " ++ err),
      [Call.put (processTxnOperationsLoop p sidetreeTxn txnOps [] [] []).2])
  | none =>
    match p.unpublishedOperationStore
        (processTxnOperationsLoop p sidetreeTxn txnOps [] [] []).1 with
    | some err =>
      (some ("failed to delete unpublished operations for anchor string[" ++
          sidetreeTxn.AnchorString ++ "]: " ++ err),
        [Call.put (processTxnOperationsLoop p sidetreeTxn txnOps [] [] []).2,
          Call.deleteAll (processTxnOperationsLoop p sidetreeTxn txnOps [] [] []).1])
    | none =>
      (none,
        [Call.put (processTxnOperationsLoop p sidetreeTxn txnOps [] [] []).2,
          Call.deleteAll (processTxnOperationsLoop p sidetreeTxn txnOps [] [] []).1])

/-- The method `Process` (lines 75-84); `suffixes` is the variadic parameter, which the
method only logs. -/
def Process (p : TxnProcessor) (sidetreeTxn : SidetreeTxn) (_suffixes : List String) :
    Option String × List Call :=
  match p.OperationProtocolProvider sidetreeTxn with
  | .error err =>
    (some ("failed to retrieve operations for anchor string[" ++ sidetreeTxn.AnchorString ++
        "]: " ++ err),
      [Call.getTxnOperations sidetreeTxn])
  | .ok txnOps =>
    ((processTxnOperations p txnOps sidetreeTxn).1,
      Call.getTxnOperations sidetreeTxn :: (processTxnOperations p txnOps sidetreeTxn).2)

/-! ## Specification-side definitions for the transaction processor -/

/-- The operations of a batch without those whose suffix already occurred earlier in
the batch (section 4.3, step 2): the first operation is kept, and of the others those
kept are the ones with another suffix. -/
def firstOccurrences : List AnchoredOperation → List AnchoredOperation
  | [] => []
  | op :: ops =>
    op :: (firstOccurrences ops).filter (fun o => decide (o.UniqueSuffix ≠ op.UniqueSuffix))

/-- The list handed to `Put` according to the specification (section 4.3, steps 2 and
3): the first occurrences, each stamped with the coordinates of the transaction. -/
def putOperations (txnOps : List AnchoredOperation) (sidetreeTxn : SidetreeTxn) :
    List AnchoredOperation :=
  (firstOccurrences txnOps).map
    (fun op =>
      { op with
        TransactionTime := sidetreeTxn.TransactionTime,
        TransactionNumber := sidetreeTxn.TransactionNumber,
        ProtocolGenesisTime := sidetreeTxn.ProtocolGenesisTime })

/-- The list handed to `DeleteAll` according to the specification (section 4.3, step
5): the suffixes, in batch order, of the first occurrences whose type is among the
given types. -/
def deletedSuffixes (types : List String) (txnOps : List AnchoredOperation) : List String :=
  ((firstOccurrences txnOps).filter (fun op => decide (op.Type_ ∈ types))).map
    (fun op => op.UniqueSuffix)

/-- The arguments of the calls of `Put` in a list of calls, in order. -/
def putCalls : List Call → List (List AnchoredOperation)
  | [] => []
  | Call.put ops :: calls => ops :: putCalls calls
  | Call.getTxnOperations _ :: calls => putCalls calls
  | Call.deleteAll _ :: calls => putCalls calls

/-- The arguments of the calls of `DeleteAll` in a list of calls, in order. -/
def deleteAllCalls : List Call → List (List String)
  | [] => []
  | Call.deleteAll suffixes :: calls => suffixes :: deleteAllCalls calls
  | Call.getTxnOperations _ :: calls => deleteAllCalls calls
  | Call.put _ :: calls => deleteAllCalls calls

/-! ## A concrete transaction processor used in examples -/

/-- A batch of four operations in which the suffix `a` occurs twice. -/
def exampleTxnOps : List AnchoredOperation :=
  [txnprovider.exampleAnchored TypeCreate "a", txnprovider.exampleAnchored TypeUpdate "b",
    txnprovider.exampleAnchored TypeDeactivate "a",
    txnprovider.exampleAnchored TypeUpdate "c"]

/-- Providers whose operation provider returns `exampleTxnOps` for the anchor string
`4.core` and fails for any other, and whose operation store answers `putResult`. -/
def exampleProviders (putResult : Option String) : Providers :=
  { OpStore := fun _ => putResult,
    OperationProtocolProvider := fun sidetreeTxn =>
      if sidetreeTxn.AnchorString = "4.core" then .ok exampleTxnOps
      else .error "anchor not found" }

/-- A transaction processor over `exampleProviders` with an unpublished-operation store
for update operations whose `DeleteAll` answers `deleteResult`. -/
def exampleTxnProcessor (putResult deleteResult : Option String) : TxnProcessor :=
  New (exampleProviders putResult)
    [WithUnpublishedOperationStore (fun _ => deleteResult) [TypeUpdate]]

/-- The operation of `exampleTxnOps` with the given type and suffix after the stamping
by the transaction `exampleTxn`. -/
def exampleStamped (type suffix : String) : AnchoredOperation :=
  { txnprovider.exampleAnchored type suffix with
    TransactionTime := 7, TransactionNumber := 3, ProtocolGenesisTime := 0 }

end txnprocessor

namespace hashing

/-! # Multihash (`pkg/hashing/hash.go`)

Modelling conventions

* A value of type `uint` or `uint64` is a natural number; the conversions
  `uint64(multihashCode)` and `uint(code)` are the identity (64-bit platform).
* The standard library (`crypto`), the library `go-multihash` and the packages
  `canonicalizer` and `encoder` of this repository are not among the sources: what
  `hash.go` calls of them is the parameter `Primitives`.  A model, of type
  `interface{}`, is a value of a type `α`.
* A function that returns `(value, error)` is an `Except`; a function that returns an
  `error` returns the error, if any.
-/

/-- The values of `crypto.Hash` that `GetHashFromMultihash` returns. -/
inductive Hash where
  | SHA256
  | SHA512
deriving DecidableEq, Repr

/-- The number of a `crypto.Hash`, which `GetHash` prints with `%d`. -/
def Hash.number : Hash → Nat
  | Hash.SHA256 => 5
  | Hash.SHA512 => 7

/-- The struct `multihash.DecodedMultihash` of `go-multihash`. -/
structure DecodedMultihash where
  Code : Nat
  Name : String
  Length : Nat
  Digest : List Nat
deriving DecidableEq, Repr

/-- Modelled from the spec: the multihash code `multihash.SHA2_256` (section 4.1). -/
def SHA2_256 : Nat := 0x12

/-- Modelled from the spec: the multihash code `multihash.SHA2_512` (section 4.1). -/
def SHA2_512 : Nat := 0x13

/-- The functions that `hash.go` calls outside the sources: `canonicalizer.MarshalCanonical`;
of a `crypto.Hash`, `Available`, the error of `Write` on a new hash and the result of
`Sum(nil)` after writing the data; `multihash.Encode`, `multihash.Decode` and
`multihash.ValidCode`; `encoder.EncodeToString` and `encoder.DecodeString`. -/
structure Primitives (α : Type) where
  MarshalCanonical : α → Except String (List Nat)
  Available : Hash → Bool
  Write : Hash → List Nat → Option String
  Sum : Hash → List Nat → List Nat
  Encode : List Nat → Nat → Except String (List Nat)
  Decode : List Nat → Except String DecodedMultihash
  ValidCode : Nat → Bool
  EncodeToString : List Nat → String
  DecodeString : String → Except String (List Nat)

/-- The function `GetHashFromMultihash` (lines 36-47); on the default branch the Go
function returns the zero hash together with the error. -/
def GetHashFromMultihash (multihashCode : Nat) : Except String Hash :=
  if multihashCode = SHA2_256 then .ok Hash.SHA256
  else if multihashCode = SHA2_512 then .ok Hash.SHA512
  else .error "algorithm not supported, unable to compute hash"

/-- The function `GetHash` (lines 119-133). -/
def GetHash {α : Type} (P : Primitives α) (hash : Hash) (data : List Nat) :
    Except String (List Nat) :=
  if P.Available hash = false then
    .error ("hash function not available for: " ++ toString hash.number)
  else
    match P.Write hash data with
    | some hashErr => .error hashErr
    | none => .ok (P.Sum hash data)

/-- The function `ComputeMultihash` (lines 21-33). -/
def ComputeMultihash {α : Type} (P : Primitives α) (multihashCode : Nat) (bytes : List Nat) :
    Except String (List Nat) :=
  match GetHashFromMultihash multihashCode with
  | .error err => .error err
  | .ok hash =>
    match GetHash P hash bytes with
    | .error err => .error err
    | .ok hashedBytes => P.Encode hashedBytes multihashCode

/-- The function `GetMultihashCode` (lines 70-82). -/
def GetMultihashCode {α : Type} (P : Primitives α) (encodedMultihash : String) :
    Except String Nat :=
  match P.DecodeString encodedMultihash with
  | .error err => .error err
  | .ok multihashBytes =>
    match P.Decode multihashBytes with
    | .error err => .error err
    | .ok mh => .ok mh.Code

/-- The function `IsSupportedMultihash` (lines 50-57). -/
def IsSupportedMultihash {α : Type} (P : Primitives α) (encodedMultihash : String) : Bool :=
  match GetMultihashCode P encodedMultihash with
  | .error _ => false
  | .ok code => P.ValidCode code

/-- The function `IsComputedUsingMultihashAlgorithm` (lines 60-67). -/
def IsComputedUsingMultihashAlgorithm {α : Type} (P : Primitives α)
    (encodedMultihash : String) (code : Nat) : Bool :=
  match GetMultihashCode P encodedMultihash with
  | .error _ => false
  | .ok mhCode => decide (mhCode = code)

/-- The function `CalculateModelMultihash` (lines 104-116). -/
def CalculateModelMultihash {α : Type} (P : Primitives α) (value : α) (alg : Nat) :
    Except String String :=
  match P.MarshalCanonical value with
  | .error err => .error err
  | .ok bytes =>
    match ComputeMultihash P alg bytes with
    | .error err => .error err
    | .ok multiHashBytes => .ok (P.EncodeToString multiHashBytes)

/-- The function `IsValidModelMultihash` (lines 85-101); the result is the error, if
any. -/
def IsValidModelMultihash {α : Type} (P : Primitives α) (model : α)
    (modelMultihash : String) : Option String :=
  match GetMultihashCode P modelMultihash with
  | .error err => some err
  | .ok code =>
    match CalculateModelMultihash P model code with
    | .error err => some err
    | .ok encodedComputedMultihash =>
      if encodedComputedMultihash ≠ modelMultihash then
        some "supplied hash doesn't match original content"
      else none

/-! ## Concrete primitives used in examples -/

/-- Toy primitives over models that are byte lists or nil.  The canonical form of a
byte list is the list itself and nil cannot be canonicalized; both hashes are
available; a digest is the sum of the data and the number of the hash; a multihash is
the code and the length of the digest followed by the digest; a string holds one
character per byte. -/
def examplePrimitives : Primitives (Option (List Nat)) :=
  { MarshalCanonical := fun value =>
      match value with
      | some bytes => .ok bytes
      | none => .error "json: unsupported value"
    Available := fun _ => true
    Write := fun _ _ => none
    Sum := fun hash data => [data.sum, hash.number]
    Encode := fun digest code => .ok (code :: digest.length :: digest)
    Decode := fun bytes =>
      match bytes with
      | code :: length :: digest =>
        if length = digest.length then .ok ⟨code, "", length, digest⟩
        else .error "multihash length inconsistent"
      | _ => .error "multihash too short"
    ValidCode := fun code => decide (code = SHA2_256 ∨ code = SHA2_512)
    EncodeToString := fun bytes => String.mk (bytes.map Char.ofNat)
    DecodeString := fun s => .ok (s.data.map Char.toNat) }

end hashing

namespace processor

/-! ## Specification-side definitions -/

/-- The order that the specification asks of `sortOperations`: ascending by the pair
(TransactionTime, TransactionNumber), lexicographically. -/
def txnLe (a b : AnchoredOperation) : Prop :=
  a.TransactionTime < b.TransactionTime ∨
    (a.TransactionTime = b.TransactionTime ∧ a.TransactionNumber ≤ b.TransactionNumber)

instance (a b : AnchoredOperation) : Decidable (txnLe a b) := by
  unfold txnLe; exact inferInstance

/-- The conditions under which the specification lets `applyFirstValid` accept the
candidate `op`: its next commitment is computed, differs from the current one, is
empty or not yet consumed, and the applier accepts the operation. -/
def acceptable (s : OperationProcessor) (rm : ResolutionModel) (currC : String)
    (consumed : List String) (op : AnchoredOperation) : Prop :=
  ∃ nextC, getCommitment s op = .ok nextC ∧ nextC ≠ currC ∧
    (nextC = "" ∨ nextC ∉ consumed) ∧ ∃ st, (applyOperation s op rm).1 = .ok st

/-- The selection that the specification gives for `getOpsWithTxnGreaterThanOrUnpublished`:
unpublished, or anchored strictly after `(txnTime, txnNumber)`. -/
def txnGreaterOrUnpublished (txnTime txnNumber : Nat) (op : AnchoredOperation) : Bool :=
  decide (op.CanonicalReference = "" ∨ txnTime < op.TransactionTime ∨
    (op.TransactionTime = txnTime ∧ txnNumber < op.TransactionNumber))

/-- The operation-store read of `Resolve` does not fail fatally (line 72): the store
returns no error, or an error whose message contains "not found". -/
def storeReadable (s : OperationProcessor) (uniqueSuffix : String) : Prop :=
  ∀ err, (s.store uniqueSuffix).2 = some err → stringsContains err "not found" = true

/-- The lists `(createOps, updateOps, fullOps)` of `Resolve` (line 96). -/
def resolveSplit (s : OperationProcessor) (uniqueSuffix : String)
    (additionalOps : List AnchoredOperation) :
    List AnchoredOperation × List AnchoredOperation × List AnchoredOperation :=
  splitOperations (combinedOperations (gatheredOperations s uniqueSuffix additionalOps).1
    (gatheredOperations s uniqueSuffix additionalOps).2)

/-- The resolution model `rm` of `Resolve` at line 93, with which the create phase is
entered. -/
def resolveModel (s : OperationProcessor) (uniqueSuffix : String)
    (additionalOps : List AnchoredOperation) : ResolutionModel :=
  initialModel (gatheredOperations s uniqueSuffix additionalOps).1
    (gatheredOperations s uniqueSuffix additionalOps).2

/-- The contract of the applier towards the commitment chains: after a successful
`Apply` of a non-create operation, the new state's commitment of the operation's kind
(update commitment for an update, recovery commitment for a recover or deactivate)
is the parser's `GetCommitment` of that operation. -/
def applierContract (s : OperationProcessor) : Prop :=
  ∀ (op : AnchoredOperation) (rm rm' : ResolutionModel) (nextC : String),
    getCommitment s op = .ok nextC → (applyOperation s op rm).1 = .ok rm' →
      (op.Type_ = TypeUpdate → rm'.UpdateCommitment = nextC) ∧
      (op.Type_ = TypeRecover ∨ op.Type_ = TypeDeactivate → rm'.RecoveryCommitment = nextC)

/-- The comparison of `sortOperations` agrees with the lexicographic order of
(TransactionTime, TransactionNumber) on the list: no operation has a greater time and
a smaller number than another. -/
def comparisonLexicographic (l : List AnchoredOperation) : Prop :=
  ∀ a ∈ l, ∀ b ∈ l, b.TransactionTime < a.TransactionTime →
    b.TransactionNumber ≤ a.TransactionNumber

/-- Operations of the list with equal (TransactionTime, TransactionNumber) are equal. -/
def coordinatesDistinct (l : List AnchoredOperation) : Prop :=
  ∀ a ∈ l, ∀ b ∈ l, a.TransactionTime = b.TransactionTime →
    a.TransactionNumber = b.TransactionNumber → a = b

/-- The operations that the gathering of `Resolve` keeps: the published operations of
the store, the unpublished operations of the unpublished store, and the additional
operations other than those whose non-empty `CanonicalReference` is already present
among the published operations of the store. -/
def keptOperations (s : OperationProcessor) (uniqueSuffix : String)
    (additionalOps : List AnchoredOperation) : List AnchoredOperation :=
  (s.store uniqueSuffix).1 ++ storedUnpublished s uniqueSuffix ++
    additionalOps.filter (fun op =>
      decide (op.CanonicalReference = "" ∨
        op.CanonicalReference ∉ (s.store uniqueSuffix).1.map (fun p => p.CanonicalReference)))

/-- The state obtained by applying the operations of a chain one after the other,
starting from `st`; an error as soon as the applier rejects one. -/
def applyChain (s : OperationProcessor) :
    ResolutionModel → List AnchoredOperation → Except String ResolutionModel
  | st, [] => .ok st
  | st, op :: chain =>
    match (applyOperation s op st).1 with
    | .error e => .error e
    | .ok st' => applyChain s st' chain

/-- A commitment chain in the list `ops`, starting at the state `st`, given as the
links `(op_i, c_i)`: `op_i` is an operation of the list whose reveal value maps to the
selected commitment of the state reached so far, no other operation of the list reveals
to that commitment, `GetCommitment op_i = c_i`, and the applier accepts `op_i` on that
state and sets the selected commitment to `c_i`; no operation of the list reveals to the
commitment selected at the end of the chain. -/
def commitmentChain (s : OperationProcessor) (commitmentFnc : ResolutionModel → String)
    (ops : List AnchoredOperation) :
    ResolutionModel → List (AnchoredOperation × String) → Prop
  | st, [] => ∀ op ∈ ops, revealCommitment s op ≠ .ok (commitmentFnc st)
  | st, link :: links =>
    link.1 ∈ ops ∧ revealCommitment s link.1 = .ok (commitmentFnc st) ∧
      (∀ o ∈ ops, revealCommitment s o = .ok (commitmentFnc st) → o = link.1) ∧
      getCommitment s link.1 = .ok link.2 ∧
      ∃ st', (applyOperation s link.1 st).1 = .ok st' ∧ commitmentFnc st' = link.2 ∧
        commitmentChain s commitmentFnc ops st' links

/-- One successful iteration of the loop of `applyOperations`: the commitment that was
processed, the operations of its bucket on which the applier was invoked and failed,
and the operation that was applied. -/
structure AppliedStep where
  commitment : String
  failed : List AnchoredOperation
  op : AnchoredOperation
deriving DecidableEq, Repr

/-- The successful iterations of a run of `applyOperations` on `ops` from the state
`st` to the state `final`: each step processes the commitment selected in the state
before it, its operation is an operation of `ops` in the bucket of that commitment, the
applier fails on the operations tried before it and accepts it, and the next step
starts from the state the applier returned. -/
def replaySteps (s : OperationProcessor) (ops : List AnchoredOperation)
    (commitmentFnc : ResolutionModel → String) :
    ResolutionModel → List AppliedStep → ResolutionModel → Prop
  | st, [], final => final = st
  | st, step :: steps, final =>
    commitmentFnc st = step.commitment ∧ step.op ∈ ops ∧
      revealCommitment s step.op = .ok step.commitment ∧
      (∀ o ∈ step.failed, ∀ st', (applyOperation s o st).1 ≠ .ok st') ∧
      ∃ st', (applyOperation s step.op st).1 = .ok st' ∧
        replaySteps s ops commitmentFnc st' steps final

/-- The operations handed to the applier in the given steps, in order. -/
def stepAttempts (steps : List AppliedStep) : List AnchoredOperation :=
  (steps.map (fun step => step.failed ++ [step.op])).flatten

/-- The distinct commitment buckets of `createOperationHashMap` for `ops`: the distinct
commitments that the operations reveal to. -/
def commitmentBuckets (s : OperationProcessor) (ops : List AnchoredOperation) : List String :=
  (ops.filterMap (fun op => (revealCommitment s op).toOption)).dedup

/-! ## Concrete operations used in examples -/

/-- An operation of the suffix `"s"` with the given type, request, coordinates and
canonical reference. -/
def exampleOp (type : String) (request : List Nat) (txnTime txnNumber : Nat)
    (canonicalReference : String) : AnchoredOperation :=
  { Type_ := type, UniqueSuffix := "s", OperationRequest := request,
    TransactionTime := txnTime, TransactionNumber := txnNumber, ProtocolVersion := 0,
    ProtocolGenesisTime := 0, CanonicalReference := canonicalReference,
    EquivalentReferences := [], AnchorOrigin := none }

/-- Commitment values used in the examples, by number; `0` is the empty commitment. -/
def exampleName : Nat → String
  | 0 => ""
  | 1 => "x"
  | 2 => "y"
  | 3 => "z"
  | _ => "w"

/-- An example parser: the first byte of a request names the commitment that the
operation reveals. -/
def exampleGetRevealValue (request : List Nat) : Except String String :=
  match request with
  | reveal :: _ => .ok (exampleName reveal)
  | [] => .error "no reveal value"

/-- An example parser: the second byte of a request names the next commitment of the
operation's kind. -/
def exampleGetCommitment (request : List Nat) : Except String String :=
  match request with
  | _ :: next :: _ => .ok (exampleName next)
  | _ => .error "no commitment"

/-- An example applier.  A create request `[r, u]` yields the document with recovery
commitment `r` and update commitment `u`.  Any other operation is accepted only if its
reveal value is the state's commitment of its kind: an update then sets the update
commitment to the operation's next commitment, a recover sets the recovery commitment
to it and the update commitment to the third byte of the request, a deactivate (whose
next commitment is empty) clears both; each records the operation's coordinates.  A
request that is too short is rejected. -/
def exampleApply (op : AnchoredOperation) (rm : ResolutionModel) :
    Except String ResolutionModel :=
  if op.Type_ = TypeCreate then
    match op.OperationRequest with
    | r :: u :: _ =>
      .ok { rm with
        Doc := some (exampleName r ++ exampleName u),
        RecoveryCommitment := exampleName r, UpdateCommitment := exampleName u,
        LastOperationTransactionTime := op.TransactionTime,
        LastOperationTransactionNumber := op.TransactionNumber }
    | _ => .error "bad create request"
  else
    match exampleGetCommitment op.OperationRequest with
    | .error e => .error e
    | .ok next =>
      if op.Type_ = TypeUpdate then
        if exampleGetRevealValue op.OperationRequest = .ok rm.UpdateCommitment then
          .ok { rm with
            UpdateCommitment := next,
            LastOperationTransactionTime := op.TransactionTime,
            LastOperationTransactionNumber := op.TransactionNumber }
        else .error "reveal value does not match the update commitment"
      else if exampleGetRevealValue op.OperationRequest ≠ .ok rm.RecoveryCommitment then
        .error "reveal value does not match the recovery commitment"
      else if op.Type_ = TypeRecover then
        .ok { rm with
          RecoveryCommitment := next,
          UpdateCommitment := exampleName (op.OperationRequest.getD 2 0),
          LastOperationTransactionTime := op.TransactionTime,
          LastOperationTransactionNumber := op.TransactionNumber }
      else if op.Type_ = TypeDeactivate ∧ next = "" then
        .ok { rm with
          Doc := none, RecoveryCommitment := "", UpdateCommitment := "", Deactivated := true,
          LastOperationTransactionTime := op.TransactionTime,
          LastOperationTransactionNumber := op.TransactionNumber }
      else .error "operation not applicable"

/-- The example protocol: the example parser and applier. -/
def exampleProtocol : Protocol :=
  { GetRevealValue := exampleGetRevealValue, GetCommitment := exampleGetCommitment,
    Apply := exampleApply }

/-- An example processor: the stores hold the given lists for every suffix and do not
fail, protocol version 0 is the example protocol and no other version is known, and a
reveal value is its own commitment. -/
def exampleProcessor (published unpublished : List AnchoredOperation) : OperationProcessor :=
  { name := "example",
    store := fun _ => (published, none),
    pc := fun version => if version = 0 then .ok exampleProtocol else .error "protocol not found",
    unpublishedOperationStore := fun _ => (unpublished, none),
    GetCommitmentFromRevealValue := fun rv => .ok rv }

/-- The history of scenario S6 as published operations: create, recover, deactivate,
and an update anchored after the deactivate. -/
def exampleDeactivated : List AnchoredOperation :=
  [exampleOp TypeCreate [1, 1] 0 0 "a", exampleOp TypeRecover [1, 2, 1] 1 0 "b",
    exampleOp TypeDeactivate [2, 0] 2 0 "c", exampleOp TypeUpdate [1, 3] 3 0 "d"]

/-- A history in which the recovery commitment `x` of the create operation is also its
update commitment, and stays the update commitment after the recover operation. -/
def exampleSharedCommitment : List AnchoredOperation :=
  [exampleOp TypeCreate [1, 1] 0 0 "a", exampleOp TypeRecover [1, 2, 1] 1 0 "b",
    exampleOp TypeUpdate [1, 3] 2 0 "c"]

/-- The state that the example applier produces from the create operation of
`exampleDeactivated`. -/
def exampleCreatedState : ResolutionModel :=
  { initialModel exampleDeactivated [] with
    Doc := some "xx", RecoveryCommitment := "x", UpdateCommitment := "x" }

/-- The run of the full-operation phase on `exampleDeactivated`: the recover and the
deactivate operation are applied and the document ends deactivated. -/
def exampleDeactivatedRun : PhaseRun :=
  { state :=
      { initialModel exampleDeactivated [] with
        Deactivated := true, LastOperationTransactionTime := 2 },
    commitmentMap := ["x", "y"],
    applied :=
      [exampleOp TypeRecover [1, 2, 1] 1 0 "b", exampleOp TypeDeactivate [2, 0] 2 0 "c"] }

/-- Three create operations; the applier rejects the first, whose request is too
short. -/
def exampleCreates : List AnchoredOperation :=
  [exampleOp TypeCreate [] 0 0 "a", exampleOp TypeCreate [1, 1] 1 0 "b",
    exampleOp TypeCreate [2, 2] 2 0 "c"]

/-- Two published updates anchored by the same transaction (equal coordinates) that
reveal the same commitment `x` and declare different next commitments, after a create
operation. -/
def exampleTieFirst : List AnchoredOperation :=
  [exampleOp TypeCreate [1, 1] 0 0 "a", exampleOp TypeUpdate [1, 2] 1 0 "b",
    exampleOp TypeUpdate [1, 3] 1 0 "c"]

/-- The list `exampleTieFirst` with the two updates exchanged. -/
def exampleTieSecond : List AnchoredOperation :=
  [exampleOp TypeCreate [1, 1] 0 0 "a", exampleOp TypeUpdate [1, 3] 1 0 "c",
    exampleOp TypeUpdate [1, 2] 1 0 "b"]

/-- The history of scenario S5 as published operations: a create (recovery commitment
`x`, update commitment `y`), an update anchored at time 10 that reveals `y`, a recover
anchored at time 11 that reveals `x` and declares the recovery commitment `z` and the
update commitment `w`, and an update anchored at time 12 that reveals `w`. -/
def exampleRecoverHistory : List AnchoredOperation :=
  [exampleOp TypeCreate [1, 2] 9 0 "a", exampleOp TypeUpdate [2, 3] 10 0 "b",
    exampleOp TypeRecover [1, 3, 4] 11 0 "c", exampleOp TypeUpdate [4, 1] 12 0 "d"]

/-- The state that the example applier produces from the create operation of
`exampleRecoverHistory`. -/
def exampleRecoverCreated : ResolutionModel :=
  { initialModel exampleRecoverHistory [] with
    Doc := some "xy", RecoveryCommitment := "x", UpdateCommitment := "y",
    LastOperationTransactionTime := 9 }

/-- The run of the full-operation phase on `exampleRecoverHistory`: the recover is
applied and records its coordinates. -/
def exampleRecoverRun : PhaseRun :=
  { state :=
      { initialModel exampleRecoverHistory [] with
        Doc := some "xy", RecoveryCommitment := "z", UpdateCommitment := "w",
        LastOperationTransactionTime := 11 },
    commitmentMap := ["x"],
    applied := [exampleOp TypeRecover [1, 3, 4] 11 0 "c"] }

/-- A chain of three updates (scenario S2): they reveal `x`, `y`, `z` and declare `y`,
`z`, `w`; listed out of chain order. -/
def exampleUpdateChain : List AnchoredOperation :=
  [exampleOp TypeUpdate [3, 4] 13 0 "d", exampleOp TypeUpdate [1, 2] 11 0 "b",
    exampleOp TypeUpdate [2, 3] 12 0 "c"]

/-- A state whose update commitment is `x`. -/
def exampleChainStart : ResolutionModel :=
  { initialModel [] [] with Doc := some "xx", RecoveryCommitment := "x", UpdateCommitment := "x" }

/-- A protocol whose applier breaks the contract: every operation reveals `x` and
declares the next commitment `y`, and `Apply` accepts every operation but leaves both
commitments at `x`. -/
def stuckProtocol : Protocol :=
  { GetRevealValue := fun _ => .ok "x",
    GetCommitment := fun _ => .ok "y",
    Apply := fun _ rm => .ok { rm with RecoveryCommitment := "x", UpdateCommitment := "x" } }

/-- A processor with the protocol `stuckProtocol` whose store holds a create and an
update operation. -/
def stuckProcessor : OperationProcessor :=
  { name := "stuck",
    store := fun _ =>
      ([exampleOp TypeCreate [] 0 0 "a", exampleOp TypeUpdate [] 1 0 "b"], none),
    pc := fun _ => .ok stuckProtocol,
    unpublishedOperationStore := noopUnpublishedOpsStore,
    GetCommitmentFromRevealValue := fun rv => .ok rv }

/-- The state of `stuckProcessor` after the create phase, which every further `Apply`
returns unchanged. -/
def stuckState : ResolutionModel :=
  { initialModel [exampleOp TypeCreate [] 0 0 "a", exampleOp TypeUpdate [] 1 0 "b"] [] with
    RecoveryCommitment := "x", UpdateCommitment := "x" }

/-! ## Sorting -/

theorem insertLeft_perm (less : AnchoredOperation → AnchoredOperation → Bool)
    (x : AnchoredOperation) (l : List AnchoredOperation) :
    (insertLeft less x l).Perm (x :: l) := by
  induction l with
  | nil => simp [insertLeft]
  | cons y l ih =>
    unfold insertLeft
    split
    · exact (List.Perm.cons y ih).trans (List.Perm.swap x y l)
    · exact List.Perm.refl _

theorem foldl_insertLeft_perm (less : AnchoredOperation → AnchoredOperation → Bool)
    (ops acc : List AnchoredOperation) :
    (ops.foldl (fun prefixRev x => insertLeft less x prefixRev) acc).Perm (acc ++ ops) := by
  induction ops generalizing acc with
  | nil => simp
  | cons x ops ih =>
    simp only [List.foldl_cons]
    refine (ih _).trans ?_
    refine (List.Perm.append_right ops (insertLeft_perm less x acc)).trans ?_
    simpa using (@List.perm_middle _ x acc ops).symm

theorem sortSlice_perm (less : AnchoredOperation → AnchoredOperation → Bool)
    (ops : List AnchoredOperation) : (sortSlice less ops).Perm ops := by
  unfold sortSlice
  refine (List.reverse_perm _).trans ?_
  simpa using foldl_insertLeft_perm less ops []

theorem sortOperations_perm (ops : List AnchoredOperation) : (sortOperations ops).Perm ops :=
  sortSlice_perm sortLess ops

/-! ## Gathering -/

theorem getCanonicalMap_foldl (published : List AnchoredOperation) (m : String → Option Bool)
    (k : String) :
    (published.foldl
      (fun canonicalMap op => fun k =>
        if k = op.CanonicalReference then some true else canonicalMap k) m) k =
      if k ∈ published.map (fun op => op.CanonicalReference) then some true else m k := by
  induction published generalizing m with
  | nil => simp
  | cons op published ih =>
    simp only [List.foldl_cons, List.map_cons, List.mem_cons]
    rw [ih]
    by_cases h1 : k ∈ published.map (fun op => op.CanonicalReference)
    · simp [h1]
    · by_cases h2 : k = op.CanonicalReference <;> simp [h1, h2]

theorem getCanonicalMap_isNone (published : List AnchoredOperation) (k : String) :
    (getCanonicalMap published k).isNone = true ↔
      k ∉ published.map (fun op => op.CanonicalReference) := by
  unfold getCanonicalMap
  rw [getCanonicalMap_foldl]
  by_cases h : k ∈ published.map (fun op => op.CanonicalReference) <;> simp [h]

theorem addAdditionalLoop_eq (canonicalIds : String → Option Bool)
    (published unpublished additional : List AnchoredOperation) :
    addAdditionalLoop canonicalIds published unpublished additional =
      (published ++ additional.filter (fun op =>
          decide (op.CanonicalReference ≠ "") && (canonicalIds op.CanonicalReference).isNone),
        unpublished ++ additional.filter (fun op => decide (op.CanonicalReference = ""))) := by
  induction additional generalizing published unpublished with
  | nil => simp [addAdditionalLoop]
  | cons op additional ih =>
    unfold addAdditionalLoop
    by_cases h1 : op.CanonicalReference = ""
    · simp [h1, ih, List.filter_cons]
    · by_cases h2 : (canonicalIds op.CanonicalReference).isNone = true
      · simp [h1, h2, ih, List.filter_cons]
      · simp [h1, h2, ih, List.filter_cons]

/-! ## C6: selection of the update operations -/

theorem isOpWithTxnGreaterThanOrUnpublished_eq (op : AnchoredOperation) (txnTime txnNumber : Nat) :
    isOpWithTxnGreaterThanOrUnpublished op txnTime txnNumber =
      txnGreaterOrUnpublished txnTime txnNumber op := by
  unfold isOpWithTxnGreaterThanOrUnpublished txnGreaterOrUnpublished
  by_cases h1 : op.CanonicalReference = ""
  · simp [h1]
  · by_cases h2 : op.TransactionTime < txnTime
    · have h3 : ¬ txnTime < op.TransactionTime := by omega
      have h4 : ¬ op.TransactionTime = txnTime := by omega
      simp [h1, h2, h3, h4]
    · by_cases h3 : op.TransactionTime > txnTime
      · simp [h1, h2, h3]
      · have h4 : op.TransactionTime = txnTime := by omega
        have h5 : ¬ txnTime < op.TransactionTime := by omega
        by_cases h6 : op.TransactionNumber > txnNumber
        · simp [h1, h2, h3, h4, h6]
        · simp [h1, h2, h3, h4, h6]

theorem getOpsWithTxnGreaterThanOrUnpublished_eq_filter (ops : List AnchoredOperation)
    (txnTime txnNumber : Nat) :
    getOpsWithTxnGreaterThanOrUnpublished ops txnTime txnNumber =
      ops.filter (txnGreaterOrUnpublished txnTime txnNumber) := by
  induction ops with
  | nil => rfl
  | cons op ops ih =>
    unfold getOpsWithTxnGreaterThanOrUnpublished
    rw [isOpWithTxnGreaterThanOrUnpublished_eq, ih, List.filter_cons]

/-- C6: `getOpsWithTxnGreaterThanOrUnpublished` returns exactly the order-preserving
sublist (the `filter`) of the operations that are unpublished (empty
`CanonicalReference`) or whose (TransactionTime, TransactionNumber) is strictly
greater than `(txnTime, txnNumber)` lexicographically; a published operation with
coordinates equal to `(txnTime, txnNumber)` is not in the result. -/
theorem C6_getOpsWithTxnGreaterThanOrUnpublished (ops : List AnchoredOperation)
    (txnTime txnNumber : Nat) :
    getOpsWithTxnGreaterThanOrUnpublished ops txnTime txnNumber =
        ops.filter (txnGreaterOrUnpublished txnTime txnNumber) ∧
      ∀ op : AnchoredOperation, op.CanonicalReference ≠ "" → op.TransactionTime = txnTime →
        op.TransactionNumber = txnNumber →
        op ∉ getOpsWithTxnGreaterThanOrUnpublished ops txnTime txnNumber := by
  have h := getOpsWithTxnGreaterThanOrUnpublished_eq_filter ops txnTime txnNumber
  refine ⟨h, ?_⟩
  intro op href htime hnum hmem
  rw [h, List.mem_filter] at hmem
  have := hmem.2
  simp [txnGreaterOrUnpublished, href, htime, hnum] at this

/-! ## C7: the comparison of `sortOperations` -/

/-- C7 (code at the failing input): on the list of an operation anchored at
(time 1, number 1) followed by one anchored at (time 2, number 0), which is already in
ascending order, `sortOperations` of the resolver and of the metadata transformer both
return the two operations swapped, so the result is not ascending by
(TransactionTime, TransactionNumber). -/
theorem C7_sortOperations_not_sorted :
    sortOperations [exampleOp TypeCreate [] 1 1 "a", exampleOp TypeUpdate [] 2 0 "b"] =
        [exampleOp TypeUpdate [] 2 0 "b", exampleOp TypeCreate [] 1 1 "a"] ∧
      metadata.sortOperations [exampleOp TypeCreate [] 1 1 "a", exampleOp TypeUpdate [] 2 0 "b"] =
        [exampleOp TypeUpdate [] 2 0 "b", exampleOp TypeCreate [] 1 1 "a"] ∧
      ¬ txnLe (exampleOp TypeUpdate [] 2 0 "b") (exampleOp TypeCreate [] 1 1 "a") := by
  decide

/-! ## C9: additional operations -/

/-- C9 (counterexample): an additional operation whose non-empty `CanonicalReference`
is already present among the published operations is put neither into the published
nor into the unpublished result. -/
theorem C9_counterexample :
    (exampleOp TypeUpdate [1] 2 0 "a").CanonicalReference ∈
        [exampleOp TypeCreate [] 1 0 "a"].map (fun op => op.CanonicalReference) ∧
      exampleOp TypeUpdate [1] 2 0 "a" ∉
        (addAdditionalOperations [exampleOp TypeCreate [] 1 0 "a"] []
          [exampleOp TypeUpdate [1] 2 0 "a"]).2 ∧
      exampleOp TypeUpdate [1] 2 0 "a" ∉
        (addAdditionalOperations [exampleOp TypeCreate [] 1 0 "a"] []
          [exampleOp TypeUpdate [1] 2 0 "a"]).1 := by
  decide

theorem addAdditionalOperations_eq (published unpublished additional : List AnchoredOperation) :
    (addAdditionalOperations published unpublished additional).1 =
        sortOperations (published ++ additional.filter (fun op =>
          decide (op.CanonicalReference ≠ "" ∧
            op.CanonicalReference ∉ published.map (fun p => p.CanonicalReference)))) ∧
      (addAdditionalOperations published unpublished additional).2 =
        sortOperations (unpublished ++ additional.filter (fun op =>
          decide (op.CanonicalReference = ""))) := by
  have hf : (fun op : AnchoredOperation =>
        decide (op.CanonicalReference ≠ "") &&
          (getCanonicalMap published op.CanonicalReference).isNone) =
      (fun op : AnchoredOperation =>
        decide (op.CanonicalReference ≠ "" ∧
          op.CanonicalReference ∉ published.map (fun p => p.CanonicalReference))) := by
    funext op
    by_cases h : (getCanonicalMap published op.CanonicalReference).isNone = true
    · have h' := (getCanonicalMap_isNone published op.CanonicalReference).1 h
      simp only [h, Bool.and_true]
      by_cases h1 : op.CanonicalReference = "" <;> simp [h1, h']
    · have h' : ¬ op.CanonicalReference ∉ published.map (fun p => p.CanonicalReference) :=
        fun hn => h ((getCanonicalMap_isNone published op.CanonicalReference).2 hn)
      have h2 : (getCanonicalMap published op.CanonicalReference).isNone = false :=
        Bool.eq_false_iff.2 h
      have h3 : ¬ (op.CanonicalReference ≠ "" ∧
          op.CanonicalReference ∉ published.map (fun p => p.CanonicalReference)) :=
        fun hc => h' hc.2
      simp only [h2, Bool.and_false]
      exact (decide_eq_false h3).symm
  have h1 : (addAdditionalOperations published unpublished additional).1 =
      sortOperations (published ++ additional.filter (fun op =>
        decide (op.CanonicalReference ≠ "" ∧
          op.CanonicalReference ∉ published.map (fun p => p.CanonicalReference)))) := by
    simp only [addAdditionalOperations, addAdditionalLoop_eq, hf]
  have h2 : (addAdditionalOperations published unpublished additional).2 =
      sortOperations (unpublished ++ additional.filter (fun op =>
        decide (op.CanonicalReference = ""))) := by
    simp only [addAdditionalOperations, addAdditionalLoop_eq]
  exact ⟨h1, h2⟩

/-- C9 (amended): the published result of `addAdditionalOperations` is the sorted list
of the published operations followed by the additional operations whose
`CanonicalReference` is non-empty and not present among the published ones; the
unpublished result is the sorted list of the unpublished operations followed by the
additional operations with an empty `CanonicalReference`; both are permutations of
these lists, so an additional operation whose non-empty reference is already present
is added to neither. -/
theorem C9_addAdditionalOperations (published unpublished additional : List AnchoredOperation) :
    (addAdditionalOperations published unpublished additional).1 =
        sortOperations (published ++ additional.filter (fun op =>
          decide (op.CanonicalReference ≠ "" ∧
            op.CanonicalReference ∉ published.map (fun p => p.CanonicalReference)))) ∧
      (addAdditionalOperations published unpublished additional).2 =
        sortOperations (unpublished ++ additional.filter (fun op =>
          decide (op.CanonicalReference = ""))) ∧
      ((addAdditionalOperations published unpublished additional).1).Perm
        (published ++ additional.filter (fun op =>
          decide (op.CanonicalReference ≠ "" ∧
            op.CanonicalReference ∉ published.map (fun p => p.CanonicalReference)))) ∧
      ((addAdditionalOperations published unpublished additional).2).Perm
        (unpublished ++ additional.filter (fun op => decide (op.CanonicalReference = ""))) := by
  obtain ⟨h1, h2⟩ := addAdditionalOperations_eq published unpublished additional
  refine ⟨h1, h2, ?_, ?_⟩
  · rw [h1]; exact sortOperations_perm _
  · rw [h2]; exact sortOperations_perm _

/-! ## C10: the combined list -/

theorem foldl_insertLeft_of_chain (less : AnchoredOperation → AnchoredOperation → Bool)
    (ops acc : List AnchoredOperation)
    (h : List.Chain' (fun a b => less b a = false) (acc.reverse ++ ops)) :
    ops.foldl (fun prefixRev x => insertLeft less x prefixRev) acc = ops.reverse ++ acc := by
  induction ops generalizing acc with
  | nil => simp
  | cons x ops ih =>
    have hx : insertLeft less x acc = x :: acc := by
      cases acc with
      | nil => rfl
      | cons y acc =>
        have hxy : less x y = false := by
          have h1 : List.Chain' (fun a b => less b a = false)
              (acc.reverse ++ ([y, x] ++ ops)) := by
            simpa using h
          have h2 := (List.Chain'.right_of_append h1)
          have h3 : List.Chain' (fun a b => less b a = false) [y, x] :=
            List.Chain'.left_of_append h2
          simpa using h3
        simp [insertLeft, hxy]
    simp only [List.foldl_cons, hx]
    rw [ih (x :: acc) (by simpa using h)]
    simp

theorem sortSlice_of_chain (less : AnchoredOperation → AnchoredOperation → Bool)
    (ops : List AnchoredOperation)
    (h : List.Chain' (fun a b => less b a = false) ops) : sortSlice less ops = ops := by
  unfold sortSlice
  rw [foldl_insertLeft_of_chain less ops [] (by simpa using h)]
  simp

/-- C10 (counterexample): with a published create anchored at (5, 0) in the operation
store and an unpublished update with coordinates (1, 0) in the unpublished store, the
combined list that `Resolve` splits and replays has the unpublished operation before
the published one. -/
theorem C10_counterexample :
    (gatheredOperations
        (exampleProcessor [exampleOp TypeCreate [1, 1] 5 0 "a"] [exampleOp TypeUpdate [1, 2] 1 0 ""])
        "s" []) =
      ([exampleOp TypeCreate [1, 1] 5 0 "a"], [exampleOp TypeUpdate [1, 2] 1 0 ""]) ∧
    combinedOperations [exampleOp TypeCreate [1, 1] 5 0 "a"] [exampleOp TypeUpdate [1, 2] 1 0 ""] =
      [exampleOp TypeUpdate [1, 2] 1 0 "", exampleOp TypeCreate [1, 1] 5 0 "a"] := by
  decide

/-- C10 (amended): the combined list that `Resolve` splits and replays is the sorted
published list followed by the sorted unpublished list, sorted once more as a whole:
it is a permutation of that concatenation, and it is the concatenation itself
(published operations first) whenever the comparison of `sortOperations` puts no
operation of the concatenation before its predecessor. -/
theorem C10_combinedOperations (publishedOps unpublishedOps : List AnchoredOperation) :
    (combinedOperations publishedOps unpublishedOps).Perm (publishedOps ++ unpublishedOps) ∧
      (List.Chain' (fun a b => sortLess b a = false) (publishedOps ++ unpublishedOps) →
        combinedOperations publishedOps unpublishedOps = publishedOps ++ unpublishedOps) :=
  ⟨sortOperations_perm _, fun h => sortSlice_of_chain sortLess _ h⟩

/-- C10 (witness): a published create anchored at (1, 0) and an unpublished update with
coordinates (2, 0) stay in this order. -/
theorem C10_combinedOperations_witness :
    combinedOperations [exampleOp TypeCreate [1, 1] 1 0 "a"] [exampleOp TypeUpdate [1, 2] 2 0 ""] =
      [exampleOp TypeCreate [1, 1] 1 0 "a"] ++ [exampleOp TypeUpdate [1, 2] 2 0 ""] :=
  (C10_combinedOperations [exampleOp TypeCreate [1, 1] 1 0 "a"]
    [exampleOp TypeUpdate [1, 2] 2 0 ""]).2 (List.chain'_pair.2 (by decide))

/-! ## C2: the first valid operation -/

theorem acceptable_iff (s : OperationProcessor) (rm : ResolutionModel) (currC : String)
    (consumed : List String) (op : AnchoredOperation) (nextC : String)
    (h : getCommitment s op = .ok nextC) :
    acceptable s rm currC consumed op ↔
      (nextC ≠ currC ∧ (nextC = "" ∨ nextC ∉ consumed) ∧
        ∃ st, (applyOperation s op rm).1 = .ok st) := by
  constructor
  · rintro ⟨n, hn, h1, h2, h3⟩
    rw [h] at hn
    cases hn
    exact ⟨h1, h2, h3⟩
  · rintro ⟨h1, h2, h3⟩
    exact ⟨nextC, h, h1, h2, h3⟩

theorem applyOperation_applied (s : OperationProcessor) (op : AnchoredOperation)
    (rm : ResolutionModel) : ∀ o ∈ (applyOperation s op rm).2, o = op := by
  unfold applyOperation
  split <;> simp

theorem applyOperation_ok_applied (s : OperationProcessor) (op : AnchoredOperation)
    (rm st : ResolutionModel) (h : (applyOperation s op rm).1 = .ok st) :
    (applyOperation s op rm).2 = [op] := by
  unfold applyOperation at h ⊢
  split
  · rename_i e he
    rw [he] at h
    simp at h
  · rfl

/-- The result of `applyFirstValidOperation`: nil when no operation is acceptable,
otherwise the applier's result for the first acceptable operation; the applier is
invoked only on operations up to that one that pass the commitment checks. -/
theorem applyFirstValidOperation_spec (s : OperationProcessor) (ops : List AnchoredOperation)
    (rm : ResolutionModel) (currC : String) (consumed : List String) :
    ((applyFirstValidOperation s ops rm currC consumed).1 = none ∧
        (∀ op ∈ ops, ¬ acceptable s rm currC consumed op) ∧
        (∀ o ∈ (applyFirstValidOperation s ops rm currC consumed).2, o ∈ ops)) ∨
      (∃ pre op post st, ops = pre ++ op :: post ∧
        (∀ o ∈ pre, ¬ acceptable s rm currC consumed o) ∧
        acceptable s rm currC consumed op ∧
        (applyOperation s op rm).1 = .ok st ∧
        (applyFirstValidOperation s ops rm currC consumed).1 = some st ∧
        (∃ l, (applyFirstValidOperation s ops rm currC consumed).2 = l ++ [op] ∧
          ∀ o ∈ l, o ∈ pre)) := by
  induction ops with
  | nil =>
    left
    simp [applyFirstValidOperation]
  | cons op ops ih =>
    -- the case in which `op` is skipped without the applier being asked
    have skip : ¬ acceptable s rm currC consumed op →
        applyFirstValidOperation s (op :: ops) rm currC consumed =
          applyFirstValidOperation s ops rm currC consumed →
        ((applyFirstValidOperation s (op :: ops) rm currC consumed).1 = none ∧
          (∀ o ∈ op :: ops, ¬ acceptable s rm currC consumed o) ∧
          (∀ o ∈ (applyFirstValidOperation s (op :: ops) rm currC consumed).2, o ∈ op :: ops)) ∨
        (∃ pre o post st, op :: ops = pre ++ o :: post ∧
          (∀ o ∈ pre, ¬ acceptable s rm currC consumed o) ∧
          acceptable s rm currC consumed o ∧
          (applyOperation s o rm).1 = .ok st ∧
          (applyFirstValidOperation s (op :: ops) rm currC consumed).1 = some st ∧
          (∃ l, (applyFirstValidOperation s (op :: ops) rm currC consumed).2 = l ++ [o] ∧
            ∀ o ∈ l, o ∈ pre)) := by
      intro hna heq
      rw [heq]
      rcases ih with ⟨h1, h2, h3⟩ | ⟨pre, o, post, st, h1, h2, h3, h4, h5, l, h6, h7⟩
      · left
        refine ⟨h1, ?_, fun o ho => List.mem_cons_of_mem _ (h3 o ho)⟩
        intro o ho
        rcases List.mem_cons.1 ho with rfl | ho
        · exact hna
        · exact h2 o ho
      · right
        refine ⟨op :: pre, o, post, st, by simp [h1], ?_, h3, h4, h5, l, h6,
          fun x hx => List.mem_cons_of_mem _ (h7 x hx)⟩
        intro x hx
        rcases List.mem_cons.1 hx with rfl | hx
        · exact hna
        · exact h2 x hx
    cases hc : getCommitment s op with
    | error e =>
      apply skip
      · rintro ⟨n, hn, _⟩
        rw [hc] at hn
        cases hn
      · simp [applyFirstValidOperation, hc]
    | ok nextC =>
      by_cases h1 : currC = nextC
      · apply skip
        · rw [acceptable_iff s rm currC consumed op nextC hc]
          exact fun h => h.1 h1.symm
        · simp [applyFirstValidOperation, hc, h1]
      · by_cases h2 : nextC ≠ "" ∧ nextC ∈ consumed
        · apply skip
          · rw [acceptable_iff s rm currC consumed op nextC hc]
            rintro ⟨_, h | h, _⟩
            · exact h2.1 h
            · exact h h2.2
          · rw [applyFirstValidOperation]
            simp only [hc]
            rw [if_neg h1, if_pos h2]
        · have h2' : nextC = "" ∨ nextC ∉ consumed := by
            by_cases h3 : nextC = ""
            · exact Or.inl h3
            · exact Or.inr (fun h4 => h2 ⟨h3, h4⟩)
          cases ha : applyOperation s op rm with
          | mk res applied =>
            cases res with
            | error e =>
              have hna : ¬ acceptable s rm currC consumed op := by
                rw [acceptable_iff s rm currC consumed op nextC hc]
                rintro ⟨_, _, st, hst⟩
                rw [ha] at hst
                cases hst
              have heq : applyFirstValidOperation s (op :: ops) rm currC consumed =
                  ((applyFirstValidOperation s ops rm currC consumed).1,
                    applied ++ (applyFirstValidOperation s ops rm currC consumed).2) := by
                rw [applyFirstValidOperation]
                simp only [hc]
                rw [if_neg h1, if_neg h2]
                simp only [ha]
              have happ : ∀ o ∈ applied, o = op := by
                have := applyOperation_applied s op rm
                rw [ha] at this
                exact this
              rw [heq]
              rcases ih with ⟨i1, i2, i3⟩ | ⟨pre, o, post, st, i1, i2, i3, i4, i5, l, i6, i7⟩
              · left
                refine ⟨i1, ?_, ?_⟩
                · intro o ho
                  rcases List.mem_cons.1 ho with rfl | ho
                  · exact hna
                  · exact i2 o ho
                · intro o ho
                  rcases List.mem_append.1 ho with ho | ho
                  · rw [happ o ho]; exact List.mem_cons_self _ _
                  · exact List.mem_cons_of_mem _ (i3 o ho)
              · right
                refine ⟨op :: pre, o, post, st, by simp [i1], ?_, i3, i4, i5,
                  applied ++ l, by simp [i6], ?_⟩
                · intro x hx
                  rcases List.mem_cons.1 hx with rfl | hx
                  · exact hna
                  · exact i2 x hx
                · intro x hx
                  rcases List.mem_append.1 hx with hx | hx
                  · rw [happ x hx]; exact List.mem_cons_self _ _
                  · exact List.mem_cons_of_mem _ (i7 x hx)
            | ok st =>
              right
              have hst : (applyOperation s op rm).1 = .ok st := by rw [ha]
              have happ : applied = [op] := by
                have := applyOperation_ok_applied s op rm st hst
                rw [ha] at this
                exact this
              refine ⟨[], op, ops, st, rfl, by simp, ?_, hst, ?_, [], ?_, by simp⟩
              · rw [acceptable_iff s rm currC consumed op nextC hc]
                exact ⟨fun h => h1 h.symm, h2', st, hst⟩
              · rw [applyFirstValidOperation]
                simp only [hc]
                rw [if_neg h1, if_neg h2]
                simp only [ha]
              · rw [applyFirstValidOperation]
                simp only [hc]
                rw [if_neg h1, if_neg h2]
                simp only [ha, happ]
                simp

/-- The applier is invoked by `applyFirstValidOperation` only on operations of the list
that passed the two commitment checks. -/
theorem applyFirstValidOperation_applied (s : OperationProcessor) (ops : List AnchoredOperation)
    (rm : ResolutionModel) (currC : String) (consumed : List String) :
    ∀ op ∈ (applyFirstValidOperation s ops rm currC consumed).2,
      op ∈ ops ∧ ∃ nextC, getCommitment s op = .ok nextC ∧ nextC ≠ currC ∧
        (nextC = "" ∨ nextC ∉ consumed) := by
  induction ops with
  | nil => simp [applyFirstValidOperation]
  | cons op ops ih =>
    have step : ∀ o ∈ (applyFirstValidOperation s ops rm currC consumed).2,
        o ∈ op :: ops ∧ ∃ nextC, getCommitment s o = .ok nextC ∧ nextC ≠ currC ∧
          (nextC = "" ∨ nextC ∉ consumed) :=
      fun o ho => ⟨List.mem_cons_of_mem _ (ih o ho).1, (ih o ho).2⟩
    rw [applyFirstValidOperation]
    cases hc : getCommitment s op with
    | error e => exact step
    | ok nextC =>
      simp only []
      by_cases h1 : currC = nextC
      · rw [if_pos h1]; exact step
      · rw [if_neg h1]
        by_cases h2 : nextC ≠ "" ∧ nextC ∈ consumed
        · rw [if_pos h2]; exact step
        · rw [if_neg h2]
          have h2' : nextC = "" ∨ nextC ∉ consumed := by
            by_cases h3 : nextC = ""
            · exact Or.inl h3
            · exact Or.inr (fun h4 => h2 ⟨h3, h4⟩)
          have hop : ∀ o ∈ (applyOperation s op rm).2,
              o ∈ op :: ops ∧ ∃ nextC, getCommitment s o = .ok nextC ∧ nextC ≠ currC ∧
                (nextC = "" ∨ nextC ∉ consumed) := by
            intro o ho
            rw [applyOperation_applied s op rm o ho]
            exact ⟨List.mem_cons_self _ _, nextC, hc, fun h => h1 h.symm, h2'⟩
          cases ha : applyOperation s op rm with
          | mk res applied =>
            rw [ha] at hop
            cases res with
            | error e =>
              intro o ho
              rcases List.mem_append.1 ho with ho | ho
              · exact hop o ho
              · exact step o ho
            | ok st => exact hop

/-- C2: `applyFirstValidOperation ops state currC consumed` returns the applier's result
for the first operation in list order that is acceptable (its `GetCommitment` succeeds
with a value `nextC` that differs from `currC` and is empty or not in `consumed`, and
`Apply` succeeds on it); it returns nil exactly when no operation of the list is
acceptable.  The applier is never invoked on an operation whose next commitment equals
the current commitment, nor on one whose non-empty next commitment is in `consumed`. -/
theorem C2_applyFirstValidOperation (s : OperationProcessor) (ops : List AnchoredOperation)
    (state : ResolutionModel) (currC : String) (consumed : List String) :
    (((applyFirstValidOperation s ops state currC consumed).1 = none ∧
          ∀ op ∈ ops, ¬ acceptable s state currC consumed op) ∨
        (∃ pre op post st, ops = pre ++ op :: post ∧
          (∀ o ∈ pre, ¬ acceptable s state currC consumed o) ∧
          acceptable s state currC consumed op ∧
          (applyOperation s op state).1 = .ok st ∧
          (applyFirstValidOperation s ops state currC consumed).1 = some st)) ∧
      ((applyFirstValidOperation s ops state currC consumed).1 = none ↔
        ∀ op ∈ ops, ¬ acceptable s state currC consumed op) ∧
      (∀ op ∈ (applyFirstValidOperation s ops state currC consumed).2, ∀ nextC,
        getCommitment s op = .ok nextC →
          nextC ≠ currC ∧ (nextC = "" ∨ nextC ∉ consumed)) := by
  have hspec := applyFirstValidOperation_spec s ops state currC consumed
  refine ⟨?_, ?_, ?_⟩
  · rcases hspec with ⟨h1, h2, _⟩ | ⟨pre, op, post, st, h1, h2, h3, h4, h5, _⟩
    · exact Or.inl ⟨h1, h2⟩
    · exact Or.inr ⟨pre, op, post, st, h1, h2, h3, h4, h5⟩
  · rcases hspec with ⟨h1, h2, _⟩ | ⟨pre, op, post, st, h1, h2, h3, h4, h5, _⟩
    · exact ⟨fun _ => h2, fun _ => h1⟩
    · constructor
      · intro hn
        rw [h5] at hn
        cases hn
      · intro hall
        exact absurd h3 (hall op (by rw [h1]; simp))
  · intro op hop nextC hc
    obtain ⟨_, n, hn, h1, h2⟩ := applyFirstValidOperation_applied s ops state currC consumed op hop
    rw [hc] at hn
    cases hn
    exact ⟨h1, h2⟩

/-! ## The phases of `Resolve` -/

theorem Resolve_eq_resolveGathered (s : OperationProcessor) (fuel : Nat) (uniqueSuffix : String)
    (additionalOps : List AnchoredOperation) (hstore : storeReadable s uniqueSuffix) :
    Resolve s fuel uniqueSuffix additionalOps =
      resolveGathered s fuel (gatheredOperations s uniqueSuffix additionalOps).1
        (gatheredOperations s uniqueSuffix additionalOps).2 := by
  unfold Resolve
  cases h : (s.store uniqueSuffix).2 with
  | none => rfl
  | some err => simp [hstore err h]

theorem splitOperations_create (ops : List AnchoredOperation) :
    (splitOperations ops).1 = ops.filter (fun op => decide (op.Type_ = TypeCreate)) := by
  induction ops with
  | nil => rfl
  | cons op ops ih =>
    rw [splitOperations, List.filter_cons]
    simp only [TypeCreate, TypeUpdate, TypeRecover, TypeDeactivate] at ih ⊢
    by_cases h1 : op.Type_ = "create"
    · simp [h1, ih]
    · by_cases h2 : op.Type_ = "update"
      · simp [h2, ih]
      · by_cases h3 : op.Type_ = "recover"
        · simp [h3, ih]
        · by_cases h4 : op.Type_ = "deactivate"
          · simp [h4, ih]
          · simp [h1, h2, h3, h4, ih]

theorem splitOperations_update (ops : List AnchoredOperation) :
    (splitOperations ops).2.1 = ops.filter (fun op => decide (op.Type_ = TypeUpdate)) := by
  induction ops with
  | nil => rfl
  | cons op ops ih =>
    rw [splitOperations, List.filter_cons]
    simp only [TypeCreate, TypeUpdate, TypeRecover, TypeDeactivate] at ih ⊢
    by_cases h1 : op.Type_ = "create"
    · simp [h1, ih]
    · by_cases h2 : op.Type_ = "update"
      · simp [h2, ih]
      · by_cases h3 : op.Type_ = "recover"
        · simp [h3, ih]
        · by_cases h4 : op.Type_ = "deactivate"
          · simp [h4, ih]
          · simp [h1, h2, h3, h4, ih]

theorem splitOperations_full (ops : List AnchoredOperation) :
    (splitOperations ops).2.2 =
      ops.filter (fun op => decide (op.Type_ = TypeRecover ∨ op.Type_ = TypeDeactivate)) := by
  induction ops with
  | nil => rfl
  | cons op ops ih =>
    rw [splitOperations, List.filter_cons]
    simp only [TypeCreate, TypeUpdate, TypeRecover, TypeDeactivate] at ih ⊢
    by_cases h1 : op.Type_ = "create"
    · simp [h1, ih]
    · by_cases h2 : op.Type_ = "update"
      · simp [h2, ih]
      · by_cases h3 : op.Type_ = "recover"
        · simp [h3, ih]
        · by_cases h4 : op.Type_ = "deactivate"
          · simp [h4, ih]
          · simp [h1, h2, h3, h4, ih]

/-- The result of `applyFirstValidCreateOperation`: nil when the applier accepts no
operation of the list, otherwise the applier's result for the first operation it
accepts; the applier is invoked on no operation after that one. -/
theorem applyFirstValidCreateOperation_spec (s : OperationProcessor)
    (createOps : List AnchoredOperation) (rm : ResolutionModel) :
    ((applyFirstValidCreateOperation s createOps rm).1 = none ∧
        (∀ op ∈ createOps, ∀ st, (applyOperation s op rm).1 ≠ .ok st) ∧
        ((applyFirstValidCreateOperation s createOps rm).2).Sublist createOps) ∨
      (∃ pre op post st, createOps = pre ++ op :: post ∧
        (∀ o ∈ pre, ∀ st', (applyOperation s o rm).1 ≠ .ok st') ∧
        (applyOperation s op rm).1 = .ok st ∧
        (applyFirstValidCreateOperation s createOps rm).1 = some st ∧
        (∃ l, (applyFirstValidCreateOperation s createOps rm).2 = l ++ [op] ∧
          l.Sublist pre)) := by
  induction createOps with
  | nil =>
    left
    simp [applyFirstValidCreateOperation]
  | cons op ops ih =>
    have hsub : ((applyOperation s op rm).2).Sublist [op] := by
      unfold applyOperation
      split <;> simp
    cases ha : applyOperation s op rm with
    | mk res applied =>
      rw [ha] at hsub
      simp only at hsub
      cases res with
      | error e =>
        have hfail : ∀ st, (applyOperation s op rm).1 ≠ .ok st := by
          intro st hst
          rw [ha] at hst
          cases hst
        have heq : applyFirstValidCreateOperation s (op :: ops) rm =
            ((applyFirstValidCreateOperation s ops rm).1,
              applied ++ (applyFirstValidCreateOperation s ops rm).2) := by
          rw [applyFirstValidCreateOperation]
          simp only [ha]
        rw [heq]
        rcases ih with ⟨i1, i2, i3⟩ | ⟨pre, o, post, st, i1, i2, i3, i4, l, i5, i6⟩
        · left
          refine ⟨i1, ?_, ?_⟩
          · intro o ho
            rcases List.mem_cons.1 ho with rfl | ho
            · exact hfail
            · exact i2 o ho
          · exact List.Sublist.append hsub i3
        · right
          refine ⟨op :: pre, o, post, st, by simp [i1], ?_, i3, i4, applied ++ l,
            by simp [i5], ?_⟩
          · intro x hx
            rcases List.mem_cons.1 hx with rfl | hx
            · exact hfail
            · exact i2 x hx
          · exact List.Sublist.append hsub i6
      | ok st =>
        right
        have hst : (applyOperation s op rm).1 = .ok st := by rw [ha]
        have happ : applied = [op] := by
          have := applyOperation_ok_applied s op rm st hst
          rw [ha] at this
          exact this
        refine ⟨[], op, ops, st, rfl, by simp, hst, ?_, [], ?_, List.Sublist.refl _⟩
        · rw [applyFirstValidCreateOperation]
          simp only [ha]
        · rw [applyFirstValidCreateOperation]
          simp only [ha, happ]
          simp

/-! ## The commitment chain -/

theorem createOperationHashMap_foldl (s : OperationProcessor) (ops : List AnchoredOperation)
    (m : String → Option (List AnchoredOperation)) (k : String) :
    (ops.foldl
      (fun opMap op =>
        match revealCommitment s op with
        | .error _ => opMap
        | .ok c => fun k => if k = c then some ((opMap c).getD [] ++ [op]) else opMap k) m) k =
      if ops.filter (fun op => decide (revealCommitment s op = .ok k)) = [] then m k
      else some ((m k).getD [] ++ ops.filter (fun op => decide (revealCommitment s op = .ok k))) := by
  induction ops generalizing m with
  | nil => simp
  | cons op ops ih =>
    rw [List.foldl_cons, ih, List.filter_cons]
    cases hk : revealCommitment s op with
    | error e => simp
    | ok c =>
      by_cases hkc : k = c
      · subst hkc
        by_cases hf : ops.filter (fun op => decide (revealCommitment s op = .ok k)) = []
        · simp [hf]
        · simp [hf]
      · have hne : ¬ (Except.ok c : Except String String) = Except.ok k := by
          intro h
          cases h
          exact hkc rfl
        simp [hkc, hne]

/-- The bucket of the commitment `k` in the map of `createOperationHashMap`: the
operations whose reveal value has the commitment `k`, in list order; the key is
absent when there is none. -/
theorem createOperationHashMap_eq (s : OperationProcessor) (ops : List AnchoredOperation)
    (k : String) :
    createOperationHashMap s ops k =
      if ops.filter (fun op => decide (revealCommitment s op = .ok k)) = [] then none
      else some (ops.filter (fun op => decide (revealCommitment s op = .ok k))) := by
  unfold createOperationHashMap
  rw [createOperationHashMap_foldl]
  simp

theorem createOperationHashMap_mem (s : OperationProcessor) (ops : List AnchoredOperation)
    (k : String) (l : List AnchoredOperation) (h : createOperationHashMap s ops k = some l) :
    ∀ o ∈ l, o ∈ ops := by
  rw [createOperationHashMap_eq] at h
  split at h
  · cases h
  · cases h
    intro o ho
    exact (List.mem_filter.1 ho).1

/-- The operations handed to the applier by the loop of `applyOperations` are appended
to those handed over before and are taken from the buckets. -/
theorem applyOperationsLoop_applied (s : OperationProcessor)
    (opMap : String → Option (List AnchoredOperation))
    (commitmentFnc : ResolutionModel → String) (P : AnchoredOperation → Prop)
    (hmap : ∀ k l, opMap k = some l → ∀ o ∈ l, P o) :
    ∀ (fuel : Nat) (state : ResolutionModel) (c : String)
      (commitmentOps : List AnchoredOperation) (commitmentMap : List String)
      (applied : List AnchoredOperation) (run : PhaseRun),
      (∀ o ∈ commitmentOps, P o) →
      applyOperationsLoop s opMap commitmentFnc fuel state c commitmentOps commitmentMap
        applied = .ok run →
      ∃ rest, run.applied = applied ++ rest ∧ ∀ o ∈ rest, P o := by
  intro fuel
  induction fuel with
  | zero =>
    intro state c commitmentOps commitmentMap applied run _ h
    simp [applyOperationsLoop] at h
  | succ fuel ih =>
    intro state c commitmentOps commitmentMap applied run hops h
    rw [applyOperationsLoop] at h
    have hlog := applyFirstValidOperation_applied s commitmentOps state c commitmentMap
    cases hf : applyFirstValidOperation s commitmentOps state c commitmentMap with
    | mk res a =>
      rw [hf] at h hlog
      have ha : ∀ o ∈ a, P o := fun o ho => hops o (hlog o ho).1
      cases res with
      | none =>
        simp only [Except.ok.injEq] at h
        subst h
        exact ⟨a, rfl, ha⟩
      | some newState =>
        simp only at h
        by_cases hc : commitmentFnc newState = ""
        · rw [if_pos hc] at h
          simp only [Except.ok.injEq] at h
          subst h
          exact ⟨a, rfl, ha⟩
        · rw [if_neg hc] at h
          cases hm : opMap (commitmentFnc newState) with
          | none =>
            rw [hm] at h
            simp only [Except.ok.injEq] at h
            subst h
            exact ⟨a, rfl, ha⟩
          | some commitmentOps' =>
            rw [hm] at h
            obtain ⟨rest, h1, h2⟩ := ih newState (commitmentFnc newState) commitmentOps'
              (commitmentMap ++ [c]) (applied ++ a) run (hmap _ _ hm) h
            refine ⟨a ++ rest, by rw [h1, List.append_assoc], ?_⟩
            intro o ho
            rcases List.mem_append.1 ho with ho | ho
            · exact ha o ho
            · exact h2 o ho

/-- With an applier that sets the selected commitment to the applied operation's next
commitment, the loop of `applyOperations` never marks a commitment twice. -/
theorem applyOperationsLoop_nodup (s : OperationProcessor)
    (opMap : String → Option (List AnchoredOperation))
    (commitmentFnc : ResolutionModel → String) (P : AnchoredOperation → Prop)
    (hmap : ∀ k l, opMap k = some l → ∀ o ∈ l, P o)
    (hcontract : ∀ (op : AnchoredOperation) (rm rm' : ResolutionModel) (nextC : String),
      P op → getCommitment s op = .ok nextC → (applyOperation s op rm).1 = .ok rm' →
        commitmentFnc rm' = nextC) :
    ∀ (fuel : Nat) (state : ResolutionModel) (c : String)
      (commitmentOps : List AnchoredOperation) (commitmentMap : List String)
      (applied : List AnchoredOperation) (run : PhaseRun),
      (∀ o ∈ commitmentOps, P o) → commitmentMap.Nodup → c ∉ commitmentMap →
      applyOperationsLoop s opMap commitmentFnc fuel state c commitmentOps commitmentMap
        applied = .ok run →
      run.commitmentMap.Nodup := by
  intro fuel
  induction fuel with
  | zero =>
    intro state c commitmentOps commitmentMap applied run _ _ _ h
    simp [applyOperationsLoop] at h
  | succ fuel ih =>
    intro state c commitmentOps commitmentMap applied run hops hnd hc h
    rw [applyOperationsLoop] at h
    have hnd' : (commitmentMap ++ [c]).Nodup := by
      rw [List.nodup_append]
      refine ⟨hnd, List.nodup_singleton c, ?_⟩
      intro x hx hx'
      rw [List.mem_singleton] at hx'
      subst hx'
      exact hc hx
    have hspec := applyFirstValidOperation_spec s commitmentOps state c commitmentMap
    cases hf : applyFirstValidOperation s commitmentOps state c commitmentMap with
    | mk res a =>
      rw [hf] at h hspec
      cases res with
      | none =>
        simp only [Except.ok.injEq] at h
        subst h
        exact hnd
      | some newState =>
        simp only at h
        by_cases hcn : commitmentFnc newState = ""
        · rw [if_pos hcn] at h
          simp only [Except.ok.injEq] at h
          subst h
          exact hnd'
        · rw [if_neg hcn] at h
          cases hm : opMap (commitmentFnc newState) with
          | none =>
            rw [hm] at h
            simp only [Except.ok.injEq] at h
            subst h
            exact hnd'
          | some commitmentOps' =>
            rw [hm] at h
            refine ih newState (commitmentFnc newState) commitmentOps' (commitmentMap ++ [c])
              (applied ++ a) run (hmap _ _ hm) hnd' ?_ h
            rcases hspec with ⟨h1, _⟩ | ⟨pre, op, post, st, h1, _, h3, h4, h5, _⟩
            · cases h1
            · simp only [Option.some.injEq] at h5
              subst h5
              obtain ⟨nextC, g1, g2, g3, _⟩ := h3
              have hop : op ∈ commitmentOps := by rw [h1]; simp
              have hnext := hcontract op state newState nextC (hops op hop) g1 h4
              rw [hnext] at hcn ⊢
              intro hmem
              rcases List.mem_append.1 hmem with hmem | hmem
              · rcases g3 with g3 | g3
                · exact hcn g3
                · exact g3 hmem
              · rw [List.mem_singleton] at hmem
                exact g2 hmem

theorem applyOperations_applied (s : OperationProcessor) (fuel : Nat)
    (ops : List AnchoredOperation) (rm : ResolutionModel)
    (commitmentFnc : ResolutionModel → String) (run : PhaseRun)
    (h : applyOperations s fuel ops rm commitmentFnc = .ok run) :
    ∀ o ∈ run.applied, o ∈ ops := by
  unfold applyOperations at h
  cases ops with
  | nil => simp at h
  | cons op ops =>
    simp only at h
    cases hm : createOperationHashMap s (op :: ops) (commitmentFnc rm) with
    | none =>
      rw [hm] at h
      simp only [Except.ok.injEq] at h
      subst h
      simp
    | some commitmentOps =>
      rw [hm] at h
      obtain ⟨rest, h1, h2⟩ := applyOperationsLoop_applied s _ commitmentFnc
        (fun o => o ∈ op :: ops) (createOperationHashMap_mem s (op :: ops)) fuel rm _
        commitmentOps [] [] run (createOperationHashMap_mem s (op :: ops) _ _ hm) h
      intro o ho
      rw [h1] at ho
      exact h2 o (by simpa using ho)

theorem applyOperations_nodup (s : OperationProcessor) (fuel : Nat)
    (ops : List AnchoredOperation) (rm : ResolutionModel)
    (commitmentFnc : ResolutionModel → String) (run : PhaseRun)
    (hcontract : ∀ (op : AnchoredOperation) (rm rm' : ResolutionModel) (nextC : String),
      op ∈ ops → getCommitment s op = .ok nextC → (applyOperation s op rm).1 = .ok rm' →
        commitmentFnc rm' = nextC)
    (h : applyOperations s fuel ops rm commitmentFnc = .ok run) :
    run.commitmentMap.Nodup := by
  unfold applyOperations at h
  cases ops with
  | nil => simp at h
  | cons op ops =>
    simp only at h
    cases hm : createOperationHashMap s (op :: ops) (commitmentFnc rm) with
    | none =>
      rw [hm] at h
      simp only [Except.ok.injEq] at h
      subst h
      simp
    | some commitmentOps =>
      rw [hm] at h
      exact applyOperationsLoop_nodup s _ commitmentFnc (fun o => o ∈ op :: ops)
        (createOperationHashMap_mem s (op :: ops)) hcontract fuel rm _ commitmentOps [] [] run
        (createOperationHashMap_mem s (op :: ops) _ _ hm) List.nodup_nil (by simp) h

/-! ## The replay in `Resolve` -/

theorem resolveUpdates_ok (s : OperationProcessor) (fuel : Nat)
    (updateOps : List AnchoredOperation) (rm : ResolutionModel)
    (applied : List AnchoredOperation) (consumedFull : List String) (r : ResolveRun)
    (h : resolveUpdates s fuel updateOps rm applied consumedFull = .ok r) :
    r.consumedFull = consumedFull ∧ (∃ st, r.result = .ok st) ∧
      (∃ rest, r.applied = applied ++ rest ∧ ∀ o ∈ rest, o ∈ updateOps) ∧
      ((∀ (op : AnchoredOperation) (rm rm' : ResolutionModel) (nextC : String),
          op ∈ updateOps → getCommitment s op = .ok nextC →
          (applyOperation s op rm).1 = .ok rm' → rm'.UpdateCommitment = nextC) →
        r.consumedUpdate.Nodup) := by
  unfold resolveUpdates at h
  simp only at h
  split at h
  · cases hrun : applyOperations s fuel
        (getOpsWithTxnGreaterThanOrUnpublished updateOps rm.LastOperationTransactionTime
          rm.LastOperationTransactionNumber) rm getUpdateCommitment with
    | error f =>
      rw [hrun] at h
      cases h
    | ok run =>
      rw [hrun] at h
      simp only [Except.ok.injEq] at h
      subst h
      have hsub : ∀ o ∈ getOpsWithTxnGreaterThanOrUnpublished updateOps
          rm.LastOperationTransactionTime rm.LastOperationTransactionNumber, o ∈ updateOps := by
        intro o ho
        rw [getOpsWithTxnGreaterThanOrUnpublished_eq_filter] at ho
        exact (List.mem_filter.1 ho).1
      refine ⟨rfl, ⟨run.state, rfl⟩, ⟨run.applied, rfl, ?_⟩, ?_⟩
      · intro o ho
        exact hsub o (applyOperations_applied s fuel _ rm getUpdateCommitment run hrun o ho)
      · intro hc
        exact applyOperations_nodup s fuel _ rm getUpdateCommitment run
          (fun op rm rm' nextC hop => hc op rm rm' nextC (hsub op hop)) hrun
  · simp only [Except.ok.injEq] at h
    subst h
    exact ⟨rfl, ⟨rm, rfl⟩, ⟨[], by simp, by simp⟩, fun _ => List.nodup_nil⟩

theorem resolveFull_ok (s : OperationProcessor) (fuel : Nat)
    (updateOps fullOps : List AnchoredOperation) (rm : ResolutionModel)
    (applied : List AnchoredOperation) (r : ResolveRun)
    (h : resolveFull s fuel updateOps fullOps rm applied = .ok r) :
    (∃ st, r.result = .ok st) ∧
      (∃ rest, r.applied = applied ++ rest ∧ ∀ o ∈ rest, o ∈ updateOps ∨ o ∈ fullOps) ∧
      ((∀ (op : AnchoredOperation) (rm rm' : ResolutionModel) (nextC : String),
          op ∈ updateOps → getCommitment s op = .ok nextC →
          (applyOperation s op rm).1 = .ok rm' → rm'.UpdateCommitment = nextC) →
        (∀ (op : AnchoredOperation) (rm rm' : ResolutionModel) (nextC : String),
          op ∈ fullOps → getCommitment s op = .ok nextC →
          (applyOperation s op rm).1 = .ok rm' → rm'.RecoveryCommitment = nextC) →
        r.consumedFull.Nodup ∧ r.consumedUpdate.Nodup) := by
  unfold resolveFull at h
  split at h
  · cases hrun : applyOperations s fuel fullOps rm getRecoveryCommitment with
    | error f =>
      rw [hrun] at h
      cases h
    | ok run =>
      rw [hrun] at h
      simp only at h
      have happ := applyOperations_applied s fuel fullOps rm getRecoveryCommitment run hrun
      split at h
      · simp only [Except.ok.injEq] at h
        subst h
        refine ⟨⟨run.state, rfl⟩, ⟨run.applied, rfl, fun o ho => Or.inr (happ o ho)⟩, ?_⟩
        intro _ hf
        exact ⟨applyOperations_nodup s fuel fullOps rm getRecoveryCommitment run hf hrun,
          List.nodup_nil⟩
      · obtain ⟨h1, h2, ⟨rest, h3, h4⟩, h5⟩ := resolveUpdates_ok s fuel updateOps run.state
          (applied ++ run.applied) run.commitmentMap r h
        refine ⟨h2, ⟨run.applied ++ rest, by rw [h3, List.append_assoc], ?_⟩, ?_⟩
        · intro o ho
          rcases List.mem_append.1 ho with ho | ho
          · exact Or.inr (happ o ho)
          · exact Or.inl (h4 o ho)
        · intro hu hf
          refine ⟨?_, h5 hu⟩
          rw [h1]
          exact applyOperations_nodup s fuel fullOps rm getRecoveryCommitment run hf hrun
  · obtain ⟨h1, h2, ⟨rest, h3, h4⟩, h5⟩ := resolveUpdates_ok s fuel updateOps rm applied [] r h
    refine ⟨h2, ⟨rest, h3, fun o ho => Or.inl (h4 o ho)⟩, ?_⟩
    intro hu _
    refine ⟨?_, h5 hu⟩
    rw [h1]
    exact List.nodup_nil

theorem Resolve_cases (s : OperationProcessor) (fuel : Nat) (uniqueSuffix : String)
    (additionalOps : List AnchoredOperation) :
    (∃ err, (s.store uniqueSuffix).2 = some err ∧ stringsContains err "not found" = false ∧
        Resolve s fuel uniqueSuffix additionalOps = .ok ⟨.error err, false, [], [], []⟩) ∨
      (storeReadable s uniqueSuffix ∧
        Resolve s fuel uniqueSuffix additionalOps =
          resolveGathered s fuel (gatheredOperations s uniqueSuffix additionalOps).1
            (gatheredOperations s uniqueSuffix additionalOps).2) := by
  by_cases hs : storeReadable s uniqueSuffix
  · exact Or.inr ⟨hs, Resolve_eq_resolveGathered s fuel uniqueSuffix additionalOps hs⟩
  · left
    unfold storeReadable at hs
    push_neg at hs
    obtain ⟨err, h1, h2⟩ := hs
    have h3 : stringsContains err "not found" = false := by simpa using h2
    refine ⟨err, h1, h3, ?_⟩
    unfold Resolve
    simp [h1, h3]

/-- The three outcomes of the replay of the gathered operations: no create operation,
no valid create operation, or the full and update phases entered with the state of the
first create operation that the applier accepts. -/
theorem resolveGathered_cases (s : OperationProcessor) (fuel : Nat)
    (publishedOps unpublishedOps : List AnchoredOperation) :
    ((splitOperations (combinedOperations publishedOps unpublishedOps)).1 = [] ∧
        resolveGathered s fuel publishedOps unpublishedOps =
          .ok ⟨.error "create operation not found", true, [], [], []⟩) ∨
      ((splitOperations (combinedOperations publishedOps unpublishedOps)).1 ≠ [] ∧
        (applyFirstValidCreateOperation s
          (splitOperations (combinedOperations publishedOps unpublishedOps)).1
          (initialModel publishedOps unpublishedOps)).1 = none ∧
        resolveGathered s fuel publishedOps unpublishedOps =
          .ok ⟨.error "valid create operation not found", true,
            (applyFirstValidCreateOperation s
              (splitOperations (combinedOperations publishedOps unpublishedOps)).1
              (initialModel publishedOps unpublishedOps)).2, [], []⟩) ∨
      (∃ st, (splitOperations (combinedOperations publishedOps unpublishedOps)).1 ≠ [] ∧
        (applyFirstValidCreateOperation s
          (splitOperations (combinedOperations publishedOps unpublishedOps)).1
          (initialModel publishedOps unpublishedOps)).1 = some st ∧
        resolveGathered s fuel publishedOps unpublishedOps =
          resolveFull s fuel (splitOperations (combinedOperations publishedOps unpublishedOps)).2.1
            (splitOperations (combinedOperations publishedOps unpublishedOps)).2.2 st
            (applyFirstValidCreateOperation s
              (splitOperations (combinedOperations publishedOps unpublishedOps)).1
              (initialModel publishedOps unpublishedOps)).2) := by
  unfold resolveGathered
  simp only
  by_cases h0 : (splitOperations (combinedOperations publishedOps unpublishedOps)).1 = []
  · left
    refine ⟨h0, ?_⟩
    simp [h0]
  · right
    have hlen : ¬ (splitOperations (combinedOperations publishedOps unpublishedOps)).1.length = 0 := by
      simpa using h0
    rw [if_neg hlen]
    cases hc : applyFirstValidCreateOperation s
        (splitOperations (combinedOperations publishedOps unpublishedOps)).1
        (initialModel publishedOps unpublishedOps) with
    | mk res applied =>
      cases res with
      | none => exact Or.inl ⟨h0, rfl, rfl⟩
      | some st => exact Or.inr ⟨st, h0, rfl, rfl⟩

/-! ## Termination of the commitment chain -/

theorem createOperationHashMap_key (s : OperationProcessor) (ops : List AnchoredOperation)
    (k : String) (l : List AnchoredOperation) (h : createOperationHashMap s ops k = some l) :
    k ∈ ops.filterMap (fun op => (revealCommitment s op).toOption) := by
  rw [createOperationHashMap_eq] at h
  split at h
  · cases h
  · rename_i hne
    obtain ⟨op, hop⟩ := List.exists_mem_of_ne_nil _ hne
    rw [List.mem_filter] at hop
    rw [List.mem_filterMap]
    refine ⟨op, hop.1, ?_⟩
    have hk : revealCommitment s op = .ok k := by simpa using hop.2
    rw [hk]
    rfl

/-- With an applier that sets the selected commitment to the applied operation's next
commitment, the loop of `applyOperations` ends within as many iterations as there are
keys in the map that are not yet marked. -/
theorem applyOperationsLoop_terminates (s : OperationProcessor)
    (opMap : String → Option (List AnchoredOperation))
    (commitmentFnc : ResolutionModel → String) (P : AnchoredOperation → Prop)
    (keys : List String)
    (hmap : ∀ k l, opMap k = some l → (∀ o ∈ l, P o) ∧ k ∈ keys)
    (hcontract : ∀ (op : AnchoredOperation) (rm rm' : ResolutionModel) (nextC : String),
      P op → getCommitment s op = .ok nextC → (applyOperation s op rm).1 = .ok rm' →
        commitmentFnc rm' = nextC) :
    ∀ (fuel : Nat) (state : ResolutionModel) (c : String)
      (commitmentOps : List AnchoredOperation) (commitmentMap : List String)
      (applied : List AnchoredOperation),
      (∀ o ∈ commitmentOps, P o) → commitmentMap.Nodup → c ∉ commitmentMap → c ∈ keys →
      (∀ k ∈ commitmentMap, k ∈ keys) → keys.length ≤ fuel + commitmentMap.length →
      ∃ run, applyOperationsLoop s opMap commitmentFnc fuel state c commitmentOps
        commitmentMap applied = .ok run := by
  intro fuel
  induction fuel with
  | zero =>
    intro state c commitmentOps commitmentMap applied _ hnd hc hck hsub hlen
    have hnd' : (commitmentMap ++ [c]).Nodup := by
      rw [List.nodup_append]
      refine ⟨hnd, List.nodup_singleton c, ?_⟩
      intro x hx hx'
      rw [List.mem_singleton] at hx'
      subst hx'
      exact hc hx
    have hsub' : commitmentMap ++ [c] ⊆ keys := by
      intro x hx
      rcases List.mem_append.1 hx with hx | hx
      · exact hsub x hx
      · rw [List.mem_singleton] at hx
        rw [hx]
        exact hck
    have := (List.subperm_of_subset hnd' hsub').length_le
    simp at this
    omega
  | succ fuel ih =>
    intro state c commitmentOps commitmentMap applied hops hnd hc hck hsub hlen
    rw [applyOperationsLoop]
    have hnd' : (commitmentMap ++ [c]).Nodup := by
      rw [List.nodup_append]
      refine ⟨hnd, List.nodup_singleton c, ?_⟩
      intro x hx hx'
      rw [List.mem_singleton] at hx'
      subst hx'
      exact hc hx
    have hspec := applyFirstValidOperation_spec s commitmentOps state c commitmentMap
    cases hf : applyFirstValidOperation s commitmentOps state c commitmentMap with
    | mk res a =>
      rw [hf] at hspec
      cases res with
      | none => exact ⟨_, rfl⟩
      | some newState =>
        simp only
        by_cases hcn : commitmentFnc newState = ""
        · rw [if_pos hcn]
          exact ⟨_, rfl⟩
        · rw [if_neg hcn]
          cases hm : opMap (commitmentFnc newState) with
          | none => exact ⟨_, rfl⟩
          | some commitmentOps' =>
            simp only
            refine ih newState (commitmentFnc newState) commitmentOps' (commitmentMap ++ [c])
              (applied ++ a) (hmap _ _ hm).1 hnd' ?_ (hmap _ _ hm).2 ?_ ?_
            · rcases hspec with ⟨h1, _⟩ | ⟨pre, op, post, st, h1, _, h3, h4, h5, _⟩
              · cases h1
              · simp only [Option.some.injEq] at h5
                subst h5
                obtain ⟨nextC, g1, g2, g3, _⟩ := h3
                have hop : op ∈ commitmentOps := by rw [h1]; simp
                have hnext := hcontract op state newState nextC (hops op hop) g1 h4
                rw [hnext] at hcn ⊢
                intro hmem
                rcases List.mem_append.1 hmem with hmem | hmem
                · rcases g3 with g3 | g3
                  · exact hcn g3
                  · exact g3 hmem
                · rw [List.mem_singleton] at hmem
                  exact g2 hmem
            · intro k hk
              rcases List.mem_append.1 hk with hk | hk
              · exact hsub k hk
              · rw [List.mem_singleton] at hk
                rw [hk]
                exact hck
            · simp only [List.length_append, List.length_singleton]
              omega

/-- With an applier that obeys its contract on the operations of the list,
`applyOperations` returns on every non-empty list when given at least as much fuel as
there are operations. -/
theorem applyOperations_terminates (s : OperationProcessor) (fuel : Nat)
    (ops : List AnchoredOperation) (rm : ResolutionModel)
    (commitmentFnc : ResolutionModel → String)
    (hcontract : ∀ (op : AnchoredOperation) (rm rm' : ResolutionModel) (nextC : String),
      op ∈ ops → getCommitment s op = .ok nextC → (applyOperation s op rm).1 = .ok rm' →
        commitmentFnc rm' = nextC)
    (hne : ops ≠ []) (hfuel : ops.length ≤ fuel) :
    ∃ run, applyOperations s fuel ops rm commitmentFnc = .ok run := by
  unfold applyOperations
  cases ops with
  | nil => exact absurd rfl hne
  | cons op ops =>
    simp only
    cases hm : createOperationHashMap s (op :: ops) (commitmentFnc rm) with
    | none => exact ⟨_, rfl⟩
    | some commitmentOps =>
      simp only
      refine applyOperationsLoop_terminates s _ commitmentFnc (fun o => o ∈ op :: ops)
        ((op :: ops).filterMap (fun op => (revealCommitment s op).toOption))
        (fun k l h => ⟨createOperationHashMap_mem s (op :: ops) k l h,
          createOperationHashMap_key s (op :: ops) k l h⟩)
        hcontract fuel rm _ commitmentOps [] []
        (createOperationHashMap_mem s (op :: ops) _ _ hm) List.nodup_nil (by simp)
        (createOperationHashMap_key s (op :: ops) _ _ hm) (by simp) ?_
      have := List.length_filterMap_le (fun op => (revealCommitment s op).toOption) (op :: ops)
      simp only [List.length_nil, Nat.add_zero]
      omega

theorem resolveUpdates_terminates (s : OperationProcessor) (fuel : Nat)
    (updateOps : List AnchoredOperation) (rm : ResolutionModel)
    (applied : List AnchoredOperation) (consumedFull : List String)
    (hcontract : ∀ (op : AnchoredOperation) (rm rm' : ResolutionModel) (nextC : String),
      op ∈ updateOps → getCommitment s op = .ok nextC →
      (applyOperation s op rm).1 = .ok rm' → rm'.UpdateCommitment = nextC)
    (hfuel : updateOps.length ≤ fuel) :
    ∃ r, resolveUpdates s fuel updateOps rm applied consumedFull = .ok r := by
  unfold resolveUpdates
  simp only
  split
  · rename_i hpos
    have hsub : ∀ o ∈ getOpsWithTxnGreaterThanOrUnpublished updateOps
        rm.LastOperationTransactionTime rm.LastOperationTransactionNumber, o ∈ updateOps := by
      intro o ho
      rw [getOpsWithTxnGreaterThanOrUnpublished_eq_filter] at ho
      exact (List.mem_filter.1 ho).1
    have hlen : (getOpsWithTxnGreaterThanOrUnpublished updateOps
        rm.LastOperationTransactionTime rm.LastOperationTransactionNumber).length ≤ fuel := by
      rw [getOpsWithTxnGreaterThanOrUnpublished_eq_filter]
      exact le_trans (List.length_filter_le _ _) hfuel
    obtain ⟨run, hrun⟩ := applyOperations_terminates s fuel _ rm getUpdateCommitment
      (fun op rm rm' nextC hop => hcontract op rm rm' nextC (hsub op hop))
      (List.length_pos.1 hpos) hlen
    rw [hrun]
    exact ⟨_, rfl⟩
  · exact ⟨_, rfl⟩

theorem resolveFull_terminates (s : OperationProcessor) (fuel : Nat)
    (updateOps fullOps : List AnchoredOperation) (rm : ResolutionModel)
    (applied : List AnchoredOperation)
    (hupdate : ∀ (op : AnchoredOperation) (rm rm' : ResolutionModel) (nextC : String),
      op ∈ updateOps → getCommitment s op = .ok nextC →
      (applyOperation s op rm).1 = .ok rm' → rm'.UpdateCommitment = nextC)
    (hfull : ∀ (op : AnchoredOperation) (rm rm' : ResolutionModel) (nextC : String),
      op ∈ fullOps → getCommitment s op = .ok nextC →
      (applyOperation s op rm).1 = .ok rm' → rm'.RecoveryCommitment = nextC)
    (hfuelU : updateOps.length ≤ fuel) (hfuelF : fullOps.length ≤ fuel) :
    ∃ r, resolveFull s fuel updateOps fullOps rm applied = .ok r := by
  unfold resolveFull
  split
  · rename_i hpos
    obtain ⟨run, hrun⟩ := applyOperations_terminates s fuel fullOps rm getRecoveryCommitment
      hfull (List.length_pos.1 hpos) hfuelF
    rw [hrun]
    simp only
    split
    · exact ⟨_, rfl⟩
    · exact resolveUpdates_terminates s fuel updateOps _ _ _ hupdate hfuelU
  · exact resolveUpdates_terminates s fuel updateOps _ _ _ hupdate hfuelU

/-- With an applier that obeys its contract, `Resolve` returns when given at least as
much fuel as there are operations in the combined list. -/
theorem Resolve_terminates (s : OperationProcessor) (fuel : Nat) (uniqueSuffix : String)
    (additionalOps : List AnchoredOperation) (hcontract : applierContract s)
    (hfuel : (combinedOperations (gatheredOperations s uniqueSuffix additionalOps).1
      (gatheredOperations s uniqueSuffix additionalOps).2).length ≤ fuel) :
    ∃ r, Resolve s fuel uniqueSuffix additionalOps = .ok r := by
  rcases Resolve_cases s fuel uniqueSuffix additionalOps with
    ⟨err, _, _, hr⟩ | ⟨_, hr⟩
  · exact ⟨_, hr⟩
  · rw [hr]
    rcases resolveGathered_cases s fuel (gatheredOperations s uniqueSuffix additionalOps).1
        (gatheredOperations s uniqueSuffix additionalOps).2 with
      ⟨_, hg⟩ | ⟨_, _, hg⟩ | ⟨st, _, _, hg⟩
    · exact ⟨_, hg⟩
    · exact ⟨_, hg⟩
    · rw [hg]
      refine resolveFull_terminates s fuel _ _ st _ ?_ ?_ ?_ ?_
      · intro op rm rm' nextC hop hgc ha
        rw [splitOperations_update] at hop
        have ht : op.Type_ = TypeUpdate := by simpa using (List.mem_filter.1 hop).2
        exact (hcontract op rm rm' nextC hgc ha).1 ht
      · intro op rm rm' nextC hop hgc ha
        rw [splitOperations_full] at hop
        have ht : op.Type_ = TypeRecover ∨ op.Type_ = TypeDeactivate := by
          simpa using (List.mem_filter.1 hop).2
        exact (hcontract op rm rm' nextC hgc ha).2 ht
      · rw [splitOperations_update]
        exact le_trans (List.length_filter_le _ _) hfuel
      · rw [splitOperations_full]
        exact le_trans (List.length_filter_le _ _) hfuel

/-! ## The example processor -/

theorem exampleProcessor_storeReadable (published unpublished : List AnchoredOperation)
    (uniqueSuffix : String) : storeReadable (exampleProcessor published unpublished) uniqueSuffix := by
  intro err h
  simp [exampleProcessor] at h

theorem exampleProcessor_contract (published unpublished : List AnchoredOperation) :
    applierContract (exampleProcessor published unpublished) := by
  intro op rm rm' nextC hg ha
  unfold getCommitment at hg
  unfold applyOperation at ha
  simp only [exampleProcessor] at hg ha
  by_cases hv : op.ProtocolVersion = 0
  · simp only [hv, if_true, exampleProtocol] at hg ha
    cases hn : exampleGetCommitment op.OperationRequest with
    | error e => rw [hn] at hg; cases hg
    | ok n =>
      rw [hn] at hg
      simp only [Except.ok.injEq] at hg
      subst hg
      unfold exampleApply at ha
      simp only [TypeCreate, TypeUpdate, TypeRecover, TypeDeactivate] at ha ⊢
      constructor
      · intro hu
        simp only [hu, hn] at ha
        by_cases hrv : exampleGetRevealValue op.OperationRequest = .ok rm.UpdateCommitment
        · simp [hrv] at ha
          rw [← ha]
        · simp [hrv] at ha
      · rintro (hr | hd)
        · simp only [hr, hn] at ha
          by_cases hrv : exampleGetRevealValue op.OperationRequest = .ok rm.RecoveryCommitment
          · simp [hrv] at ha
            rw [← ha]
          · simp [hrv] at ha
        · simp only [hd, hn] at ha
          by_cases hrv : exampleGetRevealValue op.OperationRequest = .ok rm.RecoveryCommitment
          · by_cases hn0 : n = ""
            · simp [hrv, hn0] at ha
              rw [← ha, hn0]
            · simp [hrv, hn0] at ha
          · simp [hrv] at ha
  · simp only [hv, if_false] at hg
    cases hg

/-! ## C1: consumed commitments -/

/-- C1 (counterexample): with an applier that obeys its contract, the history create
(recovery and update commitment both `x`), recover (reveals `x`, keeps the update
commitment `x`), update (reveals `x`) is resolved by marking `x` as consumed in the
full-operation phase and again in the update phase: the sequence of commitments
consumed over the whole resolution contains `x` twice. -/
theorem C1_counterexample :
    applierContract (exampleProcessor exampleSharedCommitment []) ∧
      (Resolve (exampleProcessor exampleSharedCommitment []) 10 "s" []).toOption.map
          (fun r => (r.consumedFull, r.consumedUpdate, r.applied)) =
        some (["x"], ["x"], exampleSharedCommitment) ∧
      ¬ (["x"] ++ ["x"] : List String).Nodup :=
  ⟨exampleProcessor_contract _ _, by decide, by decide⟩

/-- C1 (amended): for every `Resolve` run in which the applier obeys its contract, the
commitments marked as consumed by the full-operation phase contain no value twice, and
the commitments marked as consumed by the update phase contain no value twice (each
phase keeps its own set of consumed commitments); and such a run returns when the fuel
is at least the number of operations in the combined list. -/
theorem C1_consumed_nodup_per_phase (s : OperationProcessor) (fuel : Nat)
    (uniqueSuffix : String) (additionalOps : List AnchoredOperation)
    (hcontract : applierContract s) :
    (∀ r, Resolve s fuel uniqueSuffix additionalOps = .ok r →
        r.consumedFull.Nodup ∧ r.consumedUpdate.Nodup) ∧
      ((combinedOperations (gatheredOperations s uniqueSuffix additionalOps).1
          (gatheredOperations s uniqueSuffix additionalOps).2).length ≤ fuel →
        ∃ r, Resolve s fuel uniqueSuffix additionalOps = .ok r) := by
  refine ⟨?_, Resolve_terminates s fuel uniqueSuffix additionalOps hcontract⟩
  intro r h
  rcases Resolve_cases s fuel uniqueSuffix additionalOps with
    ⟨err, _, _, hr⟩ | ⟨_, hr⟩
  · rw [hr] at h
    simp only [Except.ok.injEq] at h
    subst h
    exact ⟨List.nodup_nil, List.nodup_nil⟩
  · rw [hr] at h
    rcases resolveGathered_cases s fuel (gatheredOperations s uniqueSuffix additionalOps).1
        (gatheredOperations s uniqueSuffix additionalOps).2 with
      ⟨_, hg⟩ | ⟨_, _, hg⟩ | ⟨st, _, _, hg⟩
    · rw [hg] at h
      simp only [Except.ok.injEq] at h
      subst h
      exact ⟨List.nodup_nil, List.nodup_nil⟩
    · rw [hg] at h
      simp only [Except.ok.injEq] at h
      subst h
      exact ⟨List.nodup_nil, List.nodup_nil⟩
    · rw [hg] at h
      refine (resolveFull_ok s fuel _ _ st _ r h).2.2 ?_ ?_
      · intro op rm rm' nextC hop hgc ha
        rw [splitOperations_update] at hop
        have ht : op.Type_ = TypeUpdate := by simpa using (List.mem_filter.1 hop).2
        exact (hcontract op rm rm' nextC hgc ha).1 ht
      · intro op rm rm' nextC hop hgc ha
        rw [splitOperations_full] at hop
        have ht : op.Type_ = TypeRecover ∨ op.Type_ = TypeDeactivate := by
          simpa using (List.mem_filter.1 hop).2
        exact (hcontract op rm rm' nextC hgc ha).2 ht

/-- C1 (witness): the resolution of the history create, recover, deactivate, update
returns, and each phase consumes no commitment twice. -/
theorem C1_consumed_nodup_per_phase_witness :
    ∃ r, Resolve (exampleProcessor exampleDeactivated []) 10 "s" [] = .ok r ∧
      r.consumedFull.Nodup ∧ r.consumedUpdate.Nodup :=
  (C1_consumed_nodup_per_phase (exampleProcessor exampleDeactivated []) 10 "s" []
    (exampleProcessor_contract _ _)).elim
    (fun h1 h2 => (h2 (by decide)).elim (fun r hr => ⟨r, hr, h1 r hr⟩))

/-! ## C3: a deactivated document ends the resolution -/

/-- C3: for every input on which `Resolve` gets past the create phase (the store read
is not fatal and the create phase yields the state `rm0`): if the full-operation phase
(run because there are full operations) produces a state with `Deactivated = true`,
then `Resolve` returns exactly that state with no error, the update phase marks no
commitment, and no operation handed to the applier is an update, whatever update
operations are stored. -/
theorem C3_deactivated_stops (s : OperationProcessor) (fuel : Nat) (uniqueSuffix : String)
    (additionalOps : List AnchoredOperation) (rm0 : ResolutionModel) (run : PhaseRun)
    (hstore : storeReadable s uniqueSuffix)
    (hcreate : (applyFirstValidCreateOperation s (resolveSplit s uniqueSuffix additionalOps).1
      (resolveModel s uniqueSuffix additionalOps)).1 = some rm0)
    (hfull : (resolveSplit s uniqueSuffix additionalOps).2.2 ≠ [])
    (hrun : applyOperations s fuel (resolveSplit s uniqueSuffix additionalOps).2.2 rm0
      getRecoveryCommitment = .ok run)
    (hdeactivated : run.state.Deactivated = true) :
    ∃ r, Resolve s fuel uniqueSuffix additionalOps = .ok r ∧ r.result = .ok run.state ∧
      r.consumedUpdate = [] ∧ ∀ op ∈ r.applied, op.Type_ ≠ TypeUpdate := by
  rw [Resolve_eq_resolveGathered s fuel uniqueSuffix additionalOps hstore]
  unfold resolveSplit at hcreate hfull hrun
  unfold resolveModel at hcreate
  rcases resolveGathered_cases s fuel (gatheredOperations s uniqueSuffix additionalOps).1
      (gatheredOperations s uniqueSuffix additionalOps).2 with
    ⟨h0, _⟩ | ⟨_, hnone, _⟩ | ⟨st, h0, hsome, hg⟩
  · rw [h0] at hcreate
    simp [applyFirstValidCreateOperation] at hcreate
  · rw [hnone] at hcreate
    cases hcreate
  · rw [hsome] at hcreate
    simp only [Option.some.injEq] at hcreate
    subst hcreate
    rw [hg]
    have hlen : (splitOperations (combinedOperations
        (gatheredOperations s uniqueSuffix additionalOps).1
        (gatheredOperations s uniqueSuffix additionalOps).2)).2.2.length > 0 :=
      List.length_pos.2 hfull
    unfold resolveFull
    rw [if_pos hlen, hrun]
    simp only [hdeactivated, if_true]
    refine ⟨_, rfl, rfl, rfl, ?_⟩
    intro op hop
    simp only at hop
    rcases List.mem_append.1 hop with hop | hop
    · have hsub := applyFirstValidCreateOperation_spec s
        (splitOperations (combinedOperations
          (gatheredOperations s uniqueSuffix additionalOps).1
          (gatheredOperations s uniqueSuffix additionalOps).2)).1
        (initialModel (gatheredOperations s uniqueSuffix additionalOps).1
          (gatheredOperations s uniqueSuffix additionalOps).2)
      have hmem : op ∈ (splitOperations (combinedOperations
          (gatheredOperations s uniqueSuffix additionalOps).1
          (gatheredOperations s uniqueSuffix additionalOps).2)).1 := by
        rcases hsub with ⟨_, _, h3⟩ | ⟨pre, o, post, st', h1, _, _, _, l, h5, h6⟩
        · exact h3.subset hop
        · rw [h5] at hop
          rw [h1]
          rcases List.mem_append.1 hop with hop | hop
          · exact List.mem_append_left _ (h6.subset hop)
          · rw [List.mem_singleton] at hop
            rw [hop]
            simp
      rw [splitOperations_create] at hmem
      have ht : op.Type_ = TypeCreate := by simpa using (List.mem_filter.1 hmem).2
      rw [ht]
      decide
    · have hmem := applyOperations_applied s fuel _ _ getRecoveryCommitment run hrun op hop
      rw [splitOperations_full] at hmem
      have ht : op.Type_ = TypeRecover ∨ op.Type_ = TypeDeactivate := by
        simpa using (List.mem_filter.1 hmem).2
      rcases ht with ht | ht <;> rw [ht] <;> decide

/-- C3 (witness): in the history create, recover, deactivate, update (anchored last)
the full-operation phase ends deactivated; `Resolve` returns that state and the update
is not handed to the applier. -/
theorem C3_deactivated_stops_witness :
    ∃ r, Resolve (exampleProcessor exampleDeactivated []) 10 "s" [] = .ok r ∧
      r.result = .ok exampleDeactivatedRun.state ∧ r.consumedUpdate = [] ∧
      ∀ op ∈ r.applied, op.Type_ ≠ TypeUpdate :=
  C3_deactivated_stops (exampleProcessor exampleDeactivated []) 10 "s" [] exampleCreatedState
    exampleDeactivatedRun (exampleProcessor_storeReadable _ _ _) (by decide) (by decide)
    (by decide) (by decide)

/-! ## C4: no create operation -/

theorem mem_combinedOperations_gathered (s : OperationProcessor) (uniqueSuffix : String)
    (additionalOps : List AnchoredOperation) (op : AnchoredOperation) :
    op ∈ combinedOperations (gatheredOperations s uniqueSuffix additionalOps).1
        (gatheredOperations s uniqueSuffix additionalOps).2 ↔
      op ∈ keptOperations s uniqueSuffix additionalOps := by
  unfold combinedOperations gatheredOperations keptOperations
  rw [(sortOperations_perm _).mem_iff, List.mem_append,
    (addAdditionalOperations_eq _ _ _).1, (addAdditionalOperations_eq _ _ _).2,
    (sortOperations_perm _).mem_iff, (sortOperations_perm _).mem_iff]
  simp only [List.mem_append, List.mem_filter, decide_eq_true_eq]
  constructor
  · rintro ((h | ⟨h1, h2, h3⟩) | (h | ⟨h1, h2⟩))
    · exact Or.inl (Or.inl h)
    · exact Or.inr ⟨h1, Or.inr h3⟩
    · exact Or.inl (Or.inr h)
    · exact Or.inr ⟨h1, Or.inl h2⟩
  · rintro ((h | h) | ⟨h1, h2⟩)
    · exact Or.inl (Or.inl h)
    · exact Or.inr (Or.inl h)
    · by_cases he : op.CanonicalReference = ""
      · exact Or.inr (Or.inr ⟨h1, he⟩)
      · rcases h2 with h2 | h2
        · exact absurd h2 he
        · exact Or.inl (Or.inr ⟨h1, he, h2⟩)

theorem resolveSplit_create_eq_nil (s : OperationProcessor) (uniqueSuffix : String)
    (additionalOps : List AnchoredOperation) :
    (resolveSplit s uniqueSuffix additionalOps).1 = [] ↔
      ∀ op ∈ keptOperations s uniqueSuffix additionalOps, op.Type_ ≠ TypeCreate := by
  unfold resolveSplit
  rw [splitOperations_create, List.filter_eq_nil_iff]
  constructor
  · intro h op hop
    have := h op ((mem_combinedOperations_gathered s uniqueSuffix additionalOps op).2 hop)
    simpa using this
  · intro h op hop
    have := h op ((mem_combinedOperations_gathered s uniqueSuffix additionalOps op).1 hop)
    simpa using this

/-- C4 (counterexample): the store holds one published update with reference `a`, and
the caller passes an additional create operation with the same reference.  The gathered
operations (published, unpublished and additional together) contain a create operation,
yet `Resolve` fails with the "create operation not found" error, because the additional
operation is dropped. -/
theorem C4_counterexample :
    Resolve (exampleProcessor [exampleOp TypeUpdate [1, 2] 1 0 "a"] []) 10 "s"
        [exampleOp TypeCreate [1, 1] 0 0 "a"] =
      .ok ⟨.error "create operation not found", true, [], [], []⟩ ∧
    (exampleOp TypeCreate [1, 1] 0 0 "a").Type_ = TypeCreate := by
  decide

/-- C4 (amended): when the operation-store read does not fail fatally, `Resolve` fails
with the "create operation not found" error if and only if the operations kept by the
gathering (published, unpublished, and the additional operations other than those whose
non-empty canonical reference is already present among the published ones) contain no
operation of type create; in that case no operation is handed to the applier. -/
theorem C4_create_operation_not_found (s : OperationProcessor) (fuel : Nat)
    (uniqueSuffix : String) (additionalOps : List AnchoredOperation)
    (hstore : storeReadable s uniqueSuffix) :
    ((∃ r, Resolve s fuel uniqueSuffix additionalOps = .ok r ∧
          r.result = .error "create operation not found") ↔
        ∀ op ∈ keptOperations s uniqueSuffix additionalOps, op.Type_ ≠ TypeCreate) ∧
      (∀ r, Resolve s fuel uniqueSuffix additionalOps = .ok r →
        r.result = .error "create operation not found" → r.applied = []) := by
  rw [Resolve_eq_resolveGathered s fuel uniqueSuffix additionalOps hstore,
    ← resolveSplit_create_eq_nil]
  unfold resolveSplit
  rcases resolveGathered_cases s fuel (gatheredOperations s uniqueSuffix additionalOps).1
      (gatheredOperations s uniqueSuffix additionalOps).2 with
    ⟨h0, hg⟩ | ⟨h0, _, hg⟩ | ⟨st, h0, _, hg⟩
  · rw [hg]
    refine ⟨⟨fun _ => h0, fun _ => ⟨_, rfl, rfl⟩⟩, ?_⟩
    intro r hr _
    simp only [Except.ok.injEq] at hr
    subst hr
    rfl
  · rw [hg]
    have hne : ∀ r : ResolveRun,
        (Except.ok (⟨.error "valid create operation not found", true,
          (applyFirstValidCreateOperation s
            (splitOperations (combinedOperations
              (gatheredOperations s uniqueSuffix additionalOps).1
              (gatheredOperations s uniqueSuffix additionalOps).2)).1
            (initialModel (gatheredOperations s uniqueSuffix additionalOps).1
              (gatheredOperations s uniqueSuffix additionalOps).2)).2, [], []⟩ : ResolveRun) :
            Except Fault ResolveRun) = .ok r →
        r.result ≠ .error "create operation not found" := by
      intro r hr
      simp only [Except.ok.injEq] at hr
      subst hr
      simp
    refine ⟨⟨?_, fun h => absurd h h0⟩, ?_⟩
    · rintro ⟨r, hr, hres⟩
      exact absurd hres (hne r hr)
    · intro r hr hres
      exact absurd hres (hne r hr)
  · rw [hg]
    have hne : ∀ r : ResolveRun,
        resolveFull s fuel
          (splitOperations (combinedOperations
            (gatheredOperations s uniqueSuffix additionalOps).1
            (gatheredOperations s uniqueSuffix additionalOps).2)).2.1
          (splitOperations (combinedOperations
            (gatheredOperations s uniqueSuffix additionalOps).1
            (gatheredOperations s uniqueSuffix additionalOps).2)).2.2 st
          (applyFirstValidCreateOperation s
            (splitOperations (combinedOperations
              (gatheredOperations s uniqueSuffix additionalOps).1
              (gatheredOperations s uniqueSuffix additionalOps).2)).1
            (initialModel (gatheredOperations s uniqueSuffix additionalOps).1
              (gatheredOperations s uniqueSuffix additionalOps).2)).2 = .ok r →
        r.result ≠ .error "create operation not found" := by
      intro r hr hres
      obtain ⟨st', hst⟩ := (resolveFull_ok s fuel _ _ st _ r hr).1
      rw [hst] at hres
      cases hres
    refine ⟨⟨?_, fun h => absurd h h0⟩, ?_⟩
    · rintro ⟨r, hr, hres⟩
      exact absurd hres (hne r hr)
    · intro r hr hres
      exact absurd hres (hne r hr)

/-- C4 (witness): a store that holds only an update operation. -/
theorem C4_create_operation_not_found_witness :
    ∃ r, Resolve (exampleProcessor [exampleOp TypeUpdate [1, 2] 1 0 "a"] []) 10 "s" [] = .ok r ∧
      r.result = .error "create operation not found" :=
  (C4_create_operation_not_found (exampleProcessor [exampleOp TypeUpdate [1, 2] 1 0 "a"] []) 10
    "s" [] (exampleProcessor_storeReadable _ _ _)).1.2 (by decide)

/-! ## C5: the create phase -/

/-- C5: when at least one create operation is gathered (and the store read is not
fatal): if the applier rejects every create operation, `Resolve` fails with the "valid
create operation not found" error; if it accepts one, then for the first create
operation `op`, in the order of the sorted combined list, that the applier accepts,
`Resolve` continues (full and update phases) from the applier's result `st` for `op`,
and the operations handed to the applier are create operations before `op`, then `op`,
then operations that are not create operations: no later create operation is
applied. -/
theorem C5_first_valid_create (s : OperationProcessor) (fuel : Nat) (uniqueSuffix : String)
    (additionalOps : List AnchoredOperation) (hstore : storeReadable s uniqueSuffix)
    (hne : (resolveSplit s uniqueSuffix additionalOps).1 ≠ []) :
    ((∀ op ∈ (resolveSplit s uniqueSuffix additionalOps).1, ∀ st,
          (applyOperation s op (resolveModel s uniqueSuffix additionalOps)).1 ≠ .ok st) →
        ∃ r, Resolve s fuel uniqueSuffix additionalOps = .ok r ∧
          r.result = .error "valid create operation not found") ∧
      ((∃ op ∈ (resolveSplit s uniqueSuffix additionalOps).1, ∃ st,
          (applyOperation s op (resolveModel s uniqueSuffix additionalOps)).1 = .ok st) →
        ∃ pre op post st l,
          (resolveSplit s uniqueSuffix additionalOps).1 = pre ++ op :: post ∧
          (∀ o ∈ pre, ∀ st',
            (applyOperation s o (resolveModel s uniqueSuffix additionalOps)).1 ≠ .ok st') ∧
          (applyOperation s op (resolveModel s uniqueSuffix additionalOps)).1 = .ok st ∧
          l.Sublist pre ∧
          Resolve s fuel uniqueSuffix additionalOps =
            resolveFull s fuel (resolveSplit s uniqueSuffix additionalOps).2.1
              (resolveSplit s uniqueSuffix additionalOps).2.2 st (l ++ [op]) ∧
          ∀ r, Resolve s fuel uniqueSuffix additionalOps = .ok r →
            ∃ rest, r.applied = l ++ [op] ++ rest ∧ ∀ o ∈ rest, o.Type_ ≠ TypeCreate) := by
  rw [Resolve_eq_resolveGathered s fuel uniqueSuffix additionalOps hstore]
  unfold resolveSplit resolveModel at *
  have hspec := applyFirstValidCreateOperation_spec s
    (splitOperations (combinedOperations (gatheredOperations s uniqueSuffix additionalOps).1
      (gatheredOperations s uniqueSuffix additionalOps).2)).1
    (initialModel (gatheredOperations s uniqueSuffix additionalOps).1
      (gatheredOperations s uniqueSuffix additionalOps).2)
  rcases resolveGathered_cases s fuel (gatheredOperations s uniqueSuffix additionalOps).1
      (gatheredOperations s uniqueSuffix additionalOps).2 with
    ⟨h0, _⟩ | ⟨_, hnone, hg⟩ | ⟨st, _, hsome, hg⟩
  · exact absurd h0 hne
  · rw [hg]
    refine ⟨fun _ => ⟨_, rfl, rfl⟩, ?_⟩
    rintro ⟨op, hop, st, hst⟩
    rcases hspec with ⟨_, h2, _⟩ | ⟨_, _, _, st', _, _, _, h4, _⟩
    · exact absurd hst (h2 op hop st)
    · rw [hnone] at h4
      cases h4
  · rcases hspec with ⟨h1, _⟩ | ⟨pre, op, post, st', h1, h2, h3, h4, l, h5, h6⟩
    · rw [hsome] at h1
      cases h1
    · rw [hsome] at h4
      simp only [Option.some.injEq] at h4
      subst h4
      constructor
      · intro hall
        exact absurd h3 (hall op (by rw [h1]; simp) st)
      · intro _
        rw [hg, h5]
        refine ⟨pre, op, post, st, l, h1, h2, h3, h6, rfl, ?_⟩
        intro r hr
        obtain ⟨_, ⟨rest, hr1, hr2⟩, _⟩ := resolveFull_ok s fuel _ _ st _ r hr
        refine ⟨rest, hr1, ?_⟩
        intro o ho
        rcases hr2 o ho with hu | hf
        · rw [splitOperations_update] at hu
          have ht : o.Type_ = TypeUpdate := by simpa using (List.mem_filter.1 hu).2
          rw [ht]
          decide
        · rw [splitOperations_full] at hf
          have ht : o.Type_ = TypeRecover ∨ o.Type_ = TypeDeactivate := by
            simpa using (List.mem_filter.1 hf).2
          rcases ht with ht | ht <;> rw [ht] <;> decide

/-- C5 (witness): a store with three create operations of which the applier rejects
the first (its request is too short) and accepts the second. -/
theorem C5_first_valid_create_witness :
    ∃ pre op post st l,
      (resolveSplit (exampleProcessor exampleCreates [])
        "s" []).1 = pre ++ op :: post ∧
      (∀ o ∈ pre, ∀ st',
        (applyOperation (exampleProcessor exampleCreates []) o
          (resolveModel (exampleProcessor exampleCreates [])
            "s" [])).1 ≠ .ok st') ∧
      (applyOperation (exampleProcessor exampleCreates []) op
        (resolveModel (exampleProcessor exampleCreates [])
          "s" [])).1 = .ok st ∧
      l.Sublist pre ∧
      Resolve (exampleProcessor exampleCreates [])
          10 "s" [] =
        resolveFull (exampleProcessor exampleCreates []) 10
          (resolveSplit (exampleProcessor exampleCreates [])
            "s" []).2.1
          (resolveSplit (exampleProcessor exampleCreates [])
            "s" []).2.2 st (l ++ [op]) ∧
      ∀ r, Resolve (exampleProcessor exampleCreates [])
          10 "s" [] = .ok r →
        ∃ rest, r.applied = l ++ [op] ++ rest ∧ ∀ o ∈ rest, o.Type_ ≠ TypeCreate :=
  (C5_first_valid_create (exampleProcessor exampleCreates []) 10 "s" []
    (exampleProcessor_storeReadable _ _ _) (by decide)).2
    ⟨exampleOp TypeCreate [1, 1] 1 0 "b", by decide, _, rfl⟩

/-! ## C8: the order of the published list -/

theorem txnLe_trans {a b c : AnchoredOperation} (h1 : txnLe a b) (h2 : txnLe b c) :
    txnLe a c := by
  unfold txnLe at *
  omega

theorem sortLess_false_iff (a b : AnchoredOperation)
    (h : b.TransactionTime < a.TransactionTime → b.TransactionNumber ≤ a.TransactionNumber) :
    sortLess a b = false ↔ txnLe b a := by
  unfold sortLess txnLe
  by_cases h1 : a.TransactionTime < b.TransactionTime
  · simp only [h1, if_true]
    constructor
    · intro hf; cases hf
    · intro hle; omega
  · simp only [h1, if_false, decide_eq_false_iff_not]
    constructor
    · intro hn; omega
    · intro hle
      by_cases h2 : b.TransactionTime < a.TransactionTime
      · have := h h2; omega
      · omega

/-- Moving an element left into a descending prefix keeps it descending, when the
comparison agrees with the lexicographic order on the elements involved. -/
theorem insertLeft_sorted (x : AnchoredOperation) (acc : List AnchoredOperation)
    (hlex : comparisonLexicographic (x :: acc))
    (hacc : acc.Pairwise (fun a b => txnLe b a)) :
    (insertLeft sortLess x acc).Pairwise (fun a b => txnLe b a) := by
  induction acc with
  | nil => simp [insertLeft]
  | cons y acc ih =>
    have hxy : sortLess x y = false ↔ txnLe y x :=
      sortLess_false_iff x y (hlex x (by simp) y (by simp))
    have hyx : sortLess y x = false ↔ txnLe x y :=
      sortLess_false_iff y x (hlex y (by simp) x (by simp))
    rw [List.pairwise_cons] at hacc
    unfold insertLeft
    by_cases hl : sortLess x y = true
    · rw [if_pos hl]
      have hlex' : comparisonLexicographic (x :: acc) := by
        intro a ha b hb
        refine hlex a ?_ b ?_
        · rcases List.mem_cons.1 ha with ha | ha
          · simp [ha]
          · simp [ha]
        · rcases List.mem_cons.1 hb with hb | hb
          · simp [hb]
          · simp [hb]
      rw [List.pairwise_cons]
      refine ⟨?_, ih hlex' hacc.2⟩
      intro z hz
      rcases List.mem_cons.1 ((insertLeft_perm sortLess x acc).mem_iff.1 hz) with hz | hz
      · subst hz
        -- `x` is less than `y`, hence not above it
        have hnot : ¬ txnLe y z ∨ txnLe z y := by
          by_cases h : txnLe z y
          · exact Or.inr h
          · left
            intro h'
            rw [hxy.2 h'] at hl
            cases hl
        rcases hnot with hnot | hnot
        · unfold txnLe at hnot ⊢
          omega
        · exact hnot
      · exact hacc.1 z hz
    · rw [if_neg hl]
      have hf : sortLess x y = false := by simpa using hl
      have hle : txnLe y x := hxy.1 hf
      rw [List.pairwise_cons, List.pairwise_cons]
      refine ⟨?_, hacc.1, hacc.2⟩
      intro z hz
      rcases List.mem_cons.1 hz with hz | hz
      · subst hz; exact hle
      · exact txnLe_trans (hacc.1 z hz) hle

theorem foldl_insertLeft_sorted (ops acc : List AnchoredOperation)
    (hlex : comparisonLexicographic (acc ++ ops))
    (hacc : acc.Pairwise (fun a b => txnLe b a)) :
    (ops.foldl (fun prefixRev x => insertLeft sortLess x prefixRev) acc).Pairwise
      (fun a b => txnLe b a) := by
  induction ops generalizing acc with
  | nil => simpa using hacc
  | cons x ops ih =>
    rw [List.foldl_cons]
    apply ih
    · intro a ha b hb
      refine hlex a ?_ b ?_
      · rcases List.mem_append.1 ha with ha | ha
        · rcases List.mem_cons.1 ((insertLeft_perm sortLess x acc).mem_iff.1 ha) with ha | ha
          · simp [ha]
          · simp [ha]
        · simp [ha]
      · rcases List.mem_append.1 hb with hb | hb
        · rcases List.mem_cons.1 ((insertLeft_perm sortLess x acc).mem_iff.1 hb) with hb | hb
          · simp [hb]
          · simp [hb]
        · simp [hb]
    · apply insertLeft_sorted x acc _ hacc
      intro a ha b hb
      refine hlex a ?_ b ?_
      · rcases List.mem_cons.1 ha with ha | ha
        · simp [ha]
        · simp [ha]
      · rcases List.mem_cons.1 hb with hb | hb
        · simp [hb]
        · simp [hb]

/-- On a list on which its comparison agrees with the lexicographic order,
`sortOperations` yields a list that is ascending by (TransactionTime,
TransactionNumber). -/
theorem sortOperations_sorted (ops : List AnchoredOperation)
    (hlex : comparisonLexicographic ops) : (sortOperations ops).Pairwise txnLe := by
  unfold sortOperations sortSlice
  rw [List.pairwise_reverse]
  exact foldl_insertLeft_sorted ops [] (by simpa using hlex) List.Pairwise.nil

/-- On lists on which its comparison agrees with the lexicographic order and in which
equal coordinates mean equal operations, `sortOperations` does not depend on the order
of its input. -/
theorem sortOperations_eq_of_perm (l₁ l₂ : List AnchoredOperation) (hperm : l₁.Perm l₂)
    (hlex : comparisonLexicographic l₁) (hdist : coordinatesDistinct l₁) :
    sortOperations l₁ = sortOperations l₂ := by
  have hlex₂ : comparisonLexicographic l₂ :=
    fun a ha b hb => hlex a (hperm.mem_iff.2 ha) b (hperm.mem_iff.2 hb)
  have hp : (sortOperations l₁).Perm (sortOperations l₂) :=
    ((sortOperations_perm l₁).trans hperm).trans (sortOperations_perm l₂).symm
  have key : ∀ l : List AnchoredOperation, (∀ a ∈ l, a ∈ l₁) → l.Pairwise txnLe →
      l.Pairwise (fun a b => txnLe a b ∧ (txnLe b a → a = b)) := by
    intro l hl hs
    refine List.Pairwise.imp_of_mem ?_ hs
    intro a b ha hb hab
    refine ⟨hab, fun hba => hdist a (hl a ha) b (hl b hb) ?_ ?_⟩
    · unfold txnLe at hab hba; omega
    · unfold txnLe at hab hba; omega
  have h₁ := key (sortOperations l₁) (fun a ha => (sortOperations_perm l₁).mem_iff.1 ha)
    (sortOperations_sorted l₁ hlex)
  have h₂ := key (sortOperations l₂)
    (fun a ha => hperm.mem_iff.2 ((sortOperations_perm l₂).mem_iff.1 ha))
    (sortOperations_sorted l₂ hlex₂)
  exact @List.eq_of_perm_of_sorted _ (fun a b => txnLe a b ∧ (txnLe b a → a = b))
    ⟨fun a b h1 h2 => h1.2 h2.1⟩ _ _ hp h₁ h₂

/-! The replay reads the processor only through the protocol client and the
commitment function. -/

theorem getCommitment_congr (s s' : OperationProcessor) (hpc : s'.pc = s.pc) :
    getCommitment s' = getCommitment s := by
  funext op
  simp only [getCommitment, hpc]

theorem applyOperation_congr (s s' : OperationProcessor) (hpc : s'.pc = s.pc) :
    applyOperation s' = applyOperation s := by
  funext op rm
  simp only [applyOperation, hpc]

theorem createOperationHashMap_congr (s s' : OperationProcessor) (hpc : s'.pc = s.pc)
    (hg : s'.GetCommitmentFromRevealValue = s.GetCommitmentFromRevealValue) :
    createOperationHashMap s' = createOperationHashMap s := by
  have hr : revealCommitment s' = revealCommitment s := by
    funext op
    simp only [revealCommitment, getRevealValue, hpc, hg]
  funext ops
  simp only [createOperationHashMap, hr]

theorem applyFirstValidCreateOperation_congr (s s' : OperationProcessor) (hpc : s'.pc = s.pc)
    (createOps : List AnchoredOperation) (rm : ResolutionModel) :
    applyFirstValidCreateOperation s' createOps rm =
      applyFirstValidCreateOperation s createOps rm := by
  induction createOps with
  | nil => rfl
  | cons op ops ih =>
    rw [applyFirstValidCreateOperation, applyFirstValidCreateOperation,
      applyOperation_congr s s' hpc, ih]

theorem applyFirstValidOperation_congr (s s' : OperationProcessor) (hpc : s'.pc = s.pc)
    (ops : List AnchoredOperation) (rm : ResolutionModel) (currCommitment : String)
    (processedCommitments : List String) :
    applyFirstValidOperation s' ops rm currCommitment processedCommitments =
      applyFirstValidOperation s ops rm currCommitment processedCommitments := by
  induction ops with
  | nil => rfl
  | cons op ops ih =>
    rw [applyFirstValidOperation, applyFirstValidOperation, getCommitment_congr s s' hpc,
      applyOperation_congr s s' hpc, ih]

theorem applyOperationsLoop_congr (s s' : OperationProcessor) (hpc : s'.pc = s.pc)
    (opMap : String → Option (List AnchoredOperation))
    (commitmentFnc : ResolutionModel → String) :
    ∀ (fuel : Nat) (state : ResolutionModel) (c : String)
      (commitmentOps : List AnchoredOperation) (commitmentMap : List String)
      (applied : List AnchoredOperation),
      applyOperationsLoop s' opMap commitmentFnc fuel state c commitmentOps commitmentMap
          applied =
        applyOperationsLoop s opMap commitmentFnc fuel state c commitmentOps commitmentMap
          applied := by
  intro fuel
  induction fuel with
  | zero => intros; rfl
  | succ fuel ih =>
    intro state c commitmentOps commitmentMap applied
    rw [applyOperationsLoop, applyOperationsLoop, applyFirstValidOperation_congr s s' hpc]
    cases applyFirstValidOperation s commitmentOps state c commitmentMap with
    | mk res a =>
      cases res with
      | none => rfl
      | some newState =>
        simp only
        split
        · rfl
        · split
          · rfl
          · exact ih _ _ _ _ _

theorem resolveGathered_congr (s s' : OperationProcessor) (hpc : s'.pc = s.pc)
    (hg : s'.GetCommitmentFromRevealValue = s.GetCommitmentFromRevealValue) (fuel : Nat)
    (publishedOps unpublishedOps : List AnchoredOperation) :
    resolveGathered s' fuel publishedOps unpublishedOps =
      resolveGathered s fuel publishedOps unpublishedOps := by
  have happly : ∀ (ops : List AnchoredOperation) (rm : ResolutionModel)
      (commitmentFnc : ResolutionModel → String),
      applyOperations s' fuel ops rm commitmentFnc =
        applyOperations s fuel ops rm commitmentFnc := by
    intro ops rm commitmentFnc
    unfold applyOperations
    rw [createOperationHashMap_congr s s' hpc hg]
    cases ops with
    | nil => rfl
    | cons op ops =>
      simp only
      split
      · rfl
      · exact applyOperationsLoop_congr s s' hpc _ _ _ _ _ _ _ _
  have hupd : ∀ (updateOps : List AnchoredOperation) (rm : ResolutionModel)
      (applied : List AnchoredOperation) (consumedFull : List String),
      resolveUpdates s' fuel updateOps rm applied consumedFull =
        resolveUpdates s fuel updateOps rm applied consumedFull := by
    intro updateOps rm applied consumedFull
    unfold resolveUpdates
    simp only [happly]
  have hfull : ∀ (updateOps fullOps : List AnchoredOperation) (rm : ResolutionModel)
      (applied : List AnchoredOperation),
      resolveFull s' fuel updateOps fullOps rm applied =
        resolveFull s fuel updateOps fullOps rm applied := by
    intro updateOps fullOps rm applied
    unfold resolveFull
    simp only [happly, hupd]
  unfold resolveGathered
  simp only [applyFirstValidCreateOperation_congr s s' hpc, hfull]

theorem gatheredOperations_eq_of_perm (s : OperationProcessor)
    (store' : String → List AnchoredOperation × Option String) (uniqueSuffix : String)
    (additionalOps : List AnchoredOperation)
    (hperm : (store' uniqueSuffix).1.Perm (s.store uniqueSuffix).1)
    (hlex : comparisonLexicographic ((s.store uniqueSuffix).1 ++ additionalOps))
    (hdist : coordinatesDistinct ((s.store uniqueSuffix).1 ++ additionalOps)) :
    gatheredOperations { s with store := store' } uniqueSuffix additionalOps =
      gatheredOperations s uniqueSuffix additionalOps := by
  unfold gatheredOperations
  have hu : storedUnpublished { s with store := store' } uniqueSuffix =
      storedUnpublished s uniqueSuffix := rfl
  rw [hu]
  simp only
  refine Prod.ext ?_ ?_
  · rw [(addAdditionalOperations_eq _ _ _).1, (addAdditionalOperations_eq _ _ _).1]
    have hf : (fun op : AnchoredOperation =>
          decide (op.CanonicalReference ≠ "" ∧
            op.CanonicalReference ∉
              (store' uniqueSuffix).1.map (fun p => p.CanonicalReference))) =
        (fun op : AnchoredOperation =>
          decide (op.CanonicalReference ≠ "" ∧
            op.CanonicalReference ∉
              (s.store uniqueSuffix).1.map (fun p => p.CanonicalReference))) := by
      funext op
      have hm := (hperm.map (fun p => p.CanonicalReference)).mem_iff (a := op.CanonicalReference)
      exact decide_eq_decide.2 (and_congr_right (fun _ => not_congr hm))
    rw [hf]
    refine (sortOperations_eq_of_perm _ _ (List.Perm.append_right _ hperm.symm) ?_ ?_).symm
    · intro a ha b hb
      refine hlex a ?_ b ?_
      · rcases List.mem_append.1 ha with ha | ha
        · exact List.mem_append_left _ ha
        · exact List.mem_append_right _ (List.mem_filter.1 ha).1
      · rcases List.mem_append.1 hb with hb | hb
        · exact List.mem_append_left _ hb
        · exact List.mem_append_right _ (List.mem_filter.1 hb).1
    · intro a ha b hb
      refine hdist a ?_ b ?_
      · rcases List.mem_append.1 ha with ha | ha
        · exact List.mem_append_left _ ha
        · exact List.mem_append_right _ (List.mem_filter.1 ha).1
      · rcases List.mem_append.1 hb with hb | hb
        · exact List.mem_append_left _ hb
        · exact List.mem_append_right _ (List.mem_filter.1 hb).1
  · rw [(addAdditionalOperations_eq _ _ _).2, (addAdditionalOperations_eq _ _ _).2]

/-- C8 (counterexample): two stores whose published lists are permutations of each
other (two updates anchored at the same coordinates, exchanged), everything else
equal: `Resolve` applies the update that comes first in the store's list, so the two
results differ. -/
theorem C8_counterexample :
    exampleTieFirst.Perm exampleTieSecond ∧
      Resolve (exampleProcessor exampleTieFirst []) 10 "s" [] ≠
        Resolve (exampleProcessor exampleTieSecond []) 10 "s" [] ∧
      (Resolve (exampleProcessor exampleTieFirst []) 10 "s" []).toOption.map
          (fun r => r.result.toOption.map (fun rm => rm.UpdateCommitment)) = some (some "y") ∧
      (Resolve (exampleProcessor exampleTieSecond []) 10 "s" []).toOption.map
          (fun r => r.result.toOption.map (fun rm => rm.UpdateCommitment)) = some (some "z") :=
  ⟨List.Perm.cons _ (List.Perm.swap _ _ _), by decide, by decide, by decide⟩

/-- C8 (amended): for every unique suffix, applier, parser and additional operations,
and every two operation stores whose published lists for the suffix are permutations of
each other and which return the same error (everything else equal): if among the
published and additional operations equal coordinates (TransactionTime,
TransactionNumber) mean equal operations, and the comparison of `sortOperations`
agrees with the lexicographic order (no operation has a greater time and a smaller
number than another), then `Resolve` returns the same result, with the same order of
the published operations and the same operations handed to the applier. -/
theorem C8_ordering_invariance (s : OperationProcessor)
    (store' : String → List AnchoredOperation × Option String) (fuel : Nat)
    (uniqueSuffix : String) (additionalOps : List AnchoredOperation)
    (hperm : (store' uniqueSuffix).1.Perm (s.store uniqueSuffix).1)
    (herr : (store' uniqueSuffix).2 = (s.store uniqueSuffix).2)
    (hlex : comparisonLexicographic ((s.store uniqueSuffix).1 ++ additionalOps))
    (hdist : coordinatesDistinct ((s.store uniqueSuffix).1 ++ additionalOps)) :
    Resolve { s with store := store' } fuel uniqueSuffix additionalOps =
      Resolve s fuel uniqueSuffix additionalOps := by
  have hg := gatheredOperations_eq_of_perm s store' uniqueSuffix additionalOps hperm hlex hdist
  have hr := resolveGathered_congr s { s with store := store' } rfl rfl fuel
    (gatheredOperations s uniqueSuffix additionalOps).1
    (gatheredOperations s uniqueSuffix additionalOps).2
  unfold Resolve
  rw [hg, hr]
  simp only [herr]

/-- C8 (witness): the store of `exampleDeactivated` and the store that returns the same
operations in reverse order. -/
theorem C8_ordering_invariance_witness :
    Resolve { exampleProcessor exampleDeactivated [] with
        store := fun _ => (exampleDeactivated.reverse, none) } 10 "s" [] =
      Resolve (exampleProcessor exampleDeactivated []) 10 "s" [] :=
  C8_ordering_invariance (exampleProcessor exampleDeactivated [])
    (fun _ => (exampleDeactivated.reverse, none)) 10 "s" []
    (List.reverse_perm exampleDeactivated) rfl
    (by unfold comparisonLexicographic; decide) (by unfold coordinatesDistinct; decide)

/-! ## C11: errors of the operation store -/

/-- C11: if `OperationStore.Get` fails with an error whose message does not contain
"not found", `Resolve` returns that error and no model, the unpublished store is not
read and nothing is handed to the applier; if it fails (returns no operations) with an
error whose message contains "not found", `Resolve` gives exactly the result it gives
with a store that returns an empty list and no error. -/
theorem C11_store_errors (s : OperationProcessor) (fuel : Nat) (uniqueSuffix : String)
    (additionalOps : List AnchoredOperation) (err : String) :
    ((s.store uniqueSuffix).2 = some err → stringsContains err "not found" = false →
        Resolve s fuel uniqueSuffix additionalOps = .ok ⟨.error err, false, [], [], []⟩) ∧
      (s.store uniqueSuffix = ([], some err) → stringsContains err "not found" = true →
        Resolve s fuel uniqueSuffix additionalOps =
          Resolve { s with store := fun _ => ([], none) } fuel uniqueSuffix additionalOps) := by
  constructor
  · intro h1 h2
    unfold Resolve
    simp [h1, h2]
  · intro h1 h2
    have hg : gatheredOperations { s with store := fun _ => ([], none) } uniqueSuffix
        additionalOps = gatheredOperations s uniqueSuffix additionalOps := by
      unfold gatheredOperations storedUnpublished
      simp only [h1]
    have hr := resolveGathered_congr s { s with store := fun _ => ([], none) } rfl rfl fuel
      (gatheredOperations s uniqueSuffix additionalOps).1
      (gatheredOperations s uniqueSuffix additionalOps).2
    unfold Resolve
    rw [hg, hr]
    simp [h1, h2]

/-- C11 (witness): a store that fails with "database unavailable", and a store that
fails with "uniqueSuffix not found in the store". -/
theorem C11_store_errors_witness :
    Resolve { exampleProcessor [] [] with store := fun _ => ([], some "database unavailable") }
        10 "s" [exampleOp TypeCreate [1, 1] 0 0 ""] =
      .ok ⟨.error "database unavailable", false, [], [], []⟩ ∧
    Resolve { exampleProcessor [] [] with
          store := fun _ => ([], some "uniqueSuffix not found in the store") }
        10 "s" [exampleOp TypeCreate [1, 1] 0 0 ""] =
      Resolve { { exampleProcessor [] [] with
            store := fun _ => ([], some "uniqueSuffix not found in the store") } with
          store := fun _ => ([], none) }
        10 "s" [exampleOp TypeCreate [1, 1] 0 0 ""] :=
  ⟨(C11_store_errors _ 10 "s" _ "database unavailable").1 rfl (by decide),
    (C11_store_errors _ 10 "s" _ "uniqueSuffix not found in the store").2 rfl (by decide)⟩

/-! ## C12: errors of the unpublished-operation store -/

/-- C12: for every error returned by the unpublished-operation store's `Get` (whatever
list comes with it), `Resolve` gives exactly the result it gives when that store
returns an empty list and no error; and for a processor built by `New` without options
(the no-op store) the unpublished list of `Resolve` is a permutation (the
`sortOperations`) of the additional operations with an empty `CanonicalReference`. -/
theorem C12_unpublished_store_errors (s : OperationProcessor) (fuel : Nat)
    (uniqueSuffix : String) (additionalOps : List AnchoredOperation) :
    (∀ err, (s.unpublishedOperationStore uniqueSuffix).2 = some err →
        Resolve s fuel uniqueSuffix additionalOps =
          Resolve { s with unpublishedOperationStore := fun _ => ([], none) } fuel uniqueSuffix
            additionalOps) ∧
      (gatheredOperations
          (New s.name s.store s.pc s.GetCommitmentFromRevealValue []) uniqueSuffix
          additionalOps).2 =
        sortOperations (additionalOps.filter (fun op => decide (op.CanonicalReference = ""))) ∧
      ((gatheredOperations
          (New s.name s.store s.pc s.GetCommitmentFromRevealValue []) uniqueSuffix
          additionalOps).2).Perm
        (additionalOps.filter (fun op => decide (op.CanonicalReference = ""))) := by
  have hnoop : (gatheredOperations
      (New s.name s.store s.pc s.GetCommitmentFromRevealValue []) uniqueSuffix
      additionalOps).2 =
      sortOperations (additionalOps.filter (fun op => decide (op.CanonicalReference = ""))) := by
    unfold gatheredOperations
    rw [(addAdditionalOperations_eq _ _ _).2]
    rfl
  refine ⟨?_, hnoop, ?_⟩
  · intro err herr
    have hu : storedUnpublished s uniqueSuffix = [] := by
      unfold storedUnpublished
      simp [herr]
    have hg : gatheredOperations { s with unpublishedOperationStore := fun _ => ([], none) }
        uniqueSuffix additionalOps = gatheredOperations s uniqueSuffix additionalOps := by
      unfold gatheredOperations
      rw [hu]
      rfl
    have hr := resolveGathered_congr s
      { s with unpublishedOperationStore := fun _ => ([], none) } rfl rfl fuel
      (gatheredOperations s uniqueSuffix additionalOps).1
      (gatheredOperations s uniqueSuffix additionalOps).2
    unfold Resolve
    rw [hg, hr]
  · rw [hnoop]
    exact sortOperations_perm _

/-- C12 (witness): an unpublished store that returns an operation together with an
error. -/
theorem C12_unpublished_store_errors_witness :
    Resolve { exampleProcessor exampleDeactivated [] with
          unpublishedOperationStore :=
            fun _ => ([exampleOp TypeUpdate [1, 2] 5 0 ""], some "store closed") }
        10 "s" [] =
      Resolve { { exampleProcessor exampleDeactivated [] with
            unpublishedOperationStore :=
              fun _ => ([exampleOp TypeUpdate [1, 2] 5 0 ""], some "store closed") } with
          unpublishedOperationStore := fun _ => ([], none) }
        10 "s" [] :=
  (C12_unpublished_store_errors _ 10 "s" []).1 "store closed" rfl

/-! ## C13: updates anchored before the last full operation -/

/-- The update phase hands to the applier only operations selected by
`getOpsWithTxnGreaterThanOrUnpublished` for the coordinates recorded in its input
state. -/
theorem resolveUpdates_applied_selected (s : OperationProcessor) (fuel : Nat)
    (updateOps : List AnchoredOperation) (rm : ResolutionModel)
    (applied : List AnchoredOperation) (consumedFull : List String) (r : ResolveRun)
    (h : resolveUpdates s fuel updateOps rm applied consumedFull = .ok r) :
    ∃ rest, r.applied = applied ++ rest ∧ ∀ o ∈ rest, o ∈ updateOps ∧
      txnGreaterOrUnpublished rm.LastOperationTransactionTime
        rm.LastOperationTransactionNumber o = true := by
  unfold resolveUpdates at h
  simp only at h
  split at h
  · cases hrun : applyOperations s fuel
        (getOpsWithTxnGreaterThanOrUnpublished updateOps rm.LastOperationTransactionTime
          rm.LastOperationTransactionNumber) rm getUpdateCommitment with
    | error f =>
      rw [hrun] at h
      cases h
    | ok run =>
      rw [hrun] at h
      simp only [Except.ok.injEq] at h
      subst h
      refine ⟨run.applied, rfl, ?_⟩
      intro o ho
      have hmem := applyOperations_applied s fuel _ rm getUpdateCommitment run hrun o ho
      rw [getOpsWithTxnGreaterThanOrUnpublished_eq_filter] at hmem
      exact List.mem_filter.1 hmem
  · simp only [Except.ok.injEq] at h
    subst h
    exact ⟨[], by simp, by simp⟩

/-- C13 (counterexample): in the history create, update anchored at time 10, recover
anchored at time 11, update anchored at time 12, with the example applier (which accepts
an operation exactly when its reveal matches the state's commitment): the update
anchored at time 10 reveals the create's update commitment and the applier accepts it on
the created state, but `Resolve` hands only the create, the recover and the update
anchored at time 12 to the applier. -/
theorem C13_counterexample :
    (Resolve (exampleProcessor exampleRecoverHistory []) 10 "s" []).toOption.map
        (fun r => r.applied) =
      some [exampleOp TypeCreate [1, 2] 9 0 "a", exampleOp TypeRecover [1, 3, 4] 11 0 "c",
        exampleOp TypeUpdate [4, 1] 12 0 "d"] ∧
    revealCommitment (exampleProcessor exampleRecoverHistory [])
        (exampleOp TypeUpdate [2, 3] 10 0 "b") = .ok exampleRecoverCreated.UpdateCommitment ∧
    ((applyOperation (exampleProcessor exampleRecoverHistory [])
        (exampleOp TypeUpdate [2, 3] 10 0 "b") exampleRecoverCreated).1).toBool = true := by
  decide

/-- C13 (amended): when the full-operation phase of `Resolve` runs and returns the
state `run.state`, the operations handed to the applier are those of the create phase,
those of the full-operation phase, and then only update operations that are unpublished
or anchored strictly after the coordinates recorded in `run.state`; an update anchored
before the last applied recover (whose coordinates the applier records) is not
applied. -/
theorem C13_updates_after_last_full (s : OperationProcessor) (fuel : Nat)
    (uniqueSuffix : String) (additionalOps : List AnchoredOperation) (rm0 : ResolutionModel)
    (run : PhaseRun) (hstore : storeReadable s uniqueSuffix)
    (hcreate : (applyFirstValidCreateOperation s (resolveSplit s uniqueSuffix additionalOps).1
      (resolveModel s uniqueSuffix additionalOps)).1 = some rm0)
    (hfull : (resolveSplit s uniqueSuffix additionalOps).2.2 ≠ [])
    (hrun : applyOperations s fuel (resolveSplit s uniqueSuffix additionalOps).2.2 rm0
      getRecoveryCommitment = .ok run) :
    ∀ r, Resolve s fuel uniqueSuffix additionalOps = .ok r →
      ∃ rest, r.applied =
          (applyFirstValidCreateOperation s (resolveSplit s uniqueSuffix additionalOps).1
            (resolveModel s uniqueSuffix additionalOps)).2 ++ run.applied ++ rest ∧
        ∀ o ∈ rest, o.Type_ = TypeUpdate ∧
          (o.CanonicalReference = "" ∨
            run.state.LastOperationTransactionTime < o.TransactionTime ∨
            (o.TransactionTime = run.state.LastOperationTransactionTime ∧
              run.state.LastOperationTransactionNumber < o.TransactionNumber)) := by
  intro r hr
  rw [Resolve_eq_resolveGathered s fuel uniqueSuffix additionalOps hstore] at hr
  unfold resolveSplit at hcreate hfull hrun ⊢
  unfold resolveModel at hcreate ⊢
  rcases resolveGathered_cases s fuel (gatheredOperations s uniqueSuffix additionalOps).1
      (gatheredOperations s uniqueSuffix additionalOps).2 with
    ⟨h0, _⟩ | ⟨_, hnone, _⟩ | ⟨st, h0, hsome, hg⟩
  · rw [h0] at hcreate
    simp [applyFirstValidCreateOperation] at hcreate
  · rw [hnone] at hcreate
    cases hcreate
  · rw [hsome] at hcreate
    simp only [Option.some.injEq] at hcreate
    subst hcreate
    rw [hg] at hr
    have hlen : (splitOperations (combinedOperations
        (gatheredOperations s uniqueSuffix additionalOps).1
        (gatheredOperations s uniqueSuffix additionalOps).2)).2.2.length > 0 :=
      List.length_pos.2 hfull
    unfold resolveFull at hr
    rw [if_pos hlen, hrun] at hr
    simp only at hr
    split at hr
    · simp only [Except.ok.injEq] at hr
      subst hr
      exact ⟨[], by simp, by simp⟩
    · obtain ⟨rest, h1, h2⟩ := resolveUpdates_applied_selected s fuel _ run.state _ _ r hr
      refine ⟨rest, h1, ?_⟩
      intro o ho
      obtain ⟨hm, hsel⟩ := h2 o ho
      rw [splitOperations_update] at hm
      have ht : o.Type_ = TypeUpdate := by simpa using (List.mem_filter.1 hm).2
      refine ⟨ht, ?_⟩
      simpa [txnGreaterOrUnpublished] using hsel

/-- C13 (witness): in the history create, update (time 10), recover (time 11), update
(time 12) `Resolve` returns, and the operations handed to the applier after the recover
are updates anchored after time 11. -/
theorem C13_updates_after_last_full_witness :
    ∃ r rest, Resolve (exampleProcessor exampleRecoverHistory []) 10 "s" [] = .ok r ∧
      r.applied =
        (applyFirstValidCreateOperation (exampleProcessor exampleRecoverHistory [])
          (resolveSplit (exampleProcessor exampleRecoverHistory []) "s" []).1
          (resolveModel (exampleProcessor exampleRecoverHistory []) "s" [])).2 ++
          exampleRecoverRun.applied ++ rest ∧
      ∀ o ∈ rest, o.Type_ = TypeUpdate ∧
        (o.CanonicalReference = "" ∨
          exampleRecoverRun.state.LastOperationTransactionTime < o.TransactionTime ∨
          (o.TransactionTime = exampleRecoverRun.state.LastOperationTransactionTime ∧
            exampleRecoverRun.state.LastOperationTransactionNumber < o.TransactionNumber)) :=
  (Resolve_terminates (exampleProcessor exampleRecoverHistory []) 10 "s" []
    (exampleProcessor_contract _ _) (by decide)).elim
    (fun r hr =>
      (C13_updates_after_last_full (exampleProcessor exampleRecoverHistory []) 10 "s" []
        exampleRecoverCreated exampleRecoverRun (exampleProcessor_storeReadable _ _ _)
        (by decide) (by decide) (by decide) r hr).elim
        (fun rest h => ⟨r, rest, hr, h.1, h.2⟩))

/-! ## C15: no error after the create phase -/

theorem stuckProcessor_loop :
    ∀ (fuel : Nat) (commitmentMap : List String) (applied : List AnchoredOperation),
      "y" ∉ commitmentMap →
      applyOperationsLoop stuckProcessor
        (createOperationHashMap stuckProcessor [exampleOp TypeUpdate [] 1 0 "b"])
        getUpdateCommitment fuel stuckState "x" [exampleOp TypeUpdate [] 1 0 "b"]
        commitmentMap applied = .error Fault.outOfFuel := by
  intro fuel
  induction fuel with
  | zero => intros; rfl
  | succ fuel ih =>
    intro commitmentMap applied hy
    have hfirst : applyFirstValidOperation stuckProcessor [exampleOp TypeUpdate [] 1 0 "b"]
        stuckState "x" commitmentMap = (some stuckState, [exampleOp TypeUpdate [] 1 0 "b"]) := by
      have hc : getCommitment stuckProcessor (exampleOp TypeUpdate [] 1 0 "b") = .ok "y" := rfl
      have hne : ¬ ("x" = "y") := by decide
      have hcond : ¬ (("y" : String) ≠ "" ∧ "y" ∈ commitmentMap) := fun h => hy h.2
      rw [applyFirstValidOperation]
      simp only [hc]
      rw [if_neg hne, if_neg hcond]
      rfl
    have hmap : createOperationHashMap stuckProcessor [exampleOp TypeUpdate [] 1 0 "b"]
        (getUpdateCommitment stuckState) = some [exampleOp TypeUpdate [] 1 0 "b"] := by decide
    have hsel : ¬ (getUpdateCommitment stuckState = "") := by decide
    rw [applyOperationsLoop]
    simp only [hfirst]
    rw [if_neg hsel]
    simp only [hmap]
    have hx : getUpdateCommitment stuckState = "x" := rfl
    rw [hx]
    apply ih
    intro hmem
    rcases List.mem_append.1 hmem with hmem | hmem
    · exact hy hmem
    · simp at hmem

/-- C15 (counterexample): the applier of `stuckProcessor` accepts the create operation
and then accepts the update operation again and again without advancing the update
commitment: the create phase succeeds, and `Resolve` does not return, whatever the
fuel. -/
theorem C15_counterexample :
    (applyFirstValidCreateOperation stuckProcessor (resolveSplit stuckProcessor "s" []).1
        (resolveModel stuckProcessor "s" [])).1 = some stuckState ∧
      ∀ fuel, Resolve stuckProcessor fuel "s" [] = .error Fault.outOfFuel := by
  refine ⟨by decide, ?_⟩
  intro fuel
  have h : Resolve stuckProcessor fuel "s" [] =
      match applyOperationsLoop stuckProcessor
        (createOperationHashMap stuckProcessor [exampleOp TypeUpdate [] 1 0 "b"])
        getUpdateCommitment fuel stuckState "x" [exampleOp TypeUpdate [] 1 0 "b"] [] [] with
      | .error f => .error f
      | .ok run =>
        .ok ⟨.ok run.state, true, [exampleOp TypeCreate [] 0 0 "a"] ++ run.applied, [],
          run.commitmentMap⟩ := rfl
  rw [h, stuckProcessor_loop fuel [] [] (by simp)]

/-- C15 (amended): once the create phase of `Resolve` has applied a create operation
successfully, `Resolve` never returns an error: whenever it returns, it returns a
resolution model; and it does return (fuel at least the number of combined operations)
when the applier obeys its contract.  Failures of the protocol lookup, the parser or
the applier on other operations are not reported. -/
theorem C15_no_error_after_create (s : OperationProcessor) (fuel : Nat)
    (uniqueSuffix : String) (additionalOps : List AnchoredOperation) (st : ResolutionModel)
    (hstore : storeReadable s uniqueSuffix)
    (hcreate : (applyFirstValidCreateOperation s (resolveSplit s uniqueSuffix additionalOps).1
      (resolveModel s uniqueSuffix additionalOps)).1 = some st) :
    (∀ r, Resolve s fuel uniqueSuffix additionalOps = .ok r → ∃ rm, r.result = .ok rm) ∧
      (applierContract s →
        (combinedOperations (gatheredOperations s uniqueSuffix additionalOps).1
          (gatheredOperations s uniqueSuffix additionalOps).2).length ≤ fuel →
        ∃ r rm, Resolve s fuel uniqueSuffix additionalOps = .ok r ∧ r.result = .ok rm) := by
  have h1 : ∀ r, Resolve s fuel uniqueSuffix additionalOps = .ok r →
      ∃ rm, r.result = .ok rm := by
    intro r hr
    rw [Resolve_eq_resolveGathered s fuel uniqueSuffix additionalOps hstore] at hr
    unfold resolveSplit resolveModel at hcreate
    rcases resolveGathered_cases s fuel (gatheredOperations s uniqueSuffix additionalOps).1
        (gatheredOperations s uniqueSuffix additionalOps).2 with
      ⟨h0, _⟩ | ⟨_, hnone, _⟩ | ⟨st', _, _, hg⟩
    · rw [h0] at hcreate
      simp [applyFirstValidCreateOperation] at hcreate
    · rw [hnone] at hcreate
      cases hcreate
    · rw [hg] at hr
      exact (resolveFull_ok s fuel _ _ st' _ r hr).1
  refine ⟨h1, ?_⟩
  intro hcontract hfuel
  obtain ⟨r, hr⟩ := Resolve_terminates s fuel uniqueSuffix additionalOps hcontract hfuel
  obtain ⟨rm, hrm⟩ := h1 r hr
  exact ⟨r, rm, hr, hrm⟩

/-- C15 (witness): the history create, update, recover, update with the example
applier. -/
theorem C15_no_error_after_create_witness :
    ∃ r rm, Resolve (exampleProcessor exampleRecoverHistory []) 10 "s" [] = .ok r ∧
      r.result = .ok rm :=
  (C15_no_error_after_create (exampleProcessor exampleRecoverHistory []) 10 "s" []
    exampleRecoverCreated (exampleProcessor_storeReadable _ _ _) (by decide)).2
    (exampleProcessor_contract _ _) (by decide)

/-! ## C14: replay of a commitment chain -/

theorem commitmentChain_perm (s : OperationProcessor)
    (commitmentFnc : ResolutionModel → String) (ops ops' : List AnchoredOperation)
    (hperm : ops'.Perm ops) :
    ∀ (links : List (AnchoredOperation × String)) (st : ResolutionModel),
      commitmentChain s commitmentFnc ops st links →
      commitmentChain s commitmentFnc ops' st links := by
  intro links
  induction links with
  | nil =>
    intro st h op hop
    exact h op (hperm.mem_iff.1 hop)
  | cons link links ih =>
    intro st h
    obtain ⟨h1, h2, h3, h4, st', h5, h6, h7⟩ := h
    exact ⟨hperm.mem_iff.2 h1, h2, fun o ho => h3 o (hperm.mem_iff.1 ho), h4, st', h5, h6,
      ih st' h7⟩

/-- The bucket of a commitment to which exactly the operation `op` of the list reveals
starts with `op`. -/
theorem createOperationHashMap_unique (s : OperationProcessor) (ops : List AnchoredOperation)
    (c : String) (op : AnchoredOperation) (hmem : op ∈ ops)
    (hreveal : revealCommitment s op = .ok c)
    (honly : ∀ o ∈ ops, revealCommitment s o = .ok c → o = op) :
    ∃ tail, createOperationHashMap s ops c = some (op :: tail) := by
  rw [createOperationHashMap_eq]
  have hin : op ∈ ops.filter (fun o => decide (revealCommitment s o = .ok c)) := by
    rw [List.mem_filter]
    exact ⟨hmem, by simpa using hreveal⟩
  cases hf : ops.filter (fun o => decide (revealCommitment s o = .ok c)) with
  | nil =>
    rw [hf] at hin
    cases hin
  | cons o tail =>
    have ho : o ∈ ops.filter (fun o => decide (revealCommitment s o = .ok c)) := by
      rw [hf]
      exact List.mem_cons_self _ _
    rw [List.mem_filter] at ho
    have : o = op := honly o ho.1 (by simpa using ho.2)
    subst this
    exact ⟨tail, by simp⟩

theorem createOperationHashMap_none (s : OperationProcessor) (ops : List AnchoredOperation)
    (c : String) (h : ∀ op ∈ ops, revealCommitment s op ≠ .ok c) :
    createOperationHashMap s ops c = none := by
  rw [createOperationHashMap_eq]
  have hf : ops.filter (fun o => decide (revealCommitment s o = .ok c)) = [] := by
    rw [List.filter_eq_nil_iff]
    intro o ho
    simpa using h o ho
  simp [hf]

/-- An operation at the head of the list that passes the commitment checks and that the
applier accepts is the one `applyFirstValidOperation` applies. -/
theorem applyFirstValidOperation_head (s : OperationProcessor) (op : AnchoredOperation)
    (ops : List AnchoredOperation) (rm st : ResolutionModel) (currCommitment nextC : String)
    (processedCommitments : List String)
    (hc : getCommitment s op = .ok nextC) (hne : currCommitment ≠ nextC)
    (hnew : nextC ∉ processedCommitments)
    (ha : (applyOperation s op rm).1 = .ok st) :
    applyFirstValidOperation s (op :: ops) rm currCommitment processedCommitments =
      (some st, [op]) := by
  have hcond : ¬ (nextC ≠ "" ∧ nextC ∈ processedCommitments) := fun h => hnew h.2
  have happ := applyOperation_ok_applied s op rm st ha
  rw [applyFirstValidOperation]
  simp only [hc]
  rw [if_neg hne, if_neg hcond]
  cases hp : applyOperation s op rm with
  | mk res applied =>
    rw [hp] at ha happ
    simp only at ha happ
    subst ha
    subst happ
    rfl

/-- The loop of `applyOperations` follows a commitment chain to its end. -/
theorem applyOperationsLoop_chain (s : OperationProcessor)
    (commitmentFnc : ResolutionModel → String) (ops : List AnchoredOperation) :
    ∀ (links : List (AnchoredOperation × String)) (link : AnchoredOperation × String)
      (st : ResolutionModel) (fuel : Nat) (commitmentOps : List AnchoredOperation)
      (commitmentMap : List String) (applied : List AnchoredOperation),
      commitmentChain s commitmentFnc ops st (link :: links) →
      createOperationHashMap s ops (commitmentFnc st) = some commitmentOps →
      (commitmentMap ++ commitmentFnc st :: (link :: links).map Prod.snd).Nodup →
      (∀ c ∈ (link :: links).map Prod.snd, c ≠ "") →
      (link :: links).length ≤ fuel →
      ∃ final, applyChain s st ((link :: links).map Prod.fst) = .ok final ∧
        commitmentFnc final = ((link :: links).map Prod.snd).getLastD (commitmentFnc st) ∧
        applyOperationsLoop s (createOperationHashMap s ops) commitmentFnc fuel st
            (commitmentFnc st) commitmentOps commitmentMap applied =
          .ok ⟨final,
            commitmentMap ++ (commitmentFnc st :: (link :: links).map Prod.snd).dropLast,
            applied ++ (link :: links).map Prod.fst⟩ := by
  intro links
  induction links with
  | nil =>
    intro link st fuel commitmentOps commitmentMap applied hchain hmap hnd hne hfuel
    obtain ⟨h1, h2, h3, h4, st', h5, h6, h7⟩ := hchain
    obtain ⟨tail, hb⟩ := createOperationHashMap_unique s ops _ link.1 h1 h2 h3
    rw [hmap] at hb
    simp only [Option.some.injEq] at hb
    subst hb
    cases fuel with
    | zero => simp at hfuel
    | succ fuel =>
      have hsplit := List.nodup_append.1 hnd
      have hcur : commitmentFnc st ≠ link.2 := fun h =>
        (List.nodup_cons.1 hsplit.2.1).1 (by rw [h]; simp)
      have hnew : link.2 ∉ commitmentMap := fun hm =>
        hsplit.2.2 hm (List.mem_cons_of_mem _ (by simp))
      have hfirst := applyFirstValidOperation_head s link.1 tail st st' (commitmentFnc st)
        link.2 commitmentMap h4 hcur hnew h5
      have hnone : createOperationHashMap s ops (commitmentFnc st') = none :=
        createOperationHashMap_none s ops _ h7
      have hnonempty : ¬ commitmentFnc st' = "" := by
        rw [h6]
        exact hne link.2 (by simp)
      refine ⟨st', ?_, ?_, ?_⟩
      · simp [applyChain, h5]
      · simp [h6]
      · rw [applyOperationsLoop]
        simp only [hfirst]
        rw [if_neg hnonempty]
        simp only [hnone]
        simp
  | cons link' links ih =>
    intro link st fuel commitmentOps commitmentMap applied hchain hmap hnd hne hfuel
    obtain ⟨h1, h2, h3, h4, st', h5, h6, h7⟩ := hchain
    obtain ⟨tail, hb⟩ := createOperationHashMap_unique s ops _ link.1 h1 h2 h3
    rw [hmap] at hb
    simp only [Option.some.injEq] at hb
    subst hb
    cases fuel with
    | zero => simp at hfuel
    | succ fuel =>
      have hsplit := List.nodup_append.1 hnd
      have hcur : commitmentFnc st ≠ link.2 := fun h =>
        (List.nodup_cons.1 hsplit.2.1).1 (by rw [h]; simp)
      have hnew : link.2 ∉ commitmentMap := fun hm =>
        hsplit.2.2 hm (List.mem_cons_of_mem _ (by simp))
      have hfirst := applyFirstValidOperation_head s link.1 tail st st' (commitmentFnc st)
        link.2 commitmentMap h4 hcur hnew h5
      have hnonempty : ¬ commitmentFnc st' = "" := by
        rw [h6]
        exact hne link.2 (by simp)
      have h7' := h7
      obtain ⟨g1, g2, g3, _⟩ := h7'
      obtain ⟨tail', hb'⟩ := createOperationHashMap_unique s ops _ link'.1 g1 g2 g3
      have hnd'' : ((commitmentMap ++ [commitmentFnc st]) ++
          commitmentFnc st' :: (link' :: links).map Prod.snd).Nodup := by
        rw [h6]
        simpa [List.append_assoc] using hnd
      obtain ⟨final, f1, f2, f3⟩ := ih link' st' fuel (link'.1 :: tail')
        (commitmentMap ++ [commitmentFnc st]) (applied ++ [link.1]) h7 hb' hnd''
        (fun c hc => hne c (by simp at hc ⊢; exact Or.inr hc))
        (by simp at hfuel ⊢; omega)
      refine ⟨final, ?_, ?_, ?_⟩
      · simp only [List.map_cons, applyChain, h5]
        simpa using f1
      · rw [f2]
        simp [List.getLastD]
      · rw [applyOperationsLoop]
        simp only [hfirst]
        rw [if_neg hnonempty]
        simp only [hb']
        rw [f3, h6]
        simp [List.dropLast]

/-- C14: let the links `(op_1, c_1), ..., (op_k, c_k)` form a commitment chain in the
list `ops` from the input state (each `op_i` is the only operation of the list that
reveals to the commitment selected before it, declares `c_i`, and is accepted by the
applier, which sets the selected commitment to `c_i`; nothing reveals to `c_k`), with
`c_0, ..., c_k` pairwise distinct (`c_0` the selected commitment of the input state) and
`c_1, ..., c_k` non-empty.  Then for every ordering `ops'` of the list `applyOperations`
returns (fuel at least `k`) the state obtained by applying `op_1, ..., op_k` in chain
order, whose selected commitment is `c_k`, having marked `c_0, ..., c_(k-1)` and handed
exactly `op_1, ..., op_k` to the applier. -/
theorem C14_chain_replay (s : OperationProcessor) (fuel : Nat)
    (ops ops' : List AnchoredOperation) (rm : ResolutionModel)
    (commitmentFnc : ResolutionModel → String) (links : List (AnchoredOperation × String))
    (hperm : ops'.Perm ops) (hops : ops ≠ [])
    (hchain : commitmentChain s commitmentFnc ops rm links)
    (hdistinct : (commitmentFnc rm :: links.map Prod.snd).Nodup)
    (hnonempty : ∀ c ∈ links.map Prod.snd, c ≠ "")
    (hfuel : links.length ≤ fuel) :
    ∃ final, applyChain s rm (links.map Prod.fst) = .ok final ∧
      commitmentFnc final = (links.map Prod.snd).getLastD (commitmentFnc rm) ∧
      applyOperations s fuel ops' rm commitmentFnc =
        .ok ⟨final, (commitmentFnc rm :: links.map Prod.snd).dropLast,
          links.map Prod.fst⟩ := by
  have hops' : ops' ≠ [] := fun h => hops (by rw [h] at hperm; exact hperm.symm.eq_nil)
  cases links with
  | nil =>
    have hc := commitmentChain_perm s commitmentFnc ops ops' hperm [] rm hchain
    refine ⟨rm, rfl, rfl, ?_⟩
    have hnone := createOperationHashMap_none s ops' _ hc
    unfold applyOperations
    cases ops' with
    | nil => exact absurd rfl hops'
    | cons op ops' =>
      simp only [hnone]
      rfl
  | cons link links =>
    have hc := commitmentChain_perm s commitmentFnc ops ops' hperm (link :: links) rm hchain
    have hc' := hc
    obtain ⟨h1, h2, h3, _⟩ := hc'
    obtain ⟨tail, hb⟩ := createOperationHashMap_unique s ops' _ link.1 h1 h2 h3
    obtain ⟨final, f1, f2, f3⟩ := applyOperationsLoop_chain s commitmentFnc ops' links link rm
      fuel (link.1 :: tail) [] [] hc hb (by simpa using hdistinct) hnonempty hfuel
    refine ⟨final, f1, f2, ?_⟩
    unfold applyOperations
    cases ops' with
    | nil => exact absurd rfl hops'
    | cons op ops' =>
      simp only [hb]
      rw [f3]
      simp

/-- C14 (witness): the chain of three updates of scenario S2, listed out of order and
then reversed; the final update commitment is `w`, the commitment declared by the third
update. -/
theorem C14_chain_replay_witness :
    ∃ final, final.UpdateCommitment = "w" ∧
      applyOperations (exampleProcessor [] []) 3 exampleUpdateChain.reverse exampleChainStart
          getUpdateCommitment =
        .ok ⟨final, ["x", "y", "z"],
          [exampleOp TypeUpdate [1, 2] 11 0 "b", exampleOp TypeUpdate [2, 3] 12 0 "c",
            exampleOp TypeUpdate [3, 4] 13 0 "d"]⟩ :=
  (C14_chain_replay (exampleProcessor [] []) 3 exampleUpdateChain exampleUpdateChain.reverse
    exampleChainStart getUpdateCommitment
    [(exampleOp TypeUpdate [1, 2] 11 0 "b", "y"), (exampleOp TypeUpdate [2, 3] 12 0 "c", "z"),
      (exampleOp TypeUpdate [3, 4] 13 0 "d", "w")]
    (List.reverse_perm _) (by decide)
    ⟨by decide, by decide, by decide, by decide, _, rfl, rfl,
      by decide, by decide, by decide, by decide, _, rfl, rfl,
      by decide, by decide, by decide, by decide, _, rfl, rfl,
      show ∀ op ∈ exampleUpdateChain,
        revealCommitment (exampleProcessor [] []) op ≠ .ok "w" from by decide⟩
    (by decide) (by decide) (by decide)).elim
    (fun final h => ⟨final, h.2.1, h.2.2⟩)

end processor

namespace txnprovider

/-! ## Lists read by index -/

theorem getElem?_append_of_some {α : Type} {l₁ l₂ : List α} {i : Nat} {a : α}
    (h : l₁[i]? = some a) : (l₁ ++ l₂)[i]? = some a := by
  have hi : i < l₁.length := (List.getElem?_eq_some.1 h).1
  rw [List.getElem?_append_left hi]
  exact h

theorem getElem?_append_length_add {α : Type} (l₁ l₂ : List α) (i : Nat) :
    (l₁ ++ l₂)[l₁.length + i]? = l₂[i]? := by
  rw [List.getElem?_append_right (Nat.le_add_right _ _)]
  simp

theorem getElem?_of_length_eq {α β : Type} {l₁ : List α} {l₂ : List β} {i : Nat} {a : α}
    (hlen : l₁.length = l₂.length) (h : l₁[i]? = some a) : ∃ b, l₂[i]? = some b := by
  have hi : i < l₂.length := hlen ▸ (List.getElem?_eq_some.1 h).1
  exact ⟨l₂[i], List.getElem?_eq_getElem hi⟩

/-! ## The steps of the assembly -/

theorem parseCreateOperations_ok (h : OperationProvider) :
    ∀ (refs : List CreateReference) (ops : List Operation),
      parseCreateOperations h refs = .ok ops →
      ops.length = refs.length ∧
      ∀ (i : Nat) (ref : CreateReference), refs[i]? = some ref →
        ∃ suffix, h.CalculateModelMultihash ref.SuffixData h.MultihashAlgorithm = .ok suffix ∧
          ops[i]? = some (Operation.mk TypeCreate suffix ref.SuffixData none "" "") := by
  intro refs
  induction refs with
  | nil =>
    intro ops hok
    simp only [parseCreateOperations, Except.ok.injEq] at hok
    subst hok
    simp
  | cons r refs ih =>
    intro ops hok
    rw [parseCreateOperations] at hok
    cases hs : h.CalculateModelMultihash r.SuffixData h.MultihashAlgorithm with
    | error e => rw [hs] at hok; cases hok
    | ok suffix =>
      rw [hs] at hok
      cases hr : parseCreateOperations h refs with
      | error e => rw [hr] at hok; cases hok
      | ok rest =>
        rw [hr] at hok
        simp only [Except.ok.injEq] at hok
        subst hok
        obtain ⟨hlen, hidx⟩ := ih rest hr
        refine ⟨by simp [hlen], ?_⟩
        intro i ref hi
        cases i with
        | zero =>
          simp only [List.getElem?_cons_zero, Option.some.injEq] at hi
          subst hi
          exact ⟨suffix, hs, by simp⟩
        | succ i =>
          simp only [List.getElem?_cons_succ] at hi ⊢
          exact hidx i ref hi

theorem parseCreateOperations_type (h : OperationProvider) :
    ∀ (refs : List CreateReference) (ops : List Operation),
      parseCreateOperations h refs = .ok ops → ∀ op ∈ ops, op.Type_ = TypeCreate := by
  intro refs
  induction refs with
  | nil =>
    intro ops hok
    simp only [parseCreateOperations, Except.ok.injEq] at hok
    subst hok
    simp
  | cons r refs ih =>
    intro ops hok
    rw [parseCreateOperations] at hok
    cases hs : h.CalculateModelMultihash r.SuffixData h.MultihashAlgorithm with
    | error e => rw [hs] at hok; cases hok
    | ok suffix =>
      rw [hs] at hok
      cases hr : parseCreateOperations h refs with
      | error e => rw [hr] at hok; cases hok
      | ok rest =>
        rw [hr] at hok
        simp only [Except.ok.injEq] at hok
        subst hok
        intro op hop
        rcases List.mem_cons.1 hop with heq | hmem
        · rw [heq]
        · exact ih rest hr op hmem

theorem attachSignedData_ok :
    ∀ (ops : List Operation) (signed : List String) (res : List Operation),
      attachSignedData ops signed = .ok res →
      res.length = ops.length ∧ ops.length ≤ signed.length ∧
      res.map (fun op => op.UniqueSuffix) = ops.map (fun op => op.UniqueSuffix) ∧
      ∀ (i : Nat) (op : Operation), ops[i]? = some op →
        ∃ sd, signed[i]? = some sd ∧ res[i]? = some { op with SignedData := sd } := by
  intro ops
  induction ops with
  | nil =>
    intro signed res hok
    simp only [attachSignedData, Outcome.ok.injEq] at hok
    subst hok
    simp
  | cons op ops ih =>
    intro signed res hok
    cases signed with
    | nil => simp [attachSignedData] at hok
    | cons sd signed =>
      rw [attachSignedData] at hok
      cases hr : attachSignedData ops signed with
      | error e => rw [hr] at hok; cases hok
      | panic p => rw [hr] at hok; cases hok
      | ok rest =>
        rw [hr] at hok
        simp only [Outcome.ok.injEq] at hok
        subst hok
        obtain ⟨hlen, hle, hsuf, hidx⟩ := ih signed rest hr
        refine ⟨by simp [hlen], by simpa using hle, by simp [hsuf], ?_⟩
        intro i o hi
        cases i with
        | zero =>
          simp only [List.getElem?_cons_zero, Option.some.injEq] at hi
          subst hi
          exact ⟨sd, by simp, by simp⟩
        | succ i =>
          simp only [List.getElem?_cons_succ] at hi ⊢
          exact hidx i o hi

theorem attachProofData_ok (ops : List Operation) (signed : Option (List String))
    (res : List Operation) (hok : attachProofData ops signed = .ok res) :
    res.length = ops.length ∧ ops.length ≤ (signed.getD []).length ∧
    res.map (fun op => op.UniqueSuffix) = ops.map (fun op => op.UniqueSuffix) ∧
    ∀ (i : Nat) (op : Operation), ops[i]? = some op →
      ∃ sd, signed.bind (fun l => l[i]?) = some sd ∧
        res[i]? = some { op with SignedData := sd } := by
  cases ops with
  | nil =>
    simp only [attachProofData, Outcome.ok.injEq] at hok
    subst hok
    simp
  | cons op ops =>
    cases signed with
    | none => simp [attachProofData] at hok
    | some signed =>
      simp only [attachProofData] at hok
      obtain ⟨hlen, hle, hsuf, hidx⟩ := attachSignedData_ok _ _ _ hok
      exact ⟨hlen, by simpa using hle, hsuf, fun i o hi => by simpa using hidx i o hi⟩

theorem attachDeltas_ok :
    ∀ (deltas : List (Option String)) (ops res : List Operation),
      attachDeltas ops deltas = .ok res →
      res.length = ops.length ∧
      res.map (fun op => op.UniqueSuffix) = ops.map (fun op => op.UniqueSuffix) ∧
      ∀ (i : Nat) (op : Operation) (d : Option String), ops[i]? = some op → deltas[i]? = some d →
        res[i]? = some { op with Delta := d } := by
  intro deltas
  induction deltas with
  | nil =>
    intro ops res hok
    have : res = ops := by
      cases ops <;> simp only [attachDeltas, Outcome.ok.injEq] at hok <;> exact hok.symm
    subst this
    simp
  | cons d deltas ih =>
    intro ops res hok
    cases ops with
    | nil => simp [attachDeltas] at hok
    | cons op ops =>
      rw [attachDeltas] at hok
      cases hr : attachDeltas ops deltas with
      | error e => rw [hr] at hok; cases hok
      | panic p => rw [hr] at hok; cases hok
      | ok rest =>
        rw [hr] at hok
        simp only [Outcome.ok.injEq] at hok
        subst hok
        obtain ⟨hlen, hsuf, hidx⟩ := ih ops rest hr
        refine ⟨by simp [hlen], by simp [hsuf], ?_⟩
        intro i o d' hi hd
        cases i with
        | zero =>
          simp only [List.getElem?_cons_zero, Option.some.injEq] at hi hd
          subst hi hd
          simp
        | succ i =>
          simp only [List.getElem?_cons_succ] at hi hd ⊢
          exact hidx i o d' hi hd

theorem createAnchoredOperations_ok (h : OperationProvider) :
    ∀ (ops : List Operation) (res : List AnchoredOperation),
      createAnchoredOperations h ops = .ok res →
      List.Forall₂ (fun op anchoredOp => h.GetAnchoredOperation op = .ok anchoredOp) ops res := by
  intro ops
  induction ops with
  | nil =>
    intro res hok
    simp only [createAnchoredOperations, Except.ok.injEq] at hok
    subst hok
    exact List.Forall₂.nil
  | cons op ops ih =>
    intro res hok
    rw [createAnchoredOperations] at hok
    cases ha : h.GetAnchoredOperation op with
    | error e => rw [ha] at hok; cases hok
    | ok anchoredOp =>
      rw [ha] at hok
      cases hr : createAnchoredOperations h ops with
      | error e => rw [hr] at hok; cases hok
      | ok rest =>
        rw [hr] at hok
        simp only [Except.ok.injEq] at hok
        subst hok
        exact List.Forall₂.cons ha (ih rest hr)

/-! ## Duplicates -/

theorem checkForDuplicatesLoop_length_le :
    ∀ (values valuesMap duplicates : List String),
      duplicates.length ≤ (checkForDuplicatesLoop values valuesMap duplicates).length := by
  intro values
  induction values with
  | nil => intro valuesMap duplicates; simp [checkForDuplicatesLoop]
  | cons val values ih =>
    intro valuesMap duplicates
    rw [checkForDuplicatesLoop]
    split
    · exact ih _ _
    · exact Nat.le_trans (by simp) (ih _ _)

theorem checkForDuplicatesLoop_length_eq :
    ∀ (values valuesMap duplicates : List String),
      (checkForDuplicatesLoop values valuesMap duplicates).length = duplicates.length ↔
        values.Nodup ∧ ∀ v ∈ values, v ∉ valuesMap := by
  intro values
  induction values with
  | nil => intro valuesMap duplicates; simp [checkForDuplicatesLoop]
  | cons val values ih =>
    intro valuesMap duplicates
    rw [checkForDuplicatesLoop]
    by_cases hval : val ∈ valuesMap
    · rw [if_neg (not_not.2 hval)]
      have hlt := checkForDuplicatesLoop_length_le values valuesMap (duplicates ++ [val])
      simp only [List.length_append, List.length_singleton] at hlt
      constructor
      · intro heq; omega
      · intro hnd; exact absurd hval (hnd.2 val (List.mem_cons_self _ _))
    · rw [if_pos hval, ih]
      constructor
      · rintro ⟨hnd, hall⟩
        refine ⟨List.nodup_cons.2 ⟨fun hmem => hall val hmem (by simp), hnd⟩, ?_⟩
        intro v hv
        rcases List.mem_cons.1 hv with heq | hmem
        · rw [heq]; exact hval
        · exact fun hm => hall v hmem (List.mem_append_left _ hm)
      · rintro ⟨hnd, hall⟩
        have hnd' := List.nodup_cons.1 hnd
        refine ⟨hnd'.2, fun v hv hm => ?_⟩
        rcases List.mem_append.1 hm with hm | hm
        · exact hall v (List.mem_cons_of_mem _ hv) hm
        · rw [List.mem_singleton] at hm
          exact hnd'.1 (hm ▸ hv)

theorem checkForDuplicates_eq_none (values : List String) :
    checkForDuplicates values = none ↔ values.Nodup := by
  have hloop := checkForDuplicatesLoop_length_eq values [] []
  simp only [List.length_nil, List.not_mem_nil, not_false_eq_true, implies_true, and_true]
    at hloop
  rw [← hloop, checkForDuplicates]
  constructor
  · intro hnone
    by_contra hne
    rw [if_pos (Nat.pos_of_ne_zero hne)] at hnone
    cases hnone
  · intro hzero
    rw [if_neg (by omega)]


/-! ## The assembled list -/

theorem assembleOperations_steps (h : OperationProvider) (bf : batchFiles) (txn : SidetreeTxn)
    (operations : List Operation) (hok : assembleOperations h bf txn = .ok operations) :
    ∃ creates recoverOps updateOps withDeltas deactivateOps,
      parseCreateOperations h bf.CoreIndex.Operations.Create = .ok creates ∧
      (creates.map (fun op => op.UniqueSuffix) ++
        bf.CoreIndex.Operations.Recover.map (fun op => op.DidSuffix) ++
        bf.CoreIndex.Operations.Deactivate.map (fun op => op.DidSuffix) ++
        bf.ProvisionalIndex.Operations.Update.map (fun op => op.DidSuffix)).Nodup ∧
      attachProofData (bf.CoreIndex.Operations.Recover.map (referencedOperation TypeRecover))
        (bf.CoreProof.map (fun cpf => cpf.Operations.Recover)) = .ok recoverOps ∧
      attachProofData (bf.ProvisionalIndex.Operations.Update.map (referencedOperation TypeUpdate))
        (bf.ProvisionalProof.map (fun ppf => ppf.Operations.Update)) = .ok updateOps ∧
      (creates ++ recoverOps ++ updateOps).length = bf.Chunk.Deltas.length ∧
      attachDeltas (creates ++ recoverOps ++ updateOps) bf.Chunk.Deltas = .ok withDeltas ∧
      attachProofData
        (bf.CoreIndex.Operations.Deactivate.map (referencedOperation TypeDeactivate))
        (bf.CoreProof.map (fun cpf => cpf.Operations.Deactivate)) = .ok deactivateOps ∧
      operations = withDeltas ++ deactivateOps := by
  rw [assembleOperations, parseCoreIndexOperations] at hok
  cases hc : parseCreateOperations h bf.CoreIndex.Operations.Create with
  | error e => rw [hc] at hok; cases hok
  | ok creates =>
    rw [hc] at hok
    simp only [parseProvisionalIndexOperations] at hok
    cases hd : checkForDuplicates
        (creates.map (fun op => op.UniqueSuffix) ++
          bf.CoreIndex.Operations.Recover.map (fun op => op.DidSuffix) ++
          bf.CoreIndex.Operations.Deactivate.map (fun op => op.DidSuffix) ++
          bf.ProvisionalIndex.Operations.Update.map (fun op => op.DidSuffix)) with
    | some e => rw [hd] at hok; cases hok
    | none =>
      rw [hd] at hok
      simp only at hok
      cases hr : attachProofData
          (bf.CoreIndex.Operations.Recover.map (referencedOperation TypeRecover))
          (bf.CoreProof.map (fun cpf => cpf.Operations.Recover)) with
      | error e => rw [hr] at hok; cases hok
      | panic p => rw [hr] at hok; cases hok
      | ok recoverOps =>
        rw [hr] at hok
        simp only at hok
        cases hu : attachProofData
            (bf.ProvisionalIndex.Operations.Update.map (referencedOperation TypeUpdate))
            (bf.ProvisionalProof.map (fun ppf => ppf.Operations.Update)) with
        | error e => rw [hu] at hok; cases hok
        | panic p => rw [hu] at hok; cases hok
        | ok updateOps =>
          rw [hu] at hok
          simp only at hok
          by_cases hlen : (creates ++ recoverOps ++ updateOps).length = bf.Chunk.Deltas.length
          · rw [if_neg (not_not.2 hlen)] at hok
            cases hw : attachDeltas (creates ++ recoverOps ++ updateOps) bf.Chunk.Deltas with
            | error e => rw [hw] at hok; cases hok
            | panic p => rw [hw] at hok; cases hok
            | ok withDeltas =>
              rw [hw] at hok
              simp only at hok
              cases hda : attachProofData
                  (bf.CoreIndex.Operations.Deactivate.map (referencedOperation TypeDeactivate))
                  (bf.CoreProof.map (fun cpf => cpf.Operations.Deactivate)) with
              | error e => rw [hda] at hok; cases hok
              | panic p => rw [hda] at hok; cases hok
              | ok deactivateOps =>
                rw [hda] at hok
                simp only [Outcome.ok.injEq] at hok
                exact ⟨creates, recoverOps, updateOps, withDeltas, deactivateOps, rfl,
                  (checkForDuplicates_eq_none _).1 hd, rfl, rfl, hlen, hw, rfl, hok.symm⟩
          · rw [if_pos hlen] at hok
            cases hok


theorem assembleOperations_entries (h : OperationProvider) (bf : batchFiles) (txn : SidetreeTxn)
    (operations : List Operation) (hok : assembleOperations h bf txn = .ok operations) :
    bf.Chunk.Deltas.length =
      bf.CoreIndex.Operations.Create.length + bf.CoreIndex.Operations.Recover.length +
        bf.ProvisionalIndex.Operations.Update.length ∧
    operations.length =
      bf.CoreIndex.Operations.Create.length + bf.CoreIndex.Operations.Recover.length +
        bf.ProvisionalIndex.Operations.Update.length +
        bf.CoreIndex.Operations.Deactivate.length ∧
    (∀ (i : Nat) (ref : CreateReference), bf.CoreIndex.Operations.Create[i]? = some ref →
      ∃ suffix d,
        h.CalculateModelMultihash ref.SuffixData h.MultihashAlgorithm = .ok suffix ∧
        bf.Chunk.Deltas[i]? = some d ∧
        operations[i]? = some (Operation.mk TypeCreate suffix ref.SuffixData d "" "")) ∧
    (∀ (i : Nat) (ref : OperationReference), bf.CoreIndex.Operations.Recover[i]? = some ref →
      ∃ sd d,
        bf.CoreProof.bind (fun cpf => cpf.Operations.Recover[i]?) = some sd ∧
        bf.Chunk.Deltas[bf.CoreIndex.Operations.Create.length + i]? = some d ∧
        operations[bf.CoreIndex.Operations.Create.length + i]? =
          some (Operation.mk TypeRecover ref.DidSuffix none d sd ref.RevealValue)) ∧
    (∀ (i : Nat) (ref : OperationReference),
      bf.ProvisionalIndex.Operations.Update[i]? = some ref →
      ∃ sd d,
        bf.ProvisionalProof.bind (fun ppf => ppf.Operations.Update[i]?) = some sd ∧
        bf.Chunk.Deltas[bf.CoreIndex.Operations.Create.length +
          bf.CoreIndex.Operations.Recover.length + i]? = some d ∧
        operations[bf.CoreIndex.Operations.Create.length +
          bf.CoreIndex.Operations.Recover.length + i]? =
          some (Operation.mk TypeUpdate ref.DidSuffix none d sd ref.RevealValue)) ∧
    (∀ (i : Nat) (ref : OperationReference),
      bf.CoreIndex.Operations.Deactivate[i]? = some ref →
      ∃ sd,
        bf.CoreProof.bind (fun cpf => cpf.Operations.Deactivate[i]?) = some sd ∧
        operations[bf.CoreIndex.Operations.Create.length +
          bf.CoreIndex.Operations.Recover.length +
          bf.ProvisionalIndex.Operations.Update.length + i]? =
          some (Operation.mk TypeDeactivate ref.DidSuffix none none sd ref.RevealValue)) := by
  obtain ⟨creates, recoverOps, updateOps, withDeltas, deactivateOps, hc, _, hr, hu, hlen, hw,
    hda, hops⟩ := assembleOperations_steps h bf txn operations hok
  obtain ⟨hcl, hci⟩ := parseCreateOperations_ok h _ _ hc
  obtain ⟨hrl, _, _, hri⟩ := attachProofData_ok _ _ _ hr
  obtain ⟨hul, _, _, hui⟩ := attachProofData_ok _ _ _ hu
  obtain ⟨hdl, _, _, hdi⟩ := attachProofData_ok _ _ _ hda
  obtain ⟨hwl, _, hwi⟩ := attachDeltas_ok _ _ _ hw
  rw [List.length_map] at hrl hul hdl
  have hpre : (creates ++ recoverOps ++ updateOps).length =
      bf.CoreIndex.Operations.Create.length + bf.CoreIndex.Operations.Recover.length +
        bf.ProvisionalIndex.Operations.Update.length := by
    simp only [List.length_append, hcl, hrl, hul]
  subst hops
  refine ⟨hlen ▸ hpre, ?_, ?_, ?_, ?_, ?_⟩
  · rw [List.length_append, hwl, hpre, hdl]
  · intro i ref hi
    obtain ⟨suffix, hs, hop⟩ := hci i ref hi
    have hp : (creates ++ recoverOps ++ updateOps)[i]? =
        some (Operation.mk TypeCreate suffix ref.SuffixData none "" "") :=
      getElem?_append_of_some (getElem?_append_of_some hop)
    obtain ⟨d, hd⟩ := getElem?_of_length_eq hlen hp
    exact ⟨suffix, d, hs, hd, getElem?_append_of_some (hwi i _ d hp hd)⟩
  · intro i ref hi
    have hm : (bf.CoreIndex.Operations.Recover.map (referencedOperation TypeRecover))[i]? =
        some (referencedOperation TypeRecover ref) := by
      rw [List.getElem?_map, hi]; rfl
    obtain ⟨sd, hsd, hop⟩ := hri i _ hm
    have hp : (creates ++ recoverOps ++ updateOps)[bf.CoreIndex.Operations.Create.length + i]? =
        some { referencedOperation TypeRecover ref with SignedData := sd } := by
      rw [← hcl]
      exact getElem?_append_of_some ((getElem?_append_length_add creates recoverOps i).trans hop)
    obtain ⟨d, hd⟩ := getElem?_of_length_eq hlen hp
    refine ⟨sd, d, ?_, hd, getElem?_append_of_some (hwi _ _ d hp hd)⟩
    cases hcp : bf.CoreProof <;> simp [hcp] at hsd ⊢
    exact hsd
  · intro i ref hi
    have hm : (bf.ProvisionalIndex.Operations.Update.map (referencedOperation TypeUpdate))[i]? =
        some (referencedOperation TypeUpdate ref) := by
      rw [List.getElem?_map, hi]; rfl
    obtain ⟨sd, hsd, hop⟩ := hui i _ hm
    have hp : (creates ++ recoverOps ++ updateOps)[bf.CoreIndex.Operations.Create.length +
        bf.CoreIndex.Operations.Recover.length + i]? =
        some { referencedOperation TypeUpdate ref with SignedData := sd } := by
      rw [← hcl, ← hrl, ← List.length_append]
      exact (getElem?_append_length_add (creates ++ recoverOps) updateOps i).trans hop
    obtain ⟨d, hd⟩ := getElem?_of_length_eq hlen hp
    refine ⟨sd, d, ?_, hd, getElem?_append_of_some (hwi _ _ d hp hd)⟩
    cases hpp : bf.ProvisionalProof <;> simp [hpp] at hsd ⊢
    exact hsd
  · intro i ref hi
    have hm : (bf.CoreIndex.Operations.Deactivate.map (referencedOperation TypeDeactivate))[i]? =
        some (referencedOperation TypeDeactivate ref) := by
      rw [List.getElem?_map, hi]; rfl
    obtain ⟨sd, hsd, hop⟩ := hdi i _ hm
    refine ⟨sd, ?_, ?_⟩
    · cases hcp : bf.CoreProof <;> simp [hcp] at hsd ⊢
      exact hsd
    · rw [← hpre, ← hwl]
      exact (getElem?_append_length_add withDeltas deactivateOps i).trans hop


theorem forall₂_getElem? {α β : Type} {R : α → β → Prop} {l₁ : List α} {l₂ : List β}
    (h : List.Forall₂ R l₁ l₂) :
    ∀ (i : Nat) (a : α), l₁[i]? = some a → ∃ b, l₂[i]? = some b ∧ R a b := by
  induction h with
  | nil => intro i a hi; simp at hi
  | cons hab _ ih =>
    intro i a hi
    cases i with
    | zero =>
      simp only [List.getElem?_cons_zero, Option.some.injEq] at hi
      subst hi
      exact ⟨_, by simp, hab⟩
    | succ i =>
      simp only [List.getElem?_cons_succ] at hi ⊢
      exact ih i a hi

theorem assembleAnchoredOperations_ok (h : OperationProvider) (bf : batchFiles)
    (txn : SidetreeTxn) (res : List AnchoredOperation)
    (hok : assembleAnchoredOperations h bf txn = .ok res) :
    ∃ operations, assembleOperations h bf txn = .ok operations ∧
      createAnchoredOperations h operations = .ok res := by
  rw [assembleAnchoredOperations] at hok
  cases ha : assembleOperations h bf txn with
  | error e => rw [ha] at hok; cases hok
  | panic p => rw [ha] at hok; cases hok
  | ok operations =>
    rw [ha] at hok
    simp only at hok
    cases hc : createAnchoredOperations h operations with
    | error e => rw [hc] at hok; cases hok
    | ok anchoredOps =>
      rw [hc] at hok
      simp only [Outcome.ok.injEq] at hok
      subst hok
      exact ⟨operations, rfl, hc⟩

/-! ## C16: the assembly order -/

/-- C16: whenever `assembleAnchoredOperations` succeeds, its result is made, index by
index, of the list of operations assembled in lines 184-234, and this list holds one
operation per index entry in the order create, recover, update, deactivate, each block
in file order with the matching type and suffix; the result has as many operations as
there are index entries, and the recover, update and deactivate operations carry as
signed data the entry of the same index of the core proof file, the provisional proof
file and the core proof file. -/
theorem C16_assembly_order (h : OperationProvider) (bf : batchFiles) (txn : SidetreeTxn)
    (res : List AnchoredOperation) (hok : assembleAnchoredOperations h bf txn = .ok res) :
    ∃ operations, assembleOperations h bf txn = .ok operations ∧
      assemblyOrder h bf operations res := by
  obtain ⟨operations, ha, hc⟩ := assembleAnchoredOperations_ok h bf txn res hok
  have hf := createAnchoredOperations_ok h operations res hc
  obtain ⟨_, hlen, hcreate, hrecover, hupdate, hdeactivate⟩ :=
    assembleOperations_entries h bf txn operations ha
  refine ⟨operations, ha, ?_, ?_, ?_, ?_, ?_⟩
  · rw [← hf.length_eq, hlen]
  · intro i ref hi
    obtain ⟨suffix, d, hs, _, hop⟩ := hcreate i ref hi
    obtain ⟨anchoredOp, hres, hget⟩ := forall₂_getElem? hf _ _ hop
    exact ⟨_, anchoredOp, hop, hres, hget, rfl, hs, rfl⟩
  · intro i ref hi
    obtain ⟨sd, d, hsd, _, hop⟩ := hrecover i ref hi
    obtain ⟨anchoredOp, hres, hget⟩ := forall₂_getElem? hf _ _ hop
    exact ⟨_, anchoredOp, hop, hres, hget, rfl, rfl, rfl, hsd⟩
  · intro i ref hi
    obtain ⟨sd, d, hsd, _, hop⟩ := hupdate i ref hi
    obtain ⟨anchoredOp, hres, hget⟩ := forall₂_getElem? hf _ _ hop
    exact ⟨_, anchoredOp, hop, hres, hget, rfl, rfl, rfl, hsd⟩
  · intro i ref hi
    obtain ⟨sd, hsd, hop⟩ := hdeactivate i ref hi
    obtain ⟨anchoredOp, hres, hget⟩ := forall₂_getElem? hf _ _ hop
    exact ⟨_, anchoredOp, hop, hres, hget, rfl, rfl, rfl, hsd⟩

/-- The batch with one create, one recover, one update and one deactivate entry is
assembled, and the four operations are in the order of C16. -/
theorem C16_assembly_order_witness :
    assembleAnchoredOperations exampleBatchProvider exampleBatch (exampleTxn "4.core") =
        .ok [exampleAnchored TypeCreate "hashs", exampleAnchored TypeRecover "r",
          exampleAnchored TypeUpdate "u", exampleAnchored TypeDeactivate "d"] ∧
      ∃ operations,
        assembleOperations exampleBatchProvider exampleBatch (exampleTxn "4.core") =
          .ok operations ∧
        assemblyOrder exampleBatchProvider exampleBatch operations
          [exampleAnchored TypeCreate "hashs", exampleAnchored TypeRecover "r",
            exampleAnchored TypeUpdate "u", exampleAnchored TypeDeactivate "d"] :=
  ⟨by decide, C16_assembly_order exampleBatchProvider exampleBatch (exampleTxn "4.core") _
    (by decide)⟩

/-! ## C17: the deltas -/

/-- C17: `assembleAnchoredOperations` does not succeed when the number of deltas of the
chunk file differs from the number of create, recover and update entries; when it
succeeds, the assembled operation at every index below that number carries the delta of
the same index, and every deactivate operation carries no delta. -/
theorem C17_deltas (h : OperationProvider) (bf : batchFiles) (txn : SidetreeTxn) :
    (bf.Chunk.Deltas.length ≠
        bf.CoreIndex.Operations.Create.length + bf.CoreIndex.Operations.Recover.length +
          bf.ProvisionalIndex.Operations.Update.length →
      ∀ res, assembleAnchoredOperations h bf txn ≠ .ok res) ∧
    (∀ res, assembleAnchoredOperations h bf txn = .ok res →
      ∃ operations, assembleOperations h bf txn = .ok operations ∧
        List.Forall₂ (fun op anchoredOp => h.GetAnchoredOperation op = .ok anchoredOp)
          operations res ∧
        deltasAttached bf operations) := by
  have hmain : ∀ res, assembleAnchoredOperations h bf txn = .ok res →
      ∃ operations, assembleOperations h bf txn = .ok operations ∧
        List.Forall₂ (fun op anchoredOp => h.GetAnchoredOperation op = .ok anchoredOp)
          operations res ∧
        deltasAttached bf operations := by
    intro res hok
    obtain ⟨operations, ha, hc⟩ := assembleAnchoredOperations_ok h bf txn res hok
    obtain ⟨hdl, hlen, _, _, _, hdeactivate⟩ :=
      assembleOperations_entries h bf txn operations ha
    obtain ⟨creates, recoverOps, updateOps, withDeltas, deactivateOps, _, _, _, _, hpre, hw,
      _, hops⟩ := assembleOperations_steps h bf txn operations ha
    obtain ⟨hwl, _, hwi⟩ := attachDeltas_ok _ _ _ hw
    refine ⟨operations, ha, createAnchoredOperations_ok h operations res hc, hdl, ?_, ?_⟩
    · intro i hi
      have hip : i < (creates ++ recoverOps ++ updateOps).length := by rw [hpre, hdl]; exact hi
      have hid : i < bf.Chunk.Deltas.length := by rw [hdl]; exact hi
      refine ⟨{ (creates ++ recoverOps ++ updateOps)[i] with Delta := bf.Chunk.Deltas[i] },
        bf.Chunk.Deltas[i], ?_, List.getElem?_eq_getElem hid, rfl⟩
      rw [hops]
      exact getElem?_append_of_some
        (hwi i _ _ (List.getElem?_eq_getElem hip) (List.getElem?_eq_getElem hid))
    · intro i hi
      obtain ⟨sd, _, hop⟩ := hdeactivate i _ (List.getElem?_eq_getElem hi)
      exact ⟨_, hop, rfl, rfl⟩
  refine ⟨fun hne res hok => ?_, hmain⟩
  obtain ⟨_, _, _, hd⟩ := hmain res hok
  exact hne hd.1

/-- A batch whose chunk file has no delta for its three operations is not assembled,
and in the batch with three deltas each of the first three operations carries its
delta. -/
theorem C17_deltas_witness :
    (∀ res, assembleAnchoredOperations exampleBatchProvider
        { exampleBatch with Chunk := ⟨[]⟩ } (exampleTxn "4.core") ≠ .ok res) ∧
      ∃ operations,
        assembleOperations exampleBatchProvider exampleBatch (exampleTxn "4.core") =
          .ok operations ∧
        List.Forall₂
          (fun op anchoredOp => exampleBatchProvider.GetAnchoredOperation op = .ok anchoredOp)
          operations
          [exampleAnchored TypeCreate "hashs", exampleAnchored TypeRecover "r",
            exampleAnchored TypeUpdate "u", exampleAnchored TypeDeactivate "d"] ∧
        deltasAttached exampleBatch operations :=
  ⟨(C17_deltas exampleBatchProvider { exampleBatch with Chunk := ⟨[]⟩ }
      (exampleTxn "4.core")).1 (by decide),
    (C17_deltas exampleBatchProvider exampleBatch (exampleTxn "4.core")).2 _ (by decide)⟩


/-! ## The checks of the path with a provisional index file -/

theorem assembleOperations_suffixes_nodup (h : OperationProvider) (bf : batchFiles)
    (txn : SidetreeTxn) (operations : List Operation)
    (hok : assembleOperations h bf txn = .ok operations) :
    (operations.map (fun op => op.UniqueSuffix)).Nodup := by
  obtain ⟨creates, recoverOps, updateOps, withDeltas, deactivateOps, _, hnd, hr, hu, _, hw,
    hda, hops⟩ := assembleOperations_steps h bf txn operations hok
  obtain ⟨_, _, hrs, _⟩ := attachProofData_ok _ _ _ hr
  obtain ⟨_, _, hus, _⟩ := attachProofData_ok _ _ _ hu
  obtain ⟨_, _, hds, _⟩ := attachProofData_ok _ _ _ hda
  obtain ⟨_, hws, _⟩ := attachDeltas_ok _ _ _ hw
  have hmap : ∀ (type : String) (refs : List OperationReference),
      (refs.map (referencedOperation type)).map (fun op => op.UniqueSuffix) =
        refs.map (fun op => op.DidSuffix) := by
    intro type refs
    rw [List.map_map]
    rfl
  rw [hops, List.map_append, hws, List.map_append, List.map_append, hrs, hus, hds, hmap, hmap,
    hmap]
  refine (List.Perm.nodup_iff ?_).1 hnd
  rw [List.append_assoc, List.append_assoc
    (creates.map (fun op => op.UniqueSuffix) ++
      bf.CoreIndex.Operations.Recover.map (fun op => op.DidSuffix))]
  exact List.Perm.append_left _ List.perm_append_comm

theorem assembleOperations_proof_lengths (h : OperationProvider) (bf : batchFiles)
    (txn : SidetreeTxn) (operations : List Operation)
    (hok : assembleOperations h bf txn = .ok operations) :
    bf.CoreIndex.Operations.Recover.length ≤
        ((bf.CoreProof.map (fun cpf => cpf.Operations.Recover)).getD []).length ∧
      bf.ProvisionalIndex.Operations.Update.length ≤
        ((bf.ProvisionalProof.map (fun ppf => ppf.Operations.Update)).getD []).length ∧
      bf.CoreIndex.Operations.Deactivate.length ≤
        ((bf.CoreProof.map (fun cpf => cpf.Operations.Deactivate)).getD []).length := by
  obtain ⟨creates, recoverOps, updateOps, withDeltas, deactivateOps, _, _, hr, hu, _, _,
    hda, _⟩ := assembleOperations_steps h bf txn operations hok
  obtain ⟨_, hrl, _, _⟩ := attachProofData_ok _ _ _ hr
  obtain ⟨_, hul, _, _⟩ := attachProofData_ok _ _ _ hu
  obtain ⟨_, hdl, _, _⟩ := attachProofData_ok _ _ _ hda
  rw [List.length_map] at hrl hul hdl
  exact ⟨hrl, hul, hdl⟩

theorem GetTxnOperations_ok (h : OperationProvider) (txn : SidetreeTxn)
    (res : List AnchoredOperation) (hok : (GetTxnOperations h txn).1 = .ok res) :
    ∃ anchorData cif,
      h.ParseAnchorData txn.AnchorString = .ok anchorData ∧
      (getCoreIndexFile h anchorData.AnchorAddress).1 = .ok cif ∧
      ((cif.ProvisionalIndexFileURI = "" ∧ (processDeactivateOnly h cif txn).1 = .ok res) ∨
        (cif.ProvisionalIndexFileURI ≠ "" ∧
          ∃ bf, (getBatchFiles h cif).1 = .ok bf ∧
            assembleAnchoredOperations h bf txn = .ok res ∧
            (res.length : Int) = anchorData.NumberOfOperations)) := by
  rw [GetTxnOperations] at hok
  cases hp : h.ParseAnchorData txn.AnchorString with
  | error e => rw [hp] at hok; cases hok
  | ok anchorData =>
    rw [hp] at hok
    simp only at hok
    rcases hc : getCoreIndexFile h anchorData.AnchorAddress with ⟨rc, events⟩
    rw [hc] at hok
    cases rc with
    | error e => cases hok
    | ok cif =>
      simp only at hok
      refine ⟨anchorData, cif, rfl, by rw [hc], ?_⟩
      by_cases huri : cif.ProvisionalIndexFileURI = ""
      · rw [if_pos huri] at hok
        exact Or.inl ⟨huri, hok⟩
      · rw [if_neg huri] at hok
        rcases hb : getBatchFiles h cif with ⟨rb, events₂⟩
        rw [hb] at hok
        cases rb with
        | error e => cases hok
        | ok bf =>
          simp only at hok
          cases ha : assembleAnchoredOperations h bf txn with
          | error e => rw [ha] at hok; cases hok
          | panic p => rw [ha] at hok; cases hok
          | ok txnOps =>
            rw [ha] at hok
            simp only at hok
            by_cases hn : (txnOps.length : Int) = anchorData.NumberOfOperations
            · rw [if_neg (not_not.2 hn)] at hok
              simp only [Outcome.ok.injEq] at hok
              subst hok
              exact Or.inr ⟨huri, bf, rfl, ha, hn⟩
            · rw [if_pos hn] at hok
              cases hok

/-! ## C18: duplicate suffixes in a batch without provisional index file -/

/-- C18: a batch without provisional index file whose two deactivate entries name the
same suffix `d` is accepted by `GetTxnOperations`, which returns two operations with
the suffix `d`; `checkForDuplicates`, which the path with a provisional index file
runs, reports the duplicate for the suffixes of this batch. -/
theorem C18_deactivate_only_duplicates_accepted :
    (GetTxnOperations
        (deactivateOnlyProvider [⟨"d", "r1"⟩, ⟨"d", "r2"⟩] ["jws-1", "jws-2"])
        (exampleTxn "2.core")).1 =
      .ok [exampleAnchored TypeDeactivate "d", exampleAnchored TypeDeactivate "d"] ∧
    checkForDuplicates ["d", "d"] = some "duplicate values found [d]" := by
  constructor <;> decide

/-! ## C19: the number of operations of a batch without provisional index file -/

/-- C19: a batch without provisional index file that holds one deactivate entry is
accepted by `GetTxnOperations` under the anchor string `5.core`, which announces five
operations: one operation is returned.  A batch with a provisional index file and four
operations is rejected under the same anchor string. -/
theorem C19_deactivate_only_count_unchecked :
    (deactivateOnlyProvider [⟨"d", "r1"⟩] ["jws-1"]).ParseAnchorData
        (exampleTxn "5.core").AnchorString = .ok ⟨5, "core"⟩ ∧
    (GetTxnOperations (deactivateOnlyProvider [⟨"d", "r1"⟩] ["jws-1"])
        (exampleTxn "5.core")).1 = .ok [exampleAnchored TypeDeactivate "d"] ∧
    (GetTxnOperations exampleBatchProvider (exampleTxn "5.core")).1 =
      .error "number of txn ops[4] doesn't match anchor string num of ops[5]" := by
  refine ⟨by decide, by decide, by decide⟩

/-! ## C20: the number of entries of a proof file -/

/-- C20: a batch with one recover entry whose core proof file holds two signed data for
recover operations is accepted by `GetTxnOperations`; with a core proof file that holds
none, the read of the first signed data is out of range. -/
theorem C20_proof_counts_unchecked :
    (GetTxnOperations (recoverOnlyProvider ["jws-1", "jws-2"]) (exampleTxn "1.core")).1 =
      .ok [exampleAnchored TypeRecover "r"] ∧
    (GetTxnOperations (recoverOnlyProvider []) (exampleTxn "1.core")).1 =
      .panic Panic.indexOutOfRange := by
  constructor <;> decide

/-! ## The reads from CAS -/

theorem casReads_append (events₁ events₂ : List Event) :
    casReads (events₁ ++ events₂) = casReads events₁ ++ casReads events₂ := by
  induction events₁ with
  | nil => rfl
  | cons e events ih =>
    cases e with
    | casRead uri => simp [casReads, ih]
    | decompress alg data => simp [casReads, ih]

theorem readFromCAS_casReads (h : OperationProvider) (uri alg : String) (maxSize : Nat) :
    casReads (readFromCAS h uri alg maxSize).2 = [uri] := by
  unfold readFromCAS
  cases h.casRead uri with
  | error e => rfl
  | ok bytes =>
    simp only
    split
    · rfl
    · cases h.Decompress alg bytes <;> rfl

theorem getCoreIndexFile_casReads (h : OperationProvider) (uri : String) :
    casReads (getCoreIndexFile h uri).2 = [uri] := by
  have hr := readFromCAS_casReads h uri h.CompressionAlgorithm h.MaxCoreIndexFileSize
  unfold getCoreIndexFile
  generalize readFromCAS h uri h.CompressionAlgorithm h.MaxCoreIndexFileSize = x at hr ⊢
  rcases x with ⟨r, events⟩
  cases r with
  | error e => exact hr
  | ok content =>
    simp only
    cases h.ParseCoreIndexFile content with
    | error e => exact hr
    | ok cif =>
      simp only
      cases validateCoreIndexFile h cif <;> exact hr

theorem getCoreProofFile_casReads (h : OperationProvider) (uri : String) :
    casReads (getCoreProofFile h uri).2 = [uri] := by
  have hr := readFromCAS_casReads h uri h.CompressionAlgorithm h.MaxProofFileSize
  unfold getCoreProofFile
  generalize readFromCAS h uri h.CompressionAlgorithm h.MaxProofFileSize = x at hr ⊢
  rcases x with ⟨r, events⟩
  cases r with
  | error e => exact hr
  | ok content =>
    simp only
    cases h.ParseCoreProofFile content with
    | error e => exact hr
    | ok cpf =>
      simp only
      cases validateCoreProofFile h cpf <;> exact hr

theorem getProvisionalProofFile_casReads (h : OperationProvider) (uri : String) :
    casReads (getProvisionalProofFile h uri).2 = [uri] := by
  have hr := readFromCAS_casReads h uri h.CompressionAlgorithm h.MaxProofFileSize
  unfold getProvisionalProofFile
  generalize readFromCAS h uri h.CompressionAlgorithm h.MaxProofFileSize = x at hr ⊢
  rcases x with ⟨r, events⟩
  cases r with
  | error e => exact hr
  | ok content =>
    simp only
    cases h.ParseProvisionalProofFile content with
    | error e => exact hr
    | ok ppf =>
      simp only
      cases validateProvisionalProofFile h ppf <;> exact hr

theorem getProvisionalIndexFile_casReads (h : OperationProvider) (uri : String) :
    casReads (getProvisionalIndexFile h uri).2 = [uri] := by
  have hr := readFromCAS_casReads h uri h.CompressionAlgorithm h.MaxProvisionalIndexFileSize
  unfold getProvisionalIndexFile
  generalize readFromCAS h uri h.CompressionAlgorithm h.MaxProvisionalIndexFileSize = x at hr ⊢
  rcases x with ⟨r, events⟩
  cases r with
  | error e => exact hr
  | ok content =>
    simp only
    cases h.ParseProvisionalIndexFile content <;> exact hr

theorem getChunkFile_casReads (h : OperationProvider) (uri : String) :
    casReads (getChunkFile h uri).2 = [uri] := by
  have hr := readFromCAS_casReads h uri h.CompressionAlgorithm h.MaxChunkFileSize
  unfold getChunkFile
  generalize readFromCAS h uri h.CompressionAlgorithm h.MaxChunkFileSize = x at hr ⊢
  rcases x with ⟨r, events⟩
  cases r with
  | error e => exact hr
  | ok content =>
    simp only
    cases h.ParseChunkFile content with
    | error e => exact hr
    | ok cf =>
      simp only
      cases validateChunkFile h cf <;> exact hr

theorem processDeactivateOnly_casReads (h : OperationProvider) (cif : CoreIndexFile)
    (txn : SidetreeTxn) :
    casReads (processDeactivateOnly h cif txn).2 =
      match parseCoreIndexOperations h cif txn with
      | .error _ => []
      | .ok _ => [cif.CoreProofFileURI] := by
  have hr := getCoreProofFile_casReads h cif.CoreProofFileURI
  unfold processDeactivateOnly
  cases parseCoreIndexOperations h cif txn with
  | error e => rfl
  | ok cifOps =>
    simp only
    generalize getCoreProofFile h cif.CoreProofFileURI = x at hr ⊢
    rcases x with ⟨r, events⟩
    cases r with
    | error e => exact hr
    | ok cpf =>
      simp only
      cases attachSignedData cifOps.Deactivate cpf.Operations.Deactivate with
      | error e => exact hr
      | panic p => exact hr
      | ok deactivateOps =>
        simp only
        cases createAnchoredOperations h deactivateOps <;> exact hr

theorem GetTxnOperations_events (h : OperationProvider) (txn : SidetreeTxn)
    (anchorData : AnchorData) (cif : CoreIndexFile) (events : List Event)
    (hparse : h.ParseAnchorData txn.AnchorString = .ok anchorData)
    (hcif : getCoreIndexFile h anchorData.AnchorAddress = (.ok cif, events)) :
    GetTxnOperations h txn =
      if cif.ProvisionalIndexFileURI = "" then
        ((processDeactivateOnly h cif txn).1, events ++ (processDeactivateOnly h cif txn).2)
      else
        match getBatchFiles h cif with
        | (.error err, events₂) => (.error err, events ++ events₂)
        | (.ok batchFiles, events₂) =>
          match assembleAnchoredOperations h batchFiles txn with
          | .error err => (.error err, events ++ events₂)
          | .panic p => (.panic p, events ++ events₂)
          | .ok txnOps =>
            if (txnOps.length : Int) ≠ anchorData.NumberOfOperations then
              (.error ("number of txn ops[" ++ toString txnOps.length ++
                "] doesn't match anchor string num of ops[" ++
                toString anchorData.NumberOfOperations ++ "]"), events ++ events₂)
            else (.ok txnOps, events ++ events₂) := by
  rw [GetTxnOperations, hparse]
  simp only [hcif]

theorem getBatchFiles_casReads_of_empty (h : OperationProvider) (cif : CoreIndexFile)
    (hempty : cif.CoreProofFileURI = "") :
    ∃ rest, casReads (getBatchFiles h cif).2 = cif.ProvisionalIndexFileURI :: rest ∧
      ∀ u ∈ rest, ∃ pif,
        (getProvisionalIndexFile h cif.ProvisionalIndexFileURI).1 = .ok pif ∧
        (u = pif.ProvisionalProofFileURI ∨ u ∈ pif.Chunks.map (fun c => c.ChunkFileURI)) := by
  have hp := getProvisionalIndexFile_casReads h cif.ProvisionalIndexFileURI
  unfold getBatchFiles
  rw [if_neg (not_not.2 hempty)]
  simp only
  rcases hx : getProvisionalIndexFile h cif.ProvisionalIndexFileURI with ⟨r, ev⟩
  rw [hx] at hp
  cases r with
  | error e => exact ⟨[], by simpa [casReads_append] using hp, by simp⟩
  | ok pif =>
    simp only
    by_cases hpp : pif.ProvisionalProofFileURI = ""
    · rw [if_neg (not_not.2 hpp)]
      simp only
      cases hch : pif.Chunks with
      | nil => exact ⟨[], by simpa [casReads_append] using hp, by simp⟩
      | cons chunk chunks =>
        simp only
        have hc := getChunkFile_casReads h chunk.ChunkFileURI
        rcases hy : getChunkFile h chunk.ChunkFileURI with ⟨r2, ev2⟩
        rw [hy] at hc
        refine ⟨[chunk.ChunkFileURI], ?_, ?_⟩
        · cases r2 <;> simp [casReads_append, casReads, hp, hc]
        · intro u hu
          rw [List.mem_singleton] at hu
          exact ⟨pif, rfl, Or.inr (by simp [hch, hu])⟩
    · rw [if_pos hpp]
      have hq := getProvisionalProofFile_casReads h pif.ProvisionalProofFileURI
      rcases hz : getProvisionalProofFile h pif.ProvisionalProofFileURI with ⟨r3, ev3⟩
      rw [hz] at hq
      cases r3 with
      | error e =>
        refine ⟨[pif.ProvisionalProofFileURI], by simp [casReads_append, casReads, hp, hq], ?_⟩
        intro u hu
        rw [List.mem_singleton] at hu
        exact ⟨pif, rfl, Or.inl hu⟩
      | ok ppf =>
        simp only
        cases hch : pif.Chunks with
        | nil =>
          refine ⟨[pif.ProvisionalProofFileURI],
            by simp [casReads_append, casReads, hp, hq], ?_⟩
          intro u hu
          rw [List.mem_singleton] at hu
          exact ⟨pif, rfl, Or.inl hu⟩
        | cons chunk chunks =>
          simp only
          have hc := getChunkFile_casReads h chunk.ChunkFileURI
          rcases hy : getChunkFile h chunk.ChunkFileURI with ⟨r2, ev2⟩
          rw [hy] at hc
          refine ⟨[pif.ProvisionalProofFileURI, chunk.ChunkFileURI], ?_, ?_⟩
          · cases r2 <;> simp [casReads_append, casReads, hp, hq, hc]
          · intro u hu
            simp only [List.mem_cons, List.mem_singleton, List.not_mem_nil, or_false] at hu
            rcases hu with hu | hu
            · exact ⟨pif, rfl, Or.inl hu⟩
            · exact ⟨pif, rfl, Or.inr (by simp [hch, hu])⟩

theorem getBatchFiles_casReads_of_ne (h : OperationProvider) (cif : CoreIndexFile)
    (hne : cif.CoreProofFileURI ≠ "") :
    ∃ rest, casReads (getBatchFiles h cif).2 = cif.CoreProofFileURI :: rest := by
  have hp := getCoreProofFile_casReads h cif.CoreProofFileURI
  unfold getBatchFiles
  rw [if_pos hne]
  rcases hx : getCoreProofFile h cif.CoreProofFileURI with ⟨r, ev⟩
  rw [hx] at hp
  cases r with
  | error e => exact ⟨[], hp⟩
  | ok cpf =>
    simp only
    rcases getProvisionalIndexFile h cif.ProvisionalIndexFileURI with ⟨r1, ev1⟩
    cases r1 with
    | error e => exact ⟨casReads ev1, by simp [casReads_append, hp]⟩
    | ok pif =>
      simp only
      generalize (if pif.ProvisionalProofFileURI ≠ "" then
          match getProvisionalProofFile h pif.ProvisionalProofFileURI with
          | (.error err, events₃) => ((Except.error err : Except String (Option ProvisionalProofFile)), events₃)
          | (.ok ppf, events₃) => (Except.ok (some ppf), events₃)
        else (Except.ok none, [])) = x
      rcases x with ⟨r2, ev2⟩
      cases r2 with
      | error e => exact ⟨_, by simp only [casReads_append, hp]; rfl⟩
      | ok provisionalProof =>
        simp only
        cases pif.Chunks with
        | nil => exact ⟨_, by simp only [casReads_append, hp]; rfl⟩
        | cons chunk chunks =>
          simp only
          rcases getChunkFile h chunk.ChunkFileURI with ⟨r3, ev3⟩
          cases r3 <;> exact ⟨_, by simp only [casReads_append, hp]; rfl⟩

/-! ## The path without provisional index file -/

theorem attachSignedData_type :
    ∀ (ops : List Operation) (signed : List String) (res : List Operation),
      attachSignedData ops signed = .ok res →
      ∀ r ∈ res, ∃ op ∈ ops, r.Type_ = op.Type_ := by
  intro ops
  induction ops with
  | nil =>
    intro signed res hok
    simp only [attachSignedData, Outcome.ok.injEq] at hok
    subst hok
    simp
  | cons op ops ih =>
    intro signed res hok
    cases signed with
    | nil => simp [attachSignedData] at hok
    | cons sd signed =>
      rw [attachSignedData] at hok
      cases hr : attachSignedData ops signed with
      | error e => rw [hr] at hok; cases hok
      | panic p => rw [hr] at hok; cases hok
      | ok rest =>
        rw [hr] at hok
        simp only [Outcome.ok.injEq] at hok
        subst hok
        intro r hmem
        rcases List.mem_cons.1 hmem with heq | hmem
        · exact ⟨op, List.mem_cons_self _ _, by rw [heq]⟩
        · obtain ⟨o, ho, ht⟩ := ih signed rest hr r hmem
          exact ⟨o, List.mem_cons_of_mem _ ho, ht⟩

theorem processDeactivateOnly_ok (h : OperationProvider) (cif : CoreIndexFile)
    (txn : SidetreeTxn) (res : List AnchoredOperation)
    (hok : (processDeactivateOnly h cif txn).1 = .ok res) :
    ∃ creates cpf deactivateOps,
      parseCreateOperations h cif.Operations.Create = .ok creates ∧
      (getCoreProofFile h cif.CoreProofFileURI).1 = .ok cpf ∧
      attachSignedData (cif.Operations.Deactivate.map (referencedOperation TypeDeactivate))
        cpf.Operations.Deactivate = .ok deactivateOps ∧
      createAnchoredOperations h deactivateOps = .ok res := by
  rw [processDeactivateOnly, parseCoreIndexOperations] at hok
  cases hc : parseCreateOperations h cif.Operations.Create with
  | error e => rw [hc] at hok; cases hok
  | ok creates =>
    rw [hc] at hok
    simp only at hok
    rcases hp : getCoreProofFile h cif.CoreProofFileURI with ⟨r, events⟩
    rw [hp] at hok
    cases r with
    | error e => cases hok
    | ok cpf =>
      simp only at hok
      cases ha : attachSignedData
          (cif.Operations.Deactivate.map (referencedOperation TypeDeactivate))
          cpf.Operations.Deactivate with
      | error e => rw [ha] at hok; cases hok
      | panic p => rw [ha] at hok; cases hok
      | ok deactivateOps =>
        rw [ha] at hok
        simp only at hok
        cases hcr : createAnchoredOperations h deactivateOps with
        | error e => rw [hcr] at hok; cases hok
        | ok anchoredOps =>
          rw [hcr] at hok
          simp only [Outcome.ok.injEq] at hok
          subst hok
          exact ⟨creates, cpf, deactivateOps, rfl, rfl, ha, hcr⟩

/-! ## C21: batches without provisional index file -/

/-- C21: for a transaction whose core index file has an empty `ProvisionalIndexFileURI`,
`GetTxnOperations` reads from CAS the core index file and then at most the core proof
file, nothing else; and when it succeeds the result is made of exactly one deactivate
operation per deactivate entry of the core index file, in order, the operation of entry
`i` carrying `CoreProof.Deactivate[i]` as signed data, and of no other operation. -/
theorem C21_deactivate_only (h : OperationProvider) (txn : SidetreeTxn)
    (anchorData : AnchorData) (cif : CoreIndexFile) (events : List Event)
    (hparse : h.ParseAnchorData txn.AnchorString = .ok anchorData)
    (hcif : getCoreIndexFile h anchorData.AnchorAddress = (.ok cif, events))
    (huri : cif.ProvisionalIndexFileURI = "") :
    (casReads (GetTxnOperations h txn).2 = [anchorData.AnchorAddress] ∨
      casReads (GetTxnOperations h txn).2 =
        [anchorData.AnchorAddress, cif.CoreProofFileURI]) ∧
    ∀ res, (GetTxnOperations h txn).1 = .ok res →
      ∃ cpf operations,
        (getCoreProofFile h cif.CoreProofFileURI).1 = .ok cpf ∧
        deactivateOnlyResult h cif cpf operations res := by
  have hev : casReads events = [anchorData.AnchorAddress] := by
    have := getCoreIndexFile_casReads h anchorData.AnchorAddress
    rw [hcif] at this
    exact this
  rw [GetTxnOperations_events h txn anchorData cif events hparse hcif, if_pos huri]
  constructor
  · simp only [casReads_append, hev, processDeactivateOnly_casReads]
    cases parseCoreIndexOperations h cif txn with
    | error e => exact Or.inl rfl
    | ok cifOps => exact Or.inr rfl
  · intro res hok
    obtain ⟨creates, cpf, deactivateOps, _, hp, ha, hc⟩ :=
      processDeactivateOnly_ok h cif txn res hok
    obtain ⟨hlen, _, _, hidx⟩ := attachSignedData_ok _ _ _ ha
    have hf := createAnchoredOperations_ok h deactivateOps res hc
    refine ⟨cpf, deactivateOps, hp, hf, ?_, ?_, ?_⟩
    · rw [← hf.length_eq, hlen, List.length_map]
    · intro op hop
      obtain ⟨o, ho, ht⟩ := attachSignedData_type _ _ _ ha op hop
      obtain ⟨ref, _, hr⟩ := List.mem_map.1 ho
      rw [ht, ← hr]
      rfl
    · intro i ref hi
      have hm : (cif.Operations.Deactivate.map (referencedOperation TypeDeactivate))[i]? =
          some (referencedOperation TypeDeactivate ref) := by
        rw [List.getElem?_map, hi]; rfl
      obtain ⟨sd, hsd, hop⟩ := hidx i _ hm
      exact ⟨sd, hsd, hop⟩

/-- A batch without provisional index file and with one deactivate entry: the core
index file and the core proof file are read, and one deactivate operation is returned. -/
theorem C21_deactivate_only_witness :
    (casReads (GetTxnOperations (deactivateOnlyProvider [⟨"d", "r1"⟩] ["jws-1"])
          (exampleTxn "1.core")).2 = ["core"] ∨
      casReads (GetTxnOperations (deactivateOnlyProvider [⟨"d", "r1"⟩] ["jws-1"])
          (exampleTxn "1.core")).2 = ["core", "proof"]) ∧
    ∃ cpf operations,
      (getCoreProofFile (deactivateOnlyProvider [⟨"d", "r1"⟩] ["jws-1"]) "proof").1 =
        .ok cpf ∧
      deactivateOnlyResult (deactivateOnlyProvider [⟨"d", "r1"⟩] ["jws-1"])
        (deactivateOnlyIndex [⟨"d", "r1"⟩]) cpf operations
        [exampleAnchored TypeDeactivate "d"] :=
  ⟨(C21_deactivate_only (deactivateOnlyProvider [⟨"d", "r1"⟩] ["jws-1"])
      (exampleTxn "1.core") ⟨1, "core"⟩ (deactivateOnlyIndex [⟨"d", "r1"⟩])
      [Event.casRead "core", Event.decompress "GZIP" [1]] rfl rfl rfl).1,
    (C21_deactivate_only (deactivateOnlyProvider [⟨"d", "r1"⟩] ["jws-1"])
      (exampleTxn "1.core") ⟨1, "core"⟩ (deactivateOnlyIndex [⟨"d", "r1"⟩])
      [Event.casRead "core", Event.decompress "GZIP" [1]] rfl rfl rfl).2 _ (by decide)⟩

/-! ## C22: the size cap of `readFromCAS` -/

theorem uintToInt_of_lt (n : Nat) (hn : n < 2 ^ 63) : uintToInt n = (n : Int) := by
  have hmod : n % 2 ^ 64 = n := Nat.mod_eq_of_lt (by omega)
  unfold uintToInt
  rw [hmod, if_pos hn]

theorem readFromCAS_of_cap_lt (h : OperationProvider) (uri alg : String) (maxSize : Nat)
    (hcap : maxSize < 2 ^ 63) :
    (∀ e, h.casRead uri = .error e →
      ∃ err, readFromCAS h uri alg maxSize = (.error err, [Event.casRead uri])) ∧
    (∀ bytes, h.casRead uri = .ok bytes →
      (maxSize < bytes.length →
        readFromCAS h uri alg maxSize =
          (.error ("uri[" ++ uri ++ "]: content size " ++ toString bytes.length ++
            " exceeded maximum size " ++ toString maxSize), [Event.casRead uri])) ∧
      (bytes.length ≤ maxSize →
        (readFromCAS h uri alg maxSize).2 = [Event.casRead uri, Event.decompress alg bytes] ∧
        (∀ e, h.Decompress alg bytes = .error e →
          ∃ err, (readFromCAS h uri alg maxSize).1 = .error err) ∧
        (∀ content, h.Decompress alg bytes = .ok content →
          (readFromCAS h uri alg maxSize).1 = .ok content))) := by
  refine ⟨?_, ?_⟩
  · intro e he
    exact ⟨"retrieve CAS content at uri[" ++ uri ++ "]: " ++ e, by rw [readFromCAS, he]⟩
  · intro bytes hb
    refine ⟨?_, ?_⟩
    · intro hlt
      rw [readFromCAS, hb]
      simp only
      rw [uintToInt_of_lt maxSize hcap, if_pos (by exact_mod_cast hlt)]
    · intro hle
      have hnot : ¬ ((bytes.length : Int) > uintToInt maxSize) := by
        rw [uintToInt_of_lt maxSize hcap]
        exact_mod_cast Nat.not_lt.2 hle
      refine ⟨?_, ?_, ?_⟩
      · rw [readFromCAS, hb]
        simp only
        rw [if_neg hnot]
        cases h.Decompress alg bytes <;> rfl
      · intro e he
        refine ⟨"decompress CAS uri[" ++ uri ++ "] using '" ++ alg ++ "': " ++ e, ?_⟩
        rw [readFromCAS, hb]
        simp only
        rw [if_neg hnot, he]
      · intro content hc
        rw [readFromCAS, hb]
        simp only
        rw [if_neg hnot, hc]

/-- C22: with the size cap `2 ^ 63`, a value of the unsigned type, `readFromCAS` rejects
a content of one byte as exceeding the maximum size and does not decompress it; with
the cap `1` the same content is decompressed and returned. -/
theorem C22_cap_conversion_wraps :
    exampleBatchProvider.casRead "core" = .ok [1] ∧
    readFromCAS exampleBatchProvider "core" "GZIP" (2 ^ 63) =
      (.error "uri[core]: content size 1 exceeded maximum size 9223372036854775808",
        [Event.casRead "core"]) ∧
    readFromCAS exampleBatchProvider "core" "GZIP" 1 =
      (.ok [1], [Event.casRead "core", Event.decompress "GZIP" [1]]) := by
  refine ⟨rfl, by decide, by decide⟩

/-! ## C23: the read of the core proof file -/

/-- C23 (counterexample): the core index file of `emptyBatchProvider` has an empty
`CoreProofFileURI` and an empty `ProvisionalIndexFileURI`; `GetTxnOperations` reads the
core index file and then reads from CAS at the empty URI for the core proof file. -/
theorem C23_counterexample :
    (getCoreIndexFile emptyBatchProvider "core").1 = .ok ⟨"", "", ⟨[], [], []⟩⟩ ∧
    GetTxnOperations emptyBatchProvider (exampleTxn "1.core") =
      (.error "error reading core proof file: retrieve CAS content at uri[]: not found",
        [Event.casRead "core", Event.decompress "GZIP" [1], Event.casRead ""]) := by
  constructor <;> decide

/-- C23 (amended): in a run of `GetTxnOperations` with a provisional index file
(`ProvisionalIndexFileURI` non-empty), when `CoreProofFileURI` is empty the reads from
CAS are those of the core index file, of the provisional index file and then only of
URIs named by the provisional index file (provisional proof file, chunk file), and when
it is non-empty the core proof file is read right after the core index file; in a run
without provisional index file the core proof file is read at `CoreProofFileURI`, be it
empty or not, as soon as the operations of the core index file are parsed. -/
theorem C23_core_proof_read (h : OperationProvider) (txn : SidetreeTxn)
    (anchorData : AnchorData) (cif : CoreIndexFile) (events : List Event)
    (hparse : h.ParseAnchorData txn.AnchorString = .ok anchorData)
    (hcif : getCoreIndexFile h anchorData.AnchorAddress = (.ok cif, events)) :
    (cif.ProvisionalIndexFileURI ≠ "" → cif.CoreProofFileURI = "" →
      ∃ rest, casReads (GetTxnOperations h txn).2 =
          anchorData.AnchorAddress :: cif.ProvisionalIndexFileURI :: rest ∧
        ∀ u ∈ rest, ∃ pif,
          (getProvisionalIndexFile h cif.ProvisionalIndexFileURI).1 = .ok pif ∧
          (u = pif.ProvisionalProofFileURI ∨ u ∈ pif.Chunks.map (fun c => c.ChunkFileURI))) ∧
    (cif.ProvisionalIndexFileURI ≠ "" → cif.CoreProofFileURI ≠ "" →
      ∃ rest, casReads (GetTxnOperations h txn).2 =
        anchorData.AnchorAddress :: cif.CoreProofFileURI :: rest) ∧
    (cif.ProvisionalIndexFileURI = "" →
      ∀ cifOps, parseCoreIndexOperations h cif txn = .ok cifOps →
        casReads (GetTxnOperations h txn).2 =
          [anchorData.AnchorAddress, cif.CoreProofFileURI]) := by
  have hev : casReads events = [anchorData.AnchorAddress] := by
    have := getCoreIndexFile_casReads h anchorData.AnchorAddress
    rw [hcif] at this
    exact this
  have hmain : cif.ProvisionalIndexFileURI ≠ "" →
      casReads (GetTxnOperations h txn).2 =
        anchorData.AnchorAddress :: casReads (getBatchFiles h cif).2 := by
    intro huri
    rw [GetTxnOperations_events h txn anchorData cif events hparse hcif, if_neg huri]
    rcases getBatchFiles h cif with ⟨r, events₂⟩
    cases r with
    | error e => simp [casReads_append, hev]
    | ok bf =>
      simp only
      cases assembleAnchoredOperations h bf txn with
      | error e => simp [casReads_append, hev]
      | panic p => simp [casReads_append, hev]
      | ok txnOps =>
        simp only
        split <;> simp [casReads_append, hev]
  refine ⟨?_, ?_, ?_⟩
  · intro huri hempty
    obtain ⟨rest, hr, hrest⟩ := getBatchFiles_casReads_of_empty h cif hempty
    exact ⟨rest, by rw [hmain huri, hr], hrest⟩
  · intro huri hne
    obtain ⟨rest, hr⟩ := getBatchFiles_casReads_of_ne h cif hne
    exact ⟨rest, by rw [hmain huri, hr]⟩
  · intro huri cifOps hops
    rw [GetTxnOperations_events h txn anchorData cif events hparse hcif, if_pos huri]
    simp only [casReads_append, hev, processDeactivateOnly_casReads, hops]
    rfl

/-- C23 (witness): a batch with one update entry and no core proof file: the core index
file, the provisional index file, the provisional proof file and the chunk file are
read. -/
theorem C23_core_proof_read_witness :
    ∃ rest, casReads (GetTxnOperations updateOnlyProvider (exampleTxn "1.core")).2 =
        "core" :: "pindex" :: rest ∧
      ∀ u ∈ rest, ∃ pif,
        (getProvisionalIndexFile updateOnlyProvider "pindex").1 = .ok pif ∧
        (u = pif.ProvisionalProofFileURI ∨ u ∈ pif.Chunks.map (fun c => c.ChunkFileURI)) :=
  (C23_core_proof_read updateOnlyProvider (exampleTxn "1.core") ⟨1, "core"⟩
    ⟨"", "pindex", ⟨[], [], []⟩⟩ [Event.casRead "core", Event.decompress "GZIP" [1]]
    rfl rfl).1 (by decide) rfl

/-! ## C24: the suffix of a create operation -/

theorem parseCreateOperations_error (h : OperationProvider) :
    ∀ (refs : List CreateReference),
      (∃ err, parseCreateOperations h refs = .error err) ↔
        ∃ ref ∈ refs, ∃ e,
          h.CalculateModelMultihash ref.SuffixData h.MultihashAlgorithm = .error e := by
  intro refs
  induction refs with
  | nil => simp [parseCreateOperations]
  | cons r refs ih =>
    rw [parseCreateOperations]
    cases hs : h.CalculateModelMultihash r.SuffixData h.MultihashAlgorithm with
    | error e =>
      simp only
      exact ⟨fun _ => ⟨r, List.mem_cons_self _ _, e, hs⟩, fun _ => ⟨e, rfl⟩⟩
    | ok suffix =>
      simp only
      cases hr : parseCreateOperations h refs with
      | error e =>
        simp only
        obtain ⟨ref, hmem, e', he'⟩ := ih.1 ⟨e, hr⟩
        exact ⟨fun _ => ⟨ref, List.mem_cons_of_mem _ hmem, e', he'⟩, fun _ => ⟨e, rfl⟩⟩
      | ok rest =>
        simp only
        constructor
        · rintro ⟨err, herr⟩
          cases herr
        · rintro ⟨ref, hmem, e, he⟩
          rcases List.mem_cons.1 hmem with heq | hmem
          · rw [heq, hs] at he
            cases he
          · obtain ⟨err, herr⟩ := ih.2 ⟨ref, hmem, e, he⟩
            rw [hr] at herr
            cases herr

/-- C24: when `parseCoreIndexOperations` succeeds there is one create operation per
create entry of the core index file, in order, whose suffix is
`CalculateModelMultihash(entry.SuffixData, MultihashAlgorithm)` and which carries the
suffix data of the entry; the parse fails exactly when the computation fails for some
create entry, and then the assembly and the path without provisional index file fail
with that error. -/
theorem C24_create_suffix (h : OperationProvider) (cif : CoreIndexFile) (txn : SidetreeTxn) :
    (∀ cifOps, parseCoreIndexOperations h cif txn = .ok cifOps →
      cifOps.Create.length = cif.Operations.Create.length ∧
      ∀ (i : Nat) (ref : CreateReference), cif.Operations.Create[i]? = some ref →
        ∃ op, cifOps.Create[i]? = some op ∧ op.Type_ = TypeCreate ∧
          h.CalculateModelMultihash ref.SuffixData h.MultihashAlgorithm =
            .ok op.UniqueSuffix ∧
          op.SuffixData = ref.SuffixData) ∧
    ((∃ err, parseCoreIndexOperations h cif txn = .error err) ↔
      ∃ ref ∈ cif.Operations.Create, ∃ e,
        h.CalculateModelMultihash ref.SuffixData h.MultihashAlgorithm = .error e) ∧
    (∀ err, parseCoreIndexOperations h cif txn = .error err →
      (processDeactivateOnly h cif txn).1 = .error ("parse anchor operations: " ++ err) ∧
      ∀ bf : batchFiles, bf.CoreIndex = cif →
        assembleAnchoredOperations h bf txn =
          .error ("parse anchor operations: " ++ err)) := by
  refine ⟨?_, ?_, ?_⟩
  · intro cifOps hok
    rw [parseCoreIndexOperations] at hok
    cases hc : parseCreateOperations h cif.Operations.Create with
    | error e => rw [hc] at hok; cases hok
    | ok creates =>
      rw [hc] at hok
      simp only [Except.ok.injEq] at hok
      subst hok
      obtain ⟨hlen, hidx⟩ := parseCreateOperations_ok h _ _ hc
      refine ⟨hlen, ?_⟩
      intro i ref hi
      obtain ⟨suffix, hs, hop⟩ := hidx i ref hi
      exact ⟨_, hop, rfl, hs, rfl⟩
  · rw [← parseCreateOperations_error h cif.Operations.Create, parseCoreIndexOperations]
    cases parseCreateOperations h cif.Operations.Create with
    | error e => simp
    | ok creates => simp
  · intro err herr
    refine ⟨?_, ?_⟩
    · rw [processDeactivateOnly, herr]
    · intro bf hbf
      rw [assembleAnchoredOperations, assembleOperations, hbf, herr]

/-- C24 (witness): the create entry of the example batch, and the same batch with a
multihash computation that fails. -/
theorem C24_create_suffix_witness :
    (∃ op, [Operation.mk TypeCreate "hashs" (some "s") none "" ""][0]? = some op ∧
        op.Type_ = TypeCreate ∧
        exampleBatchProvider.CalculateModelMultihash (some "s")
          exampleBatchProvider.MultihashAlgorithm = .ok op.UniqueSuffix ∧
        op.SuffixData = some "s") ∧
    assembleAnchoredOperations failingHashProvider exampleBatch (exampleTxn "4.core") =
      .error "parse anchor operations: algorithm not supported, unable to compute hash" :=
  ⟨((C24_create_suffix exampleBatchProvider exampleCoreIndex (exampleTxn "4.core")).1
      ⟨[Operation.mk TypeCreate "hashs" (some "s") none "" ""],
        [Operation.mk TypeRecover "r" none none "" "rr"],
        [Operation.mk TypeDeactivate "d" none none "" "dr"], ["hashs", "r", "d"]⟩
      (by decide)).2 0 ⟨some "s"⟩ rfl,
    ((C24_create_suffix failingHashProvider exampleCoreIndex (exampleTxn "4.core")).2.2
      "algorithm not supported, unable to compute hash" (by decide)).2 exampleBatch rfl⟩

end txnprovider

namespace txnprocessor

/-! ## The loop of `processTxnOperations` -/

theorem containsOperationType_iff (values : List String) (value : String) :
    containsOperationType values value = true ↔ value ∈ values := by
  induction values with
  | nil => simp [containsOperationType]
  | cons v values ih =>
    rw [containsOperationType]
    by_cases hv : v = value
    · rw [if_pos hv]
      simp [hv]
    · rw [if_neg hv, ih]
      constructor
      · exact fun hmem => List.mem_cons_of_mem _ hmem
      · intro hmem
        rcases List.mem_cons.1 hmem with heq | hmem
        · exact absurd heq.symm hv
        · exact hmem

theorem processTxnOperationsLoop_eq (p : TxnProcessor) (sidetreeTxn : SidetreeTxn) :
    ∀ (txnOps : List AnchoredOperation) (batchSuffixes unpublishedOpsSuffixes : List String)
      (ops : List AnchoredOperation),
      processTxnOperationsLoop p sidetreeTxn txnOps batchSuffixes unpublishedOpsSuffixes ops =
        (unpublishedOpsSuffixes ++
            (((firstOccurrences txnOps).filter
                (fun o => decide (o.UniqueSuffix ∉ batchSuffixes))).filter
              (fun o => decide (o.Type_ ∈ p.unpublishedOperationTypes))).map
              (fun o => o.UniqueSuffix),
          ops ++
            ((firstOccurrences txnOps).filter
              (fun o => decide (o.UniqueSuffix ∉ batchSuffixes))).map
              (fun o => updateAnchoredOperation o sidetreeTxn)) := by
  intro txnOps
  induction txnOps with
  | nil =>
    intro batchSuffixes unpublishedOpsSuffixes ops
    simp [processTxnOperationsLoop, firstOccurrences]
  | cons op txnOps ih =>
    intro batchSuffixes unpublishedOpsSuffixes ops
    rw [processTxnOperationsLoop, firstOccurrences]
    by_cases hseen : op.UniqueSuffix ∈ batchSuffixes
    · rw [if_pos hseen, ih]
      have hfilter : (op :: (firstOccurrences txnOps).filter
            (fun o => decide (o.UniqueSuffix ≠ op.UniqueSuffix))).filter
            (fun o => decide (o.UniqueSuffix ∉ batchSuffixes)) =
          (firstOccurrences txnOps).filter
            (fun o => decide (o.UniqueSuffix ∉ batchSuffixes)) := by
        rw [List.filter_cons_of_neg (by simpa using hseen), List.filter_filter]
        apply List.filter_congr
        intro o _
        by_cases ho : o.UniqueSuffix ∈ batchSuffixes
        · simp [ho]
        · have hne : o.UniqueSuffix ≠ op.UniqueSuffix := fun heq => ho (heq ▸ hseen)
          simp [ho, hne]
      rw [hfilter]
    · rw [if_neg hseen, ih]
      have hfilter : (op :: (firstOccurrences txnOps).filter
            (fun o => decide (o.UniqueSuffix ≠ op.UniqueSuffix))).filter
            (fun o => decide (o.UniqueSuffix ∉ batchSuffixes)) =
          op :: (firstOccurrences txnOps).filter
            (fun o => decide (o.UniqueSuffix ∉ batchSuffixes ++ [op.UniqueSuffix])) := by
        rw [List.filter_cons_of_pos (by simpa using hseen), List.filter_filter]
        congr 1
        apply List.filter_congr
        intro o _
        by_cases ho : o.UniqueSuffix ∈ batchSuffixes
        · simp [ho]
        · by_cases hne : o.UniqueSuffix = op.UniqueSuffix
          · simp [ho, hne]
          · simp [ho, hne]
      rw [hfilter]
      by_cases htype : op.Type_ ∈ p.unpublishedOperationTypes
      · rw [if_pos ((containsOperationType_iff _ _).2 htype),
          List.filter_cons_of_pos (by simpa using htype)]
        simp
      · rw [if_neg (fun hc => htype ((containsOperationType_iff _ _).1 hc)),
          List.filter_cons_of_neg (by simpa using htype)]
        simp

theorem processTxnOperationsLoop_put (p : TxnProcessor) (sidetreeTxn : SidetreeTxn)
    (txnOps : List AnchoredOperation) :
    (processTxnOperationsLoop p sidetreeTxn txnOps [] [] []).2 =
      putOperations txnOps sidetreeTxn := by
  rw [processTxnOperationsLoop_eq]
  simp [putOperations, updateAnchoredOperation]

theorem processTxnOperationsLoop_delete (p : TxnProcessor) (sidetreeTxn : SidetreeTxn)
    (txnOps : List AnchoredOperation) :
    (processTxnOperationsLoop p sidetreeTxn txnOps [] [] []).1 =
      deletedSuffixes p.unpublishedOperationTypes txnOps := by
  rw [processTxnOperationsLoop_eq]
  simp [deletedSuffixes]

/-! ## The first occurrences -/

theorem firstOccurrences_sublist :
    ∀ (txnOps : List AnchoredOperation), (firstOccurrences txnOps).Sublist txnOps := by
  intro txnOps
  induction txnOps with
  | nil => exact List.Sublist.refl _
  | cons op txnOps ih =>
    rw [firstOccurrences]
    exact List.Sublist.cons₂ _ ((List.filter_sublist _).trans ih)

theorem firstOccurrences_nodup :
    ∀ (txnOps : List AnchoredOperation),
      ((firstOccurrences txnOps).map (fun op => op.UniqueSuffix)).Nodup := by
  intro txnOps
  induction txnOps with
  | nil => simp [firstOccurrences]
  | cons op txnOps ih =>
    rw [firstOccurrences, List.map_cons, List.nodup_cons]
    refine ⟨?_, (List.Sublist.map _ (List.filter_sublist _)).nodup ih⟩
    intro hmem
    obtain ⟨o, ho, hs⟩ := List.mem_map.1 hmem
    have := (List.mem_filter.1 ho).2
    simp only [ne_eq, decide_not, Bool.not_eq_eq_eq_not, Bool.not_true,
      decide_eq_false_iff_not] at this
    exact this hs

theorem firstOccurrences_suffixes :
    ∀ (txnOps : List AnchoredOperation) (op : AnchoredOperation), op ∈ txnOps →
      op.UniqueSuffix ∈ (firstOccurrences txnOps).map (fun o => o.UniqueSuffix) := by
  intro txnOps
  induction txnOps with
  | nil => intro op hop; cases hop
  | cons a txnOps ih =>
    intro op hop
    rw [firstOccurrences, List.map_cons]
    by_cases hs : op.UniqueSuffix = a.UniqueSuffix
    · rw [hs]
      exact List.mem_cons_self _ _
    · rcases List.mem_cons.1 hop with heq | hmem
      · exact absurd (by rw [heq]) hs
      · obtain ⟨o, ho, hos⟩ := List.mem_map.1 (ih op hmem)
        refine List.mem_cons_of_mem _ (List.mem_map.2 ⟨o, List.mem_filter.2 ⟨ho, ?_⟩, hos⟩)
        simpa [hos] using hs

theorem firstOccurrences_append_singleton :
    ∀ (txnOps : List AnchoredOperation) (op : AnchoredOperation),
      firstOccurrences (txnOps ++ [op]) =
        firstOccurrences txnOps ++
          (if op.UniqueSuffix ∈ txnOps.map (fun o => o.UniqueSuffix) then [] else [op]) := by
  intro txnOps
  induction txnOps with
  | nil => intro op; simp [firstOccurrences]
  | cons a txnOps ih =>
    intro op
    rw [List.cons_append, firstOccurrences, firstOccurrences, ih, List.filter_append,
      List.cons_append]
    congr 2
    by_cases hmem : op.UniqueSuffix ∈ txnOps.map (fun o => o.UniqueSuffix)
    · have hmem' : op.UniqueSuffix ∈ (a :: txnOps).map (fun o => o.UniqueSuffix) :=
        List.mem_cons_of_mem _ hmem
      rw [if_pos hmem, if_pos hmem']
      rfl
    · rw [if_neg hmem]
      by_cases hs : op.UniqueSuffix = a.UniqueSuffix
      · rw [if_pos (by rw [List.map_cons, hs]; exact List.mem_cons_self _ _)]
        simp [hs]
      · rw [if_neg (by
          rw [List.map_cons]
          intro hm
          rcases List.mem_cons.1 hm with heq | hm
          · exact hs heq
          · exact hmem hm)]
        simp [hs]

/-! ## The runs of `Process` -/

theorem processTxnOperations_eq (p : TxnProcessor) (txnOps : List AnchoredOperation)
    (sidetreeTxn : SidetreeTxn) :
    processTxnOperations p txnOps sidetreeTxn =
      match p.OpStore (putOperations txnOps sidetreeTxn) with
      | some err =>
        (some ("failed to store operation from anchor string[" ++
            sidetreeTxn.AnchorString ++ "]: " ++ err),
          [Call.put (putOperations txnOps sidetreeTxn)])
      | none =>
        match p.unpublishedOperationStore
            (deletedSuffixes p.unpublishedOperationTypes txnOps) with
        | some err =>
          (some ("failed to delete unpublished operations for anchor string[" ++
              sidetreeTxn.AnchorString ++ "]: " ++ err),
            [Call.put (putOperations txnOps sidetreeTxn),
              Call.deleteAll (deletedSuffixes p.unpublishedOperationTypes txnOps)])
        | none =>
          (none,
            [Call.put (putOperations txnOps sidetreeTxn),
              Call.deleteAll (deletedSuffixes p.unpublishedOperationTypes txnOps)]) := by
  rw [processTxnOperations, processTxnOperationsLoop_put, processTxnOperationsLoop_delete]

theorem Process_calls (p : TxnProcessor) (sidetreeTxn : SidetreeTxn) (suffixes : List String)
    (txnOps : List AnchoredOperation)
    (hprov : p.OperationProtocolProvider sidetreeTxn = .ok txnOps) :
    (Process p sidetreeTxn suffixes).2 =
        [Call.getTxnOperations sidetreeTxn, Call.put (putOperations txnOps sidetreeTxn)] ∨
      (Process p sidetreeTxn suffixes).2 =
        [Call.getTxnOperations sidetreeTxn, Call.put (putOperations txnOps sidetreeTxn),
          Call.deleteAll (deletedSuffixes p.unpublishedOperationTypes txnOps)] := by
  rw [Process, hprov]
  simp only [processTxnOperations_eq]
  cases p.OpStore (putOperations txnOps sidetreeTxn) with
  | some err => exact Or.inl rfl
  | none =>
    cases p.unpublishedOperationStore (deletedSuffixes p.unpublishedOperationTypes txnOps)
      <;> exact Or.inr rfl

/-! ## C25: the operations handed to `Put` -/

/-- C25: for the list `txnOps` returned by the provider, `Process` calls `Put` once,
with the first occurrences of `txnOps` (each stamped): an order-preserving sublist of
`txnOps` whose suffixes are pairwise distinct and in which every suffix of `txnOps`
occurs; an operation at the end of a batch is among the first occurrences exactly when
its suffix does not occur before it. -/
theorem C25_put_first_occurrences (p : TxnProcessor) (sidetreeTxn : SidetreeTxn)
    (suffixes : List String) (txnOps : List AnchoredOperation)
    (hprov : p.OperationProtocolProvider sidetreeTxn = .ok txnOps) :
    putCalls (Process p sidetreeTxn suffixes).2 =
      [(firstOccurrences txnOps).map (fun op => updateAnchoredOperation op sidetreeTxn)] ∧
    (firstOccurrences txnOps).Sublist txnOps ∧
    (((firstOccurrences txnOps).map
      (fun op => updateAnchoredOperation op sidetreeTxn)).map
        (fun op => op.UniqueSuffix)).Nodup ∧
    (∀ op ∈ txnOps, op.UniqueSuffix ∈
      ((firstOccurrences txnOps).map
        (fun op => updateAnchoredOperation op sidetreeTxn)).map (fun op => op.UniqueSuffix)) ∧
    (∀ (batch : List AnchoredOperation) (op : AnchoredOperation),
      firstOccurrences (batch ++ [op]) =
        firstOccurrences batch ++
          (if op.UniqueSuffix ∈ batch.map (fun o => o.UniqueSuffix) then [] else [op])) := by
  have hmap : ((firstOccurrences txnOps).map
      (fun op => updateAnchoredOperation op sidetreeTxn)).map (fun op => op.UniqueSuffix) =
      (firstOccurrences txnOps).map (fun op => op.UniqueSuffix) := by
    rw [List.map_map]
    rfl
  refine ⟨?_, firstOccurrences_sublist txnOps, ?_, ?_, firstOccurrences_append_singleton⟩
  · rcases Process_calls p sidetreeTxn suffixes txnOps hprov with h | h <;> rw [h] <;> rfl
  · rw [hmap]
    exact firstOccurrences_nodup txnOps
  · rw [hmap]
    exact firstOccurrences_suffixes txnOps

/-- C25 (witness): in the example batch the suffix `a` occurs twice; the create
operation with suffix `a` and the two updates are handed to `Put`. -/
theorem C25_put_first_occurrences_witness :
    putCalls (Process (exampleTxnProcessor none none) (txnprovider.exampleTxn "4.core") []).2 =
      [[exampleStamped TypeCreate "a", exampleStamped TypeUpdate "b",
        exampleStamped TypeUpdate "c"]] ∧
    (firstOccurrences exampleTxnOps).Sublist exampleTxnOps :=
  ⟨(C25_put_first_occurrences (exampleTxnProcessor none none)
      (txnprovider.exampleTxn "4.core") [] exampleTxnOps rfl).1,
    (C25_put_first_occurrences (exampleTxnProcessor none none)
      (txnprovider.exampleTxn "4.core") [] exampleTxnOps rfl).2.1⟩

/-! ## C26: the stamping -/

/-- C26: every operation handed to `Put` has the transaction time, the transaction
number and the protocol genesis time of the processed transaction, and is otherwise an
operation returned by the provider: its other fields are those of that operation. -/
theorem C26_stamped (p : TxnProcessor) (sidetreeTxn : SidetreeTxn) (suffixes : List String)
    (txnOps : List AnchoredOperation)
    (hprov : p.OperationProtocolProvider sidetreeTxn = .ok txnOps) :
    ∃ ops, putCalls (Process p sidetreeTxn suffixes).2 = [ops] ∧
      ∀ op ∈ ops,
        op.TransactionTime = sidetreeTxn.TransactionTime ∧
        op.TransactionNumber = sidetreeTxn.TransactionNumber ∧
        op.ProtocolGenesisTime = sidetreeTxn.ProtocolGenesisTime ∧
        ∃ txnOp ∈ txnOps,
          op.Type_ = txnOp.Type_ ∧ op.UniqueSuffix = txnOp.UniqueSuffix ∧
          op.OperationRequest = txnOp.OperationRequest ∧
          op.ProtocolVersion = txnOp.ProtocolVersion ∧
          op.CanonicalReference = txnOp.CanonicalReference ∧
          op.EquivalentReferences = txnOp.EquivalentReferences ∧
          op.AnchorOrigin = txnOp.AnchorOrigin := by
  refine ⟨putOperations txnOps sidetreeTxn, ?_, ?_⟩
  · rcases Process_calls p sidetreeTxn suffixes txnOps hprov with h | h <;> rw [h] <;> rfl
  · intro op hop
    obtain ⟨txnOp, hmem, heq⟩ := List.mem_map.1 hop
    subst heq
    exact ⟨rfl, rfl, rfl, txnOp, (firstOccurrences_sublist txnOps).subset hmem,
      rfl, rfl, rfl, rfl, rfl, rfl, rfl⟩

/-- C26 (witness): the example batch processed for a transaction with time 7 and
number 3. -/
theorem C26_stamped_witness :
    ∃ ops, putCalls (Process (exampleTxnProcessor none none)
        (txnprovider.exampleTxn "4.core") []).2 = [ops] ∧
      ∀ op ∈ ops,
        op.TransactionTime = 7 ∧ op.TransactionNumber = 3 ∧ op.ProtocolGenesisTime = 0 ∧
        ∃ txnOp ∈ exampleTxnOps,
          op.Type_ = txnOp.Type_ ∧ op.UniqueSuffix = txnOp.UniqueSuffix ∧
          op.OperationRequest = txnOp.OperationRequest ∧
          op.ProtocolVersion = txnOp.ProtocolVersion ∧
          op.CanonicalReference = txnOp.CanonicalReference ∧
          op.EquivalentReferences = txnOp.EquivalentReferences ∧
          op.AnchorOrigin = txnOp.AnchorOrigin :=
  C26_stamped (exampleTxnProcessor none none) (txnprovider.exampleTxn "4.core") []
    exampleTxnOps rfl

/-! ## C27: the errors of `Process` -/

/-- C27: `Process` returns nil exactly when the provider, `Put` and `DeleteAll` all
succeed.  If the provider fails, `Process` fails and calls neither store; if `Put`
fails, `Process` fails and `DeleteAll` is not called; if `DeleteAll` fails, `Process`
fails after `Put` has been called once with the whole list of operations. -/
theorem C27_process_errors (p : TxnProcessor) (sidetreeTxn : SidetreeTxn)
    (suffixes : List String) :
    ((Process p sidetreeTxn suffixes).1 = none ↔
      ∃ txnOps, p.OperationProtocolProvider sidetreeTxn = .ok txnOps ∧
        p.OpStore (putOperations txnOps sidetreeTxn) = none ∧
        p.unpublishedOperationStore
          (deletedSuffixes p.unpublishedOperationTypes txnOps) = none) ∧
    (∀ err, p.OperationProtocolProvider sidetreeTxn = .error err →
      Process p sidetreeTxn suffixes =
        (some ("failed to retrieve operations for anchor string[" ++
            sidetreeTxn.AnchorString ++ "]: " ++ err),
          [Call.getTxnOperations sidetreeTxn])) ∧
    (∀ txnOps err, p.OperationProtocolProvider sidetreeTxn = .ok txnOps →
      p.OpStore (putOperations txnOps sidetreeTxn) = some err →
      Process p sidetreeTxn suffixes =
        (some ("failed to store operation from anchor string[" ++
            sidetreeTxn.AnchorString ++ "]: " ++ err),
          [Call.getTxnOperations sidetreeTxn,
            Call.put (putOperations txnOps sidetreeTxn)])) ∧
    (∀ txnOps err, p.OperationProtocolProvider sidetreeTxn = .ok txnOps →
      p.OpStore (putOperations txnOps sidetreeTxn) = none →
      p.unpublishedOperationStore
        (deletedSuffixes p.unpublishedOperationTypes txnOps) = some err →
      Process p sidetreeTxn suffixes =
        (some ("failed to delete unpublished operations for anchor string[" ++
            sidetreeTxn.AnchorString ++ "]: " ++ err),
          [Call.getTxnOperations sidetreeTxn,
            Call.put (putOperations txnOps sidetreeTxn),
            Call.deleteAll (deletedSuffixes p.unpublishedOperationTypes txnOps)])) := by
  refine ⟨?_, ?_, ?_, ?_⟩
  · rw [Process]
    cases hprov : p.OperationProtocolProvider sidetreeTxn with
    | error e => simp
    | ok txnOps =>
      simp only [processTxnOperations_eq, Except.ok.injEq, exists_eq_left']
      cases hput : p.OpStore (putOperations txnOps sidetreeTxn) with
      | some err => simp
      | none =>
        cases hdel : p.unpublishedOperationStore
            (deletedSuffixes p.unpublishedOperationTypes txnOps) with
        | some err => simp
        | none => simp
  · intro err hprov
    rw [Process, hprov]
  · intro txnOps err hprov hput
    rw [Process, hprov]
    simp only [processTxnOperations_eq, hput]
  · intro txnOps err hprov hput hdel
    rw [Process, hprov]
    simp only [processTxnOperations_eq, hput, hdel]

/-- C27 (witness): the example processor with a provider that fails, with a `Put` that
fails, and with a `DeleteAll` that fails. -/
theorem C27_process_errors_witness :
    Process (exampleTxnProcessor none none) (txnprovider.exampleTxn "1.core") [] =
      (some "failed to retrieve operations for anchor string[1.core]: anchor not found",
        [Call.getTxnOperations (txnprovider.exampleTxn "1.core")]) ∧
    Process (exampleTxnProcessor (some "disk full") none)
        (txnprovider.exampleTxn "4.core") [] =
      (some "failed to store operation from anchor string[4.core]: disk full",
        [Call.getTxnOperations (txnprovider.exampleTxn "4.core"),
          Call.put (putOperations exampleTxnOps (txnprovider.exampleTxn "4.core"))]) ∧
    Process (exampleTxnProcessor none (some "unavailable"))
        (txnprovider.exampleTxn "4.core") [] =
      (some "failed to delete unpublished operations for anchor string[4.core]: unavailable",
        [Call.getTxnOperations (txnprovider.exampleTxn "4.core"),
          Call.put (putOperations exampleTxnOps (txnprovider.exampleTxn "4.core")),
          Call.deleteAll ["b", "c"]]) :=
  ⟨(C27_process_errors (exampleTxnProcessor none none) (txnprovider.exampleTxn "1.core")
      []).2.1 "anchor not found" rfl,
    (C27_process_errors (exampleTxnProcessor (some "disk full") none)
      (txnprovider.exampleTxn "4.core") []).2.2.1 exampleTxnOps "disk full" rfl rfl,
    (C27_process_errors (exampleTxnProcessor none (some "unavailable"))
      (txnprovider.exampleTxn "4.core") []).2.2.2 exampleTxnOps "unavailable" rfl rfl rfl⟩

/-! ## C28: the suffixes handed to `DeleteAll` -/

/-- C28: when the provider and `Put` succeed, `DeleteAll` is called exactly once, with
the suffixes, in batch order, of the operations handed to `Put` (the first occurrences)
whose type is among `unpublishedOperationTypes`; for a processor built by `New` without
options this list is empty. -/
theorem C28_delete_all (p : TxnProcessor) (sidetreeTxn : SidetreeTxn)
    (suffixes : List String) (txnOps : List AnchoredOperation)
    (hprov : p.OperationProtocolProvider sidetreeTxn = .ok txnOps)
    (hput : p.OpStore (putOperations txnOps sidetreeTxn) = none) :
    deleteAllCalls (Process p sidetreeTxn suffixes).2 =
      [((putOperations txnOps sidetreeTxn).filter
        (fun op => decide (op.Type_ ∈ p.unpublishedOperationTypes))).map
          (fun op => op.UniqueSuffix)] ∧
    (∀ providers : Providers, p = New providers [] →
      deleteAllCalls (Process p sidetreeTxn suffixes).2 = [[]]) := by
  have hdel : ((putOperations txnOps sidetreeTxn).filter
      (fun op => decide (op.Type_ ∈ p.unpublishedOperationTypes))).map
        (fun op => op.UniqueSuffix) =
      deletedSuffixes p.unpublishedOperationTypes txnOps := by
    rw [putOperations, deletedSuffixes, List.filter_map, List.map_map]
    rfl
  have hcalls : deleteAllCalls (Process p sidetreeTxn suffixes).2 =
      [deletedSuffixes p.unpublishedOperationTypes txnOps] := by
    rw [Process, hprov]
    simp only [processTxnOperations_eq, hput]
    cases p.unpublishedOperationStore (deletedSuffixes p.unpublishedOperationTypes txnOps)
      <;> rfl
  refine ⟨by rw [hdel, hcalls], ?_⟩
  intro providers hnew
  rw [hcalls, hnew]
  simp [New, deletedSuffixes]

/-- C28 (witness): the example processor deletes the suffixes of the two updates; a
processor built without options deletes none. -/
theorem C28_delete_all_witness :
    deleteAllCalls (Process (exampleTxnProcessor none none)
        (txnprovider.exampleTxn "4.core") []).2 = [["b", "c"]] ∧
    deleteAllCalls (Process (New (exampleProviders none) [])
        (txnprovider.exampleTxn "4.core") []).2 = [[]] :=
  ⟨(C28_delete_all (exampleTxnProcessor none none) (txnprovider.exampleTxn "4.core") []
      exampleTxnOps rfl rfl).1,
    (C28_delete_all (New (exampleProviders none) []) (txnprovider.exampleTxn "4.core") []
      exampleTxnOps rfl rfl).2 (exampleProviders none) rfl⟩

/-! ## C29: the suffix list of `Process` -/

/-- C29 (counterexample): `Process` is called with the suffix list `a` on the example
batch; the operations with the suffixes `b` and `c` are handed to `Put` as well. -/
theorem C29_counterexample :
    Process (exampleTxnProcessor none none) (txnprovider.exampleTxn "4.core") ["a"] =
      (none,
        [Call.getTxnOperations (txnprovider.exampleTxn "4.core"),
          Call.put [exampleStamped TypeCreate "a", exampleStamped TypeUpdate "b",
            exampleStamped TypeUpdate "c"],
          Call.deleteAll ["b", "c"]]) := by
  decide

/-- C29 (amended): `Process` does not use its suffix list: for every suffix list the
run is the run with the empty list, and when the provider succeeds all operations of the
batch, without the repeated suffixes, are handed to `Put`. -/
theorem C29_suffixes_ignored (p : TxnProcessor) (sidetreeTxn : SidetreeTxn)
    (suffixes : List String) (txnOps : List AnchoredOperation)
    (hprov : p.OperationProtocolProvider sidetreeTxn = .ok txnOps) :
    Process p sidetreeTxn suffixes = Process p sidetreeTxn [] ∧
    putCalls (Process p sidetreeTxn suffixes).2 = [putOperations txnOps sidetreeTxn] ∧
    ∀ op ∈ txnOps, op.UniqueSuffix ∈
      (putOperations txnOps sidetreeTxn).map (fun o => o.UniqueSuffix) := by
  refine ⟨rfl, ?_, ?_⟩
  · rcases Process_calls p sidetreeTxn suffixes txnOps hprov with h | h <;> rw [h] <;> rfl
  · have hmap : (putOperations txnOps sidetreeTxn).map (fun o => o.UniqueSuffix) =
        (firstOccurrences txnOps).map (fun op => op.UniqueSuffix) := by
      rw [putOperations, List.map_map]
      rfl
    rw [hmap]
    exact firstOccurrences_suffixes txnOps

/-- C29 (witness): the example batch with the suffix list `a`. -/
theorem C29_suffixes_ignored_witness :
    Process (exampleTxnProcessor none none) (txnprovider.exampleTxn "4.core") ["a"] =
        Process (exampleTxnProcessor none none) (txnprovider.exampleTxn "4.core") [] ∧
    putCalls (Process (exampleTxnProcessor none none)
        (txnprovider.exampleTxn "4.core") ["a"]).2 =
      [putOperations exampleTxnOps (txnprovider.exampleTxn "4.core")] ∧
    ∀ op ∈ exampleTxnOps, op.UniqueSuffix ∈
      (putOperations exampleTxnOps (txnprovider.exampleTxn "4.core")).map
        (fun o => o.UniqueSuffix) :=
  C29_suffixes_ignored (exampleTxnProcessor none none) (txnprovider.exampleTxn "4.core")
    ["a"] exampleTxnOps rfl

end txnprocessor

namespace metadata

/-! ## Document metadata -/

theorem mapSet_self {α : Type} (m : String → Option α) (key : String) (value : α) :
    mapSet m key value key = some value := by
  simp [mapSet]

theorem mapSet_of_ne {α : Type} (m : String → Option α) (key k : String) (value : α)
    (hne : k ≠ key) : mapSet m key value k = m k := by
  simp [mapSet, hne]

theorem methodMetadata_published (props : Properties) (t : Metadata) (rm : ResolutionModel)
    (published : Value) (hkeys : keysDistinct props) :
    methodMetadata props t rm published props.PublishedProperty = some published := by
  obtain ⟨hmethod, _⟩ := hkeys
  simp only [List.nodup_cons, List.mem_cons, List.mem_singleton, not_or, List.not_mem_nil,
    not_false_eq_true, List.nodup_nil, and_true] at hmethod
  obtain ⟨⟨h1, h2, h3, h4, h5⟩, _⟩ := hmethod
  have h1' := Ne.symm h1
  have h2' := Ne.symm h2
  have h3' := Ne.symm h3
  have h4' := Ne.symm h4
  have h5' := Ne.symm h5
  unfold methodMetadata
  cases rm.AnchorOrigin <;> dsimp only <;> split_ifs <;>
    simp [mapSet, h1, h2, h3, h4, h5, h1', h2', h3', h4', h5']

theorem CreateDocumentMetadata_ok (props : Properties) (t : Metadata)
    (rm : Option ResolutionModel) (info : Option (String → Option Value))
    (md : String → Option DocValue)
    (hok : CreateDocumentMetadata props t rm info = .ok md) :
    ∃ r i published,
      rm = some r ∧ r.Doc ≠ none ∧ info = some i ∧
      i props.PublishedProperty = some published ∧
      md =
        (fun d₃ : String → Option DocValue =>
          if r.VersionID ≠ "" then
            mapSet d₃ props.VersionIDProperty (DocValue.value (Value.string r.VersionID))
          else d₃)
          ((fun d₂ : String → Option DocValue =>
            match i props.EquivalentIDProperty with
            | some equivalentID =>
              mapSet d₂ props.EquivalentIDProperty (DocValue.value equivalentID)
            | none => d₂)
            ((fun d₁ : String → Option DocValue =>
              match i props.CanonicalIDProperty with
              | some canonicalID =>
                mapSet d₁ props.CanonicalIDProperty (DocValue.value canonicalID)
              | none => d₁)
              ((fun d₀ : String → Option DocValue =>
                if r.Deactivated = true then
                  mapSet d₀ props.DeactivatedProperty (DocValue.bool r.Deactivated)
                else d₀)
                (mapSet emptyMap props.MethodProperty
                  (DocValue.metadata (methodMetadata props t r published)))))) := by
  unfold CreateDocumentMetadata at hok
  cases rm with
  | none => cases hok
  | some r =>
    simp only at hok
    by_cases hdoc : r.Doc = none
    · rw [if_pos hdoc] at hok
      cases hok
    · rw [if_neg hdoc] at hok
      cases info with
      | none => cases hok
      | some i =>
        simp only at hok
        cases hp : i props.PublishedProperty with
        | none => rw [hp] at hok; cases hok
        | some published =>
          rw [hp] at hok
          refine ⟨r, i, published, rfl, hdoc, rfl, hp, ?_⟩
          dsimp only at hok ⊢
          split_ifs at hok ⊢ with hv <;>
            · simp only [Except.ok.injEq] at hok
              exact hok.symm

/-! ## C30: the required entries -/

/-- C30: `CreateDocumentMetadata` fails exactly when the resolution model is nil, or its
`Doc` is nil, or the transformation info is nil, or the info has no entry for the
`published` property; whenever it succeeds (the property names being distinct), the
result has the method sub-map under the `method` property, and the `published` entry of
this sub-map is the `published` entry of the info. -/
theorem C30_published_required (props : Properties) (t : Metadata)
    (rm : Option ResolutionModel) (info : Option (String → Option Value))
    (hkeys : keysDistinct props) :
    ((∃ err, CreateDocumentMetadata props t rm info = .error err) ↔
      rm = none ∨ (∃ r, rm = some r ∧ r.Doc = none) ∨ info = none ∨
        ∃ i, info = some i ∧ i props.PublishedProperty = none) ∧
    (∀ md, CreateDocumentMetadata props t rm info = .ok md →
      ∃ i published method,
        info = some i ∧ i props.PublishedProperty = some published ∧
        md props.MethodProperty = some (DocValue.metadata method) ∧
        method props.PublishedProperty = some published) := by
  constructor
  · unfold CreateDocumentMetadata
    cases rm with
    | none => simp
    | some r =>
      by_cases hdoc : r.Doc = none
      · simp [hdoc]
      · cases info with
        | none => simp [hdoc]
        | some i =>
          cases hp : i props.PublishedProperty with
          | none => simp [hdoc, hp]
          | some published =>
            simp only [hdoc, hp, if_false, Option.some.injEq, exists_eq_left', false_or,
              reduceCtorEq, and_false, exists_false, or_false, iff_false, not_exists]
            intro err
            split_ifs <;> simp
  · intro md hok
    obtain ⟨r, i, published, _, _, hi, hp, hmd⟩ :=
      CreateDocumentMetadata_ok props t rm info md hok
    refine ⟨i, published, methodMetadata props t r published, hi, hp, ?_,
      methodMetadata_published props t r published hkeys⟩
    obtain ⟨_, htop⟩ := hkeys
    simp only [List.nodup_cons, List.mem_cons, List.mem_singleton, not_or, List.not_mem_nil,
      not_false_eq_true, List.nodup_nil, and_true] at htop
    obtain ⟨⟨h1, h2, h3, h4⟩, _⟩ := htop
    rw [hmd]
    dsimp only
    cases i props.CanonicalIDProperty <;> cases i props.EquivalentIDProperty <;>
      dsimp only <;> split_ifs <;> simp [mapSet, h1, h2, h3, h4]

/-- C30 (witness): with the example info, which has a `published` entry, the metadata
of the example model has this entry in its method sub-map. -/
theorem C30_published_required_witness :
    ∃ i published method,
      some exampleInfo = some i ∧ i "published" = some published ∧
      (match CreateDocumentMetadata exampleProperties (New []) (some exampleMetadataModel)
          (some exampleInfo) with
        | .ok md => md "method"
        | .error _ => none) = some (DocValue.metadata method) ∧
      method "published" = some published :=
  (C30_published_required exampleProperties (New []) (some exampleMetadataModel)
    (some exampleInfo) (by unfold keysDistinct; decide)).2 _ rfl

/-! ## C31: the published operations of the metadata -/

theorem metadata_sortOperations_perm (ops : List AnchoredOperation) : (sortOperations ops).Perm ops :=
  processor.sortSlice_perm _ ops

theorem getPublishedOperationsLoop_eq :
    ∀ (ops : List AnchoredOperation) (uniqueOps : List String)
      (publishedOps : List PublishedOperation),
      getPublishedOperationsLoop ops uniqueOps publishedOps =
        publishedOps ++
          ((firstByReference ops).filter
            (fun o => decide (o.CanonicalReference ∉ uniqueOps))).map publishedProjection := by
  intro ops
  induction ops with
  | nil =>
    intro uniqueOps publishedOps
    simp [getPublishedOperationsLoop, firstByReference]
  | cons op ops ih =>
    intro uniqueOps publishedOps
    rw [getPublishedOperationsLoop, firstByReference]
    by_cases hseen : op.CanonicalReference ∈ uniqueOps
    · rw [if_neg (not_not.2 hseen), ih,
        List.filter_cons_of_neg (by simpa using hseen), List.filter_filter]
      congr 2
      apply List.filter_congr
      intro o _
      by_cases ho : o.CanonicalReference ∈ uniqueOps
      · simp [ho]
      · have hne : o.CanonicalReference ≠ op.CanonicalReference :=
          fun heq => ho (heq ▸ hseen)
        simp [ho, hne]
    · rw [if_pos hseen, ih,
        List.filter_cons_of_pos (by simpa using hseen), List.filter_filter, List.map_cons,
        List.append_assoc, List.singleton_append]
      congr 3
      apply List.filter_congr
      intro o _
      by_cases ho : o.CanonicalReference ∈ uniqueOps
      · simp [ho]
      · by_cases hne : o.CanonicalReference = op.CanonicalReference
        · simp [ho, hne]
        · simp [ho, hne]

theorem firstByReference_sublist :
    ∀ (ops : List AnchoredOperation), (firstByReference ops).Sublist ops := by
  intro ops
  induction ops with
  | nil => exact List.Sublist.refl _
  | cons op ops ih =>
    rw [firstByReference]
    exact List.Sublist.cons₂ _ ((List.filter_sublist _).trans ih)

theorem firstByReference_nodup :
    ∀ (ops : List AnchoredOperation),
      ((firstByReference ops).map (fun op => op.CanonicalReference)).Nodup := by
  intro ops
  induction ops with
  | nil => simp [firstByReference]
  | cons op ops ih =>
    rw [firstByReference, List.map_cons, List.nodup_cons]
    refine ⟨?_, (List.Sublist.map _ (List.filter_sublist _)).nodup ih⟩
    intro hmem
    obtain ⟨o, ho, hs⟩ := List.mem_map.1 hmem
    have := (List.mem_filter.1 ho).2
    simp only [ne_eq, decide_not, Bool.not_eq_eq_eq_not, Bool.not_true,
      decide_eq_false_iff_not] at this
    exact this hs

theorem firstByReference_references :
    ∀ (ops : List AnchoredOperation) (op : AnchoredOperation), op ∈ ops →
      op.CanonicalReference ∈ (firstByReference ops).map (fun o => o.CanonicalReference) := by
  intro ops
  induction ops with
  | nil => intro op hop; cases hop
  | cons a ops ih =>
    intro op hop
    rw [firstByReference, List.map_cons]
    by_cases hs : op.CanonicalReference = a.CanonicalReference
    · rw [hs]
      exact List.mem_cons_self _ _
    · rcases List.mem_cons.1 hop with heq | hmem
      · exact absurd (by rw [heq]) hs
      · obtain ⟨o, ho, hos⟩ := List.mem_map.1 (ih op hmem)
        refine List.mem_cons_of_mem _ (List.mem_map.2 ⟨o, List.mem_filter.2 ⟨ho, ?_⟩, hos⟩)
        simpa [hos] using hs

theorem firstByReference_append_singleton :
    ∀ (ops : List AnchoredOperation) (op : AnchoredOperation),
      firstByReference (ops ++ [op]) =
        firstByReference ops ++
          (if op.CanonicalReference ∈ ops.map (fun o => o.CanonicalReference) then []
          else [op]) := by
  intro ops
  induction ops with
  | nil => intro op; simp [firstByReference]
  | cons a ops ih =>
    intro op
    rw [List.cons_append, firstByReference, firstByReference, ih, List.filter_append,
      List.cons_append]
    congr 2
    by_cases hmem : op.CanonicalReference ∈ ops.map (fun o => o.CanonicalReference)
    · have hmem' : op.CanonicalReference ∈ (a :: ops).map (fun o => o.CanonicalReference) :=
        List.mem_cons_of_mem _ hmem
      rw [if_pos hmem, if_pos hmem']
      rfl
    · rw [if_neg hmem]
      by_cases hs : op.CanonicalReference = a.CanonicalReference
      · rw [if_pos (by rw [List.map_cons, hs]; exact List.mem_cons_self _ _)]
        simp [hs]
      · rw [if_neg (by
          rw [List.map_cons]
          intro hm
          rcases List.mem_cons.1 hm with heq | hm
          · exact hs heq
          · exact hmem hm)]
        simp [hs]

/-- C31: for every list of published operations, `getPublishedOperations` returns the
projections of the operations that are the first with their canonical reference in the
list as `sortOperations` orders it (a permutation of the input), in the order of that
list: the references of the result are pairwise distinct, every reference of the input
occurs among them, and every element of the result is the projection of an operation
of the input.  An operation at the end of a list is the first with its reference
exactly when the reference does not occur before it. -/
theorem C31_published_operations (ops : List AnchoredOperation) :
    getPublishedOperations ops =
      (firstByReference (sortOperations ops)).map publishedProjection ∧
    (sortOperations ops).Perm ops ∧
    (firstByReference (sortOperations ops)).Sublist (sortOperations ops) ∧
    ((getPublishedOperations ops).map (fun p => p.CanonicalReference)).Nodup ∧
    (∀ op ∈ ops, op.CanonicalReference ∈
      (getPublishedOperations ops).map (fun p => p.CanonicalReference)) ∧
    (∀ p ∈ getPublishedOperations ops, ∃ op ∈ ops, p = publishedProjection op) ∧
    (∀ (sorted : List AnchoredOperation) (op : AnchoredOperation),
      firstByReference (sorted ++ [op]) =
        firstByReference sorted ++
          (if op.CanonicalReference ∈ sorted.map (fun o => o.CanonicalReference) then []
          else [op])) := by
  have heq : getPublishedOperations ops =
      (firstByReference (sortOperations ops)).map publishedProjection := by
    rw [getPublishedOperations, getPublishedOperationsLoop_eq]
    simp
  have hmap : ((firstByReference (sortOperations ops)).map publishedProjection).map
      (fun p => p.CanonicalReference) =
      (firstByReference (sortOperations ops)).map (fun op => op.CanonicalReference) := by
    rw [List.map_map]
    rfl
  refine ⟨heq, metadata_sortOperations_perm ops, firstByReference_sublist _, ?_, ?_, ?_,
    firstByReference_append_singleton⟩
  · rw [heq, hmap]
    exact firstByReference_nodup _
  · intro op hop
    rw [heq, hmap]
    exact firstByReference_references _ op ((metadata_sortOperations_perm ops).mem_iff.2 hop)
  · intro p hp
    rw [heq] at hp
    obtain ⟨op, hop, hproj⟩ := List.mem_map.1 hp
    exact ⟨op, (metadata_sortOperations_perm ops).mem_iff.1 ((firstByReference_sublist _).subset hop),
      hproj.symm⟩

/-! ## C32: the entries of the document metadata -/

theorem ite_mapSet_of_ne {α : Type} (c : Prop) [Decidable c] (m : String → Option α)
    (key k : String) (value : α) (hne : k ≠ key) :
    (if c then mapSet m key value else m) k = m k := by
  split
  · exact mapSet_of_ne m key k value hne
  · rfl

theorem ite_mapSet_self {α : Type} (c : Prop) [Decidable c] (m : String → Option α)
    (key : String) (value : α) :
    (if c then mapSet m key value else m) key = if c then some value else m key := by
  split
  · exact mapSet_self m key value
  · rfl

theorem methodMetadata_entries (props : Properties) (t : Metadata) (rm : ResolutionModel)
    (published : Value) (hkeys : keysDistinct props) :
    methodMetadata props t rm published props.RecoveryCommitmentProperty =
      (if rm.RecoveryCommitment ≠ "" then some (Value.string rm.RecoveryCommitment)
      else none) ∧
    methodMetadata props t rm published props.UpdateCommitmentProperty =
      (if rm.UpdateCommitment ≠ "" then some (Value.string rm.UpdateCommitment) else none) ∧
    methodMetadata props t rm published props.UnpublishedOperationsProperty =
      (if t.includeUnpublishedOperations = true ∧ rm.UnpublishedOperations.length > 0 then
        some (Value.unpublishedOperations (getUnpublishedOperations rm.UnpublishedOperations))
      else none) ∧
    methodMetadata props t rm published props.PublishedOperationsProperty =
      (if t.includePublishedOperations = true ∧ rm.PublishedOperations.length > 0 then
        some (Value.publishedOperations (getPublishedOperations rm.PublishedOperations))
      else none) := by
  obtain ⟨hmethod, _⟩ := hkeys
  simp only [List.nodup_cons, List.mem_cons, List.mem_singleton, not_or, List.not_mem_nil,
    not_false_eq_true, List.nodup_nil, and_true] at hmethod
  obtain ⟨⟨h1, h2, h3, h4, h5⟩, ⟨h6, h7, h8, h9⟩, ⟨h10, h11, h12⟩, ⟨h13, h14⟩, h15⟩ := hmethod
  have h1' := Ne.symm h1
  have h2' := Ne.symm h2
  have h3' := Ne.symm h3
  have h4' := Ne.symm h4
  have h5' := Ne.symm h5
  have h6' := Ne.symm h6
  have h7' := Ne.symm h7
  have h8' := Ne.symm h8
  have h9' := Ne.symm h9
  have h10' := Ne.symm h10
  have h11' := Ne.symm h11
  have h12' := Ne.symm h12
  have h13' := Ne.symm h13
  have h14' := Ne.symm h14
  have h15' := Ne.symm h15
  unfold methodMetadata
  cases rm.AnchorOrigin with
  | none =>
    dsimp only
    refine ⟨?_, ?_, ?_, ?_⟩
    · rw [ite_mapSet_of_ne _ _ _ _ _ h9, ite_mapSet_of_ne _ _ _ _ _ h8,
        ite_mapSet_of_ne _ _ _ _ _ h6, ite_mapSet_self, mapSet_of_ne _ _ _ _ h1']
      rfl
    · rw [ite_mapSet_of_ne _ _ _ _ _ h12, ite_mapSet_of_ne _ _ _ _ _ h11, ite_mapSet_self,
        ite_mapSet_of_ne _ _ _ _ _ h6', mapSet_of_ne _ _ _ _ h2']
      rfl
    · rw [ite_mapSet_of_ne _ _ _ _ _ h15, ite_mapSet_self, ite_mapSet_of_ne _ _ _ _ _ h11',
        ite_mapSet_of_ne _ _ _ _ _ h8', mapSet_of_ne _ _ _ _ h4']
      rfl
    · rw [ite_mapSet_self, ite_mapSet_of_ne _ _ _ _ _ h15', ite_mapSet_of_ne _ _ _ _ _ h12',
        ite_mapSet_of_ne _ _ _ _ _ h9', mapSet_of_ne _ _ _ _ h5']
      rfl
  | some anchorOrigin =>
    dsimp only
    refine ⟨?_, ?_, ?_, ?_⟩
    · rw [ite_mapSet_of_ne _ _ _ _ _ h9, ite_mapSet_of_ne _ _ _ _ _ h8,
        mapSet_of_ne _ _ _ _ h7, ite_mapSet_of_ne _ _ _ _ _ h6, ite_mapSet_self,
        mapSet_of_ne _ _ _ _ h1']
      rfl
    · rw [ite_mapSet_of_ne _ _ _ _ _ h12, ite_mapSet_of_ne _ _ _ _ _ h11,
        mapSet_of_ne _ _ _ _ h10, ite_mapSet_self, ite_mapSet_of_ne _ _ _ _ _ h6',
        mapSet_of_ne _ _ _ _ h2']
      rfl
    · rw [ite_mapSet_of_ne _ _ _ _ _ h15, ite_mapSet_self, mapSet_of_ne _ _ _ _ h13',
        ite_mapSet_of_ne _ _ _ _ _ h11', ite_mapSet_of_ne _ _ _ _ _ h8',
        mapSet_of_ne _ _ _ _ h4']
      rfl
    · rw [ite_mapSet_self, ite_mapSet_of_ne _ _ _ _ _ h15', mapSet_of_ne _ _ _ _ h14',
        ite_mapSet_of_ne _ _ _ _ _ h12', ite_mapSet_of_ne _ _ _ _ _ h9',
        mapSet_of_ne _ _ _ _ h5']
      rfl

/-- C32: whenever `CreateDocumentMetadata` succeeds (the property names being distinct),
the result has the method sub-map under `method`, has `deactivated` exactly when the
model is deactivated, `versionId` exactly when the version is non-empty, `canonicalId`
and `equivalentId` exactly when the info has them, with the info's values, and no other
key; the method sub-map has the recovery and update commitments exactly when they are
non-empty, and the lists of unpublished and published operations only when the matching
flag is set and the model's list is non-empty, hence never for a transformer built by
`New` without options. -/
theorem C32_metadata_entries (props : Properties) (t : Metadata)
    (rm : Option ResolutionModel) (info : Option (String → Option Value))
    (md : String → Option DocValue) (hkeys : keysDistinct props)
    (hok : CreateDocumentMetadata props t rm info = .ok md) :
    ∃ r i published,
      rm = some r ∧ info = some i ∧ i props.PublishedProperty = some published ∧
      metadataEntries props t r i published md := by
  obtain ⟨r, i, published, hr, _, hi, hp, hmd⟩ :=
    CreateDocumentMetadata_ok props t rm info md hok
  obtain ⟨hrec, hupd, hunp, hpub⟩ := methodMetadata_entries props t r published hkeys
  refine ⟨r, i, published, hr, hi, hp, ?_⟩
  obtain ⟨_, htop⟩ := hkeys
  simp only [List.nodup_cons, List.mem_cons, List.mem_singleton, not_or, List.not_mem_nil,
    not_false_eq_true, List.nodup_nil, and_true] at htop
  obtain ⟨⟨g1, g2, g3, g4⟩, ⟨g5, g6, g7⟩, ⟨g8, g9⟩, g10⟩ := htop
  have g1' := Ne.symm g1
  have g2' := Ne.symm g2
  have g3' := Ne.symm g3
  have g4' := Ne.symm g4
  have g5' := Ne.symm g5
  have g6' := Ne.symm g6
  have g7' := Ne.symm g7
  have g8' := Ne.symm g8
  have g9' := Ne.symm g9
  have g10' := Ne.symm g10
  refine ⟨?_, ?_, ?_, ?_, ?_, ?_, hrec, hupd, hunp, hpub, ?_⟩
  · rw [hmd]
    dsimp only
    rw [ite_mapSet_of_ne _ _ _ _ _ g4]
    cases i props.EquivalentIDProperty <;> cases i props.CanonicalIDProperty <;>
      dsimp only <;>
      simp only [mapSet_of_ne _ _ _ _ g3, mapSet_of_ne _ _ _ _ g2,
        ite_mapSet_of_ne _ _ _ _ _ g1, mapSet_self]
  · rw [hmd]
    dsimp only
    rw [ite_mapSet_of_ne _ _ _ _ _ g7]
    cases i props.EquivalentIDProperty <;> cases i props.CanonicalIDProperty <;>
      dsimp only <;>
      simp only [mapSet_of_ne _ _ _ _ g6, mapSet_of_ne _ _ _ _ g5, ite_mapSet_self,
        mapSet_of_ne _ _ _ _ g1', emptyMap] <;>
      split <;> simp_all
  · rw [hmd]
    dsimp only
    rw [ite_mapSet_self]
    cases i props.EquivalentIDProperty <;> cases i props.CanonicalIDProperty <;>
      dsimp only <;>
      simp only [mapSet_of_ne _ _ _ _ g10', mapSet_of_ne _ _ _ _ g9',
        ite_mapSet_of_ne _ _ _ _ _ g7', mapSet_of_ne _ _ _ _ g4', emptyMap]
  · rw [hmd]
    dsimp only
    rw [ite_mapSet_of_ne _ _ _ _ _ g9]
    cases i props.EquivalentIDProperty <;> cases i props.CanonicalIDProperty <;>
      dsimp only <;>
      simp only [mapSet_of_ne _ _ _ _ g8, mapSet_self, ite_mapSet_of_ne _ _ _ _ _ g5',
        mapSet_of_ne _ _ _ _ g2', emptyMap, Option.map_none', Option.map_some']
  · rw [hmd]
    dsimp only
    rw [ite_mapSet_of_ne _ _ _ _ _ g10]
    cases i props.EquivalentIDProperty <;> cases i props.CanonicalIDProperty <;>
      dsimp only <;>
      simp only [mapSet_of_ne _ _ _ _ g8', mapSet_self, ite_mapSet_of_ne _ _ _ _ _ g6',
        mapSet_of_ne _ _ _ _ g3', emptyMap, Option.map_none', Option.map_some']
  · intro k hk
    by_contra hnot
    simp only [List.mem_cons, List.mem_singleton, List.not_mem_nil, or_false, not_or] at hnot
    obtain ⟨k1, k2, k3, k4, k5⟩ := hnot
    apply hk
    rw [hmd]
    dsimp only
    rw [ite_mapSet_of_ne _ _ _ _ _ k5]
    cases i props.EquivalentIDProperty <;> cases i props.CanonicalIDProperty <;>
      dsimp only <;>
      simp only [mapSet_of_ne _ _ _ _ k4, mapSet_of_ne _ _ _ _ k3,
        ite_mapSet_of_ne _ _ _ _ _ k2, mapSet_of_ne _ _ _ _ k1, emptyMap]
  · intro hnew
    rw [hunp, hpub, hnew]
    simp [New]

/-- C32 (witness): the metadata of the example model made by a transformer that
includes published operations. -/
theorem C32_metadata_entries_witness :
    ∃ r i published,
      some exampleMetadataModel = some r ∧ some exampleInfo = some i ∧
      i "published" = some published ∧
      metadataEntries exampleProperties (New [WithIncludePublishedOperations true]) r i
        published (exampleMetadata [WithIncludePublishedOperations true]) :=
  C32_metadata_entries exampleProperties (New [WithIncludePublishedOperations true])
    (some exampleMetadataModel) (some exampleInfo) _ (by unfold keysDistinct; decide) rfl

end metadata

namespace processor

/-! ## The successful applications of a run -/

theorem createOperationHashMap_bucket (s : OperationProcessor) (ops : List AnchoredOperation)
    (k : String) (l : List AnchoredOperation) (h : createOperationHashMap s ops k = some l) :
    ∀ o ∈ l, o ∈ ops ∧ revealCommitment s o = .ok k := by
  rw [createOperationHashMap_eq] at h
  split at h
  · cases h
  · simp only [Option.some.injEq] at h
    subst h
    intro o ho
    have := List.mem_filter.1 ho
    exact ⟨this.1, by simpa using this.2⟩

theorem applyFirstValidOperation_attempts (s : OperationProcessor) (rm : ResolutionModel)
    (currC : String) (consumed : List String) :
    ∀ (ops : List AnchoredOperation),
      ((applyFirstValidOperation s ops rm currC consumed).1 = none ∧
        ∀ o ∈ (applyFirstValidOperation s ops rm currC consumed).2,
          o ∈ ops ∧ ∀ st', (applyOperation s o rm).1 ≠ .ok st') ∨
      (∃ st failed op,
        (applyFirstValidOperation s ops rm currC consumed).1 = some st ∧
        (applyFirstValidOperation s ops rm currC consumed).2 = failed ++ [op] ∧
        op ∈ ops ∧ (applyOperation s op rm).1 = .ok st ∧
        ∀ o ∈ failed, o ∈ ops ∧ ∀ st', (applyOperation s o rm).1 ≠ .ok st') := by
  intro ops
  induction ops with
  | nil => exact Or.inl ⟨rfl, by simp [applyFirstValidOperation]⟩
  | cons op ops ih =>
    have hrec : ((applyFirstValidOperation s ops rm currC consumed).1 = none ∧
        ∀ o ∈ (applyFirstValidOperation s ops rm currC consumed).2,
          o ∈ op :: ops ∧ ∀ st', (applyOperation s o rm).1 ≠ .ok st') ∨
      (∃ st failed o',
        (applyFirstValidOperation s ops rm currC consumed).1 = some st ∧
        (applyFirstValidOperation s ops rm currC consumed).2 = failed ++ [o'] ∧
        o' ∈ op :: ops ∧ (applyOperation s o' rm).1 = .ok st ∧
        ∀ o ∈ failed, o ∈ op :: ops ∧ ∀ st', (applyOperation s o rm).1 ≠ .ok st') := by
      rcases ih with ⟨h1, h2⟩ | ⟨st, failed, o', h1, h2, h3, h4, h5⟩
      · exact Or.inl ⟨h1, fun o ho => ⟨List.mem_cons_of_mem _ (h2 o ho).1, (h2 o ho).2⟩⟩
      · exact Or.inr ⟨st, failed, o', h1, h2, List.mem_cons_of_mem _ h3, h4,
          fun o ho => ⟨List.mem_cons_of_mem _ (h5 o ho).1, (h5 o ho).2⟩⟩
    rw [applyFirstValidOperation]
    cases hc : getCommitment s op with
    | error e => exact hrec
    | ok nextCommitment =>
      simp only
      by_cases h1 : currC = nextCommitment
      · rw [if_pos h1]
        exact hrec
      · rw [if_neg h1]
        by_cases h2 : nextCommitment ≠ "" ∧ nextCommitment ∈ consumed
        · rw [if_pos h2]
          exact hrec
        · rw [if_neg h2]
          have hmem := applyOperation_applied s op rm
          rcases ha : applyOperation s op rm with ⟨r, applied⟩
          rw [ha] at hmem
          cases r with
          | error e =>
            simp only
            have hfail : ∀ o ∈ applied, o ∈ op :: ops ∧
                ∀ st', (applyOperation s o rm).1 ≠ .ok st' := by
              intro o ho
              have := hmem o ho
              subst this
              refine ⟨List.mem_cons_self _ _, ?_⟩
              intro st' hst
              rw [ha] at hst
              cases hst
            rcases hrec with ⟨g1, g2⟩ | ⟨st, failed, o', g1, g2, g3, g4, g5⟩
            · refine Or.inl ⟨g1, ?_⟩
              intro o ho
              rcases List.mem_append.1 ho with ho | ho
              · exact hfail o ho
              · exact g2 o ho
            · refine Or.inr ⟨st, applied ++ failed, o', g1, ?_, g3, g4, ?_⟩
              · simp only [g2, List.append_assoc]
              · intro o ho
                rcases List.mem_append.1 ho with ho | ho
                · exact hfail o ho
                · exact g5 o ho
          | ok state =>
            simp only
            have happ := applyOperation_ok_applied s op rm state (by rw [ha])
            rw [ha] at happ
            simp only at happ
            refine Or.inr ⟨state, [], op, rfl, by rw [happ]; rfl, List.mem_cons_self _ _,
              by rw [ha], by simp⟩

theorem replaySteps_append (s : OperationProcessor) (ops : List AnchoredOperation)
    (commitmentFnc : ResolutionModel → String) (step : AppliedStep) :
    ∀ (steps : List AppliedStep) (st mid final : ResolutionModel),
      replaySteps s ops commitmentFnc st steps mid →
      replaySteps s ops commitmentFnc mid [step] final →
      replaySteps s ops commitmentFnc st (steps ++ [step]) final := by
  intro steps
  induction steps with
  | nil =>
    intro st mid final h1 h2
    simp only [replaySteps] at h1
    subst h1
    exact h2
  | cons a steps ih =>
    intro st mid final h1 h2
    obtain ⟨g1, g2, g3, g4, st', g5, g6⟩ := h1
    exact ⟨g1, g2, g3, g4, st', g5, ih st' mid final g6 h2⟩

theorem replaySteps_reveal (s : OperationProcessor) (ops : List AnchoredOperation)
    (commitmentFnc : ResolutionModel → String) :
    ∀ (steps : List AppliedStep) (st final : ResolutionModel),
      replaySteps s ops commitmentFnc st steps final →
      ∀ step ∈ steps, step.op ∈ ops ∧ revealCommitment s step.op = .ok step.commitment := by
  intro steps
  induction steps with
  | nil => intro st final _ step hstep; cases hstep
  | cons a steps ih =>
    intro st final h step hstep
    obtain ⟨_, g2, g3, _, st', _, g6⟩ := h
    rcases List.mem_cons.1 hstep with heq | hmem
    · rw [heq]
      exact ⟨g2, g3⟩
    · exact ih st' final g6 step hmem

theorem stepAttempts_cons (step : AppliedStep) (steps : List AppliedStep) :
    stepAttempts (step :: steps) = (step.failed ++ [step.op]) ++ stepAttempts steps := by
  simp [stepAttempts]

theorem applyOperationsLoop_replay (s : OperationProcessor) (ops : List AnchoredOperation)
    (commitmentFnc : ResolutionModel → String) (start : ResolutionModel) :
    ∀ (fuel : Nat) (state : ResolutionModel) (c : String)
      (commitmentOps : List AnchoredOperation) (done : List AppliedStep)
      (applied : List AnchoredOperation) (run : PhaseRun),
      replaySteps s ops commitmentFnc start done state →
      commitmentFnc state = c →
      (∀ o ∈ commitmentOps, o ∈ ops ∧ revealCommitment s o = .ok c) →
      applyOperationsLoop s (createOperationHashMap s ops) commitmentFnc fuel state c
        commitmentOps (done.map (fun step => step.commitment)) applied = .ok run →
      ∃ more trailing,
        replaySteps s ops commitmentFnc start (done ++ more) run.state ∧
        run.commitmentMap = (done ++ more).map (fun step => step.commitment) ∧
        run.applied = applied ++ stepAttempts more ++ trailing ∧
        (∀ o ∈ trailing, ∀ st', (applyOperation s o run.state).1 ≠ .ok st') := by
  intro fuel
  induction fuel with
  | zero =>
    intro state c commitmentOps done applied run _ _ _ h
    simp [applyOperationsLoop] at h
  | succ fuel ih =>
    intro state c commitmentOps done applied run hdone hc hbucket h
    rw [applyOperationsLoop] at h
    rcases applyFirstValidOperation_attempts s state c
        (done.map (fun step => step.commitment)) commitmentOps with
      ⟨h1, h2⟩ | ⟨st, failed, op, h1, h2, h3, h4, h5⟩
    · rcases hr : applyFirstValidOperation s commitmentOps state c
          (done.map (fun step => step.commitment)) with ⟨r, a⟩
      rw [hr] at h h1 h2
      simp only at h1 h2
      subst h1
      simp only [Except.ok.injEq] at h
      subst h
      refine ⟨[], a, by simpa using hdone, by simp, by simp [stepAttempts], ?_⟩
      intro o ho
      exact (h2 o ho).2
    · rcases hr : applyFirstValidOperation s commitmentOps state c
          (done.map (fun step => step.commitment)) with ⟨r, a⟩
      rw [hr] at h h1 h2
      simp only at h1 h2
      subst h1 h2
      simp only at h
      have hstep : replaySteps s ops commitmentFnc start (done ++ [⟨c, failed, op⟩]) st :=
        replaySteps_append s ops commitmentFnc ⟨c, failed, op⟩ done start state st hdone
          ⟨hc, (hbucket op h3).1, (hbucket op h3).2, fun o ho => (h5 o ho).2, st, h4, rfl⟩
      have hmap : (done ++ [(⟨c, failed, op⟩ : AppliedStep)]).map (fun step => step.commitment) =
          done.map (fun step => step.commitment) ++ [c] := by simp
      have hstop : ∀ run', run' = (⟨st, done.map (fun step => step.commitment) ++ [c],
            applied ++ (failed ++ [op])⟩ : PhaseRun) →
          ∃ more trailing,
            replaySteps s ops commitmentFnc start (done ++ more) run'.state ∧
            run'.commitmentMap = (done ++ more).map (fun step => step.commitment) ∧
            run'.applied = applied ++ stepAttempts more ++ trailing ∧
            (∀ o ∈ trailing, ∀ st', (applyOperation s o run'.state).1 ≠ .ok st') := by
        intro run' hrun
        subst hrun
        exact ⟨[⟨c, failed, op⟩], [], hstep, hmap.symm, by simp [stepAttempts], by simp⟩
      by_cases hempty : commitmentFnc st = ""
      · rw [if_pos hempty] at h
        simp only [Except.ok.injEq] at h
        exact hstop run h.symm
      · rw [if_neg hempty] at h
        cases hm : createOperationHashMap s ops (commitmentFnc st) with
        | none =>
          rw [hm] at h
          simp only [Except.ok.injEq] at h
          exact hstop run h.symm
        | some commitmentOps' =>
          rw [hm] at h
          simp only at h
          rw [← hmap] at h
          obtain ⟨more, trailing, g1, g2, g3, g4⟩ :=
            ih st (commitmentFnc st) commitmentOps' (done ++ [⟨c, failed, op⟩])
              (applied ++ (failed ++ [op])) run hstep rfl
              (createOperationHashMap_bucket s ops _ _ hm) h
          refine ⟨⟨c, failed, op⟩ :: more, trailing, ?_, ?_, ?_, g4⟩
          · simpa using g1
          · simpa using g2
          · rw [g3, stepAttempts_cons]
            simp only [List.append_assoc]

theorem applyOperations_replay (s : OperationProcessor) (fuel : Nat)
    (ops : List AnchoredOperation) (rm : ResolutionModel)
    (commitmentFnc : ResolutionModel → String) (run : PhaseRun)
    (h : applyOperations s fuel ops rm commitmentFnc = .ok run) :
    ∃ steps trailing,
      replaySteps s ops commitmentFnc rm steps run.state ∧
      run.commitmentMap = steps.map (fun step => step.commitment) ∧
      run.applied = stepAttempts steps ++ trailing ∧
      (∀ o ∈ trailing, ∀ st', (applyOperation s o run.state).1 ≠ .ok st') := by
  unfold applyOperations at h
  cases ops with
  | nil => simp at h
  | cons op ops =>
    simp only at h
    cases hm : createOperationHashMap s (op :: ops) (commitmentFnc rm) with
    | none =>
      rw [hm] at h
      simp only [Except.ok.injEq] at h
      subst h
      exact ⟨[], [], rfl, rfl, rfl, by simp⟩
    | some commitmentOps =>
      rw [hm] at h
      obtain ⟨more, trailing, g1, g2, g3, g4⟩ :=
        applyOperationsLoop_replay s (op :: ops) commitmentFnc rm fuel rm (commitmentFnc rm)
          commitmentOps [] [] run rfl rfl
          (createOperationHashMap_bucket s (op :: ops) _ _ hm) h
      exact ⟨more, trailing, by simpa using g1, by simpa using g2, by simpa using g3, g4⟩

theorem replaySteps_distinct (s : OperationProcessor) (ops : List AnchoredOperation)
    (commitmentFnc : ResolutionModel → String) (steps : List AppliedStep)
    (st final : ResolutionModel) (hsteps : replaySteps s ops commitmentFnc st steps final)
    (hnodup : (steps.map (fun step => step.commitment)).Nodup) :
    (steps.map (fun step => step.op)).Nodup ∧
      steps.length ≤ (commitmentBuckets s ops).length ∧
      (commitmentBuckets s ops).length ≤ ops.length := by
  have hreveal := replaySteps_reveal s ops commitmentFnc steps st final hsteps
  refine ⟨?_, ?_, ?_⟩
  · have hmap : steps.map (fun step => step.commitment) =
        (steps.map (fun step => step.op)).map
          (fun o => ((revealCommitment s o).toOption).getD "") := by
      rw [List.map_map]
      apply List.map_congr_left
      intro step hstep
      simp [(hreveal step hstep).2, Except.toOption]
    rw [hmap] at hnodup
    exact List.Nodup.of_map _ hnodup
  · have hsub : steps.map (fun step => step.commitment) ⊆ commitmentBuckets s ops := by
      intro c hc
      obtain ⟨step, hstep, rfl⟩ := List.mem_map.1 hc
      rw [commitmentBuckets, List.mem_dedup, List.mem_filterMap]
      exact ⟨step.op, (hreveal step hstep).1, by simp [(hreveal step hstep).2, Except.toOption]⟩
    have := (List.subperm_of_subset hnodup hsub).length_le
    simpa using this
  · rw [commitmentBuckets]
    exact (List.dedup_sublist _).length_le.trans (List.length_filterMap_le _ _)

/-! ## C36: one application per commitment bucket -/

/-- C36: in a run of `applyOperations` with an applier that obeys its contract on the
operations of the list, the successful applications are the steps of a replay: each
applied operation is an operation of the list in the bucket of the commitment selected
before it, the commitments of the steps (those marked as consumed) are pairwise
distinct, so each bucket yields at most one applied operation and the applied
operations are pairwise distinct; the applier fails on every other operation handed to
it. -/
theorem C36_one_application_per_bucket (s : OperationProcessor) (fuel : Nat)
    (ops : List AnchoredOperation) (rm : ResolutionModel)
    (commitmentFnc : ResolutionModel → String) (run : PhaseRun)
    (hcontract : ∀ (op : AnchoredOperation) (rm rm' : ResolutionModel) (nextC : String),
      op ∈ ops → getCommitment s op = .ok nextC → (applyOperation s op rm).1 = .ok rm' →
        commitmentFnc rm' = nextC)
    (h : applyOperations s fuel ops rm commitmentFnc = .ok run) :
    ∃ steps trailing,
      replaySteps s ops commitmentFnc rm steps run.state ∧
      run.commitmentMap = steps.map (fun step => step.commitment) ∧
      run.applied = stepAttempts steps ++ trailing ∧
      (∀ o ∈ trailing, ∀ st', (applyOperation s o run.state).1 ≠ .ok st') ∧
      (steps.map (fun step => step.commitment)).Nodup ∧
      (steps.map (fun step => step.op)).Nodup := by
  obtain ⟨steps, trailing, h1, h2, h3, h4⟩ :=
    applyOperations_replay s fuel ops rm commitmentFnc run h
  have hnodup : (steps.map (fun step => step.commitment)).Nodup := by
    rw [← h2]
    exact applyOperations_nodup s fuel ops rm commitmentFnc run hcontract h
  exact ⟨steps, trailing, h1, h2, h3, h4, hnodup,
    (replaySteps_distinct s ops commitmentFnc steps rm run.state h1 hnodup).1⟩

theorem exampleUpdateChain_contract (op : AnchoredOperation) (rm rm' : ResolutionModel)
    (nextC : String) (hmem : op ∈ exampleUpdateChain)
    (hc : getCommitment (exampleProcessor [] []) op = .ok nextC)
    (ha : (applyOperation (exampleProcessor [] []) op rm).1 = .ok rm') :
    getUpdateCommitment rm' = nextC := by
  have htype : ∀ o ∈ exampleUpdateChain, o.Type_ = TypeUpdate := by decide
  exact (exampleProcessor_contract [] [] op rm rm' nextC hc ha).1 (htype op hmem)

/-- C36 (witness): the chain of three updates: the run returns, and its successful
applications are the steps of a replay with pairwise distinct commitments. -/
theorem C36_one_application_per_bucket_witness :
    ∃ run, applyOperations (exampleProcessor [] []) 3 exampleUpdateChain exampleChainStart
        getUpdateCommitment = .ok run ∧
      ∃ steps trailing,
        replaySteps (exampleProcessor [] []) exampleUpdateChain getUpdateCommitment
          exampleChainStart steps run.state ∧
        run.commitmentMap = steps.map (fun step => step.commitment) ∧
        run.applied = stepAttempts steps ++ trailing ∧
        (∀ o ∈ trailing, ∀ st',
          (applyOperation (exampleProcessor [] []) o run.state).1 ≠ .ok st') ∧
        (steps.map (fun step => step.commitment)).Nodup ∧
        (steps.map (fun step => step.op)).Nodup :=
  (applyOperations_terminates (exampleProcessor [] []) 3 exampleUpdateChain exampleChainStart
    getUpdateCommitment exampleUpdateChain_contract (by decide) (by decide)).elim
    (fun run hrun => ⟨run, hrun,
      C36_one_application_per_bucket (exampleProcessor [] []) 3 exampleUpdateChain
        exampleChainStart getUpdateCommitment run exampleUpdateChain_contract hrun⟩)

/-! ## C37: an empty selected commitment -/

/-- C37: for a non-empty list of operations none of which reveals to the empty
commitment, and a state whose selected commitment is the empty string, `applyOperations`
returns the state unchanged, marks no commitment and hands no operation to the applier,
whatever the fuel. -/
theorem C37_empty_commitment (s : OperationProcessor) (fuel : Nat)
    (ops : List AnchoredOperation) (rm : ResolutionModel)
    (commitmentFnc : ResolutionModel → String) (hne : ops ≠ [])
    (hreveal : ∀ op ∈ ops, revealCommitment s op ≠ .ok "")
    (hempty : commitmentFnc rm = "") :
    applyOperations s fuel ops rm commitmentFnc = .ok ⟨rm, [], []⟩ := by
  unfold applyOperations
  cases ops with
  | nil => exact absurd rfl hne
  | cons op ops =>
    simp only
    rw [hempty, createOperationHashMap_none s (op :: ops) "" hreveal]

/-- C37 (witness): the chain of three updates on a state without update commitment. -/
theorem C37_empty_commitment_witness :
    applyOperations (exampleProcessor [] []) 0 exampleUpdateChain
        { exampleChainStart with UpdateCommitment := "" } getUpdateCommitment =
      .ok ⟨{ exampleChainStart with UpdateCommitment := "" }, [], []⟩ :=
  C37_empty_commitment (exampleProcessor [] []) 0 exampleUpdateChain
    { exampleChainStart with UpdateCommitment := "" } getUpdateCommitment (by decide)
    (by decide) rfl

/-! ## C38: termination of `applyOperations` -/

/-- C38: with an applier that obeys its contract on the operations of a non-empty list,
`applyOperations` returns (the fuel being at least the length of the list), and its
successful applications, the steps of the replay, are at most as many as the distinct
commitment buckets of the list, which are at most as many as the operations. -/
theorem C38_terminates_within_buckets (s : OperationProcessor) (fuel : Nat)
    (ops : List AnchoredOperation) (rm : ResolutionModel)
    (commitmentFnc : ResolutionModel → String)
    (hcontract : ∀ (op : AnchoredOperation) (rm rm' : ResolutionModel) (nextC : String),
      op ∈ ops → getCommitment s op = .ok nextC → (applyOperation s op rm).1 = .ok rm' →
        commitmentFnc rm' = nextC)
    (hne : ops ≠ []) (hfuel : ops.length ≤ fuel) :
    ∃ run steps trailing,
      applyOperations s fuel ops rm commitmentFnc = .ok run ∧
      replaySteps s ops commitmentFnc rm steps run.state ∧
      run.commitmentMap = steps.map (fun step => step.commitment) ∧
      run.applied = stepAttempts steps ++ trailing ∧
      (∀ o ∈ trailing, ∀ st', (applyOperation s o run.state).1 ≠ .ok st') ∧
      steps.length ≤ (commitmentBuckets s ops).length ∧
      (commitmentBuckets s ops).length ≤ ops.length := by
  obtain ⟨run, hrun⟩ := applyOperations_terminates s fuel ops rm commitmentFnc hcontract hne hfuel
  obtain ⟨steps, trailing, h1, h2, h3, h4⟩ :=
    applyOperations_replay s fuel ops rm commitmentFnc run hrun
  have hnodup : (steps.map (fun step => step.commitment)).Nodup := by
    rw [← h2]
    exact applyOperations_nodup s fuel ops rm commitmentFnc run hcontract hrun
  have hd := replaySteps_distinct s ops commitmentFnc steps rm run.state h1 hnodup
  exact ⟨run, steps, trailing, hrun, h1, h2, h3, h4, hd.2.1, hd.2.2⟩

/-- C38 (witness): the chain of three updates with fuel 3. -/
theorem C38_terminates_within_buckets_witness :
    ∃ run steps trailing,
      applyOperations (exampleProcessor [] []) 3 exampleUpdateChain exampleChainStart
        getUpdateCommitment = .ok run ∧
      replaySteps (exampleProcessor [] []) exampleUpdateChain getUpdateCommitment
        exampleChainStart steps run.state ∧
      run.commitmentMap = steps.map (fun step => step.commitment) ∧
      run.applied = stepAttempts steps ++ trailing ∧
      (∀ o ∈ trailing, ∀ st',
        (applyOperation (exampleProcessor [] []) o run.state).1 ≠ .ok st') ∧
      steps.length ≤ (commitmentBuckets (exampleProcessor [] []) exampleUpdateChain).length ∧
      (commitmentBuckets (exampleProcessor [] []) exampleUpdateChain).length ≤
        exampleUpdateChain.length :=
  C38_terminates_within_buckets (exampleProcessor [] []) 3 exampleUpdateChain
    exampleChainStart getUpdateCommitment exampleUpdateChain_contract (by decide) (by decide)

/-! ## C39: the read of `ops[0]` -/

theorem applyOperationsLoop_ne_indexOutOfRange (s : OperationProcessor)
    (opMap : String → Option (List AnchoredOperation))
    (commitmentFnc : ResolutionModel → String) :
    ∀ (fuel : Nat) (state : ResolutionModel) (c : String)
      (commitmentOps : List AnchoredOperation) (commitmentMap : List String)
      (applied : List AnchoredOperation),
      applyOperationsLoop s opMap commitmentFnc fuel state c commitmentOps commitmentMap
        applied ≠ .error Fault.indexOutOfRange := by
  intro fuel
  induction fuel with
  | zero =>
    intro state c commitmentOps commitmentMap applied h
    simp [applyOperationsLoop] at h
  | succ fuel ih =>
    intro state c commitmentOps commitmentMap applied h
    rw [applyOperationsLoop] at h
    generalize applyFirstValidOperation s commitmentOps state c commitmentMap = x at h
    rcases x with ⟨r, a⟩
    cases r with
    | none => cases h
    | some newState =>
      simp only at h
      split at h
      · cases h
      · split at h
        · cases h
        · exact ih _ _ _ _ _ h

theorem applyOperations_ne_indexOutOfRange (s : OperationProcessor) (fuel : Nat)
    (ops : List AnchoredOperation) (rm : ResolutionModel)
    (commitmentFnc : ResolutionModel → String) (hne : ops ≠ []) :
    applyOperations s fuel ops rm commitmentFnc ≠ .error Fault.indexOutOfRange := by
  unfold applyOperations
  cases ops with
  | nil => exact absurd rfl hne
  | cons op ops =>
    simp only
    cases createOperationHashMap s (op :: ops) (commitmentFnc rm) with
    | none => simp
    | some commitmentOps => exact applyOperationsLoop_ne_indexOutOfRange s _ _ _ _ _ _ _ _

theorem resolveUpdates_ne_indexOutOfRange (s : OperationProcessor) (fuel : Nat)
    (updateOps : List AnchoredOperation) (rm : ResolutionModel)
    (applied : List AnchoredOperation) (consumedFull : List String) :
    resolveUpdates s fuel updateOps rm applied consumedFull ≠ .error Fault.indexOutOfRange := by
  unfold resolveUpdates
  simp only
  split
  · rename_i hlen
    have hne : getOpsWithTxnGreaterThanOrUnpublished updateOps rm.LastOperationTransactionTime
        rm.LastOperationTransactionNumber ≠ [] := by
      intro hnil
      rw [hnil] at hlen
      simp at hlen
    have := applyOperations_ne_indexOutOfRange s fuel _ rm getUpdateCommitment hne
    intro h
    split at h
    · rename_i f hf
      simp only [Except.error.injEq] at h
      subst h
      exact this hf
    · cases h
  · simp

theorem resolveFull_ne_indexOutOfRange (s : OperationProcessor) (fuel : Nat)
    (updateOps fullOps : List AnchoredOperation) (rm : ResolutionModel)
    (applied : List AnchoredOperation) :
    resolveFull s fuel updateOps fullOps rm applied ≠ .error Fault.indexOutOfRange := by
  unfold resolveFull
  split
  · rename_i hlen
    have hne : fullOps ≠ [] := by
      intro hnil
      rw [hnil] at hlen
      simp at hlen
    have := applyOperations_ne_indexOutOfRange s fuel fullOps rm getRecoveryCommitment hne
    intro h
    split at h
    · rename_i f hf
      simp only [Except.error.injEq] at h
      subst h
      exact this hf
    · split at h
      · cases h
      · exact resolveUpdates_ne_indexOutOfRange s fuel _ _ _ _ h
  · exact resolveUpdates_ne_indexOutOfRange s fuel _ _ _ _

/-- C39: `applyOperations` fails on an empty list, at its read of `ops[0]`, and no run of
`Resolve` ends in this failure: `Resolve` calls `applyOperations` on the full operations
and on the filtered update operations only when the list is non-empty. -/
theorem C39_ops_non_empty (s : OperationProcessor) (fuel : Nat) (uniqueSuffix : String)
    (additionalOps : List AnchoredOperation) :
    (∀ (rm : ResolutionModel) (commitmentFnc : ResolutionModel → String),
      applyOperations s fuel [] rm commitmentFnc = .error Fault.indexOutOfRange) ∧
    (∀ (updateOps fullOps : List AnchoredOperation) (rm : ResolutionModel)
      (applied : List AnchoredOperation),
      resolveFull s fuel updateOps fullOps rm applied ≠ .error Fault.indexOutOfRange) ∧
    Resolve s fuel uniqueSuffix additionalOps ≠ .error Fault.indexOutOfRange := by
  refine ⟨fun _ _ => rfl, resolveFull_ne_indexOutOfRange s fuel, ?_⟩
  have hg : ∀ publishedOps unpublishedOps,
      resolveGathered s fuel publishedOps unpublishedOps ≠ .error Fault.indexOutOfRange := by
    intro publishedOps unpublishedOps
    unfold resolveGathered
    simp only
    split
    · simp
    · split
      · simp
      · exact resolveFull_ne_indexOutOfRange s fuel _ _ _ _
  unfold Resolve
  split
  · split
    · simp
    · exact hg _ _
  · exact hg _ _

end processor

namespace hashing

/-! ## C33: the supported multihash codes -/

theorem GetHashFromMultihash_ok (multihashCode : Nat) (hash : Hash) :
    GetHashFromMultihash multihashCode = .ok hash ↔
      (multihashCode = SHA2_256 ∧ hash = Hash.SHA256) ∨
        (multihashCode = SHA2_512 ∧ hash = Hash.SHA512) := by
  have hne : SHA2_256 ≠ SHA2_512 := by decide
  unfold GetHashFromMultihash
  by_cases h1 : multihashCode = SHA2_256
  · rw [if_pos h1]
    constructor
    · intro h
      simp only [Except.ok.injEq] at h
      exact Or.inl ⟨h1, h.symm⟩
    · rintro (⟨_, h⟩ | ⟨h2, _⟩)
      · rw [h]
      · exact absurd (h1.symm.trans h2) hne
  · rw [if_neg h1]
    by_cases h2 : multihashCode = SHA2_512
    · rw [if_pos h2]
      constructor
      · intro h
        simp only [Except.ok.injEq] at h
        exact Or.inr ⟨h2, h.symm⟩
      · rintro (⟨h, _⟩ | ⟨_, h⟩)
        · exact absurd h h1
        · rw [h]
    · rw [if_neg h2]
      constructor
      · intro h
        cases h
      · rintro (⟨h, _⟩ | ⟨h, _⟩)
        · exact absurd h h1
        · exact absurd h h2

theorem GetHashFromMultihash_unsupported (multihashCode : Nat)
    (h1 : multihashCode ≠ SHA2_256) (h2 : multihashCode ≠ SHA2_512) :
    GetHashFromMultihash multihashCode =
      .error "algorithm not supported, unable to compute hash" := by
  unfold GetHashFromMultihash
  rw [if_neg h1, if_neg h2]

/-- C33 (counterexample): for the code `0x11`, which is not supported, and a model that
cannot be canonicalized, `CalculateModelMultihash` fails with the error of the
canonicalizer, not with the error of the unsupported algorithm. -/
theorem C33_counterexample :
    GetHashFromMultihash 0x11 = .error "algorithm not supported, unable to compute hash" ∧
    examplePrimitives.MarshalCanonical none = .error "json: unsupported value" ∧
    CalculateModelMultihash examplePrimitives none 0x11 =
      .error "json: unsupported value" := by
  refine ⟨by decide, rfl, by decide⟩

/-- C33 (amended): `GetHashFromMultihash` succeeds exactly for the codes `SHA2_256 = 0x12`
(giving SHA-256) and `SHA2_512 = 0x13` (giving SHA-512); for every other code
`GetHashFromMultihash` and `ComputeMultihash` fail with the error of the unsupported
algorithm, and `CalculateModelMultihash` fails too: with that error when the model can
be canonicalized, and with the error of the canonicalizer when it cannot. -/
theorem C33_supported_codes {α : Type} (P : Primitives α) (multihashCode : Nat) :
    SHA2_256 = 0x12 ∧ SHA2_512 = 0x13 ∧
    (∀ hash, GetHashFromMultihash multihashCode = .ok hash ↔
      (multihashCode = SHA2_256 ∧ hash = Hash.SHA256) ∨
        (multihashCode = SHA2_512 ∧ hash = Hash.SHA512)) ∧
    (multihashCode ≠ SHA2_256 → multihashCode ≠ SHA2_512 →
      GetHashFromMultihash multihashCode =
        .error "algorithm not supported, unable to compute hash" ∧
      (∀ bytes, ComputeMultihash P multihashCode bytes =
        .error "algorithm not supported, unable to compute hash") ∧
      (∀ value bytes, P.MarshalCanonical value = .ok bytes →
        CalculateModelMultihash P value multihashCode =
          .error "algorithm not supported, unable to compute hash") ∧
      (∀ value err, P.MarshalCanonical value = .error err →
        CalculateModelMultihash P value multihashCode = .error err)) := by
  refine ⟨rfl, rfl, GetHashFromMultihash_ok multihashCode, ?_⟩
  intro h1 h2
  have hget := GetHashFromMultihash_unsupported multihashCode h1 h2
  have hcompute : ∀ bytes, ComputeMultihash P multihashCode bytes =
      .error "algorithm not supported, unable to compute hash" := by
    intro bytes
    rw [ComputeMultihash, hget]
  refine ⟨hget, hcompute, ?_, ?_⟩
  · intro value bytes hm
    rw [CalculateModelMultihash, hm]
    simp only [hcompute]
  · intro value err hm
    rw [CalculateModelMultihash, hm]

/-- C33 (witness): the code `0x11` with the example primitives. -/
theorem C33_supported_codes_witness :
    GetHashFromMultihash 0x11 = .error "algorithm not supported, unable to compute hash" ∧
    (∀ bytes, ComputeMultihash examplePrimitives 0x11 bytes =
      .error "algorithm not supported, unable to compute hash") ∧
    CalculateModelMultihash examplePrimitives (some [1, 2, 3]) 0x11 =
      .error "algorithm not supported, unable to compute hash" :=
  ⟨((C33_supported_codes examplePrimitives 0x11).2.2.2 (by decide) (by decide)).1,
    ((C33_supported_codes examplePrimitives 0x11).2.2.2 (by decide) (by decide)).2.1,
    ((C33_supported_codes examplePrimitives 0x11).2.2.2 (by decide) (by decide)).2.2.1
      (some [1, 2, 3]) [1, 2, 3] rfl⟩

/-! ## C34: the round trip -/

/-- C34: for a code with a hash function (`SHA2_256` or `SHA2_512`) and a model that can
be canonicalized, provided that the hash function is available and accepts the data,
that the multihash library encodes the digest and decodes the encoding to the same
code, and that the encoder decodes its own encoding of the multihash,
`CalculateModelMultihash` succeeds, `GetMultihashCode` of its result succeeds and
returns the code, and `IsValidModelMultihash` of the model and the result returns no
error. -/
theorem C34_round_trip {α : Type} (P : Primitives α) (x : α) (code : Nat) (hash : Hash)
    (bytes mh : List Nat) (dm : DecodedMultihash)
    (hmarshal : P.MarshalCanonical x = .ok bytes)
    (hhash : GetHashFromMultihash code = .ok hash)
    (havailable : P.Available hash = true)
    (hwrite : P.Write hash bytes = none)
    (hencode : P.Encode (P.Sum hash bytes) code = .ok mh)
    (hdecode : P.Decode mh = .ok dm)
    (hsame : dm.Code = code)
    (hstring : P.DecodeString (P.EncodeToString mh) = .ok mh) :
    CalculateModelMultihash P x code = .ok (P.EncodeToString mh) ∧
    GetMultihashCode P (P.EncodeToString mh) = .ok code ∧
    IsValidModelMultihash P x (P.EncodeToString mh) = none := by
  have hget : GetHash P hash bytes = .ok (P.Sum hash bytes) := by
    rw [GetHash, if_neg (by rw [havailable]; decide), hwrite]
  have hcompute : ComputeMultihash P code bytes = .ok mh := by
    rw [ComputeMultihash, hhash]
    simp only [hget, hencode]
  have hcalc : CalculateModelMultihash P x code = .ok (P.EncodeToString mh) := by
    rw [CalculateModelMultihash, hmarshal]
    simp only [hcompute]
  have hgetcode : GetMultihashCode P (P.EncodeToString mh) = .ok code := by
    rw [GetMultihashCode, hstring]
    simp only [hdecode, hsame]
  refine ⟨hcalc, hgetcode, ?_⟩
  rw [IsValidModelMultihash, hgetcode]
  simp only [hcalc]
  rw [if_neg (not_not.2 rfl)]

/-- C34 (witness): the model `[1, 2, 3]` and the code `SHA2_256` with the example
primitives. -/
theorem C34_round_trip_witness :
    CalculateModelMultihash examplePrimitives (some [1, 2, 3]) SHA2_256 =
      .ok (examplePrimitives.EncodeToString [18, 2, 6, 5]) ∧
    GetMultihashCode examplePrimitives (examplePrimitives.EncodeToString [18, 2, 6, 5]) =
      .ok SHA2_256 ∧
    IsValidModelMultihash examplePrimitives (some [1, 2, 3])
      (examplePrimitives.EncodeToString [18, 2, 6, 5]) = none :=
  C34_round_trip examplePrimitives (some [1, 2, 3]) SHA2_256 Hash.SHA256 [1, 2, 3]
    [18, 2, 6, 5] ⟨18, "", 2, [6, 5]⟩ rfl rfl rfl rfl rfl rfl rfl (by decide)

/-! ## C35: the comparison of `IsValidModelMultihash` -/

/-- C35 (counterexample): the expected string decodes to a multihash with the supported
code `SHA2_256`, and the model cannot be canonicalized: `IsValidModelMultihash` returns
the error of the canonicalizer, which is neither the mismatch error nor nil. -/
theorem C35_counterexample :
    GetMultihashCode examplePrimitives (examplePrimitives.EncodeToString [18, 2, 6, 5]) =
      .ok SHA2_256 ∧
    CalculateModelMultihash examplePrimitives none SHA2_256 =
      .error "json: unsupported value" ∧
    IsValidModelMultihash examplePrimitives none
      (examplePrimitives.EncodeToString [18, 2, 6, 5]) = some "json: unsupported value" := by
  refine ⟨by decide, by decide, by decide⟩

/-- C35 (amended): when the expected string decodes to a multihash with code `c`:
if `CalculateModelMultihash(model, c)` succeeds, `IsValidModelMultihash` returns the
mismatch error exactly when the computed string differs from the expected one and nil
exactly when they are equal; if it fails (the model cannot be canonicalized, the code
is not supported, a library fails), `IsValidModelMultihash` returns that error.  When
the expected string cannot be decoded, it returns the error of the decoding. -/
theorem C35_comparison {α : Type} (P : Primitives α) (model : α) (expected : String) :
    (∀ c, GetMultihashCode P expected = .ok c →
      (∀ computed, CalculateModelMultihash P model c = .ok computed →
        (IsValidModelMultihash P model expected =
            some "supplied hash doesn't match original content" ↔ computed ≠ expected) ∧
        (IsValidModelMultihash P model expected = none ↔ computed = expected)) ∧
      (∀ err, CalculateModelMultihash P model c = .error err →
        IsValidModelMultihash P model expected = some err) ∧
      (c ≠ SHA2_256 → c ≠ SHA2_512 →
        ∃ err, IsValidModelMultihash P model expected = some err)) ∧
    (∀ err, GetMultihashCode P expected = .error err →
      IsValidModelMultihash P model expected = some err) := by
  refine ⟨?_, ?_⟩
  · intro c hc
    have hcalc_err : ∀ err, CalculateModelMultihash P model c = .error err →
        IsValidModelMultihash P model expected = some err := by
      intro err herr
      rw [IsValidModelMultihash, hc]
      simp only [herr]
    refine ⟨?_, hcalc_err, ?_⟩
    · intro computed hcomp
      rw [IsValidModelMultihash, hc]
      simp only [hcomp]
      by_cases heq : computed = expected
      · rw [if_neg (not_not.2 heq)]
        simp [heq]
      · rw [if_pos heq]
        simp [heq]
    · intro h1 h2
      have hget := GetHashFromMultihash_unsupported c h1 h2
      cases hm : P.MarshalCanonical model with
      | error e =>
        exact ⟨e, hcalc_err e (by rw [CalculateModelMultihash, hm])⟩
      | ok bytes =>
        refine ⟨"algorithm not supported, unable to compute hash", hcalc_err _ ?_⟩
        rw [CalculateModelMultihash, hm]
        simp only [ComputeMultihash, hget]
  · intro err herr
    rw [IsValidModelMultihash, herr]

/-- C35 (witness): with the example primitives, the model `[1, 2, 3]` against its own
multihash and against the multihash of another model. -/
theorem C35_comparison_witness :
    (IsValidModelMultihash examplePrimitives (some [1, 2, 3])
        (examplePrimitives.EncodeToString [18, 2, 6, 5]) = none ↔
      examplePrimitives.EncodeToString [18, 2, 6, 5] =
        examplePrimitives.EncodeToString [18, 2, 6, 5]) ∧
    (IsValidModelMultihash examplePrimitives (some [1, 2, 3])
        (examplePrimitives.EncodeToString [18, 2, 7, 5]) =
          some "supplied hash doesn't match original content" ↔
      examplePrimitives.EncodeToString [18, 2, 6, 5] ≠
        examplePrimitives.EncodeToString [18, 2, 7, 5]) :=
  ⟨(((C35_comparison examplePrimitives (some [1, 2, 3])
      (examplePrimitives.EncodeToString [18, 2, 6, 5])).1 18 (by decide)).1
        (examplePrimitives.EncodeToString [18, 2, 6, 5]) (by decide)).2,
    (((C35_comparison examplePrimitives (some [1, 2, 3])
      (examplePrimitives.EncodeToString [18, 2, 7, 5])).1 18 (by decide)).1
        (examplePrimitives.EncodeToString [18, 2, 6, 5]) (by decide)).1⟩

end hashing

namespace txnprovider

/-! ## C40: the positional reads and writes -/

theorem attachSignedData_of_le :
    ∀ (ops : List Operation) (signed : List String), ops.length ≤ signed.length →
      ∃ res, attachSignedData ops signed = .ok res := by
  intro ops
  induction ops with
  | nil => intro signed _; exact ⟨[], rfl⟩
  | cons op ops ih =>
    intro signed hle
    cases signed with
    | nil => simp at hle
    | cons sd signed =>
      obtain ⟨rest, hrest⟩ := ih signed (by simpa using hle)
      exact ⟨{ op with SignedData := sd } :: rest, by rw [attachSignedData, hrest]⟩

theorem attachProofData_of_le (ops : List Operation) (signed : Option (List String))
    (hle : ops ≠ [] → ∃ l, signed = some l ∧ ops.length ≤ l.length) :
    ∃ res, attachProofData ops signed = .ok res := by
  cases ops with
  | nil => exact ⟨[], by simp [attachProofData]⟩
  | cons op ops =>
    obtain ⟨l, hl, hlen⟩ := hle (by simp)
    subst hl
    simpa [attachProofData] using attachSignedData_of_le (op :: ops) l hlen

theorem attachDeltas_of_le :
    ∀ (deltas : List (Option String)) (ops : List Operation), deltas.length ≤ ops.length →
      ∃ res, attachDeltas ops deltas = .ok res := by
  intro deltas
  induction deltas with
  | nil =>
    intro ops _
    exact ⟨ops, by cases ops <;> rfl⟩
  | cons d deltas ih =>
    intro ops hle
    cases ops with
    | nil => simp at hle
    | cons op ops =>
      obtain ⟨rest, hrest⟩ := ih ops (by simpa using hle)
      exact ⟨{ op with Delta := d } :: rest, by rw [attachDeltas, hrest]⟩

/-- C40: when the core proof file is present with at least as many recover entries
(deactivate entries) as the core index file whenever its recover list (deactivate list)
is non-empty, and the provisional proof file is present with at least as many update
entries as the provisional index file whenever that list is non-empty,
`assembleAnchoredOperations` does not panic; and when the core proof file that
`processDeactivateOnly` reads has at least as many deactivate entries as the core index
file, `processDeactivateOnly` does not panic. -/
theorem C40_reads_in_bounds (h : OperationProvider) (txn : SidetreeTxn) :
    (∀ bf : batchFiles,
      (bf.CoreIndex.Operations.Recover ≠ [] →
        ∃ cpf, bf.CoreProof = some cpf ∧
          bf.CoreIndex.Operations.Recover.length ≤ cpf.Operations.Recover.length) →
      (bf.CoreIndex.Operations.Deactivate ≠ [] →
        ∃ cpf, bf.CoreProof = some cpf ∧
          bf.CoreIndex.Operations.Deactivate.length ≤ cpf.Operations.Deactivate.length) →
      (bf.ProvisionalIndex.Operations.Update ≠ [] →
        ∃ ppf, bf.ProvisionalProof = some ppf ∧
          bf.ProvisionalIndex.Operations.Update.length ≤ ppf.Operations.Update.length) →
      ∀ p, assembleAnchoredOperations h bf txn ≠ .panic p) ∧
    (∀ cif : CoreIndexFile,
      (∀ cpf, (getCoreProofFile h cif.CoreProofFileURI).1 = .ok cpf →
        cif.Operations.Deactivate.length ≤ cpf.Operations.Deactivate.length) →
      ∀ p, (processDeactivateOnly h cif txn).1 ≠ .panic p) := by
  constructor
  · intro bf hrecover hdeactivate hupdate p hp
    have hr : ∃ res, attachProofData
        (bf.CoreIndex.Operations.Recover.map (referencedOperation TypeRecover))
        (bf.CoreProof.map (fun cpf => cpf.Operations.Recover)) = .ok res := by
      apply attachProofData_of_le
      intro hne
      obtain ⟨cpf, hcpf, hlen⟩ := hrecover (by simpa using hne)
      exact ⟨cpf.Operations.Recover, by rw [hcpf]; rfl, by simpa using hlen⟩
    have hd : ∃ res, attachProofData
        (bf.CoreIndex.Operations.Deactivate.map (referencedOperation TypeDeactivate))
        (bf.CoreProof.map (fun cpf => cpf.Operations.Deactivate)) = .ok res := by
      apply attachProofData_of_le
      intro hne
      obtain ⟨cpf, hcpf, hlen⟩ := hdeactivate (by simpa using hne)
      exact ⟨cpf.Operations.Deactivate, by rw [hcpf]; rfl, by simpa using hlen⟩
    have hu : ∃ res, attachProofData
        (bf.ProvisionalIndex.Operations.Update.map (referencedOperation TypeUpdate))
        (bf.ProvisionalProof.map (fun ppf => ppf.Operations.Update)) = .ok res := by
      apply attachProofData_of_le
      intro hne
      obtain ⟨ppf, hppf, hlen⟩ := hupdate (by simpa using hne)
      exact ⟨ppf.Operations.Update, by rw [hppf]; rfl, by simpa using hlen⟩
    obtain ⟨recoverOps, hr⟩ := hr
    obtain ⟨deactivateOps, hd⟩ := hd
    obtain ⟨updateOps, hu⟩ := hu
    rw [assembleAnchoredOperations, assembleOperations, parseCoreIndexOperations] at hp
    cases hc : parseCreateOperations h bf.CoreIndex.Operations.Create with
    | error e => rw [hc] at hp; cases hp
    | ok creates =>
      rw [hc] at hp
      simp only [parseProvisionalIndexOperations] at hp
      cases hdup : checkForDuplicates
          (creates.map (fun op => op.UniqueSuffix) ++
            bf.CoreIndex.Operations.Recover.map (fun op => op.DidSuffix) ++
            bf.CoreIndex.Operations.Deactivate.map (fun op => op.DidSuffix) ++
            bf.ProvisionalIndex.Operations.Update.map (fun op => op.DidSuffix)) with
      | some e => rw [hdup] at hp; cases hp
      | none =>
        rw [hdup] at hp
        simp only [hr, hu, hd] at hp
        by_cases hlen : (creates ++ recoverOps ++ updateOps).length = bf.Chunk.Deltas.length
        · rw [if_neg (not_not.2 hlen)] at hp
          obtain ⟨withDeltas, hw⟩ :=
            attachDeltas_of_le bf.Chunk.Deltas (creates ++ recoverOps ++ updateOps)
              (Nat.le_of_eq hlen.symm)
          rw [hw] at hp
          simp only at hp
          cases hcr : createAnchoredOperations h (withDeltas ++ deactivateOps) with
          | error e => rw [hcr] at hp; cases hp
          | ok anchoredOps => rw [hcr] at hp; cases hp
        · rw [if_pos hlen] at hp
          cases hp
  · intro cif hlen p hp
    rw [processDeactivateOnly, parseCoreIndexOperations] at hp
    cases hc : parseCreateOperations h cif.Operations.Create with
    | error e => rw [hc] at hp; cases hp
    | ok creates =>
      rw [hc] at hp
      simp only at hp
      rcases hg : getCoreProofFile h cif.CoreProofFileURI with ⟨r, events⟩
      rw [hg] at hp hlen
      cases r with
      | error e => cases hp
      | ok cpf =>
        simp only at hp
        obtain ⟨deactivateOps, ha⟩ := attachSignedData_of_le
          (cif.Operations.Deactivate.map (referencedOperation TypeDeactivate))
          cpf.Operations.Deactivate (by simpa using hlen cpf rfl)
        rw [ha] at hp
        simp only at hp
        cases hcr : createAnchoredOperations h deactivateOps with
        | error e => rw [hcr] at hp; cases hp
        | ok anchoredOps => rw [hcr] at hp; cases hp

/-- C40 (witness): the example batch, whose proof files have one entry per index entry,
and a batch without provisional index file with one deactivate entry. -/
theorem C40_reads_in_bounds_witness :
    (∀ p, assembleAnchoredOperations exampleBatchProvider exampleBatch (exampleTxn "4.core") ≠
      .panic p) ∧
    (∀ p, (processDeactivateOnly (deactivateOnlyProvider [⟨"d", "r1"⟩] ["jws-1"])
      (deactivateOnlyIndex [⟨"d", "r1"⟩]) (exampleTxn "1.core")).1 ≠ .panic p) :=
  ⟨(C40_reads_in_bounds exampleBatchProvider (exampleTxn "4.core")).1 exampleBatch
      (fun _ => ⟨exampleCoreProof, rfl, by decide⟩)
      (fun _ => ⟨exampleCoreProof, rfl, by decide⟩)
      (fun _ => ⟨exampleProvisionalProof, rfl, by decide⟩),
    (C40_reads_in_bounds (deactivateOnlyProvider [⟨"d", "r1"⟩] ["jws-1"])
      (exampleTxn "1.core")).2 (deactivateOnlyIndex [⟨"d", "r1"⟩])
      (fun cpf hcpf => by
        have hfile : (getCoreProofFile (deactivateOnlyProvider [⟨"d", "r1"⟩] ["jws-1"])
            (deactivateOnlyIndex [⟨"d", "r1"⟩]).CoreProofFileURI).1 =
            .ok ⟨⟨[], ["jws-1"]⟩⟩ := by decide
        rw [hfile] at hcpf
        simp only [Except.ok.injEq] at hcpf
        subst hcpf
        decide)⟩

end txnprovider
